import Mathlib

/-!
# tess2: collective I/O layout and tessellation adapters

A shallow embedding of `src/io.c` (the parallel-netCDF writers and readers),
`lib/tess-cgal.cpp` and `lib/tess-qhull.c` (the geometry-kernel adapters), and
`examples/pread-voronoi/io/hacc/particles.cpp` (the HACC particle reader).

Conventions of the embedding.

* C `int` counts are natural numbers; `int`, `float` and `unsigned char` array
  elements are integers (a `float` is carried as its bit pattern: the I/O layer
  only copies values, it never computes with them).
* An array reached through a pointer is a list; an array of structs that the
  code views as `int *` is the list of its ints.
* The MPI collectives and the parallel-netCDF calls are external libraries; they
  are represented by their documented effect on explicit state.
* The processes of a communicator are a list indexed by rank, each entry being
  the list of blocks that process holds.
-/

namespace Tess

/-! ## Quantity vectors and the MPI collectives -/

/-- Modelled from the spec: the index constants `NUM_*` of the quantity vectors
`proc_quants`, `tot_quants` and `block_ofsts` (they are defined in `tess/io.h`,
which is not among the sources). One constructor per index named in `io.c`;
distinct names are distinct indices. -/
inductive Quant
  | NUM_VERTICES
  | NUM_COMP_CELLS
  | NUM_CELL_FACES
  | NUM_ORIG_PARTS
  | NUM_PARTS
  | NUM_NEIGHBORS
  | NUM_BLOCKS
  | NUM_LOC_TETRAS
  | NUM_REM_TETRAS
  | NUM_UNIQUE_FACES
  deriving DecidableEq, Repr

/-- A quantity vector `MPI_Offset x[NUM_QUANTS]`. -/
abbrev quants := Quant → Nat

/-- The initialisation loop `proc_quants[i] = tot_quants[i] = block_ofsts[i] = 0`. -/
def quants_init : quants := fun _ => 0

/-- The effect of `MPI_Allreduce(sendbuf, recvbuf, NUM_QUANTS, MPI_OFFSET, MPI_SUM, comm)`:
every rank receives the entrywise sum of the send buffers of all ranks. -/
def MPI_Allreduce (sendbufs : List quants) : quants :=
  fun q => (sendbufs.map (fun s => s q)).sum

/-- The effect of `MPI_Exscan(sendbuf, recvbuf, NUM_QUANTS, MPI_OFFSET, MPI_SUM, comm)` on
the rank whose lower ranks sent `lower`: the entrywise sum of the lower ranks' send
buffers; on rank 0 the receive buffer is left as it was. -/
def MPI_Exscan (lower : List quants) (recvbuf : quants) : quants :=
  match lower with
  | [] => recvbuf
  | _ :: _ => fun q => (lower.map (fun s => s q)).sum

/-! ## The netCDF file -/

/-- The dimension names defined by `pnetcdf_write` and `pnetcdf_d_write`. -/
inductive Dim
  | num_g_blocks
  | XYZ
  | num_g_verts
  | num_g_complete_cells
  | tot_num_g_cell_faces
  | num_g_orig_particles
  | num_g_particles
  | num_g_neighbors
  | num_g_loc_tets
  | num_g_tets
  | V0V1V2V3
  | num_g_rem_tets
  | num_g_rem_tet_verts
  | num_g_faces
  | vface_t
  deriving DecidableEq, Repr

/-- The variable names defined by `pnetcdf_write` and `pnetcdf_d_write`. -/
inductive Var
  | num_verts
  | num_complete_cells
  | tot_num_cell_faces
  | num_orig_particles
  | num_loc_tets
  | num_rem_tets
  | num_faces
  | block_off_num_verts
  | block_off_num_complete_cells
  | block_off_tot_num_cell_faces
  | block_off_num_orig_particles
  | block_off_num_loc_tets
  | block_off_num_rem_tets
  | block_off_num_faces
  | block_off_num_neighbors
  | mins
  | maxs
  | save_verts
  | sites
  | complete_cells
  | areas
  | vols
  | num_cell_faces
  | num_neighbors
  | neighbors
  | neigh_procs
  | g_block_ids
  | loc_tets
  | rem_tet_gids
  | rem_tet_nids
  | rem_tet_wrap_dirs
  | faces
  | cell_faces_start
  | cell_faces
  | num_particles
  | num_tets
  | num_rem_tet_verts
  | block_off_num_particles
  | block_off_num_tets
  | block_off_num_rem_tet_verts
  | particles
  | tets
  | rem_tet_vert_gids
  | rem_tet_vert_nids
  | rem_tet_vert_dirs
  | vert_to_tet
  deriving DecidableEq, Repr

/-- A netCDF file: the length of every defined dimension, the dimension list of
every defined variable, and the (row-major) contents of every variable. -/
structure ncfile where
  dimlen : Dim → Nat
  shape : Var → List Dim
  data : Var → List Int

/-- The file just after `ncmpi_create`: nothing defined. -/
def ncmpi_create : ncfile :=
  { dimlen := fun _ => 0, shape := fun _ => [], data := fun _ => [] }

/-- The effect of `ncmpi_def_dim(ncid, name, len, &dimid)`. -/
def ncmpi_def_dim (f : ncfile) (d : Dim) (len : Nat) : ncfile :=
  { f with dimlen := fun e => if e = d then len else f.dimlen e }

/-- The effect of `ncmpi_def_var(ncid, name, type, ndims, dimids, &varid)`. -/
def ncmpi_def_var (f : ncfile) (x : Var) (dims : List Dim) : ncfile :=
  { f with shape := fun y => if y = x then dims else f.shape y }

/-- The number of entries of one row of variable `x` (the product of the lengths of
its dimensions after the first; 1 for a one-dimensional variable). -/
def rowlen (f : ncfile) (x : Var) : Nat :=
  ((f.shape x).tail.map f.dimlen).prod

/-- The effect of `ncmpi_enddef(ncid)`: every defined variable gets its storage, one
fill value per entry. -/
def ncmpi_enddef (f : ncfile) : ncfile :=
  { f with data := fun x => List.replicate (((f.shape x).map f.dimlen).prod) 0 }

/-- Replace the entries `pos .. pos + buf.length` of `arr` by `buf`. -/
def overwrite (arr : List Int) (pos : Nat) (buf : List Int) : List Int :=
  arr.take pos ++ buf ++ arr.drop (pos + buf.length)

/-- One call `ncmpi_put_vara_<type>_all(ncid, varid, start, count, buf)` as issued by
the writers: always `start[1] = 0`, and for a one-dimensional variable (where the
library reads only `start[0]` and `count[0]`) the record carries `count1 = 1`. -/
structure put_call where
  varid : Var
  start0 : Nat
  count0 : Nat
  count1 : Nat
  buf : List Int
  deriving DecidableEq, Repr

/-- The effect of one `ncmpi_put_vara_*_all` call that writes whole rows: the
`count0 * count1` first values of the buffer go to the rows starting at row `start0`.
A request that reaches beyond the variable is rejected and leaves the file
unchanged. -/
def ncmpi_put_vara (f : ncfile) (c : put_call) : ncfile :=
  { f with data := fun y =>
      if y = c.varid then
        if c.start0 * rowlen f y + (c.buf.take (c.count0 * c.count1)).length ≤ (f.data y).length then
          overwrite (f.data y) (c.start0 * rowlen f y) (c.buf.take (c.count0 * c.count1))
        else f.data y
      else f.data y }

/-- The effect of `ncmpi_get_vara_<type>_all(ncid, varid, start, count, buf)` with
`start[1] = 0`: the values the call stores in the buffer. -/
def ncmpi_get_vara (f : ncfile) (x : Var) (start0 count0 count1 : Nat) : List Int :=
  ((f.data x).drop (start0 * rowlen f x)).take (count0 * count1)

/-- The shape shared by the write loops of `pnetcdf_write` and `pnetcdf_d_write`:
`for (b = 0; b < nblocks; b++) { <put calls of block b>; <update block_ofsts> }`.
The result lists the put calls iteration by iteration. -/
def write_loop {β : Type} (calls : β → quants → List put_call)
    (advance : β → quants → quants) : List β → quants → List (List put_call)
  | [], _ => []
  | b :: bs, block_ofsts =>
    calls b block_ofsts :: write_loop calls advance bs (advance b block_ofsts)

/-! ## Voronoi blocks -/

/-- Modelled from the spec: `struct gb_t` of DIY (gid and owning process of a
neighboring block), as returned by `DIY_Get_neighbors`. -/
structure gb_t where
  gid : Int
  proc : Int
  deriving DecidableEq, Repr

/-- Modelled from the spec: the fields of `struct vblock_t` (declared in
`tess/voronoi.h`, which is not among the sources) that `io.c` writes and reads.
`faces` is the `struct vface_t` array seen through the cast `(int *)(v->faces)`:
`3 + MAX_FACE_VERTS` ints per face. -/
structure vblock_t where
  mins : List Int
  num_verts : Nat
  save_verts : List Int
  num_orig_particles : Nat
  sites : List Int
  num_complete_cells : Nat
  complete_cells : List Int
  areas : List Int
  vols : List Int
  tot_num_cell_faces : Nat
  num_loc_tets : Nat
  loc_tets : List Int
  num_rem_tets : Nat
  rem_tet_gids : List Int
  rem_tet_nids : List Int
  rem_tet_wrap_dirs : List Int
  num_faces : Nat
  faces : List Int
  cell_faces_start : List Int
  cell_faces : List Int
  maxs : List Int
  deriving DecidableEq, Repr

/-- One local block as the Voronoi writer sees it: `vblocks[b]` together with what
DIY reports for local block `b` (`DIY_Gid(0, b)` and `DIY_Get_neighbors(0, b, ..)`;
`DIY_Num_neighbors(0, b)` is the length of `neigh_gbs`). -/
structure vlocal where
  v : vblock_t
  gid : Int
  neigh_gbs : List gb_t
  deriving DecidableEq, Repr

/-- The arrays of a block hold what its counts announce. -/
def vblock_wf (MAX_FACE_VERTS : Nat) (v : vblock_t) : Prop :=
  v.mins.length = 3 ∧ v.maxs.length = 3 ∧
  v.save_verts.length = v.num_verts * 3 ∧
  v.sites.length = v.num_orig_particles * 3 ∧
  v.complete_cells.length = v.num_complete_cells ∧
  v.areas.length = v.num_complete_cells ∧
  v.vols.length = v.num_complete_cells ∧
  v.loc_tets.length = v.num_loc_tets * 4 ∧
  v.rem_tet_gids.length = v.num_rem_tets * 4 ∧
  v.rem_tet_nids.length = v.num_rem_tets * 4 ∧
  v.rem_tet_wrap_dirs.length = v.num_rem_tets * 4 ∧
  v.faces.length = v.num_faces * (3 + MAX_FACE_VERTS) ∧
  v.cell_faces_start.length = v.num_orig_particles ∧
  v.cell_faces.length = v.tot_num_cell_faces

instance (M : Nat) (v : vblock_t) : Decidable (vblock_wf M v) := by
  unfold vblock_wf; infer_instance

/-! ## `pnetcdf_write` -/

/-- Lines 697-709 of `io.c`: the quantities of one process summed over its local
blocks. -/
def pnetcdf_write_proc_quants (vblocks : List vlocal) : quants := fun q =>
  match q with
  | .NUM_VERTICES => (vblocks.map (fun b => b.v.num_verts)).sum
  | .NUM_COMP_CELLS => (vblocks.map (fun b => b.v.num_complete_cells)).sum
  | .NUM_CELL_FACES => (vblocks.map (fun b => b.v.tot_num_cell_faces)).sum
  | .NUM_ORIG_PARTS => (vblocks.map (fun b => b.v.num_orig_particles)).sum
  | .NUM_NEIGHBORS => (vblocks.map (fun b => b.neigh_gbs.length)).sum
  | .NUM_LOC_TETRAS => (vblocks.map (fun b => b.v.num_loc_tets)).sum
  | .NUM_REM_TETRAS => (vblocks.map (fun b => b.v.num_rem_tets)).sum
  | .NUM_UNIQUE_FACES => (vblocks.map (fun b => b.v.num_faces)).sum
  | .NUM_BLOCKS => vblocks.length
  | .NUM_PARTS => 0

/-- Lines 717-832 of `io.c`: the dimensions and variables `pnetcdf_write` defines,
followed by `ncmpi_enddef`. -/
def pnetcdf_write_define (MAX_FACE_VERTS : Nat) (tot_quants : quants) : ncfile :=
  let f := ncmpi_create
  let f := ncmpi_def_dim f .num_g_blocks (tot_quants .NUM_BLOCKS)
  let f := ncmpi_def_dim f .XYZ 3
  let f := ncmpi_def_dim f .num_g_verts (tot_quants .NUM_VERTICES)
  let f := ncmpi_def_dim f .num_g_complete_cells (tot_quants .NUM_COMP_CELLS)
  let f := ncmpi_def_dim f .tot_num_g_cell_faces (tot_quants .NUM_CELL_FACES)
  let f := ncmpi_def_dim f .num_g_orig_particles (tot_quants .NUM_ORIG_PARTS)
  let f := ncmpi_def_dim f .num_g_neighbors (tot_quants .NUM_NEIGHBORS)
  let f := ncmpi_def_dim f .num_g_loc_tets (tot_quants .NUM_LOC_TETRAS)
  let f := ncmpi_def_dim f .V0V1V2V3 4
  let f := ncmpi_def_dim f .num_g_rem_tets (tot_quants .NUM_REM_TETRAS)
  let f := ncmpi_def_dim f .num_g_faces (tot_quants .NUM_UNIQUE_FACES)
  let f := ncmpi_def_dim f .vface_t (3 + MAX_FACE_VERTS)
  let f := ncmpi_def_var f .num_verts [.num_g_blocks]
  let f := ncmpi_def_var f .num_complete_cells [.num_g_blocks]
  let f := ncmpi_def_var f .tot_num_cell_faces [.num_g_blocks]
  let f := ncmpi_def_var f .num_orig_particles [.num_g_blocks]
  let f := ncmpi_def_var f .num_loc_tets [.num_g_blocks]
  let f := ncmpi_def_var f .num_rem_tets [.num_g_blocks]
  let f := ncmpi_def_var f .num_faces [.num_g_blocks]
  let f := ncmpi_def_var f .block_off_num_verts [.num_g_blocks]
  let f := ncmpi_def_var f .block_off_num_complete_cells [.num_g_blocks]
  let f := ncmpi_def_var f .block_off_tot_num_cell_faces [.num_g_blocks]
  let f := ncmpi_def_var f .block_off_num_orig_particles [.num_g_blocks]
  let f := ncmpi_def_var f .block_off_num_loc_tets [.num_g_blocks]
  let f := ncmpi_def_var f .block_off_num_rem_tets [.num_g_blocks]
  let f := ncmpi_def_var f .block_off_num_faces [.num_g_blocks]
  let f := ncmpi_def_var f .block_off_num_neighbors [.num_g_blocks]
  let f := ncmpi_def_var f .mins [.num_g_blocks, .XYZ]
  let f := ncmpi_def_var f .maxs [.num_g_blocks, .XYZ]
  let f := ncmpi_def_var f .save_verts [.num_g_verts, .XYZ]
  let f := ncmpi_def_var f .sites [.num_g_orig_particles, .XYZ]
  let f := ncmpi_def_var f .complete_cells [.num_g_complete_cells]
  let f := ncmpi_def_var f .areas [.num_g_complete_cells]
  let f := ncmpi_def_var f .vols [.num_g_complete_cells]
  let f := ncmpi_def_var f .num_cell_faces [.num_g_complete_cells]
  let f := ncmpi_def_var f .num_neighbors [.num_g_blocks]
  let f := ncmpi_def_var f .neighbors [.num_g_neighbors]
  let f := ncmpi_def_var f .neigh_procs [.num_g_neighbors]
  let f := ncmpi_def_var f .g_block_ids [.num_g_blocks]
  let f := ncmpi_def_var f .loc_tets [.num_g_loc_tets, .V0V1V2V3]
  let f := ncmpi_def_var f .rem_tet_gids [.num_g_rem_tets, .V0V1V2V3]
  let f := ncmpi_def_var f .rem_tet_nids [.num_g_rem_tets, .V0V1V2V3]
  let f := ncmpi_def_var f .rem_tet_wrap_dirs [.num_g_rem_tets, .V0V1V2V3]
  let f := ncmpi_def_var f .faces [.num_g_faces, .vface_t]
  let f := ncmpi_def_var f .cell_faces_start [.num_g_orig_particles]
  let f := ncmpi_def_var f .cell_faces [.tot_num_g_cell_faces]
  ncmpi_enddef f

/-- Lines 841-984 of `io.c`: the put calls of one iteration of the write loop, in
source order, for local block `b` with the current `block_ofsts`. -/
def pnetcdf_write_calls (MAX_FACE_VERTS : Nat) (b : vlocal) (block_ofsts : quants) :
    List put_call :=
  let v := b.v
  let num_neighbors := b.neigh_gbs.length
  let neighbors := b.neigh_gbs.map (fun g => g.gid)
  let neigh_procs := b.neigh_gbs.map (fun g => g.proc)
  [ -- quantities
    ⟨.num_verts, block_ofsts .NUM_BLOCKS, 1, 1, [(v.num_verts : Int)]⟩,
    ⟨.num_complete_cells, block_ofsts .NUM_BLOCKS, 1, 1, [(v.num_complete_cells : Int)]⟩,
    ⟨.tot_num_cell_faces, block_ofsts .NUM_BLOCKS, 1, 1, [(v.tot_num_cell_faces : Int)]⟩,
    ⟨.num_orig_particles, block_ofsts .NUM_BLOCKS, 1, 1, [(v.num_orig_particles : Int)]⟩,
    ⟨.num_loc_tets, block_ofsts .NUM_BLOCKS, 1, 1, [(v.num_loc_tets : Int)]⟩,
    ⟨.num_rem_tets, block_ofsts .NUM_BLOCKS, 1, 1, [(v.num_rem_tets : Int)]⟩,
    ⟨.num_faces, block_ofsts .NUM_BLOCKS, 1, 1, [(v.num_faces : Int)]⟩,
    -- block offsets
    ⟨.block_off_num_verts, block_ofsts .NUM_BLOCKS, 1, 1,
      [(block_ofsts .NUM_VERTICES : Int)]⟩,
    ⟨.block_off_num_complete_cells, block_ofsts .NUM_BLOCKS, 1, 1,
      [(block_ofsts .NUM_COMP_CELLS : Int)]⟩,
    ⟨.block_off_tot_num_cell_faces, block_ofsts .NUM_BLOCKS, 1, 1,
      [(block_ofsts .NUM_CELL_FACES : Int)]⟩,
    ⟨.block_off_num_orig_particles, block_ofsts .NUM_BLOCKS, 1, 1,
      [(block_ofsts .NUM_ORIG_PARTS : Int)]⟩,
    ⟨.block_off_num_loc_tets, block_ofsts .NUM_BLOCKS, 1, 1,
      [(block_ofsts .NUM_LOC_TETRAS : Int)]⟩,
    ⟨.block_off_num_rem_tets, block_ofsts .NUM_BLOCKS, 1, 1,
      [(block_ofsts .NUM_REM_TETRAS : Int)]⟩,
    ⟨.block_off_num_faces, block_ofsts .NUM_BLOCKS, 1, 1,
      [(block_ofsts .NUM_UNIQUE_FACES : Int)]⟩,
    ⟨.block_off_num_neighbors, block_ofsts .NUM_BLOCKS, 1, 1,
      [(block_ofsts .NUM_NEIGHBORS : Int)]⟩,
    -- block bounds
    ⟨.mins, block_ofsts .NUM_BLOCKS, 1, 3, v.mins⟩,
    ⟨.maxs, block_ofsts .NUM_BLOCKS, 1, 3, v.maxs⟩,
    -- save_verts, sites
    ⟨.save_verts, block_ofsts .NUM_VERTICES, v.num_verts, 3, v.save_verts⟩,
    ⟨.sites, block_ofsts .NUM_ORIG_PARTS, v.num_orig_particles, 3, v.sites⟩,
    -- complete cells, areas, volumes
    ⟨.complete_cells, block_ofsts .NUM_COMP_CELLS, v.num_complete_cells, 1, v.complete_cells⟩,
    ⟨.areas, block_ofsts .NUM_COMP_CELLS, v.num_complete_cells, 1, v.areas⟩,
    ⟨.vols, block_ofsts .NUM_COMP_CELLS, v.num_complete_cells, 1, v.vols⟩,
    -- num_neighbors, neighbors, neigh_procs
    ⟨.num_neighbors, block_ofsts .NUM_BLOCKS, 1, 1, [(num_neighbors : Int)]⟩,
    ⟨.neighbors, block_ofsts .NUM_NEIGHBORS, num_neighbors, 1, neighbors⟩,
    ⟨.neigh_procs, block_ofsts .NUM_NEIGHBORS, num_neighbors, 1, neigh_procs⟩,
    -- gids
    ⟨.g_block_ids, block_ofsts .NUM_BLOCKS, 1, 1, [b.gid]⟩,
    -- local tets
    ⟨.loc_tets, if v.num_loc_tets ≠ 0 then block_ofsts .NUM_LOC_TETRAS else 0,
      v.num_loc_tets, if v.num_loc_tets ≠ 0 then 4 else 0, v.loc_tets⟩,
    -- remote tets
    ⟨.rem_tet_gids, if v.num_rem_tets ≠ 0 then block_ofsts .NUM_REM_TETRAS else 0,
      v.num_rem_tets, if v.num_rem_tets ≠ 0 then 4 else 0, v.rem_tet_gids⟩,
    ⟨.rem_tet_nids, if v.num_rem_tets ≠ 0 then block_ofsts .NUM_REM_TETRAS else 0,
      v.num_rem_tets, if v.num_rem_tets ≠ 0 then 4 else 0, v.rem_tet_nids⟩,
    ⟨.rem_tet_wrap_dirs, if v.num_rem_tets ≠ 0 then block_ofsts .NUM_REM_TETRAS else 0,
      v.num_rem_tets, if v.num_rem_tets ≠ 0 then 4 else 0, v.rem_tet_wrap_dirs⟩,
    -- voronoi faces
    ⟨.faces, block_ofsts .NUM_UNIQUE_FACES, v.num_faces, 3 + MAX_FACE_VERTS, v.faces⟩,
    ⟨.cell_faces_start, block_ofsts .NUM_ORIG_PARTS, v.num_orig_particles, 1,
      v.cell_faces_start⟩,
    ⟨.cell_faces, block_ofsts .NUM_CELL_FACES, v.tot_num_cell_faces, 1, v.cell_faces⟩ ]

/-- Lines 986-995 of `io.c`: the update of `block_ofsts` at the end of an iteration. -/
def pnetcdf_write_advance (b : vlocal) (block_ofsts : quants) : quants := fun q =>
  match q with
  | .NUM_VERTICES => block_ofsts .NUM_VERTICES + b.v.num_verts
  | .NUM_COMP_CELLS => block_ofsts .NUM_COMP_CELLS + b.v.num_complete_cells
  | .NUM_CELL_FACES => block_ofsts .NUM_CELL_FACES + b.v.tot_num_cell_faces
  | .NUM_ORIG_PARTS => block_ofsts .NUM_ORIG_PARTS + b.v.num_orig_particles
  | .NUM_NEIGHBORS => block_ofsts .NUM_NEIGHBORS + b.neigh_gbs.length
  | .NUM_BLOCKS => block_ofsts .NUM_BLOCKS + 1
  | .NUM_LOC_TETRAS => block_ofsts .NUM_LOC_TETRAS + b.v.num_loc_tets
  | .NUM_REM_TETRAS => block_ofsts .NUM_REM_TETRAS + b.v.num_rem_tets
  | .NUM_UNIQUE_FACES => block_ofsts .NUM_UNIQUE_FACES + b.v.num_faces
  | .NUM_PARTS => block_ofsts .NUM_PARTS

/-- The write loop `for (b = 0; b < nblocks; b++)` of `pnetcdf_write`: the put calls
of every iteration, starting from the given `block_ofsts`. -/
def pnetcdf_write_loop (MAX_FACE_VERTS : Nat) : List vlocal → quants → List (List put_call) :=
  write_loop (pnetcdf_write_calls MAX_FACE_VERTS) pnetcdf_write_advance

/-- The value of `block_ofsts` that `pnetcdf_write` holds on process `rank` after
`MPI_Exscan`, when the communicator's processes hold the blocks `procs`. -/
def pnetcdf_write_ofsts (procs : List (List vlocal)) (rank : Nat) : quants :=
  MPI_Exscan ((procs.take rank).map pnetcdf_write_proc_quants) quants_init

/-- The value of `tot_quants` after `MPI_Allreduce` (the same on every process). -/
def pnetcdf_write_tot_quants (procs : List (List vlocal)) : quants :=
  MPI_Allreduce (procs.map pnetcdf_write_proc_quants)

/-- The put calls of `pnetcdf_write` on process `rank`, one list per iteration of its
write loop. -/
def pnetcdf_write_rank (MAX_FACE_VERTS : Nat) (procs : List (List vlocal)) (rank : Nat) :
    List (List put_call) :=
  pnetcdf_write_loop MAX_FACE_VERTS (procs.getD rank []) (pnetcdf_write_ofsts procs rank)

/-- All the put calls of a run of `pnetcdf_write`, rank after rank. -/
def pnetcdf_write_trace (MAX_FACE_VERTS : Nat) (procs : List (List vlocal)) : List put_call :=
  (List.range procs.length).flatMap
    (fun rank => (pnetcdf_write_rank MAX_FACE_VERTS procs rank).flatten)

/-- The file a run of `pnetcdf_write` leaves behind: the definitions, then the put
calls of all processes, applied rank after rank. -/
def pnetcdf_write (MAX_FACE_VERTS : Nat) (procs : List (List vlocal)) : ncfile :=
  (pnetcdf_write_trace MAX_FACE_VERTS procs).foldl
    ncmpi_put_vara (pnetcdf_write_define MAX_FACE_VERTS (pnetcdf_write_tot_quants procs))

/-! ## `pnetcdf_read` -/

/-- The block count `*tot_blocks` the readers take from the file: the length of the
first dimension of the variable `mins`. -/
def read_tot_blocks (f : ncfile) : Nat :=
  f.dimlen ((f.shape .mins).headD .num_g_blocks)

/-- `int bp = *tot_blocks / groupsize` (C division truncates toward zero). -/
def read_bp (tot_blocks groupsize : Int) : Int :=
  Int.tdiv tot_blocks groupsize

/-- `int start_block_ofst = rank * bp`. -/
def read_start_block_ofst (tot_blocks groupsize rank : Int) : Int :=
  rank * read_bp tot_blocks groupsize

/-- `*nblocks = (rank < groupsize - 1 ? bp : *tot_blocks - (rank * bp))`. -/
def read_nblocks (tot_blocks groupsize rank : Int) : Int :=
  if rank < groupsize - 1 then read_bp tot_blocks groupsize
  else tot_blocks - rank * read_bp tot_blocks groupsize

/-- A call `ncmpi_get_vara_int_all(ncid, varid, start, count, &x)` with `count[0] = 1`
that stores one value in the `int` variable `x`. -/
def read_int (f : ncfile) (x : Var) (start0 : Nat) : Int :=
  (ncmpi_get_vara f x start0 1 1).headD 0

/-- The entry `block_ofsts[i]` after `block_ofsts` was filled from the whole
variable `x` (`start[0] = 0`, `count[0] = *tot_blocks`). -/
def read_block_ofst (f : ncfile) (x : Var) (tot_blocks i : Nat) : Nat :=
  ((ncmpi_get_vara f x 0 tot_blocks 1).getD i 0).toNat

/-- What `pnetcdf_read` hands back for one local block: the block itself, its gid,
and the gids of its neighbors (`(*gids)[b]`, `(*num_neighbors)[b]`,
`(*neighbors)[b]`). -/
structure vread where
  v : vblock_t
  gid : Int
  num_neighbors : Nat
  neighbors : List Int
  deriving DecidableEq, Repr

/-- Lines 1095-1295 of `io.c`: what one iteration of the read loop of `pnetcdf_read`
takes from the file for local block `b` (its get calls, in source order, and the
assignment of `(*gids)[b]`). The iteration as a whole, with the allocation of the row
`(*neigh_procs)[b]` and the loop of lines 1213-1218 over the neighbors, is
`pnetcdf_read_block`. -/
def pnetcdf_read_gets (MAX_FACE_VERTS : Nat) (f : ncfile) (tot_blocks : Nat)
    (all_gids : List Int) (start_block_ofst b : Nat) : vread :=
  let i := start_block_ofst + b
  -- quantities
  let num_verts := (read_int f .num_verts i).toNat
  let num_complete_cells := (read_int f .num_complete_cells i).toNat
  let tot_num_cell_faces := (read_int f .tot_num_cell_faces i).toNat
  let num_orig_particles := (read_int f .num_orig_particles i).toNat
  let num_loc_tets := (read_int f .num_loc_tets i).toNat
  let num_rem_tets := (read_int f .num_rem_tets i).toNat
  let num_faces := (read_int f .num_faces i).toNat
  -- block bounds
  let mins := ncmpi_get_vara f .mins i 1 3
  let maxs := ncmpi_get_vara f .maxs i 1 3
  -- save_verts, sites
  let save_verts := ncmpi_get_vara f .save_verts
    (read_block_ofst f .block_off_num_verts tot_blocks i) num_verts 3
  let sites := ncmpi_get_vara f .sites
    (read_block_ofst f .block_off_num_orig_particles tot_blocks i) num_orig_particles 3
  -- complete cells, areas, volumes
  let complete_cells := ncmpi_get_vara f .complete_cells
    (read_block_ofst f .block_off_num_complete_cells tot_blocks i) num_complete_cells 1
  let areas := ncmpi_get_vara f .areas
    (read_block_ofst f .block_off_num_complete_cells tot_blocks i) num_complete_cells 1
  let vols := ncmpi_get_vara f .vols
    (read_block_ofst f .block_off_num_complete_cells tot_blocks i) num_complete_cells 1
  -- neighbors
  let num_neighbors := (read_int f .num_neighbors i).toNat
  let neighbors :=
    if num_neighbors ≠ 0 then
      ncmpi_get_vara f .neighbors
        (read_block_ofst f .block_off_num_neighbors tot_blocks i) num_neighbors 1
    else []
  -- gids
  let gid := all_gids.getD i 0
  -- local tets
  let loc_tets := ncmpi_get_vara f .loc_tets
    (if num_loc_tets ≠ 0 then read_block_ofst f .block_off_num_loc_tets tot_blocks i else 0)
    num_loc_tets (if num_loc_tets ≠ 0 then 4 else 0)
  -- remote tets
  let rem_start :=
    if num_rem_tets ≠ 0 then read_block_ofst f .block_off_num_rem_tets tot_blocks i else 0
  let rem_tet_gids := ncmpi_get_vara f .rem_tet_gids rem_start
    num_rem_tets (if num_rem_tets ≠ 0 then 4 else 0)
  let rem_tet_nids := ncmpi_get_vara f .rem_tet_nids rem_start
    num_rem_tets (if num_rem_tets ≠ 0 then 4 else 0)
  let rem_tet_wrap_dirs := ncmpi_get_vara f .rem_tet_wrap_dirs rem_start
    num_rem_tets (if num_rem_tets ≠ 0 then 4 else 0)
  -- faces
  let faces := ncmpi_get_vara f .faces
    (read_block_ofst f .block_off_num_faces tot_blocks i) num_faces (3 + MAX_FACE_VERTS)
  -- cell_faces_start
  let cell_faces_start := ncmpi_get_vara f .cell_faces_start
    (read_block_ofst f .block_off_num_orig_particles tot_blocks i) num_orig_particles 1
  -- cell_faces
  let cell_faces := ncmpi_get_vara f .cell_faces
    (read_block_ofst f .block_off_tot_num_cell_faces tot_blocks i) tot_num_cell_faces 1
  { v :=
      { mins := mins, num_verts := num_verts, save_verts := save_verts,
        num_orig_particles := num_orig_particles, sites := sites,
        num_complete_cells := num_complete_cells, complete_cells := complete_cells,
        areas := areas, vols := vols, tot_num_cell_faces := tot_num_cell_faces,
        num_loc_tets := num_loc_tets, loc_tets := loc_tets,
        num_rem_tets := num_rem_tets, rem_tet_gids := rem_tet_gids,
        rem_tet_nids := rem_tet_nids, rem_tet_wrap_dirs := rem_tet_wrap_dirs,
        num_faces := num_faces, faces := faces, cell_faces_start := cell_faces_start,
        cell_faces := cell_faces, maxs := maxs },
    gid := gid, num_neighbors := num_neighbors, neighbors := neighbors }

/-! ## Delaunay blocks, `pnetcdf_d_write` and `pnetcdf_d_read` -/

/-- Modelled from the spec: `struct remote_vert_t` (declared in `tess/tet.h`, which is
not among the sources): the (gid, nid, dir) triple of a remote tet vertex. -/
structure remote_vert_t where
  gid : Int
  nid : Int
  dir : Int
  deriving DecidableEq, Repr

/-- The `struct dblock_t` of `tess/delaunay.h`. `tets` is the `struct tet_t` array
seen through the cast `(int *)(d->tets)`: per tet the 4 vertex ids, then the 4
neighbor tet ids, which the file stores as two rows of 4. -/
structure dblock_t where
  mins : List Int
  num_orig_particles : Nat
  num_particles : Nat
  particles : List Int
  num_tets : Nat
  tets : List Int
  num_rem_tet_verts : Nat
  rem_tet_verts : List remote_vert_t
  vert_to_tet : List Int
  maxs : List Int
  deriving DecidableEq, Repr

/-- One local block as the Delaunay writer sees it: `dblocks[b]` together with what
DIY reports for local block `b`. -/
structure dlocal where
  d : dblock_t
  gid : Int
  neigh_gbs : List gb_t
  deriving DecidableEq, Repr

/-- The arrays of a Delaunay block hold what its counts announce. -/
def dblock_wf (d : dblock_t) : Prop :=
  d.mins.length = 3 ∧ d.maxs.length = 3 ∧
  d.particles.length = d.num_particles * 3 ∧
  d.tets.length = d.num_tets * 2 * 4 ∧
  d.rem_tet_verts.length = d.num_rem_tet_verts ∧
  d.vert_to_tet.length = d.num_particles

instance (d : dblock_t) : Decidable (dblock_wf d) := by
  unfold dblock_wf; infer_instance

/-- Lines 84-93 of `io.c`: the quantities of one process summed over its local
blocks. -/
def pnetcdf_d_write_proc_quants (dblocks : List dlocal) : quants := fun q =>
  match q with
  | .NUM_PARTS => (dblocks.map (fun b => b.d.num_particles)).sum
  | .NUM_NEIGHBORS => (dblocks.map (fun b => b.neigh_gbs.length)).sum
  | .NUM_LOC_TETRAS => (dblocks.map (fun b => 2 * b.d.num_tets)).sum
  | .NUM_REM_TETRAS => (dblocks.map (fun b => b.d.num_rem_tet_verts)).sum
  | .NUM_BLOCKS => dblocks.length
  | _ => 0

/-- Lines 101-175 of `io.c`: the dimensions and variables `pnetcdf_d_write` defines,
followed by `ncmpi_enddef`. -/
def pnetcdf_d_write_define (tot_quants : quants) : ncfile :=
  let f := ncmpi_create
  let f := ncmpi_def_dim f .num_g_blocks (tot_quants .NUM_BLOCKS)
  let f := ncmpi_def_dim f .XYZ 3
  let f := ncmpi_def_dim f .num_g_particles (tot_quants .NUM_PARTS)
  let f := ncmpi_def_dim f .num_g_neighbors (tot_quants .NUM_NEIGHBORS)
  let f := ncmpi_def_dim f .num_g_tets (tot_quants .NUM_LOC_TETRAS)
  let f := ncmpi_def_dim f .V0V1V2V3 4
  let f := ncmpi_def_dim f .num_g_rem_tet_verts (tot_quants .NUM_REM_TETRAS)
  let f := ncmpi_def_var f .num_orig_particles [.num_g_blocks]
  let f := ncmpi_def_var f .num_particles [.num_g_blocks]
  let f := ncmpi_def_var f .num_tets [.num_g_blocks]
  let f := ncmpi_def_var f .num_rem_tet_verts [.num_g_blocks]
  let f := ncmpi_def_var f .block_off_num_particles [.num_g_blocks]
  let f := ncmpi_def_var f .block_off_num_tets [.num_g_blocks]
  let f := ncmpi_def_var f .block_off_num_rem_tet_verts [.num_g_blocks]
  let f := ncmpi_def_var f .block_off_num_neighbors [.num_g_blocks]
  let f := ncmpi_def_var f .mins [.num_g_blocks, .XYZ]
  let f := ncmpi_def_var f .maxs [.num_g_blocks, .XYZ]
  let f := ncmpi_def_var f .particles [.num_g_particles, .XYZ]
  let f := ncmpi_def_var f .num_neighbors [.num_g_blocks]
  let f := ncmpi_def_var f .neighbors [.num_g_neighbors]
  let f := ncmpi_def_var f .neigh_procs [.num_g_neighbors]
  let f := ncmpi_def_var f .g_block_ids [.num_g_blocks]
  let f := ncmpi_def_var f .tets [.num_g_tets, .V0V1V2V3]
  let f := ncmpi_def_var f .rem_tet_vert_gids [.num_g_rem_tet_verts]
  let f := ncmpi_def_var f .rem_tet_vert_nids [.num_g_rem_tet_verts]
  let f := ncmpi_def_var f .rem_tet_vert_dirs [.num_g_rem_tet_verts]
  let f := ncmpi_def_var f .vert_to_tet [.num_g_particles]
  ncmpi_enddef f

/-- Lines 184-291 of `io.c`: the put calls of one iteration of the write loop of
`pnetcdf_d_write`, in source order. -/
def pnetcdf_d_write_calls (b : dlocal) (block_ofsts : quants) : List put_call :=
  let d := b.d
  let num_neighbors := b.neigh_gbs.length
  let neighbors := b.neigh_gbs.map (fun g => g.gid)
  let neigh_procs := b.neigh_gbs.map (fun g => g.proc)
  [ -- quantities
    ⟨.num_orig_particles, block_ofsts .NUM_BLOCKS, 1, 1, [(d.num_orig_particles : Int)]⟩,
    ⟨.num_particles, block_ofsts .NUM_BLOCKS, 1, 1, [(d.num_particles : Int)]⟩,
    ⟨.num_tets, block_ofsts .NUM_BLOCKS, 1, 1, [(d.num_tets : Int)]⟩,
    ⟨.num_rem_tet_verts, block_ofsts .NUM_BLOCKS, 1, 1, [(d.num_rem_tet_verts : Int)]⟩,
    -- block offsets
    ⟨.block_off_num_particles, block_ofsts .NUM_BLOCKS, 1, 1,
      [(block_ofsts .NUM_PARTS : Int)]⟩,
    ⟨.block_off_num_tets, block_ofsts .NUM_BLOCKS, 1, 1,
      [(block_ofsts .NUM_LOC_TETRAS : Int)]⟩,
    ⟨.block_off_num_rem_tet_verts, block_ofsts .NUM_BLOCKS, 1, 1,
      [(block_ofsts .NUM_REM_TETRAS : Int)]⟩,
    ⟨.block_off_num_neighbors, block_ofsts .NUM_BLOCKS, 1, 1,
      [(block_ofsts .NUM_NEIGHBORS : Int)]⟩,
    -- block bounds
    ⟨.mins, block_ofsts .NUM_BLOCKS, 1, 3, d.mins⟩,
    ⟨.maxs, block_ofsts .NUM_BLOCKS, 1, 3, d.maxs⟩,
    -- particles
    ⟨.particles, block_ofsts .NUM_PARTS, d.num_particles, 3, d.particles⟩,
    -- num_neighbors, neighbors, neigh_procs
    ⟨.num_neighbors, block_ofsts .NUM_BLOCKS, 1, 1, [(num_neighbors : Int)]⟩,
    ⟨.neighbors, block_ofsts .NUM_NEIGHBORS, num_neighbors, 1, neighbors⟩,
    ⟨.neigh_procs, block_ofsts .NUM_NEIGHBORS, num_neighbors, 1, neigh_procs⟩,
    -- gids
    ⟨.g_block_ids, block_ofsts .NUM_BLOCKS, 1, 1, [b.gid]⟩,
    -- local tets (verts and neighbors combined)
    ⟨.tets, if d.num_tets * 2 ≠ 0 then block_ofsts .NUM_LOC_TETRAS else 0,
      d.num_tets * 2, if d.num_tets * 2 ≠ 0 then 4 else 0, d.tets⟩,
    -- remote tet vertices, one field at a time
    ⟨.rem_tet_vert_gids,
      if d.num_rem_tet_verts ≠ 0 then block_ofsts .NUM_REM_TETRAS else 0,
      d.num_rem_tet_verts, 1, (d.rem_tet_verts.take d.num_rem_tet_verts).map (fun r => r.gid)⟩,
    ⟨.rem_tet_vert_nids,
      if d.num_rem_tet_verts ≠ 0 then block_ofsts .NUM_REM_TETRAS else 0,
      d.num_rem_tet_verts, 1, (d.rem_tet_verts.take d.num_rem_tet_verts).map (fun r => r.nid)⟩,
    ⟨.rem_tet_vert_dirs,
      if d.num_rem_tet_verts ≠ 0 then block_ofsts .NUM_REM_TETRAS else 0,
      d.num_rem_tet_verts, 1, (d.rem_tet_verts.take d.num_rem_tet_verts).map (fun r => r.dir)⟩,
    -- vert_to_tet
    ⟨.vert_to_tet, block_ofsts .NUM_PARTS, d.num_particles, 1, d.vert_to_tet⟩ ]

/-- Lines 293-299 of `io.c`: the update of `block_ofsts` at the end of an iteration. -/
def pnetcdf_d_write_advance (b : dlocal) (block_ofsts : quants) : quants := fun q =>
  match q with
  | .NUM_PARTS => block_ofsts .NUM_PARTS + b.d.num_particles
  | .NUM_NEIGHBORS => block_ofsts .NUM_NEIGHBORS + b.neigh_gbs.length
  | .NUM_BLOCKS => block_ofsts .NUM_BLOCKS + 1
  | .NUM_LOC_TETRAS => block_ofsts .NUM_LOC_TETRAS + 2 * b.d.num_tets
  | .NUM_REM_TETRAS => block_ofsts .NUM_REM_TETRAS + b.d.num_rem_tet_verts
  | q => block_ofsts q

/-- The write loop of `pnetcdf_d_write`. -/
def pnetcdf_d_write_loop : List dlocal → quants → List (List put_call) :=
  write_loop pnetcdf_d_write_calls pnetcdf_d_write_advance

/-- The value of `block_ofsts` that `pnetcdf_d_write` holds on process `rank` after
`MPI_Exscan`. -/
def pnetcdf_d_write_ofsts (procs : List (List dlocal)) (rank : Nat) : quants :=
  MPI_Exscan ((procs.take rank).map pnetcdf_d_write_proc_quants) quants_init

/-- The value of `tot_quants` after `MPI_Allreduce`. -/
def pnetcdf_d_write_tot_quants (procs : List (List dlocal)) : quants :=
  MPI_Allreduce (procs.map pnetcdf_d_write_proc_quants)

/-- The put calls of `pnetcdf_d_write` on process `rank`, one list per iteration. -/
def pnetcdf_d_write_rank (procs : List (List dlocal)) (rank : Nat) : List (List put_call) :=
  pnetcdf_d_write_loop (procs.getD rank []) (pnetcdf_d_write_ofsts procs rank)

/-- All the put calls of a run of `pnetcdf_d_write`, rank after rank. -/
def pnetcdf_d_write_trace (procs : List (List dlocal)) : List put_call :=
  (List.range procs.length).flatMap
    (fun rank => (pnetcdf_d_write_rank procs rank).flatten)

/-- The file a run of `pnetcdf_d_write` leaves behind: the definitions, then the put
calls of all processes, applied rank after rank. -/
def pnetcdf_d_write (procs : List (List dlocal)) : ncfile :=
  (pnetcdf_d_write_trace procs).foldl
    ncmpi_put_vara (pnetcdf_d_write_define (pnetcdf_d_write_tot_quants procs))

/-- What `pnetcdf_d_read` hands back for one local block. -/
structure dread where
  d : dblock_t
  gid : Int
  num_neighbors : Nat
  neighbors : List Int
  deriving DecidableEq, Repr

/-- The loops `d->rem_tet_verts[i].gid = ids[i]`, `.nid = ids[i]`, `.dir = dirs[i]` for
`i < num_rem_tet_verts`. -/
def read_rem_tet_verts (num_rem_tet_verts : Nat) (gids nids dirs : List Int) :
    List remote_vert_t :=
  (List.range num_rem_tet_verts).map
    (fun i => { gid := gids.getD i 0, nid := nids.getD i 0, dir := dirs.getD i 0 })

/-- Lines 395-540 of `io.c`: what one iteration of the read loop of `pnetcdf_d_read`
takes from the file for local block `b` (its get calls, in source order, and the
assignment of `(*gids)[b]`). The iteration as a whole, with the allocation of the row
`(*neigh_procs)[b]` and the loop of lines 463-468 over the neighbors, is
`pnetcdf_d_read_block`. -/
def pnetcdf_d_read_gets (f : ncfile) (tot_blocks : Nat) (all_gids : List Int)
    (start_block_ofst b : Nat) : dread :=
  let i := start_block_ofst + b
  -- quantities
  let num_orig_particles := (read_int f .num_orig_particles i).toNat
  let num_particles := (read_int f .num_particles i).toNat
  let num_tets := (read_int f .num_tets i).toNat
  let num_rem_tet_verts := (read_int f .num_rem_tet_verts i).toNat
  -- block bounds
  let mins := ncmpi_get_vara f .mins i 1 3
  let maxs := ncmpi_get_vara f .maxs i 1 3
  -- particles
  let particles := ncmpi_get_vara f .particles
    (read_block_ofst f .block_off_num_particles tot_blocks i) num_particles 3
  -- neighbors
  let num_neighbors := (read_int f .num_neighbors i).toNat
  let neighbors :=
    if num_neighbors ≠ 0 then
      ncmpi_get_vara f .neighbors
        (read_block_ofst f .block_off_num_neighbors tot_blocks i) num_neighbors 1
    else []
  -- gids
  let gid := all_gids.getD i 0
  -- local tets
  let tets := ncmpi_get_vara f .tets
    (if 2 * num_tets ≠ 0 then read_block_ofst f .block_off_num_tets tot_blocks i else 0)
    (2 * num_tets) (if 2 * num_tets ≠ 0 then 4 else 0)
  -- remote tet vertices
  let rem_start :=
    if num_rem_tet_verts ≠ 0 then
      read_block_ofst f .block_off_num_rem_tet_verts tot_blocks i
    else 0
  let gids := ncmpi_get_vara f .rem_tet_vert_gids rem_start num_rem_tet_verts 1
  let nids := ncmpi_get_vara f .rem_tet_vert_nids rem_start num_rem_tet_verts 1
  let dirs := ncmpi_get_vara f .rem_tet_vert_dirs rem_start num_rem_tet_verts 1
  let rem_tet_verts := read_rem_tet_verts num_rem_tet_verts gids nids dirs
  -- vert_to_tet
  let vert_to_tet := ncmpi_get_vara f .vert_to_tet
    (read_block_ofst f .block_off_num_particles tot_blocks i) num_particles 1
  { d :=
      { mins := mins, num_orig_particles := num_orig_particles,
        num_particles := num_particles, particles := particles, num_tets := num_tets,
        tets := tets, num_rem_tet_verts := num_rem_tet_verts,
        rem_tet_verts := rem_tet_verts, vert_to_tet := vert_to_tet, maxs := maxs },
    gid := gid, num_neighbors := num_neighbors, neighbors := neighbors }

/-! ## Layout vocabulary used by the statements -/

/-- The exclusive running total of a per-block count: the sum over all blocks of the
processes of rank below `p`, plus the sum over the local blocks `0 .. b-1` of
process `p`. -/
def excl_scan {β : Type} (cnt : β → Nat) (procs : List (List β)) (p b : Nat) : Nat :=
  ((procs.take p).flatten.map cnt).sum + (((procs.getD p []).take b).map cnt).sum

/-- The quantities whose fields are written with `start[0] = (count[0] ? block_ofsts[..] : 0)`:
the local and the remote tets. -/
def guarded : Quant → Bool
  | .NUM_LOC_TETRAS | .NUM_REM_TETRAS => true
  | _ => false

/-- The global ordinal of local block `b` of process `p`: the number of blocks held by
the processes of lower rank, plus `b`. -/
def ordinal {β : Type} (procs : List (List β)) (p b : Nat) : Nat :=
  ((procs.take p).map List.length).sum + b

/-- The running totals after the first `i` blocks of a list: the value `block_ofsts`
has at iteration `i` of a write loop that starts from zero. -/
def running {β : Type} (cnt : Quant → β → Nat) (bs : List β) (i : Nat) : quants :=
  fun q => ((bs.take i).map (cnt q)).sum

/-- The effect of a put call on the contents of variable `x`, whose rows have `w`
entries (the action of `ncmpi_put_vara` seen from one variable). -/
def put_var (w : Nat) (x : Var) (arr : List Int) (c : put_call) : List Int :=
  if c.varid = x then
    if c.start0 * w + (c.buf.take (c.count0 * c.count1)).length ≤ arr.length then
      overwrite arr (c.start0 * w) (c.buf.take (c.count0 * c.count1))
    else arr
  else arr

/-- The call on variable `x` in the calls of one iteration, if there is one. -/
def call_on (x : Var) (calls : List put_call) : Option put_call :=
  calls.find? (fun c => decide (c.varid = x))

/-- The values the calls of one iteration send to variable `x`. -/
def piece (x : Var) (calls : List put_call) : List Int :=
  match call_on x calls with
  | some c => c.buf.take (c.count0 * c.count1)
  | none => []

/-- The per-block count behind each quantity of `pnetcdf_write` (what one block adds
to `proc_quants` and to `block_ofsts`). -/
def vcount : Quant → vlocal → Nat
  | .NUM_VERTICES, b => b.v.num_verts
  | .NUM_COMP_CELLS, b => b.v.num_complete_cells
  | .NUM_CELL_FACES, b => b.v.tot_num_cell_faces
  | .NUM_ORIG_PARTS, b => b.v.num_orig_particles
  | .NUM_NEIGHBORS, b => b.neigh_gbs.length
  | .NUM_LOC_TETRAS, b => b.v.num_loc_tets
  | .NUM_REM_TETRAS, b => b.v.num_rem_tets
  | .NUM_UNIQUE_FACES, b => b.v.num_faces
  | .NUM_BLOCKS, _ => 1
  | .NUM_PARTS, _ => 0

/-- The variable-length fields of the Voronoi file: each per-block array variable
with the quantity whose running total locates a block's slice in it. -/
def vfield : Var → Option Quant
  | .save_verts => some .NUM_VERTICES
  | .sites | .cell_faces_start => some .NUM_ORIG_PARTS
  | .complete_cells | .areas | .vols => some .NUM_COMP_CELLS
  | .cell_faces => some .NUM_CELL_FACES
  | .neighbors | .neigh_procs => some .NUM_NEIGHBORS
  | .loc_tets => some .NUM_LOC_TETRAS
  | .rem_tet_gids | .rem_tet_nids | .rem_tet_wrap_dirs => some .NUM_REM_TETRAS
  | .faces => some .NUM_UNIQUE_FACES
  | _ => none

/-- The `block_off_*` variables of the Voronoi file, each with the quantity whose
running total it records. -/
def voffvar : Var → Option Quant
  | .block_off_num_verts => some .NUM_VERTICES
  | .block_off_num_complete_cells => some .NUM_COMP_CELLS
  | .block_off_tot_num_cell_faces => some .NUM_CELL_FACES
  | .block_off_num_orig_particles => some .NUM_ORIG_PARTS
  | .block_off_num_loc_tets => some .NUM_LOC_TETRAS
  | .block_off_num_rem_tets => some .NUM_REM_TETRAS
  | .block_off_num_faces => some .NUM_UNIQUE_FACES
  | .block_off_num_neighbors => some .NUM_NEIGHBORS
  | _ => none

/-- The per-block scalar variables of the Voronoi file: one entry (or one row) per
block. -/
def vscalar : Var → Bool
  | .num_verts | .num_complete_cells | .tot_num_cell_faces | .num_orig_particles
  | .num_loc_tets | .num_rem_tets | .num_faces
  | .block_off_num_verts | .block_off_num_complete_cells | .block_off_tot_num_cell_faces
  | .block_off_num_orig_particles | .block_off_num_loc_tets | .block_off_num_rem_tets
  | .block_off_num_faces | .block_off_num_neighbors
  | .mins | .maxs | .num_neighbors | .g_block_ids => true
  | _ => false

/-- The quantity that locates a block's entries in each variable `pnetcdf_write`
writes: `NUM_BLOCKS` for the per-block scalars, the field's own quantity for the
variable-length fields. -/
def vlayout (x : Var) : Option Quant :=
  if vscalar x then some .NUM_BLOCKS else vfield x

/-- The row length of each variable of the Voronoi file. -/
def vwidth (MAX_FACE_VERTS : Nat) : Var → Nat
  | .mins | .maxs | .save_verts | .sites => 3
  | .loc_tets | .rem_tet_gids | .rem_tet_nids | .rem_tet_wrap_dirs => 4
  | .faces => 3 + MAX_FACE_VERTS
  | _ => 1

/-- The dimension list `pnetcdf_write` gives each variable it defines. -/
def vshape : Var → List Dim
  | .num_verts | .num_complete_cells | .tot_num_cell_faces | .num_orig_particles
  | .num_loc_tets | .num_rem_tets | .num_faces
  | .block_off_num_verts | .block_off_num_complete_cells | .block_off_tot_num_cell_faces
  | .block_off_num_orig_particles | .block_off_num_loc_tets | .block_off_num_rem_tets
  | .block_off_num_faces | .block_off_num_neighbors
  | .num_neighbors | .g_block_ids => [.num_g_blocks]
  | .mins | .maxs => [.num_g_blocks, .XYZ]
  | .save_verts => [.num_g_verts, .XYZ]
  | .sites => [.num_g_orig_particles, .XYZ]
  | .cell_faces_start => [.num_g_orig_particles]
  | .complete_cells | .areas | .vols | .num_cell_faces => [.num_g_complete_cells]
  | .cell_faces => [.tot_num_g_cell_faces]
  | .neighbors | .neigh_procs => [.num_g_neighbors]
  | .loc_tets => [.num_g_loc_tets, .V0V1V2V3]
  | .rem_tet_gids | .rem_tet_nids | .rem_tet_wrap_dirs => [.num_g_rem_tets, .V0V1V2V3]
  | .faces => [.num_g_faces, .vface_t]
  | _ => []

/-- The dimension lengths `pnetcdf_write` defines from `tot_quants`. -/
def vdimlen (MAX_FACE_VERTS : Nat) (tot : quants) : Dim → Nat
  | .num_g_blocks => tot .NUM_BLOCKS
  | .XYZ => 3
  | .num_g_verts => tot .NUM_VERTICES
  | .num_g_complete_cells => tot .NUM_COMP_CELLS
  | .tot_num_g_cell_faces => tot .NUM_CELL_FACES
  | .num_g_orig_particles => tot .NUM_ORIG_PARTS
  | .num_g_neighbors => tot .NUM_NEIGHBORS
  | .num_g_loc_tets => tot .NUM_LOC_TETRAS
  | .V0V1V2V3 => 4
  | .num_g_rem_tets => tot .NUM_REM_TETRAS
  | .num_g_faces => tot .NUM_UNIQUE_FACES
  | .vface_t => 3 + MAX_FACE_VERTS
  | _ => 0

/-- The per-block count behind each quantity of `pnetcdf_d_write`. -/
def dcount : Quant → dlocal → Nat
  | .NUM_PARTS, b => b.d.num_particles
  | .NUM_NEIGHBORS, b => b.neigh_gbs.length
  | .NUM_LOC_TETRAS, b => 2 * b.d.num_tets
  | .NUM_REM_TETRAS, b => b.d.num_rem_tet_verts
  | .NUM_BLOCKS, _ => 1
  | _, _ => 0

/-- The variable-length fields of the Delaunay file with their quantities. -/
def dfield : Var → Option Quant
  | .particles | .vert_to_tet => some .NUM_PARTS
  | .neighbors | .neigh_procs => some .NUM_NEIGHBORS
  | .tets => some .NUM_LOC_TETRAS
  | .rem_tet_vert_gids | .rem_tet_vert_nids | .rem_tet_vert_dirs => some .NUM_REM_TETRAS
  | _ => none

/-- The `block_off_*` variables of the Delaunay file with their quantities. -/
def doffvar : Var → Option Quant
  | .block_off_num_particles => some .NUM_PARTS
  | .block_off_num_tets => some .NUM_LOC_TETRAS
  | .block_off_num_rem_tet_verts => some .NUM_REM_TETRAS
  | .block_off_num_neighbors => some .NUM_NEIGHBORS
  | _ => none

/-- The per-block scalar variables of the Delaunay file. -/
def dscalar : Var → Bool
  | .num_orig_particles | .num_particles | .num_tets | .num_rem_tet_verts
  | .block_off_num_particles | .block_off_num_tets | .block_off_num_rem_tet_verts
  | .block_off_num_neighbors | .mins | .maxs | .num_neighbors | .g_block_ids => true
  | _ => false

/-- The quantity that locates a block's entries in each variable `pnetcdf_d_write`
writes. -/
def dlayout (x : Var) : Option Quant :=
  if dscalar x then some .NUM_BLOCKS else dfield x

/-- The row length of each variable of the Delaunay file. -/
def dwidth : Var → Nat
  | .mins | .maxs | .particles => 3
  | .tets => 4
  | _ => 1

/-- The dimension list `pnetcdf_d_write` gives each variable it defines. -/
def dshape : Var → List Dim
  | .num_orig_particles | .num_particles | .num_tets | .num_rem_tet_verts
  | .block_off_num_particles | .block_off_num_tets | .block_off_num_rem_tet_verts
  | .block_off_num_neighbors | .num_neighbors | .g_block_ids => [.num_g_blocks]
  | .mins | .maxs => [.num_g_blocks, .XYZ]
  | .particles => [.num_g_particles, .XYZ]
  | .vert_to_tet => [.num_g_particles]
  | .neighbors | .neigh_procs => [.num_g_neighbors]
  | .tets => [.num_g_tets, .V0V1V2V3]
  | .rem_tet_vert_gids | .rem_tet_vert_nids | .rem_tet_vert_dirs => [.num_g_rem_tet_verts]
  | _ => []

/-- The dimension lengths `pnetcdf_d_write` defines from `tot_quants`. -/
def ddimlen (tot : quants) : Dim → Nat
  | .num_g_blocks => tot .NUM_BLOCKS
  | .XYZ => 3
  | .num_g_particles => tot .NUM_PARTS
  | .num_g_neighbors => tot .NUM_NEIGHBORS
  | .num_g_tets => tot .NUM_LOC_TETRAS
  | .V0V1V2V3 => 4
  | .num_g_rem_tet_verts => tot .NUM_REM_TETRAS
  | _ => 0

/-! ## The `neigh_procs` loop of the readers -/

/-- The table `gid2idx` after `for (i = 0; i < *tot_blocks; i++) gid2idx[all_gids[i]] = i`
on a freshly allocated array of `tot_blocks` ints. An entry `none` was never assigned;
the result is `none` when a store falls outside the array. -/
def read_gid2idx (tot_blocks : Nat) (all_gids : List Int) : Option (List (Option Int)) :=
  (List.range tot_blocks).foldlM
    (fun (t : List (Option Int)) i =>
      let g := all_gids.getD i 0
      if 0 ≤ g ∧ g.toNat < tot_blocks then some (t.set g.toNat (some (i : Int))) else none)
    (List.replicate tot_blocks none)

/-- The value of `gid2idx[g]`: `none` when `g` is outside the array or the entry was
never assigned. -/
def gid2idx_at (gid2idx : List (Option Int)) (g : Int) : Option Int :=
  if 0 ≤ g then (gid2idx.getD g.toNat none) else none

/-- The store `(*neigh_procs)[b][n] = v`: row `b` of the row table, entry `n`. The
result is `none` when row `b` is not allocated or `n` is outside it. -/
def store_entry (rows : List (Option (List Int))) (b n : Nat) (v : Int) :
    Option (List (Option (List Int))) :=
  match rows.getD b none with
  | some row => if n < row.length then some (rows.set b (some (row.set n v))) else none
  | none => none

/-- The store `*neigh_procs[b][n] = v` of lines 467 and 1217. Indexing binds tighter
than `*`, so the target is `neigh_procs[b][n][0]`: `neigh_procs[b]` is the `b`-th
`int **` counted from the caller's variable (only `b = 0` is an object, the row table
itself), `[n]` is row pointer `n` of that table, and the store goes to entry 0 of that
row. The result is `none` when `b` is not 0, or row `n` is not allocated. -/
def store_deref (rows : List (Option (List Int))) (b n : Nat) (v : Int) :
    Option (List (Option (List Int))) :=
  if b = 0 then
    match rows.getD n none with
    | some row => if 0 < row.length then some (rows.set n (some (row.set 0 v))) else none
    | none => none
  else none

/-- Lines 463-468 and 1213-1218 of `io.c`: the loop over the neighbors `n` of local
block `b`. The result is `none` when the loop divides by zero, indexes `gid2idx`
outside its assigned entries, or stores through a pointer that is not an object. -/
def neigh_procs_loop (gid2idx : List (Option Int)) (bp groupsize : Int)
    (neighbors : List Int) (b : Nat) (rows : List (Option (List Int))) :
    Option (List (Option (List Int))) :=
  (List.range neighbors.length).foldlM
    (fun rows n =>
      if bp = 0 then none
      else
        match gid2idx_at gid2idx (neighbors.getD n 0) with
        | none => none
        | some idx =>
          match store_entry rows b n (Int.tdiv idx bp) with
          | none => none
          | some rows1 =>
            if Int.tdiv idx bp ≥ groupsize then store_deref rows1 b n (groupsize - 1)
            else some rows1)
    rows

/-- The array `*neigh_procs` that `pnetcdf_read` and `pnetcdf_d_read` (whose code for it
is the same) leave on process `rank`: one row per local block, `none` for a block
without neighbors, whose row is never allocated. The whole result is `none` when
the computation leaves defined behaviour. -/
def read_neigh_procs (f : ncfile) (groupsize rank : Int) :
    Option (List (Option (List Int))) :=
  let tot_blocks := read_tot_blocks f
  let bp := read_bp tot_blocks groupsize
  let start_block_ofst := (read_start_block_ofst tot_blocks groupsize rank).toNat
  let nblocks := (read_nblocks tot_blocks groupsize rank).toNat
  let all_gids := ncmpi_get_vara f .g_block_ids 0 tot_blocks 1
  match read_gid2idx tot_blocks all_gids with
  | none => none
  | some gid2idx =>
    (List.range nblocks).foldlM
      (fun rows b =>
        let i := start_block_ofst + b
        let num_neighbors := (read_int f .num_neighbors i).toNat
        let neighbors :=
          if num_neighbors ≠ 0 then
            ncmpi_get_vara f .neighbors
              (read_block_ofst f .block_off_num_neighbors tot_blocks i) num_neighbors 1
          else []
        let rows1 :=
          if num_neighbors ≠ 0 then rows.set b (some (List.replicate num_neighbors 0))
          else rows
        neigh_procs_loop gid2idx bp groupsize neighbors b rows1)
      (List.replicate nblocks none)

/-- The rank whose read range contains file index `idx`: `min(idx / bp, groupsize - 1)`. -/
def owner_rank (tot_blocks groupsize idx : Int) : Int :=
  min (Int.tdiv idx (read_bp tot_blocks groupsize)) (groupsize - 1)

/-! ## The readers `pnetcdf_read` and `pnetcdf_d_read` -/

/-- Lines 1095-1295 of `io.c`: one iteration of the read loop of `pnetcdf_read`, for
local block `b`. The values are read from the file; when the block has neighbors the
row `(*neigh_procs)[b]` is allocated (line 1199); then the loop of lines 1213-1218
runs over the neighbors. `neigh_procs` is the row table before the iteration; the
result is the block and the row table after it, and `none` when the loop leaves
defined behaviour. -/
def pnetcdf_read_block (MAX_FACE_VERTS : Nat) (f : ncfile) (tot_blocks : Nat)
    (all_gids : List Int) (gid2idx : List (Option Int)) (bp groupsize : Int)
    (start_block_ofst b : Nat) (neigh_procs : List (Option (List Int))) :
    Option (vread × List (Option (List Int))) :=
  let r := pnetcdf_read_gets MAX_FACE_VERTS f tot_blocks all_gids start_block_ofst b
  let rows :=
    if r.num_neighbors ≠ 0 then neigh_procs.set b (some (List.replicate r.num_neighbors 0))
    else neigh_procs
  (neigh_procs_loop gid2idx bp groupsize r.neighbors b rows).map (fun rows2 => (r, rows2))

/-- Lines 1062-1297 of `io.c`: `pnetcdf_read` on process `rank` of a communicator of
`groupsize` processes: the table `gid2idx` is filled, then `*nblocks` iterations of
the read loop run. The result is the blocks returned and the array `*neigh_procs`; it
is `none` when a store into `gid2idx` or the `neigh_procs` loop of an iteration leaves
defined behaviour. -/
def pnetcdf_read (MAX_FACE_VERTS : Nat) (f : ncfile) (groupsize rank : Int) :
    Option (List vread × List (Option (List Int))) :=
  let tot_blocks := read_tot_blocks f
  let bp := read_bp tot_blocks groupsize
  let start_block_ofst := read_start_block_ofst tot_blocks groupsize rank
  let nblocks := read_nblocks tot_blocks groupsize rank
  let all_gids := ncmpi_get_vara f .g_block_ids 0 tot_blocks 1
  match read_gid2idx tot_blocks all_gids with
  | none => none
  | some gid2idx =>
    (List.range nblocks.toNat).foldlM
      (fun (st : List vread × List (Option (List Int))) b =>
        (pnetcdf_read_block MAX_FACE_VERTS f tot_blocks all_gids gid2idx bp groupsize
            start_block_ofst.toNat b st.2).map
          (fun r => (st.1 ++ [r.1], r.2)))
      ([], List.replicate nblocks.toNat none)

/-- Lines 395-540 of `io.c`: one iteration of the read loop of `pnetcdf_d_read`, for
local block `b`: the values read from the file, the allocation of the row
`(*neigh_procs)[b]` when the block has neighbors (line 449), and the loop of lines
463-468 over the neighbors. The result is `none` when the loop leaves defined
behaviour. -/
def pnetcdf_d_read_block (f : ncfile) (tot_blocks : Nat)
    (all_gids : List Int) (gid2idx : List (Option Int)) (bp groupsize : Int)
    (start_block_ofst b : Nat) (neigh_procs : List (Option (List Int))) :
    Option (dread × List (Option (List Int))) :=
  let r := pnetcdf_d_read_gets f tot_blocks all_gids start_block_ofst b
  let rows :=
    if r.num_neighbors ≠ 0 then neigh_procs.set b (some (List.replicate r.num_neighbors 0))
    else neigh_procs
  (neigh_procs_loop gid2idx bp groupsize r.neighbors b rows).map (fun rows2 => (r, rows2))

/-- Lines 362-542 of `io.c`: `pnetcdf_d_read` on process `rank` of a communicator of
`groupsize` processes. The result is the blocks returned and the array `*neigh_procs`;
it is `none` when a store into `gid2idx` or the `neigh_procs` loop of an iteration
leaves defined behaviour. -/
def pnetcdf_d_read (f : ncfile) (groupsize rank : Int) :
    Option (List dread × List (Option (List Int))) :=
  let tot_blocks := read_tot_blocks f
  let bp := read_bp tot_blocks groupsize
  let start_block_ofst := read_start_block_ofst tot_blocks groupsize rank
  let nblocks := read_nblocks tot_blocks groupsize rank
  let all_gids := ncmpi_get_vara f .g_block_ids 0 tot_blocks 1
  match read_gid2idx tot_blocks all_gids with
  | none => none
  | some gid2idx =>
    (List.range nblocks.toNat).foldlM
      (fun (st : List dread × List (Option (List Int))) b =>
        (pnetcdf_d_read_block f tot_blocks all_gids gid2idx bp groupsize
            start_block_ofst.toNat b st.2).map
          (fun r => (st.1 ++ [r.1], r.2)))
      ([], List.replicate nblocks.toNat none)

/-- A Delaunay block without particles, with the given gid and neighbor gids. -/
def sample_dblock_gid (gid : Int) (neighbors : List Int) : dlocal :=
  { d := { mins := [0, 0, 0], num_orig_particles := 0, num_particles := 0,
           particles := [], num_tets := 0, tets := [],
           num_rem_tet_verts := 0, rem_tet_verts := [],
           vert_to_tet := [], maxs := [1, 1, 1] },
    gid := gid, neigh_gbs := neighbors.map (fun g => { gid := g, proc := 0 }) }

/-- A Delaunay file of three blocks stored in gid order; block 1 has the neighbors 0
and 2, the others none. -/
def sample_file_3 : ncfile :=
  pnetcdf_d_write [[sample_dblock_gid 0 [], sample_dblock_gid 1 [0, 2], sample_dblock_gid 2 []]]

/-! ## The CGAL adapter (`lib/tess-cgal.cpp`) -/

/-- A `double` as the adapters store it: a number handed over by the kernel (carried
as an opaque integer code) or the value `std::numeric_limits<double>::infinity()`. -/
inductive coord
  | infinity
  | val (x : Int)
  deriving DecidableEq, Repr

namespace CGAL

/-- Modelled from the spec: the kernel's triangulation `Delaunay3D` (a CGAL type,
declared in `tess-cgal.h`, which is not among the sources) as the adapter reads it
through the kernel's interface. Cells and vertices are handles (numbers);
`finite_cells` and `finite_vertices` list them in the order of the kernel's
iterators, which visit every finite cell once. `vertex c i` is `c->vertex(i)`. An edge
is the triple (cell, index, index) the edge iterator yields; `edge_circulator e` is
the circulation `Dt.incident_cells(e)`: the cell `begin`, then the cells `++cur`
visits before it is back at `begin`. -/
structure Delaunay3D where
  finite_cells : List Nat
  finite_cells_nodup : finite_cells.Nodup
  is_infinite : Nat → Bool
  circumcenter : Nat → coord × coord × coord
  finite_vertices : List Nat
  info : Nat → Nat
  incident_cells : Nat → List Nat
  vertex : Nat → Nat → Nat
  finite_edges : List (Nat × Nat × Nat)
  edge_circulator : Nat × Nat × Nat → Nat × List Nat

/-- The state of the loop over the finite cells (lines 157-166): the counter `i`, the
array `verts` filled so far, and the map `tet_indices` (a missing key reads as 0). -/
structure vert_loop where
  i : Nat
  verts : List coord
  tet_indices : Nat → Nat

/-- One iteration of the loop over the finite cells: store the circumcenter at
`verts[3 * i ..]`, set `tet_indices[cit] = i`, increment `i`. -/
def vert_loop_step (Dt : Delaunay3D) (st : vert_loop) (cit : Nat) : vert_loop :=
  let center := Dt.circumcenter cit
  { i := st.i + 1,
    verts := st.verts ++ [center.1, center.2.1, center.2.2],
    tet_indices := fun c => if c = cit then st.i else st.tet_indices c }

/-- Lines 153-166 of `tess-cgal.cpp`: the infinity vertex at index 0, then one vertex
per finite cell. -/
def vertices_loop (Dt : Delaunay3D) : vert_loop :=
  Dt.finite_cells.foldl (vert_loop_step Dt)
    { i := 1, verts := [coord.infinity, coord.infinity, coord.infinity],
      tet_indices := fun _ => 0 }

/-- Lines 172-175: the pairs (`info`, vertex handle) of the finite vertices, sorted
(`std::sort` on pairs: by `info`, then by handle). -/
def sorted_vertices (Dt : Delaunay3D) : List (Nat × Nat) :=
  (Dt.finite_vertices.map (fun vit => (Dt.info vit, vit))).insertionSort
    (fun a b => a.1 < b.1 ∨ (a.1 = b.1 ∧ a.2 ≤ b.2))

/-- Lines 184-194: the number of Voronoi vertices of the cell of kernel vertex `v`:
its incident cells, all the infinite ones counted once. -/
def count_cell_verts (Dt : Delaunay3D) (v : Nat) : Nat :=
  let cell_vertices := Dt.incident_cells v
  let num_infinite := (cell_vertices.filter Dt.is_infinite).length
  if num_infinite > 1 then cell_vertices.length - (num_infinite - 1)
  else cell_vertices.length

/-- Lines 179-197: `num_cell_verts`, zeroed over `num_particles` entries, then entry
`cell` set for the `cell`-th vertex of the sorted list (`cell` counts the iterations). -/
def num_cell_verts (Dt : Delaunay3D) (num_particles : Nat) : List Nat :=
  let vertices := sorted_vertices Dt
  ((List.range vertices.length).foldl
    (fun (st : List Nat × Nat) k =>
      (st.1.set st.2 (count_cell_verts Dt (vertices.getD k (0, 0)).2), st.2 + 1))
    (List.replicate num_particles 0, 0)).1

/-- The fields of the block that `gen_voronoi_output` sets from the vertices and the
cell sizes, and the value it returns. -/
structure voronoi_output where
  num_verts : Nat
  verts : List coord
  tet_indices : Nat → Nat
  num_cell_verts : List Nat
  tot_num_cell_verts : Nat
  temp_num_cells : Nat

/-- Lines 145-204 and 267 of `tess-cgal.cpp`: `gen_voronoi_output` up to the allocation
of the cell vertices, with its return value. -/
def gen_voronoi_output (Dt : Delaunay3D) (num_particles : Nat) : voronoi_output :=
  let st := vertices_loop Dt
  let ncv := num_cell_verts Dt num_particles
  { num_verts := Dt.finite_cells.length + 1,
    verts := st.verts,
    tet_indices := st.tet_indices,
    num_cell_verts := ncv,
    tot_num_cell_verts := (ncv.take num_particles).sum,
    temp_num_cells := Dt.finite_vertices.length }

/-- Lines 327-338: `construct_delaunay` inserts the particles one by one and labels the
vertex that `Dt.insert(p)` returns with the particle's index `j`. The kernel returns
the existing vertex for a point that coincides with one, so that vertex is
relabelled. The result lists the kernel's vertices (point, label) in insertion
order. -/
def construct_delaunay (particles : List (Int × Int × Int)) :
    List ((Int × Int × Int) × Nat) :=
  (List.range particles.length).foldl
    (fun vs j =>
      let p := particles.getD j (0, 0, 0)
      if vs.any (fun v => decide (v.1 = p)) then
        vs.map (fun v => if v.1 = p then (v.1, j) else v)
      else vs ++ [(p, j)])
    []

/-- The number of Voronoi vertices of the cell of site `s` in native indexing: that of
the kernel vertex labelled `s`, 0 when no kernel vertex carries the label. -/
def site_cell_verts (Dt : Delaunay3D) (s : Nat) : Nat :=
  match Dt.finite_vertices.find? (fun v => decide (Dt.info v = s)) with
  | some v => count_cell_verts Dt v
  | none => 0

/-- Five particles, the second a duplicate of the first, the four distinct points not
coplanar. -/
def sample_particles : List (Int × Int × Int) :=
  [(0, 0, 0), (0, 0, 0), (1, 0, 0), (0, 1, 0), (0, 0, 1)]

/-- The triangulation of `sample_particles`: the four kernel vertices 10..13 carry the
labels 1..4, there is one finite cell (100) and four infinite cells (200..203, cell
`200 + i` lying opposite vertex `10 + i`), and every vertex is incident to the finite
cell and to three infinite cells. Each of the six edges of the finite cell has that
cell and two infinite cells around it. -/
def sample_Dt : Delaunay3D :=
  { finite_cells := [100],
    finite_cells_nodup := by decide,
    is_infinite := fun c => decide (200 ≤ c),
    circumcenter := fun _ => (coord.val 1, coord.val 1, coord.val 1),
    finite_vertices := [10, 11, 12, 13],
    info := fun v => v - 9,
    incident_cells := fun v =>
      if v = 10 then [100, 201, 202, 203]
      else if v = 11 then [100, 200, 202, 203]
      else if v = 12 then [100, 200, 201, 203]
      else if v = 13 then [100, 200, 201, 202]
      else [],
    vertex := fun _ i => 10 + i,
    finite_edges := [(100, 0, 1), (100, 0, 2), (100, 0, 3), (100, 1, 2), (100, 1, 3),
      (100, 2, 3)],
    edge_circulator := fun e =>
      (100, (([200, 201, 202, 203].filter (fun c => c ≠ 200 + e.2.1 ∧ c ≠ 200 + e.2.2))).reverse) }

end CGAL

/-! ## The qhull adapter (`lib/tess-qhull.c`) -/

namespace Qhull

/-- Modelled from the spec: the fields of qhull's `facetT` that the adapter reads:
`visitid` (as left by `qh_markvoronoi`: 0 for the facet that stands for the infinity
vertex, otherwise the index of the Voronoi vertex), read by the counting passes; and,
read by `gen_delaunay_output`, `skipfacet` (the value of `qh_skipfacet(facet)`),
`visible`, `vertices` (the point ids `qh_pointid(vertex->point)` of the facet's
vertex set, in set order), `toporient` and `simplicial`. -/
structure facetT where
  visitid : Nat
  skipfacet : Bool := false
  visible : Bool := false
  vertices : List Nat := []
  toporient : Bool := true
  simplicial : Bool := true
  deriving DecidableEq, Repr

/-- Modelled from the spec: qhull's `vertexT` as the counting passes read it: the set of
its neighbor facets. -/
structure vertexT where
  neighbors : List facetT
  deriving DecidableEq, Repr

/-- The loop `FOREACHneighbor_(vertex)` of lines 235-240 and 285-290: the pair
(`numneighbors`, `numinf`) it leaves. -/
def count_neighbors (numfacets : Nat) (vertex : vertexT) : Nat × Nat :=
  vertex.neighbors.foldl
    (fun (st : Nat × Nat) neighbor =>
      if neighbor.visitid = 0 then (st.1, 1)
      else if neighbor.visitid < numfacets then (st.1 + 1, st.2)
      else st)
    (0, 0)

/-- The state of the first pass over the vertex set (lines 229-252): the entries
already visited (an entry found to have only the infinity facet is replaced by
NULL), `numvertices`, the list `skip_cells`, and the counter `cell`. -/
structure first_pass_state where
  vertices : List (Option vertexT)
  numvertices : Int
  skip_cells : List Nat
  cell : Nat
  deriving DecidableEq, Repr

/-- One iteration of `FOREACHvertex_i_(vertices)` in the first pass. -/
def first_pass_step (numfacets : Nat) (st : first_pass_state) (vertex : Option vertexT) :
    first_pass_state :=
  match vertex with
  | some v =>
    let numneighbors := (count_neighbors numfacets v).1
    let numinf := (count_neighbors numfacets v).2
    if numinf ≠ 0 ∧ numneighbors = 0 then
      { vertices := st.vertices ++ [none],
        numvertices := st.numvertices + 1 - 1,
        skip_cells := st.skip_cells ++ [st.cell],
        cell := st.cell + 1 }
    else
      { vertices := st.vertices ++ [some v],
        numvertices := st.numvertices + 1,
        skip_cells := st.skip_cells,
        cell := st.cell + 1 }
  | none =>
    { vertices := st.vertices ++ [none],
      numvertices := st.numvertices,
      skip_cells := st.skip_cells ++ [st.cell],
      cell := st.cell + 1 }

/-- Lines 229-252 of `tess-qhull.c`: the first pass over the vertex set returned by
`qh_markvoronoi` (one entry per input point, NULL for a point without vertex). -/
def first_pass (numfacets : Nat) (vertices : List (Option vertexT)) : first_pass_state :=
  vertices.foldl (first_pass_step numfacets)
    { vertices := [], numvertices := 0, skip_cells := [], cell := 0 }

/-- One iteration of `FOREACHvertex_i_(vertices)` in the pass that fills
`num_cell_verts` (lines 281-297); the state is the array and the counter `cell`. -/
def num_cell_verts_step (numfacets : Nat) (st : List Nat × Nat) (vertex : Option vertexT) :
    List Nat × Nat :=
  match vertex with
  | some v =>
    let numneighbors := (count_neighbors numfacets v).1
    let numinf := (count_neighbors numfacets v).2
    (st.1.set st.2 (if numinf ≠ 0 then numneighbors + 1 else numneighbors), st.2 + 1)
  | none => (st.1, st.2 + 1)

/-- Lines 278-297: `num_cell_verts`, zeroed over `num_particles` entries, then filled
from the vertex set as the first pass left it. -/
def num_cell_verts (numfacets : Nat) (vertices : List (Option vertexT))
    (num_particles : Nat) : List Nat :=
  (vertices.foldl (num_cell_verts_step numfacets) (List.replicate num_particles 0, 0)).1

/-- The cell sizes `gen_voronoi_output` stores and the value it returns. -/
structure voronoi_output where
  num_cell_verts : List Nat
  skip_cells : List Nat
  temp_num_cells : Int
  deriving DecidableEq, Repr

/-- Lines 228-258, 276-297 and 446 of `tess-qhull.c`: the counting passes of
`gen_voronoi_output` and its return value. -/
def gen_voronoi_output (numfacets : Nat) (vertices : List (Option vertexT))
    (num_particles : Nat) : voronoi_output :=
  let st := first_pass numfacets vertices
  { num_cell_verts := num_cell_verts numfacets st.vertices num_particles,
    skip_cells := st.skip_cells,
    temp_num_cells := st.numvertices }

/-- A site the kernel skipped: its entry of the vertex set is NULL, or one of its
neighbor facets is the infinity facet (`visitid = 0`) and none is a Voronoi vertex
of the diagram (`0 < visitid < numfacets`). -/
def skipped (numfacets : Nat) (vertex : Option vertexT) : Bool :=
  match vertex with
  | none => true
  | some v =>
    decide ((count_neighbors numfacets v).2 ≠ 0 ∧ (count_neighbors numfacets v).1 = 0)

/-- The number of Voronoi vertices of the cell of a vertex: its neighbor facets with
`0 < visitid < numfacets`, plus one if some neighbor facet has `visitid = 0`. -/
def cell_size (numfacets : Nat) (v : vertexT) : Nat :=
  (v.neighbors.filter (fun n => decide (0 < n.visitid ∧ n.visitid < numfacets))).length
    + (if v.neighbors.any (fun n => decide (n.visitid = 0)) then 1 else 0)

/-- A vertex set of four entries: a site with two Voronoi vertices and the infinity
facet, a NULL entry, a site with only the infinity facet, a site with one Voronoi
vertex. -/
def sample_vertices : List (Option vertexT) :=
  [some { neighbors := [{ visitid := 1 }, { visitid := 0 }, { visitid := 2 }, { visitid := 0 }] },
   none,
   some { neighbors := [{ visitid := 0 }, { visitid := 0 }] },
   some { neighbors := [{ visitid := 2 }] }]

end Qhull

/-! ## Cell vertices, faces and tets of the adapters -/

/-- Modelled from the spec: `struct vface_t` (declared in `tess/voronoi.h`, which is not
among the sources; lines 1325-1334 of `io.c` list its fields): the two cells of the
face, the number of ring vertices, and the ring array `verts[MAX_FACE_VERTS]`. -/
structure vface_t where
  cells : Nat × Nat
  num_verts : Nat
  verts : List Nat
  deriving DecidableEq, Repr

/-- The statement `arr[i++] = x` on an array of fixed size; the state is the array and
`i`. A write at an index that is not below the size has no defined result. -/
def push_at {α : Type} (st : List α × Nat) (x : α) : Option (List α × Nat) :=
  if st.2 < st.1.length then some (st.1.set st.2 x, st.2 + 1) else none

/-- The vertices that the tet classifier is handed for one tet: `int tet_verts[4]`. -/
abbrev tet_verts_t := Nat × Nat × Nat × Nat

/-- The arrays and counters that `gen_delaunay_tet` advances: `loc_tets` with its
counter `n`, the three arrays of the remote tets with their counter `m`. -/
structure tet_state where
  loc_tets : List Nat
  rem_tet_gids : List Int
  rem_tet_nids : List Int
  rem_tet_wrap_dirs : List Int
  n : Nat
  m : Nat
  deriving DecidableEq, Repr

/-- Modelled from the spec: one vertex slot of a remote tet as `gen_delaunay_tet`
emits it (§4.5 and the data model): a vertex that is an original particle of the
block is referenced by the block's own gid, its native index and no wrap direction
(0); a received particle by its provenance triple, taken from `gids`, `nids`, `dirs`
at its position among the received particles. -/
def rem_tet_slot (num_orig_particles : Nat) (gid : Int) (gids nids dirs : List Int)
    (st : tet_state) (p : Nat) : tet_state :=
  if p < num_orig_particles then
    { st with rem_tet_gids := st.rem_tet_gids ++ [gid],
              rem_tet_nids := st.rem_tet_nids ++ [(p : Int)],
              rem_tet_wrap_dirs := st.rem_tet_wrap_dirs ++ [0],
              m := st.m + 1 }
  else
    { st with rem_tet_gids := st.rem_tet_gids ++ [gids.getD (p - num_orig_particles) 0],
              rem_tet_nids := st.rem_tet_nids ++ [nids.getD (p - num_orig_particles) 0],
              rem_tet_wrap_dirs :=
                st.rem_tet_wrap_dirs ++ [dirs.getD (p - num_orig_particles) 0],
              m := st.m + 1 }

/-- Modelled from the spec: `gen_delaunay_tet` (defined in `tess.c`, which is not among
the sources; the adapters call it at `tess-cgal.cpp` line 310 and `tess-qhull.c` line
523), following §4.5: each of the 4 vertices is local when it is an original particle
of the block (index below `num_orig_particles`) and remote otherwise; the tet is
local iff all 4 are local. A local tet is appended to `loc_tets` (4 entries, `n`
advanced by 4); a remote tet adds one entry per vertex slot to `rem_tet_gids`,
`rem_tet_nids` and `rem_tet_wrap_dirs` (`m` advanced once per slot; the adapters take
`m / 4` for the number of remote tets and `io.c` stores `num_rem_tets * 4` entries of
each of the three arrays, so that every one of the 4 slots of a remote tet has its
entry). -/
def gen_delaunay_tet (tet_verts : tet_verts_t) (num_orig_particles : Nat) (gid : Int)
    (gids nids dirs : List Int) (st : tet_state) : tet_state :=
  let vs := [tet_verts.1, tet_verts.2.1, tet_verts.2.2.1, tet_verts.2.2.2]
  if vs.all (fun p => decide (p < num_orig_particles)) then
    { st with loc_tets := st.loc_tets ++ vs, n := st.n + 4 }
  else
    vs.foldl (rem_tet_slot num_orig_particles gid gids nids dirs) st

/-- The counters and arrays of the tet classifier stay in step: `loc_tets` holds `n`
entries, each remote array `m` entries, and both counters are multiples of 4. -/
def tet_state_ok (st : tet_state) (k : Nat) : Prop :=
  st.loc_tets.length = st.n ∧ st.rem_tet_gids.length = st.m ∧
  st.rem_tet_nids.length = st.m ∧ st.rem_tet_wrap_dirs.length = st.m ∧
  st.n % 4 = 0 ∧ st.m % 4 = 0 ∧ st.n + st.m = 4 * k

/-- What `gen_delaunay_output` leaves in the block and returns. -/
structure delaunay_output where
  tets : tet_state
  num_loc_tets : Nat
  num_rem_tets : Nat
  returned : Nat
  deriving DecidableEq, Repr

/-- Modelled from the spec: the rule of the completeness classifier (`complete_cells`,
defined in `tess.c`, which is not among the sources), §4.3: a cell is complete iff
none of its vertices is the infinity vertex (index 0) and none of the sites of its
incident tets is a ghost not yet confirmed. -/
def cell_is_complete (cell_verts : List Nat) (incident_sites : List Nat)
    (unconfirmed_ghost : Nat → Bool) : Bool :=
  !cell_verts.contains 0 && !incident_sites.any unconfirmed_ghost

namespace CGAL

/-- The body of the loops over the cells around a vertex (lines 215-226) and around an
edge (lines 247-259): an infinite cell writes the vertex index 0, once only
(`seen_infinite`); a finite cell writes its index `tet_indices[c]`. `wrap` is the
form in which the array holds an entry. -/
def dedup_step {α : Type} (Dt : Delaunay3D) (tet_indices : Nat → Nat) (wrap : Nat → α)
    (st : (List α × Nat) × Bool) (c : Nat) : Option ((List α × Nat) × Bool) :=
  if Dt.is_infinite c then
    if !st.2 then (push_at st.1 (wrap 0)).map (fun s => (s, true))
    else some st
  else (push_at st.1 (wrap (tet_indices c))).map (fun s => (s, st.2))

/-- One iteration of the loop of lines 208-227: the incident cells of the `k`-th vertex
of the sorted list are written to `cells` from the running index `i` on. -/
def cells_step (Dt : Delaunay3D) (tet_indices : Nat → Nat)
    (st : List (Option Nat) × Nat) (kv : Nat × Nat) : Option (List (Option Nat) × Nat) :=
  ((Dt.incident_cells kv.2).foldlM (dedup_step Dt tet_indices some) (st, false)).map
    (fun s => s.1)

/-- Lines 204-227 of `tess-cgal.cpp`: `cells` is allocated with `tot_num_cell_verts`
entries (none of them written yet) and filled vertex after vertex; the result is the
array and the final index `i`. -/
def gen_voronoi_cells (Dt : Delaunay3D) (num_particles : Nat) :
    Option (List (Option Nat) × Nat) :=
  let out := gen_voronoi_output Dt num_particles
  (sorted_vertices Dt).foldlM (cells_step Dt out.tet_indices)
    (List.replicate out.tot_num_cell_verts none, 0)

/-- Lines 237-260: the face of one finite edge. The ring array has `MAX_FACE_VERTS`
entries, zeroed by the `memset` of line 232. -/
def face_of_edge (MAX_FACE_VERTS : Nat) (Dt : Delaunay3D) (tet_indices : Nat → Nat)
    (eit : Nat × Nat × Nat) : Option vface_t :=
  let c := eit.1
  let v0 := Dt.vertex c eit.2.1
  let v1 := Dt.vertex c eit.2.2
  let circ := Dt.edge_circulator eit
  ((circ.1 :: circ.2).foldlM (dedup_step Dt tet_indices id)
      ((List.replicate MAX_FACE_VERTS 0, 0), false)).map
    (fun st => { cells := (Dt.info v0, Dt.info v1), num_verts := st.1.2, verts := st.1.1 })

/-- Lines 229-265: the loop over the finite edges, `faces[num_faces]` being written
and `num_faces` incremented at each edge, and the assertion `num_faces == tot_faces`
with `tot_faces = Dt.number_of_finite_edges()`. The result is `faces` and
`num_faces`. -/
def gen_voronoi_faces (MAX_FACE_VERTS : Nat) (Dt : Delaunay3D) :
    Option (List vface_t × Nat) :=
  let tet_indices := (vertices_loop Dt).tet_indices
  let tot_faces := Dt.finite_edges.length
  (Dt.finite_edges.foldlM
      (fun (st : List vface_t × Nat) eit =>
        (face_of_edge MAX_FACE_VERTS Dt tet_indices eit).map
          (fun f => (st.1 ++ [f], st.2 + 1)))
      ([], 0)).bind
    (fun st => if st.2 = tot_faces then some st else none)

/-- Lines 307-308: the vertices of a finite cell, by label. -/
def tet_of_cell (Dt : Delaunay3D) (cit : Nat) : tet_verts_t :=
  (Dt.info (Dt.vertex cit 0), Dt.info (Dt.vertex cit 1), Dt.info (Dt.vertex cit 2),
    Dt.info (Dt.vertex cit 3))

/-- Lines 290-317 of `tess-cgal.cpp`: `gen_delaunay_output`. `num_orig_particles` is the
field of the block set by `orig_cells` before the call, `gid` the gid of the block. -/
def gen_delaunay_output (Dt : Delaunay3D) (num_orig_particles : Nat) (gid : Int)
    (gids nids dirs : List Int) : delaunay_output :=
  let st := Dt.finite_cells.foldl
    (fun st cit =>
      gen_delaunay_tet (tet_of_cell Dt cit) num_orig_particles gid gids nids dirs st)
    { loc_tets := [], rem_tet_gids := [], rem_tet_nids := [], rem_tet_wrap_dirs := [],
      n := 0, m := 0 }
  { tets := st, num_loc_tets := st.n / 4, num_rem_tets := st.m / 4,
    returned := st.n / 4 + st.m / 4 }

/-- The ring of a list of cells as the statements describe it: the indices of the
finite cells in the order of the list, and the index 0 once, at the place of the first
infinite cell, when the list has an infinite cell. -/
def ring (Dt : Delaunay3D) (tet_indices : Nat → Nat) (cells : List Nat) : List Nat :=
  (cells.takeWhile (fun c => !Dt.is_infinite c)).map tet_indices
    ++ (if cells.any Dt.is_infinite then [0] else [])
    ++ ((cells.dropWhile (fun c => !Dt.is_infinite c)).filter
          (fun c => !Dt.is_infinite c)).map tet_indices

/-- The cells around an edge, in the order of the circulation. -/
def edge_cells (Dt : Delaunay3D) (eit : Nat × Nat × Nat) : List Nat :=
  (Dt.edge_circulator eit).1 :: (Dt.edge_circulator eit).2

/-- The triangulation of four points that are not coplanar (Scenario 1): as
`sample_Dt`, the four kernel vertices carrying the labels 0..3. -/
def tetra_Dt : Delaunay3D :=
  { sample_Dt with info := fun v => v - 10 }

/-- The triangulation of a bipyramid: two poles (vertices 0 and 1, close to each other
on the axis) and `n >= 3` points on a circle around the axis (vertices `2 + i`). The
finite cells are the `n` tets `i` = (pole, pole, point `i`, point `i + 1`) around the
axis; the infinite cells `n + 2 i` and `n + 2 i + 1` lie on the hull facets above
and below tet `i`. The first finite edge is the axis, which has all `n` finite
cells around it. -/
def bipyramid (n : Nat) : Delaunay3D :=
  { finite_cells := List.range n,
    finite_cells_nodup := List.nodup_range n,
    is_infinite := fun c => decide (n ≤ c),
    circumcenter := fun c => (coord.val c, coord.val 0, coord.val 0),
    finite_vertices := List.range (n + 2),
    info := fun v => v,
    incident_cells := fun v =>
      if v = 0 then List.range n ++ (List.range n).map (fun i => n + 2 * i)
      else if v = 1 then List.range n ++ (List.range n).map (fun i => n + 2 * i + 1)
      else
        let i := v - 2
        let j := (i + n - 1) % n
        [i, n + 2 * i, n + 2 * i + 1, j, n + 2 * j, n + 2 * j + 1],
    vertex := fun c k =>
      if k = 0 then 0 else if k = 1 then 1 else if k = 2 then 2 + c else 2 + (c + 1) % n,
    finite_edges := (0, 0, 1) ::
      (List.range n).flatMap (fun i => [(i, 0, 2), (i, 1, 2), (i, 2, 3)]),
    edge_circulator := fun e =>
      let i := e.1
      let j := (i + n - 1) % n
      if e.2 = (0, 1) then (0, (List.range n).tail)
      else if e.2 = (0, 2) then (i, [n + 2 * i, n + 2 * j, j])
      else if e.2 = (1, 2) then (i, [n + 2 * i + 1, n + 2 * j + 1, j])
      else (i, [n + 2 * i, n + 2 * i + 1]) }

end CGAL

namespace Qhull

/-- Lines 484 and 503 of `tess-qhull.c`: the facets that the loops of
`gen_delaunay_output` pass over; `NEWfacets` is `qh NEWfacets`. -/
def skip_facet (NEWfacets : Bool) (facet : facetT) : Bool :=
  facet.skipfacet || (facet.visible && NEWfacets)

/-- The order `FOREACHvertexreverse12_` visits a set in: the first two swapped. -/
def reverse12 : List Nat → List Nat
  | a :: b :: rest => b :: a :: rest
  | l => l

/-- Lines 512-521: `tet_verts` of a facet with 4 vertices; `ORIENTclock` is the macro
`qh_ORIENTclock` of the kernel, `hull_dim` is `qh hull_dim`. -/
def tet_of_facet (ORIENTclock : Bool) (hull_dim : Nat) (facet : facetT) : tet_verts_t :=
  let vs :=
    if (xor facet.toporient ORIENTclock) || (decide (hull_dim > 2) && !facet.simplicial) then
      facet.vertices
    else reverse12 facet.vertices
  (vs.getD 0 0, vs.getD 1 0, vs.getD 2 0, vs.getD 3 0)

/-- One iteration of the loop of lines 501-525: a facet that is skipped or does not have
4 vertices is passed over, any other is handed to `gen_delaunay_tet`. -/
def delaunay_step (NEWfacets ORIENTclock : Bool) (hull_dim : Nat) (num_orig_particles : Nat)
    (gid : Int) (gids nids dirs : List Int) (st : tet_state) (facet : facetT) : tet_state :=
  if skip_facet NEWfacets facet then st
  else if facet.vertices.length ≠ 4 then st
  else
    gen_delaunay_tet (tet_of_facet ORIENTclock hull_dim facet) num_orig_particles gid
      gids nids dirs st

/-- Lines 469-533 of `tess-qhull.c`: `gen_delaunay_output` (the first loop only numbers
the facets to size the arrays). -/
def gen_delaunay_output (NEWfacets ORIENTclock : Bool) (hull_dim : Nat)
    (facetlist : List facetT) (num_orig_particles : Nat) (gid : Int)
    (gids nids dirs : List Int) : delaunay_output :=
  let st := facetlist.foldl
    (delaunay_step NEWfacets ORIENTclock hull_dim num_orig_particles gid gids nids dirs)
    { loc_tets := [], rem_tet_gids := [], rem_tet_nids := [], rem_tet_wrap_dirs := [],
      n := 0, m := 0 }
  { tets := st, num_loc_tets := st.n / 4, num_rem_tets := st.m / 4,
    returned := st.n / 4 + st.m / 4 }

/-- The facets whose tet is handed to the classifier: those not skipped that have 4
vertices. -/
def handed_facets (NEWfacets : Bool) (facetlist : List facetT) : List facetT :=
  facetlist.filter (fun facet => !skip_facet NEWfacets facet && decide (facet.vertices.length = 4))

/-- The body of `FOREACHneighbor_(vertex)` in the pass that fills `cells` (lines
311-321); the state is the array, the index `i` and `numinf`. -/
def cells_neighbor_step (numfacets : Nat) (st : (List (Option Nat) × Nat) × Nat)
    (neighbor : facetT) : Option ((List (Option Nat) × Nat) × Nat) :=
  if neighbor.visitid < numfacets then
    if st.2 = 0 ∨ neighbor.visitid > 0 then
      (push_at st.1 (some neighbor.visitid)).map
        (fun s => (s, if neighbor.visitid = 0 then st.2 + 1 else st.2))
    else some st
  else if st.2 ≠ 0 ∧ neighbor.visitid < numfacets then
    (push_at st.1 (some neighbor.visitid)).map (fun s => (s, st.2))
  else some st

/-- One iteration of `FOREACHvertex_i_(vertices)` in the pass that fills `cells`
(lines 308-323). -/
def cells_step (numfacets : Nat) (st : List (Option Nat) × Nat) (vertex : Option vertexT) :
    Option (List (Option Nat) × Nat) :=
  match vertex with
  | some v => (v.neighbors.foldlM (cells_neighbor_step numfacets) (st, 0)).map (fun s => s.1)
  | none => some st

/-- Lines 299-304: `tot_num_cell_verts`, the sum of `num_cell_verts` over the
particles. -/
def tot_num_cell_verts (numfacets : Nat) (vertices : List (Option vertexT))
    (num_particles : Nat) : Nat :=
  ((gen_voronoi_output numfacets vertices num_particles).num_cell_verts.take num_particles).sum

/-- Lines 299-323 of `tess-qhull.c`: `cells` is allocated with `tot_num_cell_verts`
entries (none of them written yet) and filled from the vertex set as the first pass
left it; the result is the array and the final index `i`. -/
def gen_voronoi_cells (numfacets : Nat) (vertices : List (Option vertexT))
    (num_particles : Nat) : Option (List (Option Nat) × Nat) :=
  (first_pass numfacets vertices).vertices.foldlM (cells_step numfacets)
    (List.replicate (tot_num_cell_verts numfacets vertices num_particles) none, 0)

/-- The cell vertices of a site as the statements describe them: the `visitid` of the
neighbor facets below `numfacets`, in the order of the neighbor set, the infinity
vertex 0 kept at its first occurrence only. -/
def cell_ring (numfacets : Nat) (v : vertexT) : List Nat :=
  let ids := (v.neighbors.map (fun n => n.visitid)).filter (fun x => decide (x < numfacets))
  ids.takeWhile (fun x => decide (x ≠ 0))
    ++ (if ids.any (fun x => decide (x = 0)) then [0] else [])
    ++ (ids.dropWhile (fun x => decide (x ≠ 0))).filter (fun x => decide (x ≠ 0))

/-- The calls that one iteration of the block loops of `local_cells` and `orig_cells`
makes on its block. -/
inductive stage
  | qh_new_qhull
  | gen_voronoi_output
  | sites
  | incomplete_cells
  | complete_cells
  | neighbor_is_complete
  | gen_delaunay_output
  | qh_freeqhull
  | cell_faces
  deriving DecidableEq, Repr

/-- Lines 33-76 of `tess-qhull.c`: the calls of one iteration of `local_cells`, for the
exit code that `qh_new_qhull` returns. -/
def local_cells_block (exitcode : Int) : List stage :=
  [stage.qh_new_qhull]
    ++ (if exitcode = 0 then [stage.gen_voronoi_output] else [])
    ++ [stage.sites, stage.incomplete_cells, stage.qh_freeqhull]

/-- Lines 116-197 of `tess-qhull.c`: the calls of one iteration of `orig_cells`, for the
exit code that `qh_new_qhull` returns. -/
def orig_cells_block (exitcode : Int) : List stage :=
  [stage.qh_new_qhull]
    ++ (if exitcode = 0 then [stage.gen_voronoi_output] else [])
    ++ [stage.sites, stage.complete_cells, stage.neighbor_is_complete]
    ++ (if exitcode = 0 then [stage.gen_delaunay_output] else [])
    ++ [stage.qh_freeqhull, stage.cell_faces]

/-- The block loop of `local_cells`: the calls made, each with the index of its block;
`exitcodes` lists what `qh_new_qhull` returns for the blocks. The function returns
nothing to its caller (`void`). -/
def local_cells (exitcodes : List Int) : List (Nat × stage) :=
  (List.range exitcodes.length).flatMap
    (fun i => (local_cells_block (exitcodes.getD i 0)).map (fun s => (i, s)))

/-- The block loop of `orig_cells`: the calls made, each with the index of its block.
The function returns nothing to its caller (`void`). -/
def orig_cells (exitcodes : List Int) : List (Nat × stage) :=
  (List.range exitcodes.length).flatMap
    (fun i => (orig_cells_block (exitcodes.getD i 0)).map (fun s => (i, s)))

/-- The stages that read the cells, faces or tets of the block they are called on. -/
def consumes_block_data : stage → Bool
  | stage.incomplete_cells => true
  | stage.complete_cells => true
  | stage.cell_faces => true
  | _ => false

end Qhull

/-! ## The DIY records of `create_datatype` and `create_d_datatype` -/

/-- The base types of the map entries: the three DIY scalar types and the struct
datatypes built for a tet (`ttype`), a remote tet vertex (`rtype`) and a face
(`ftype`). -/
inductive diy_type
  | DIY_FLOAT
  | DIY_INT
  | DIY_BYTE
  | ttype
  | rtype
  | ftype
  deriving DecidableEq, Repr

/-- Modelled from the spec: `struct map_block_t` of DIY: base type, count, and the place
(an offset in the block or an address) the entry points at, named by its field. -/
structure map_block_t (F : Type) where
  base_type : diy_type
  count : Nat
  disp : F
  deriving DecidableEq, Repr

/-- The fields of `struct tet_t`, `struct remote_vert_t` and `struct vface_t` that the
maps of the struct datatypes name. -/
inductive struct_field
  | tet_verts
  | tet_tets
  | rem_gid
  | rem_nid
  | rem_dir
  | face_cells
  | face_num_verts
  | face_verts
  deriving DecidableEq, Repr

/-- Lines 570-577 of `io.c`: `tet_map`. -/
def tet_map : List (map_block_t struct_field) :=
  [⟨.DIY_INT, 4, .tet_verts⟩, ⟨.DIY_INT, 4, .tet_tets⟩]

/-- Lines 582-591 of `io.c`: `rem_map`. -/
def rem_map : List (map_block_t struct_field) :=
  [⟨.DIY_INT, 1, .rem_gid⟩, ⟨.DIY_INT, 1, .rem_nid⟩, ⟨.DIY_BYTE, 1, .rem_dir⟩]

/-- Lines 1325-1334 of `io.c`: `face_map`. -/
def face_map (MAX_FACE_VERTS : Nat) : List (map_block_t struct_field) :=
  [⟨.DIY_INT, 2, .face_cells⟩, ⟨.DIY_INT, 1, .face_num_verts⟩,
   ⟨.DIY_INT, MAX_FACE_VERTS, .face_verts⟩]

/-- The number of scalar values in one element of a base type; a struct datatype has
the values its map lists. -/
def diy_type_size (MAX_FACE_VERTS : Nat) : diy_type → Nat
  | .DIY_FLOAT => 1
  | .DIY_INT => 1
  | .DIY_BYTE => 1
  | .ttype => (tet_map.map (fun e => e.count)).sum
  | .rtype => (rem_map.map (fun e => e.count)).sum
  | .ftype => ((face_map MAX_FACE_VERTS).map (fun e => e.count)).sum

/-- The fields of `struct dblock_t` that the map of `create_d_datatype` names. -/
inductive drecord_field
  | mins
  | particles
  | tets
  | rem_tet_verts
  | vert_to_tet
  | maxs
  deriving DecidableEq, Repr

/-- Lines 595-610 of `io.c`: the map of `create_d_datatype`. -/
def create_d_datatype (d : dblock_t) : List (map_block_t drecord_field) :=
  [ ⟨.DIY_FLOAT, 3, .mins⟩,
    ⟨.DIY_FLOAT, d.num_particles * 3, .particles⟩,
    ⟨.ttype, d.num_tets, .tets⟩,
    ⟨.rtype, d.num_rem_tet_verts, .rem_tet_verts⟩,
    ⟨.DIY_INT, d.num_particles, .vert_to_tet⟩,
    ⟨.DIY_FLOAT, 3, .maxs⟩ ]

/-- The values stored at a field of a Delaunay block, element after element. -/
def drecord_data (d : dblock_t) : drecord_field → List Int
  | .mins => d.mins
  | .particles => d.particles
  | .tets => d.tets
  | .rem_tet_verts => d.rem_tet_verts.flatMap (fun r => [r.gid, r.nid, r.dir])
  | .vert_to_tet => d.vert_to_tet
  | .maxs => d.maxs

/-- The fields of `struct vblock_t` that the map of `create_datatype` names. -/
inductive vrecord_field
  | mins
  | save_verts
  | sites
  | complete_cells
  | areas
  | vols
  | loc_tets
  | rem_tet_gids
  | rem_tet_nids
  | rem_tet_wrap_dirs
  | faces
  | cell_faces_start
  | cell_faces
  | maxs
  deriving DecidableEq, Repr

/-- Lines 1338-1369 of `io.c`: the map of `create_datatype`. -/
def create_datatype (v : vblock_t) : List (map_block_t vrecord_field) :=
  [ ⟨.DIY_FLOAT, 3, .mins⟩,
    ⟨.DIY_FLOAT, v.num_verts * 3, .save_verts⟩,
    ⟨.DIY_FLOAT, v.num_orig_particles * 3, .sites⟩,
    ⟨.DIY_INT, v.num_complete_cells, .complete_cells⟩,
    ⟨.DIY_FLOAT, v.num_complete_cells, .areas⟩,
    ⟨.DIY_FLOAT, v.num_complete_cells, .vols⟩,
    ⟨.DIY_INT, v.num_loc_tets * 4, .loc_tets⟩,
    ⟨.DIY_INT, v.num_rem_tets * 4, .rem_tet_gids⟩,
    ⟨.DIY_INT, v.num_rem_tets * 4, .rem_tet_nids⟩,
    ⟨.DIY_BYTE, v.num_rem_tets * 4, .rem_tet_wrap_dirs⟩,
    ⟨.ftype, v.num_faces, .faces⟩,
    ⟨.DIY_INT, v.num_orig_particles, .cell_faces_start⟩,
    ⟨.DIY_INT, v.tot_num_cell_faces, .cell_faces⟩,
    ⟨.DIY_FLOAT, 3, .maxs⟩ ]

/-- The values stored at a field of a Voronoi block, element after element. -/
def vrecord_data (v : vblock_t) : vrecord_field → List Int
  | .mins => v.mins
  | .save_verts => v.save_verts
  | .sites => v.sites
  | .complete_cells => v.complete_cells
  | .areas => v.areas
  | .vols => v.vols
  | .loc_tets => v.loc_tets
  | .rem_tet_gids => v.rem_tet_gids
  | .rem_tet_nids => v.rem_tet_nids
  | .rem_tet_wrap_dirs => v.rem_tet_wrap_dirs
  | .faces => v.faces
  | .cell_faces_start => v.cell_faces_start
  | .cell_faces => v.cell_faces
  | .maxs => v.maxs

/-- Modelled from the spec: the record DIY writes for a block through a struct datatype
(`DIY_Write_blocks_all`, not among the sources): per entry of the map, in map order,
`count` elements of the base type read from the place the entry points at. -/
def diy_record {F : Type} (MAX_FACE_VERTS : Nat) (data : F → List Int)
    (map : List (map_block_t F)) : List (F × List Int) :=
  map.map (fun e => (e.disp, (data e.disp).take (e.count * diy_type_size MAX_FACE_VERTS e.base_type)))

/-- A Delaunay block after an exchange: one original particle and one particle received
from a neighbor, no tet. -/
def sample_dblock_ghost : dlocal :=
  { d := { mins := [0, 0, 0], num_orig_particles := 1, num_particles := 2,
           particles := [1, 2, 3, 4, 5, 6], num_tets := 0, tets := [],
           num_rem_tet_verts := 0, rem_tet_verts := [],
           vert_to_tet := [-1, -1], maxs := [1, 1, 1] },
    gid := 0, neigh_gbs := [{ gid := 1, proc := 0 }] }

/-! ## The two persisted layouts side by side -/

/-- The variable of the Voronoi file that holds a field of the `create_datatype` record:
the variable `pnetcdf_write` names after the field of `struct vblock_t` it writes. -/
def vrecord_var : vrecord_field → Var
  | .mins => .mins
  | .save_verts => .save_verts
  | .sites => .sites
  | .complete_cells => .complete_cells
  | .areas => .areas
  | .vols => .vols
  | .loc_tets => .loc_tets
  | .rem_tet_gids => .rem_tet_gids
  | .rem_tet_nids => .rem_tet_nids
  | .rem_tet_wrap_dirs => .rem_tet_wrap_dirs
  | .faces => .faces
  | .cell_faces_start => .cell_faces_start
  | .cell_faces => .cell_faces
  | .maxs => .maxs

/-- The per-block arrays of the Voronoi file: the variable-length fields and the two
bounds, as opposed to the variables that hold one number per block. -/
def varray (x : Var) : Bool :=
  (vfield x).isSome || decide (x = .mins) || decide (x = .maxs)

/-- The index ranges `(start[0], count[0])` of the put calls on variable `x`, in the
order of the calls. -/
def ranges_of (x : Var) (calls : List put_call) : List (Nat × Nat) :=
  (calls.filter (fun c => decide (c.varid = x))).map (fun c => (c.start0, c.count0))

/-- Index `i` lies in the range `[start, start + count)`. -/
def in_range (r : Nat × Nat) (i : Nat) : Prop := r.1 ≤ i ∧ i < r.1 + r.2

instance (r : Nat × Nat) (i : Nat) : Decidable (in_range r i) := by
  unfold in_range; infer_instance

/-- The length of the first dimension of variable `x` in a file (0 for a variable
without dimensions). -/
def global_len (f : ncfile) (x : Var) : Nat :=
  match f.shape x with
  | d :: _ => f.dimlen d
  | [] => 0

/-- A Delaunay file of two blocks stored in gid order, each the neighbor of the other. -/
def sample_file_2 : ncfile :=
  pnetcdf_d_write [[sample_dblock_gid 0 [1], sample_dblock_gid 1 [0]]]

/-! ## The HACC particle reader (`examples/pread-voronoi/io/hacc/particles.cpp`) -/

namespace Hacc

/-- Lines 99-101 of `particles.cpp`: the number of blocks process `rank` of `size`
reads. `size - 1` and the difference are those of `int`s; with `1 <= size` neither goes
below zero. In `(size - 1) * tot_blocks / size` the product is taken first. -/
def read_gio_nblocks (tot_blocks size rank : Nat) : Nat :=
  if rank < size - 1 then tot_blocks / size
  else tot_blocks - (size - 1) * tot_blocks / size

/-- Lines 102-103: the gids `gids[b] = rank * tot_blocks / size + b` of the blocks
process `rank` reads, `b = 0 .. nblocks - 1`; the product is taken first. -/
def read_gio_gids (tot_blocks size rank : Nat) : List Nat :=
  (List.range (read_gio_nblocks tot_blocks size rank)).map
    (fun b => rank * tot_blocks / size + b)

/-- The call `std::vector<float>::resize(n)`: the first `n` values stay, and a vector
that grows is filled up with zeros. -/
def resize (v : List Int) (n : Nat) : List Int :=
  v.take n ++ List.replicate (n - v.length) 0

/-- The variables of the packaging loop of `read_particles`: the vector `particles`,
the counter `nu` and the set `unique_ids` (the ids inserted so far). -/
structure pack_state where
  particles : List Int
  nu : Nat
  unique_ids : List Int
  deriving DecidableEq, Repr

/-- Lines 61-67 of `particles.cpp`: iteration `i` of the packaging loop. -/
def read_particles_step (sample_rate : Nat) (x y z id : List Int) (st : pack_state)
    (i : Nat) : pack_state :=
  if id.getD (i * sample_rate) 0 ∈ st.unique_ids then st
  else
    { particles :=
        ((st.particles.set (3 * st.nu) (x.getD (i * sample_rate) 0)).set
          (3 * st.nu + 1) (y.getD (i * sample_rate) 0)).set
          (3 * st.nu + 2) (z.getD (i * sample_rate) 0),
      nu := st.nu + 1,
      unique_ids := id.getD (i * sample_rate) 0 :: st.unique_ids }

/-- Lines 57-68 of `particles.cpp`: `read_particles` from the return of `read_gio` on:
`x`, `y`, `z` and `id` are the arrays `read_gio` filled (all of the length it returns),
`particles` is the vector the caller passes in. The result is the vector on return, the
final `nu` and the final `num_particles`; it is `none` for `sample_rate = 0`, where
line 57 divides by zero. -/
def read_particles (x y z id : List Int) (particles : List Int) (sample_rate : Nat) :
    Option (List Int × Nat × Nat) :=
  if sample_rate = 0 then none
  else
    let num_particles := x.length / sample_rate
    let st := (List.range num_particles).foldl (read_particles_step sample_rate x y z id)
      { particles := resize particles (num_particles * 3), nu := 0, unique_ids := [] }
    some (st.particles, st.nu, num_particles)

/-- The sampled indices `i` (source index `i * sample_rate`) whose id did not occur at an
earlier sampled index, in sampling order. -/
def kept (id : List Int) (sample_rate n : Nat) : List Nat :=
  (List.range n).filter (fun i =>
    (List.range i).all (fun j =>
      decide (id.getD (j * sample_rate) 0 ≠ id.getD (i * sample_rate) 0)))

/-- The `(x, y, z)` of the sampled particles whose id did not occur at an earlier sampled
index, in sampling order: what the description of `read_particles` announces. -/
def sampled_unique (x y z id : List Int) (sample_rate : Nat) : List Int :=
  (kept id sample_rate (x.length / sample_rate)).flatMap (fun i =>
    [x.getD (i * sample_rate) 0, y.getD (i * sample_rate) 0, z.getD (i * sample_rate) 0])

end Hacc

/-! ## Sample blocks -/

/-- A Voronoi block with one vertex, one original particle, one complete cell and
one local tet; its only neighbor is block 1. -/
def sample_vblock_a : vlocal :=
  { v := { mins := [0, 0, 0], num_verts := 1, save_verts := [1, 2, 3],
           num_orig_particles := 1, sites := [4, 5, 6], num_complete_cells := 1,
           complete_cells := [0], areas := [7], vols := [8], tot_num_cell_faces := 1,
           num_loc_tets := 1, loc_tets := [0, 1, 2, 3], num_rem_tets := 0,
           rem_tet_gids := [], rem_tet_nids := [], rem_tet_wrap_dirs := [],
           num_faces := 1, faces := [0, 1, 3, 9], cell_faces_start := [0],
           cell_faces := [0], maxs := [1, 1, 1] },
    gid := 0, neigh_gbs := [{ gid := 1, proc := 0 }] }

/-- A Voronoi block without any tet; its only neighbor is block 0. -/
def sample_vblock_b : vlocal :=
  { v := { mins := [1, 0, 0], num_verts := 2, save_verts := [1, 2, 3, 4, 5, 6],
           num_orig_particles := 1, sites := [7, 8, 9], num_complete_cells := 0,
           complete_cells := [], areas := [], vols := [], tot_num_cell_faces := 0,
           num_loc_tets := 0, loc_tets := [], num_rem_tets := 0,
           rem_tet_gids := [], rem_tet_nids := [], rem_tet_wrap_dirs := [],
           num_faces := 0, faces := [], cell_faces_start := [0],
           cell_faces := [], maxs := [2, 1, 1] },
    gid := 1, neigh_gbs := [{ gid := 0, proc := 0 }] }

/-- A Delaunay block with one particle, one tet and one remote tet vertex. -/
def sample_dblock_a : dlocal :=
  { d := { mins := [0, 0, 0], num_orig_particles := 1, num_particles := 1,
           particles := [1, 2, 3], num_tets := 1, tets := [0, 1, 2, 3, -1, -1, -1, -1],
           num_rem_tet_verts := 1, rem_tet_verts := [{ gid := 1, nid := 0, dir := 0 }],
           vert_to_tet := [0], maxs := [1, 1, 1] },
    gid := 0, neigh_gbs := [{ gid := 1, proc := 0 }] }

/-- A Delaunay block with one particle, no tet and no remote tet vertex. -/
def sample_dblock_b : dlocal :=
  { d := { mins := [1, 0, 0], num_orig_particles := 1, num_particles := 1,
           particles := [4, 5, 6], num_tets := 0, tets := [],
           num_rem_tet_verts := 0, rem_tet_verts := [],
           vert_to_tet := [-1], maxs := [2, 1, 1] },
    gid := 1, neigh_gbs := [{ gid := 0, proc := 0 }] }

/-! ## Vocabulary for the distribution of the blocks and for the kinds of record data -/

/-- What a block carries whatever the distribution of the blocks over the processes:
the block itself, its gid and the gids of its neighbors. The rank that owns each
neighbor (the field `proc` DIY reports with it) depends on the distribution and is not
part of it. -/
def block_content (b : vlocal) : vblock_t × Int × List Int :=
  (b.v, b.gid, b.neigh_gbs.map (fun g => g.gid))

/-- The block with the owner ranks of its neighbors blanked out. -/
def without_owners (b : vlocal) : vlocal :=
  { b with neigh_gbs := b.neigh_gbs.map (fun g => { gid := g.gid, proc := 0 }) }

/-- The neighbor lists are those DIY reports under the distribution `procs`: the owner
`proc` of every neighbor is the rank of a process that holds a block with the
neighbor's gid. -/
def diy_owners (procs : List (List vlocal)) : Prop :=
  ∀ p ∈ procs, ∀ b ∈ p, ∀ g ∈ b.neigh_gbs,
    0 ≤ g.proc ∧ ∃ blk ∈ procs.getD g.proc.toNat [], blk.gid = g.gid

instance (procs : List (List vlocal)) : Decidable (diy_owners procs) := by
  unfold diy_owners; infer_instance

/-- The block `sample_vblock_a` as DIY reports it when its neighbor, block 1, lives on
process 1. -/
def sample_vblock_a1 : vlocal :=
  { sample_vblock_a with neigh_gbs := [{ gid := 1, proc := 1 }] }

/-- A Voronoi block without any data, with the given gid and neighbor gids. -/
def sample_vblock_gid (gid : Int) (neighbors : List Int) : vlocal :=
  { v := { mins := [0, 0, 0], num_verts := 0, save_verts := [],
           num_orig_particles := 0, sites := [], num_complete_cells := 0,
           complete_cells := [], areas := [], vols := [], tot_num_cell_faces := 0,
           num_loc_tets := 0, loc_tets := [], num_rem_tets := 0,
           rem_tet_gids := [], rem_tet_nids := [], rem_tet_wrap_dirs := [],
           num_faces := 0, faces := [], cell_faces_start := [],
           cell_faces := [], maxs := [1, 1, 1] },
    gid := gid, neigh_gbs := neighbors.map (fun g => { gid := g, proc := 0 }) }

/-- A Voronoi file of three blocks stored in gid order; block 1 has the neighbors 0 and
2, the others none. -/
def sample_vfile_3 : ncfile :=
  pnetcdf_write 1 [[sample_vblock_gid 0 [], sample_vblock_gid 1 [0, 2], sample_vblock_gid 2 []]]

/-- A Voronoi file of two blocks stored in gid order, each the neighbor of the other. -/
def sample_vfile_2 : ncfile :=
  pnetcdf_write 1 [[sample_vblock_a, sample_vblock_b]]

/-! # Lemmas and theorems -/

/-! ## Lemmas on the file model -/

theorem rowlen_put (f : ncfile) (c : put_call) (x : Var) :
    rowlen (ncmpi_put_vara f c) x = rowlen f x := rfl

theorem data_put (f : ncfile) (c : put_call) (x : Var) :
    (ncmpi_put_vara f c).data x = put_var (rowlen f x) x (f.data x) c := by
  simp only [ncmpi_put_vara, put_var]
  by_cases h : x = c.varid
  · subst h; simp
  · have h2 : ¬ c.varid = x := fun e => h e.symm
    simp [h, h2]

theorem foldl_put_frame (calls : List put_call) (f : ncfile) :
    (calls.foldl ncmpi_put_vara f).dimlen = f.dimlen ∧
    (calls.foldl ncmpi_put_vara f).shape = f.shape := by
  induction calls generalizing f with
  | nil => exact ⟨rfl, rfl⟩
  | cons c cs ih => simpa [List.foldl_cons] using ih (ncmpi_put_vara f c)

theorem foldl_put_data (calls : List put_call) (f : ncfile) (x : Var) :
    (calls.foldl ncmpi_put_vara f).data x = calls.foldl (put_var (rowlen f x) x) (f.data x) := by
  induction calls generalizing f with
  | nil => rfl
  | cons c cs ih =>
    rw [List.foldl_cons, ih, rowlen_put, data_put, List.foldl_cons]

theorem overwrite_nil (arr : List Int) (pos : Nat) : overwrite arr pos [] = arr := by
  simp [overwrite]

theorem overwrite_fill (A d : List Int) (r : Nat) :
    overwrite (A ++ List.replicate (d.length + r) 0) A.length d = A ++ d ++ List.replicate r 0 := by
  simp [overwrite, List.take_append_eq_append_take, List.drop_append_eq_append_drop]

theorem foldl_put_var_skip (w : Nat) (x : Var) (calls : List put_call) (arr : List Int)
    (h : ∀ c ∈ calls, c.varid ≠ x) : calls.foldl (put_var w x) arr = arr := by
  induction calls generalizing arr with
  | nil => rfl
  | cons c cs ih =>
    have hc : c.varid ≠ x := h c (by simp)
    rw [List.foldl_cons, show put_var w x arr c = arr by simp [put_var, hc]]
    exact ih arr (fun d hd => h d (by simp [hd]))

theorem call_on_cons_eq (x : Var) (c : put_call) (cs : List put_call) (h : c.varid = x) :
    call_on x (c :: cs) = some c := by
  simp [call_on, List.find?, h]

theorem call_on_cons_ne (x : Var) (c : put_call) (cs : List put_call) (h : ¬ c.varid = x) :
    call_on x (c :: cs) = call_on x cs := by
  simp [call_on, List.find?, h]

/-- One iteration: a list of calls on pairwise different variables acts on `x` through
its only call on `x`. -/
theorem foldl_put_var_block (w : Nat) (x : Var) (calls : List put_call) (A : List Int)
    (o n r : Nat) (hnd : (calls.map (fun c => c.varid)).Nodup)
    (hA : A.length = o * w) (hlen : (piece x calls).length = n)
    (hst : ∀ c, call_on x calls = some c →
      c.start0 = o ∨ c.buf.take (c.count0 * c.count1) = []) :
    calls.foldl (put_var w x) (A ++ List.replicate (n + r) 0)
      = A ++ piece x calls ++ List.replicate r 0 := by
  induction calls with
  | nil =>
    have h0 : n = 0 := by simpa [piece, call_on] using hlen.symm
    subst h0
    simp [piece, call_on]
  | cons c cs ih =>
    simp only [List.map_cons, List.nodup_cons] at hnd
    by_cases hc : c.varid = x
    · have hskip : ∀ d ∈ cs, d.varid ≠ x := by
        intro d hd e
        exact hnd.1 (by rw [hc, ← e]; exact List.mem_map_of_mem _ hd)
      have hp : piece x (c :: cs) = c.buf.take (c.count0 * c.count1) := by
        simp [piece, call_on_cons_eq x c cs hc]
      rw [List.foldl_cons, foldl_put_var_skip w x cs _ hskip, hp]
      rw [hp] at hlen
      rcases hst c (call_on_cons_eq x c cs hc) with h0 | h0
      · simp only [put_var, hc, if_true]
        rw [h0, ← hA, ← hlen, overwrite_fill]
        simp
      · rw [h0] at hlen ⊢
        have hn : n = 0 := by simpa using hlen.symm
        subst hn
        simp only [put_var, hc, if_true, h0, overwrite_nil]
        split <;> simp
    · have hp : piece x (c :: cs) = piece x cs := by
        simp [piece, call_on_cons_ne x c cs hc]
      have hs : put_var w x (A ++ List.replicate (n + r) 0) c = A ++ List.replicate (n + r) 0 := by
        simp [put_var, hc]
      rw [List.foldl_cons, hs, hp]
      rw [hp] at hlen
      exact ih hnd.2 hlen (fun d hd => hst d (by rw [call_on_cons_ne x c cs hc]; exact hd))

section generic
variable {β : Type} (calls : β → quants → List put_call) (advance : β → quants → quants)
  (cnt : Quant → β → Nat)

theorem write_loop_append (xs ys : List β) (o : quants) :
    write_loop calls advance (xs ++ ys) o =
      write_loop calls advance xs o ++
        write_loop calls advance ys (xs.foldl (fun o b => advance b o) o) := by
  induction xs generalizing o with
  | nil => rfl
  | cons a xs ih => simp [write_loop, ih]

theorem advance_foldl (hadv : ∀ b o q, advance b o q = o q + cnt q b)
    (xs : List β) (o : quants) (q : Quant) :
    (xs.foldl (fun o b => advance b o) o) q = o q + (xs.map (cnt q)).sum := by
  induction xs generalizing o with
  | nil => simp
  | cons a xs ih => rw [List.foldl_cons, ih, hadv]; simp [Nat.add_assoc]

theorem write_loop_length (bs : List β) (o : quants) :
    (write_loop calls advance bs o).length = bs.length := by
  induction bs generalizing o with
  | nil => rfl
  | cons a bs ih => simp [write_loop, ih]

theorem write_loop_getElem (hadv : ∀ b o q, advance b o q = o q + cnt q b)
    (bs : List β) (o : quants) (i : Nat) (b : β) (hb : bs[i]? = some b) :
    (write_loop calls advance bs o)[i]? =
      some (calls b (fun q => o q + running cnt bs i q)) := by
  induction bs generalizing o i with
  | nil => simp at hb
  | cons a bs ih =>
    cases i with
    | zero =>
      simp at hb; subst hb
      simp [write_loop, running]
    | succ i =>
      simp at hb
      have h := ih (advance a o) i hb
      have e : (fun q => advance a o q + running cnt bs i q)
          = (fun q => o q + running cnt (a :: bs) (i + 1) q) := by
        funext q; rw [hadv]; simp [running, Nat.add_assoc]
      rw [e] at h
      simpa [write_loop] using h

theorem sum_map_flatten {γ : Type} (c : γ → Nat) (L : List (List γ)) :
    (L.flatten.map c).sum = (L.map (fun l => (l.map c).sum)).sum := by
  induction L with
  | nil => simp
  | cons a L ih => simp [ih, Function.comp_def]

theorem MPI_Exscan_init (lower : List quants) (q : Quant) :
    MPI_Exscan lower quants_init q = (lower.map (fun s => s q)).sum := by
  cases lower <;> simp [MPI_Exscan, quants_init]

theorem exscan_eq (pq : List β → quants) (hpq : ∀ bs q, pq bs q = (bs.map (cnt q)).sum)
    (lower : List (List β)) (q : Quant) :
    MPI_Exscan (lower.map pq) quants_init q = (lower.flatten.map (cnt q)).sum := by
  rw [MPI_Exscan_init, sum_map_flatten]
  simp [hpq, Function.comp_def]

theorem allreduce_eq (pq : List β → quants) (hpq : ∀ bs q, pq bs q = (bs.map (cnt q)).sum)
    (procs : List (List β)) (q : Quant) :
    MPI_Allreduce (procs.map pq) q = (procs.flatten.map (cnt q)).sum := by
  rw [sum_map_flatten]
  simp [MPI_Allreduce, hpq, Function.comp_def]

/-- the calls of all ranks, rank after rank, are the calls of one process that holds all
the blocks in the same order -/
theorem ranks_eq_single (hadv : ∀ b o q, advance b o q = o q + cnt q b)
    (pq : List β → quants) (hpq : ∀ bs q, pq bs q = (bs.map (cnt q)).sum)
    (procs : List (List β)) :
    (List.range procs.length).flatMap
        (fun r => (write_loop calls advance (procs.getD r [])
          (MPI_Exscan ((procs.take r).map pq) quants_init)).flatten)
      = (write_loop calls advance procs.flatten quants_init).flatten := by
  induction procs using List.reverseRecOn with
  | nil => simp [write_loop]
  | append_singleton procs p ih =>
    rw [List.length_append, List.length_singleton, List.range_succ, List.flatMap_append,
      List.flatten_append, write_loop_append, List.flatten_append]
    congr 1
    · rw [← ih]
      simp only [List.flatMap]
      congr 1
      apply List.map_congr_left
      intro r hr
      have hr2 : r < procs.length := List.mem_range.mp hr
      have h1 : (procs ++ [p]).getD r [] = procs.getD r [] := by
        simp [List.getD, List.getElem?_append_left hr2]
      have h2 : (procs ++ [p]).take r = procs.take r := by
        rw [List.take_append_of_le_length (Nat.le_of_lt hr2)]
      rw [h1, h2]
    · have h1 : (procs ++ [p]).getD procs.length [] = p := by
        simp [List.getD]
      have h2 : (procs ++ [p]).take procs.length = procs := by simp
      have h3 : MPI_Exscan (procs.map pq) quants_init
          = procs.flatten.foldl (fun o b => advance b o) quants_init := by
        funext q
        rw [exscan_eq cnt pq hpq, advance_foldl advance cnt hadv]
        simp [quants_init]
      simp [h1, h2, h3]


/-- A column of the file: when every block sends to `x` a piece of `cnt q b * w` values
at row `block_ofsts[q]` (or an empty piece anywhere), the write loop fills `x` with the
pieces in block order. -/
theorem column_run (x : Var) (q : Quant) (w : Nat)
    (hnd : ∀ b o, ((calls b o).map (fun c => c.varid)).Nodup)
    (hadv : ∀ b o q, advance b o q = o q + cnt q b)
    (bs : List β)
    (hcol : ∀ b ∈ bs, ∀ o, (piece x (calls b o)).length = cnt q b * w ∧
      ∀ c, call_on x (calls b o) = some c →
        c.start0 = o q ∨ c.buf.take (c.count0 * c.count1) = [])
    (o : quants) (A : List Int) (hA : A.length = o q * w) (r : Nat) :
    (write_loop calls advance bs o).flatten.foldl (put_var w x)
        (A ++ List.replicate ((bs.map (cnt q)).sum * w + r) 0)
      = A ++ ((write_loop calls advance bs o).map (piece x)).flatten ++ List.replicate r 0 := by
  induction bs generalizing o A with
  | nil => simp [write_loop]
  | cons b bs ih =>
    obtain ⟨hl, hs⟩ := hcol b (by simp) o
    have e : (cnt q b :: bs.map (cnt q)).sum * w + r
        = cnt q b * w + ((bs.map (cnt q)).sum * w + r) := by
      simp [Nat.add_mul, Nat.add_assoc]
    simp only [write_loop, List.flatten_cons, List.foldl_append, List.map_cons]
    rw [e, foldl_put_var_block w x (calls b o) A (o q) (cnt q b * w) _ (hnd b o) hA hl hs]
    have hA2 : (A ++ piece x (calls b o)).length = advance b o q * w := by
      rw [List.length_append, hA, hl, hadv, Nat.add_mul]
    rw [ih (fun b1 hb1 => hcol b1 (by simp [hb1])) (advance b o) (A ++ piece x (calls b o)) hA2]
    simp

/-- The lengths of the pieces the write loop sends to `x`. -/
theorem pieces_length (x : Var) (q : Quant) (w : Nat) (bs : List β)
    (hcol : ∀ b ∈ bs, ∀ o, (piece x (calls b o)).length = cnt q b * w) (o : quants) :
    ((write_loop calls advance bs o).map (piece x)).map List.length
      = bs.map (fun b => cnt q b * w) := by
  induction bs generalizing o with
  | nil => simp [write_loop]
  | cons b bs ih =>
    simp only [write_loop, List.map_cons]
    rw [hcol b (by simp) o, ih (fun b1 hb1 => hcol b1 (by simp [hb1]))]


theorem slice_flatten {α : Type} (L : List (List α)) (i : Nat) (l : List α)
    (h : L[i]? = some l) :
    (L.flatten.drop (((L.take i).map List.length).sum)).take l.length = l := by
  induction L generalizing i with
  | nil => simp at h
  | cons a L ih =>
    cases i with
    | zero =>
      simp at h; subst h
      simp
    | succ i =>
      simp at h
      have := ih i h
      simp only [List.take_succ_cons, List.map_cons, List.sum_cons, List.flatten_cons]
      rw [List.drop_append_eq_append_drop]
      simp only [List.drop_eq_nil_of_le (Nat.le_add_right _ _), List.nil_append,
        Nat.add_sub_cancel_left]
      exact this

/-- The contents of a variable after a whole run of a write loop from zero offsets on
the freshly defined file. -/
theorem run_data (define : quants → ncfile) (layout : Var → Option Quant) (width : Var → Nat)
    (hrow : ∀ tot x, rowlen (define tot) x = width x)
    (hdata : ∀ tot x q, layout x = some q →
      (define tot).data x = List.replicate (tot q * width x) 0)
    (hnd : ∀ b o, ((calls b o).map (fun c => c.varid)).Nodup)
    (hadv : ∀ b o q, advance b o q = o q + cnt q b)
    (bs : List β)
    (hcol : ∀ b ∈ bs, ∀ o x q, layout x = some q →
      (piece x (calls b o)).length = cnt q b * width x ∧
      ∀ c, call_on x (calls b o) = some c →
        c.start0 = o q ∨ c.buf.take (c.count0 * c.count1) = [])
    (tot : quants) (htot : ∀ q, tot q = (bs.map (cnt q)).sum)
    (x : Var) (q : Quant) (hx : layout x = some q) :
    ((write_loop calls advance bs quants_init).flatten.foldl ncmpi_put_vara (define tot)).data x
      = ((write_loop calls advance bs quants_init).map (piece x)).flatten := by
  rw [foldl_put_data, hrow, hdata tot x q hx, htot]
  have h := column_run calls advance cnt x q (width x) hnd hadv bs
    (fun b hb o => hcol b hb o x q hx) quants_init [] (by simp [quants_init]) 0
  simpa using h

/-- Reading back: the slice of the final contents of `x` that starts at the running
total of block `i` and has the length of its piece is that piece. -/
theorem run_slice (x : Var) (q : Quant) (w : Nat)
    (hadv : ∀ b o q, advance b o q = o q + cnt q b)
    (bs : List β)
    (hcol : ∀ b ∈ bs, ∀ o, (piece x (calls b o)).length = cnt q b * w)
    (i : Nat) (b : β) (hb : bs[i]? = some b) :
    ((((write_loop calls advance bs quants_init).map (piece x)).flatten).drop
        (running cnt bs i q * w)).take (cnt q b * w)
      = piece x (calls b (running cnt bs i)) := by
  have hget := write_loop_getElem calls advance cnt hadv bs quants_init i b hb
  have e : (fun q => quants_init q + running cnt bs i q) = running cnt bs i := by
    funext q; simp [quants_init]
  rw [e] at hget
  have hP : ((write_loop calls advance bs quants_init).map (piece x))[i]?
      = some (piece x (calls b (running cnt bs i))) := by
    rw [List.getElem?_map, hget]; rfl
  have hlen := pieces_length calls advance cnt x q w bs hcol quants_init
  have hsum : (((((write_loop calls advance bs quants_init).map (piece x)).take i).map
      List.length).sum) = running cnt bs i q * w := by
    have h2 : (((write_loop calls advance bs quants_init).map (piece x)).take i).map List.length
        = (bs.take i).map (fun b => cnt q b * w) := by
      have h3 := congrArg (List.take i) hlen
      simpa only [List.map_take] using h3
    rw [h2]
    simp only [running]
    generalize bs.take i = l
    induction l with
    | nil => simp
    | cons a l ih => simp [Nat.add_mul, ih]
  have hb2 : b ∈ bs := by
    obtain ⟨hi, e⟩ := List.getElem?_eq_some.mp hb
    exact e ▸ List.getElem_mem hi
  have := slice_flatten _ i _ hP
  rw [hsum, hcol b hb2] at this
  exact this

end generic

/-! ## Facts on `pnetcdf_write` -/

theorem vproc_quants_eq (bs : List vlocal) (q : Quant) :
    pnetcdf_write_proc_quants bs q = (bs.map (vcount q)).sum := by
  cases q <;>
    (induction bs with
     | nil => rfl
     | cons a l ih => simp_all [pnetcdf_write_proc_quants, vcount, Nat.add_comm])

theorem vadvance_eq (b : vlocal) (o : quants) (q : Quant) :
    pnetcdf_write_advance b o q = o q + vcount q b := by
  cases q <;> simp [pnetcdf_write_advance, vcount]

theorem vcalls_nodup (M : Nat) (b : vlocal) (o : quants) :
    ((pnetcdf_write_calls M b o).map (fun c => c.varid)).Nodup := by
  simp only [pnetcdf_write_calls, List.map_cons, List.map_nil]
  decide

theorem vcalls_col (M : Nat) (b : vlocal) (hwf : vblock_wf M b.v) (o : quants)
    (x : Var) (q : Quant) (hx : vlayout x = some q) :
    (piece x (pnetcdf_write_calls M b o)).length = vcount q b * vwidth M x ∧
    ∀ c, call_on x (pnetcdf_write_calls M b o) = some c →
      c.start0 = o q ∨ c.buf.take (c.count0 * c.count1) = [] := by
  obtain ⟨h1, h2, h3, h4, h5, h6, h7, h8, h9, h10, h11, h12, h13, h14⟩ := hwf
  cases x <;> simp [vlayout, vscalar, vfield] at hx <;> subst hx <;>
    simp [piece, call_on, pnetcdf_write_calls, List.find?, vcount, vwidth, *]
  all_goals
    first
    | (by_cases h : b.v.num_loc_tets = 0 <;> simp [h])
    | (by_cases h : b.v.num_rem_tets = 0 <;> simp [h])

theorem shape_vdefine (M : Nat) (tot : quants) (x : Var) :
    (pnetcdf_write_define M tot).shape x = vshape x := by
  cases x <;> rfl

theorem dimlen_vdefine (M : Nat) (tot : quants) (d : Dim) :
    (pnetcdf_write_define M tot).dimlen d = vdimlen M tot d := by
  cases d <;> rfl

theorem rowlen_vdefine (M : Nat) (tot : quants) (x : Var) :
    rowlen (pnetcdf_write_define M tot) x = vwidth M x := by
  unfold rowlen
  rw [shape_vdefine, show (pnetcdf_write_define M tot).dimlen = vdimlen M tot from
    funext (dimlen_vdefine M tot)]
  cases x <;> simp [vshape, vdimlen, vwidth]

theorem data_vdefine (M : Nat) (tot : quants) (x : Var) (q : Quant) (hx : vlayout x = some q) :
    (pnetcdf_write_define M tot).data x = List.replicate (tot q * vwidth M x) 0 := by
  have h : (pnetcdf_write_define M tot).data x =
      List.replicate ((((pnetcdf_write_define M tot).shape x).map
        (pnetcdf_write_define M tot).dimlen).prod) 0 := rfl
  rw [h, shape_vdefine, show (pnetcdf_write_define M tot).dimlen = vdimlen M tot from
    funext (dimlen_vdefine M tot)]
  cases x <;> simp [vlayout, vscalar, vfield] at hx <;> subst hx <;>
    simp [vshape, vdimlen, vwidth]

theorem vtot_quants_eq (procs : List (List vlocal)) :
    pnetcdf_write_tot_quants procs = fun q => (procs.flatten.map (vcount q)).sum := by
  funext q
  exact allreduce_eq vcount pnetcdf_write_proc_quants vproc_quants_eq procs q

/-- A run of `pnetcdf_write` leaves the file that one process holding all the blocks, in
the same order, would leave. -/
theorem pnetcdf_write_single (M : Nat) (procs : List (List vlocal)) :
    pnetcdf_write M procs =
      (write_loop (pnetcdf_write_calls M) pnetcdf_write_advance procs.flatten
          quants_init).flatten.foldl ncmpi_put_vara
        (pnetcdf_write_define M (fun q => (procs.flatten.map (vcount q)).sum)) := by
  unfold pnetcdf_write pnetcdf_write_trace
  rw [vtot_quants_eq]
  congr 1
  exact ranks_eq_single (pnetcdf_write_calls M) pnetcdf_write_advance vcount vadvance_eq
    pnetcdf_write_proc_quants vproc_quants_eq procs

/-- The calls of iteration `b` on process `p`: those of the block with `block_ofsts`
equal to the exclusive running totals. -/
theorem vrank_calls (M : Nat) (procs : List (List vlocal)) (p b : Nat) (blk : vlocal)
    (hb : (procs.getD p [])[b]? = some blk) :
    (pnetcdf_write_rank M procs p)[b]? =
      some (pnetcdf_write_calls M blk (fun q => excl_scan (vcount q) procs p b)) := by
  unfold pnetcdf_write_rank pnetcdf_write_loop
  rw [write_loop_getElem (pnetcdf_write_calls M) pnetcdf_write_advance vcount vadvance_eq _ _ b
    blk hb]
  congr 2
  funext q
  simp only [pnetcdf_write_ofsts, excl_scan, running]
  rw [exscan_eq vcount pnetcdf_write_proc_quants vproc_quants_eq]

theorem vcalls_starts (M : Nat) (blk : vlocal) (o : quants) :
    ∀ c ∈ pnetcdf_write_calls M blk o, ∀ q,
      (vfield c.varid = some q →
        c.start0 = if guarded q = true ∧ vcount q blk = 0 then 0 else o q) ∧
      (voffvar c.varid = some q → c.buf = [(o q : Int)]) ∧
      (vscalar c.varid = true → c.start0 = o .NUM_BLOCKS ∧ c.count0 = 1) := by
  simp only [pnetcdf_write_calls, List.forall_mem_cons]
  simp [vfield, voffvar, vscalar, guarded, vcount]


/-! ## Reading back a Voronoi file -/

theorem foldl_put_rowlen (calls : List put_call) (f : ncfile) (x : Var) :
    rowlen (calls.foldl ncmpi_put_vara f) x = rowlen f x := by
  unfold rowlen
  rw [(foldl_put_frame calls f).1, (foldl_put_frame calls f).2]

theorem running_blocks {β : Type} (cnt : Quant → β → Nat) (h1 : ∀ b, cnt .NUM_BLOCKS b = 1)
    (bs : List β) (i : Nat) (hi : i ≤ bs.length) : running cnt bs i .NUM_BLOCKS = i := by
  simp only [running]
  have : ∀ l : List β, (l.map (cnt .NUM_BLOCKS)).sum = l.length := by
    intro l
    induction l with
    | nil => rfl
    | cons a l ih => simp [ih, h1, Nat.add_comm]
  rw [this, List.length_take]
  exact Nat.min_eq_left hi

theorem getD_of_slice (l : List Int) (i n : Nat) (hi : i < n) (p : List Int)
    (h : (l.drop (i * 1)).take (1 * 1) = p) (hp : p.length = 1) :
    ((l.drop (0 * 1)).take (n * 1)).getD i 0 = p.headD 0 := by
  subst h
  simp only [Nat.mul_one, Nat.zero_mul, List.drop_zero] at hp ⊢
  cases hd : l.drop i with
  | nil => simp [hd] at hp
  | cons a t =>
    have h2 : l[i]? = some a := by
      have := List.head?_drop l i
      rw [hd] at this
      simpa using this.symm
    simp [List.getD, List.getElem?_take, hi, h2]

theorem vwrite_rowlen (M : Nat) (procs : List (List vlocal)) (x : Var) :
    rowlen (pnetcdf_write M procs) x = vwidth M x := by
  unfold pnetcdf_write
  rw [foldl_put_rowlen, rowlen_vdefine]

theorem vwrite_tot_blocks (M : Nat) (procs : List (List vlocal)) :
    read_tot_blocks (pnetcdf_write M procs) = procs.flatten.length := by
  unfold read_tot_blocks pnetcdf_write
  rw [(foldl_put_frame _ _).1, (foldl_put_frame _ _).2, shape_vdefine, dimlen_vdefine,
    vtot_quants_eq]
  simp only [vshape, List.headD_cons, vdimlen]
  generalize procs.flatten = l
  induction l with
  | nil => rfl
  | cons a l ih => simp [vcount, ih, Nat.add_comm]

theorem vwrite_data (M : Nat) (procs : List (List vlocal))
    (hwf : ∀ b ∈ procs.flatten, vblock_wf M b.v) (x : Var) (q : Quant)
    (hx : vlayout x = some q) :
    (pnetcdf_write M procs).data x =
      ((write_loop (pnetcdf_write_calls M) pnetcdf_write_advance procs.flatten
        quants_init).map (piece x)).flatten := by
  rw [pnetcdf_write_single]
  exact run_data (pnetcdf_write_calls M) pnetcdf_write_advance vcount
    (pnetcdf_write_define M) vlayout (vwidth M) (rowlen_vdefine M) (data_vdefine M)
    (vcalls_nodup M) vadvance_eq procs.flatten
    (fun b hb o x q hx => vcalls_col M b (hwf b hb) o x q hx) _ (fun _ => rfl) x q hx

/-- The slice of variable `x` that belongs to block `i` of the file. -/
theorem v_get (M : Nat) (procs : List (List vlocal))
    (hwf : ∀ b ∈ procs.flatten, vblock_wf M b.v) (i : Nat) (blk : vlocal)
    (hb : procs.flatten[i]? = some blk) (x : Var) (q : Quant) (hx : vlayout x = some q) :
    ncmpi_get_vara (pnetcdf_write M procs) x (running vcount procs.flatten i q)
        (vcount q blk) (vwidth M x)
      = piece x (pnetcdf_write_calls M blk (running vcount procs.flatten i)) := by
  unfold ncmpi_get_vara
  rw [vwrite_rowlen, vwrite_data M procs hwf x q hx]
  exact run_slice (pnetcdf_write_calls M) pnetcdf_write_advance vcount x q (vwidth M x)
    vadvance_eq procs.flatten (fun b hb o => (vcalls_col M b (hwf b hb) o x q hx).1) i blk hb

theorem v_entry (M : Nat) (procs : List (List vlocal))
    (hwf : ∀ b ∈ procs.flatten, vblock_wf M b.v) (i : Nat) (blk : vlocal)
    (hb : procs.flatten[i]? = some blk) (x : Var) (hx : vlayout x = some .NUM_BLOCKS)
    (hw : vwidth M x = 1) :
    (ncmpi_get_vara (pnetcdf_write M procs) x 0 procs.flatten.length 1).getD i 0
      = (piece x (pnetcdf_write_calls M blk (running vcount procs.flatten i))).headD 0 ∧
    read_int (pnetcdf_write M procs) x i
      = (piece x (pnetcdf_write_calls M blk (running vcount procs.flatten i))).headD 0 := by
  obtain ⟨hi, _⟩ := List.getElem?_eq_some.mp hb
  have h := v_get M procs hwf i blk hb x .NUM_BLOCKS hx
  have hl := (vcalls_col M blk (hwf blk (by
    obtain ⟨hi, e⟩ := List.getElem?_eq_some.mp hb
    exact e ▸ List.getElem_mem hi)) (running vcount procs.flatten i) x .NUM_BLOCKS hx).1
  rw [running_blocks vcount (fun _ => rfl) _ i (Nat.le_of_lt hi)] at h
  rw [hw] at h hl
  have hc : vcount .NUM_BLOCKS blk = 1 := rfl
  rw [hc] at h hl
  constructor
  · unfold ncmpi_get_vara at h ⊢
    rw [vwrite_rowlen, hw] at h ⊢
    exact getD_of_slice _ i _ hi _ h hl
  · unfold read_int
    rw [h]


theorem v_read_block (M : Nat) (procs : List (List vlocal))
    (hwf : ∀ b ∈ procs.flatten, vblock_wf M b.v) (i : Nat) (blk : vlocal)
    (hb : procs.flatten[i]? = some blk) (s b : Nat) (hs : s + b = i) :
    pnetcdf_read_gets M (pnetcdf_write M procs) procs.flatten.length
        (ncmpi_get_vara (pnetcdf_write M procs) .g_block_ids 0 procs.flatten.length 1) s b
      = { v := blk.v, gid := blk.gid, num_neighbors := blk.neigh_gbs.length,
          neighbors := blk.neigh_gbs.map (fun g => g.gid) } := by
  have hmem : blk ∈ procs.flatten := by
    obtain ⟨hi, e⟩ := List.getElem?_eq_some.mp hb
    exact e ▸ List.getElem_mem hi
  obtain ⟨hi, _⟩ := List.getElem?_eq_some.mp hb
  have hrb := running_blocks vcount (fun _ => rfl) procs.flatten i (Nat.le_of_lt hi)
  obtain ⟨w1, w2, w3, w4, w5, w6, w7, w8, w9, w10, w11, w12, w13, w14⟩ := hwf blk hmem
  have e_num_verts := (v_entry M procs hwf i blk hb .num_verts rfl rfl).2
  simp only [piece, call_on, pnetcdf_write_calls, List.find?, decide_True, decide_False,
    Nat.mul_one, List.take_succ_cons, List.take_zero, List.headD_cons, reduceCtorEq] at e_num_verts
  have e_num_complete_cells := (v_entry M procs hwf i blk hb .num_complete_cells rfl rfl).2
  simp only [piece, call_on, pnetcdf_write_calls, List.find?, decide_True, decide_False,
    Nat.mul_one, List.take_succ_cons, List.take_zero, List.headD_cons, reduceCtorEq] at e_num_complete_cells
  have e_tot_num_cell_faces := (v_entry M procs hwf i blk hb .tot_num_cell_faces rfl rfl).2
  simp only [piece, call_on, pnetcdf_write_calls, List.find?, decide_True, decide_False,
    Nat.mul_one, List.take_succ_cons, List.take_zero, List.headD_cons, reduceCtorEq] at e_tot_num_cell_faces
  have e_num_orig_particles := (v_entry M procs hwf i blk hb .num_orig_particles rfl rfl).2
  simp only [piece, call_on, pnetcdf_write_calls, List.find?, decide_True, decide_False,
    Nat.mul_one, List.take_succ_cons, List.take_zero, List.headD_cons, reduceCtorEq] at e_num_orig_particles
  have e_num_loc_tets := (v_entry M procs hwf i blk hb .num_loc_tets rfl rfl).2
  simp only [piece, call_on, pnetcdf_write_calls, List.find?, decide_True, decide_False,
    Nat.mul_one, List.take_succ_cons, List.take_zero, List.headD_cons, reduceCtorEq] at e_num_loc_tets
  have e_num_rem_tets := (v_entry M procs hwf i blk hb .num_rem_tets rfl rfl).2
  simp only [piece, call_on, pnetcdf_write_calls, List.find?, decide_True, decide_False,
    Nat.mul_one, List.take_succ_cons, List.take_zero, List.headD_cons, reduceCtorEq] at e_num_rem_tets
  have e_num_faces := (v_entry M procs hwf i blk hb .num_faces rfl rfl).2
  simp only [piece, call_on, pnetcdf_write_calls, List.find?, decide_True, decide_False,
    Nat.mul_one, List.take_succ_cons, List.take_zero, List.headD_cons, reduceCtorEq] at e_num_faces
  have e_num_neighbors := (v_entry M procs hwf i blk hb .num_neighbors rfl rfl).2
  simp only [piece, call_on, pnetcdf_write_calls, List.find?, decide_True, decide_False,
    Nat.mul_one, List.take_succ_cons, List.take_zero, List.headD_cons, reduceCtorEq] at e_num_neighbors
  have e_block_off_num_verts : read_block_ofst (pnetcdf_write M procs) .block_off_num_verts procs.flatten.length i
      = running vcount procs.flatten i .NUM_VERTICES := by
    unfold read_block_ofst
    rw [(v_entry M procs hwf i blk hb .block_off_num_verts rfl rfl).1]
    simp [piece, call_on, pnetcdf_write_calls, List.find?]
  have e_block_off_num_complete_cells : read_block_ofst (pnetcdf_write M procs) .block_off_num_complete_cells procs.flatten.length i
      = running vcount procs.flatten i .NUM_COMP_CELLS := by
    unfold read_block_ofst
    rw [(v_entry M procs hwf i blk hb .block_off_num_complete_cells rfl rfl).1]
    simp [piece, call_on, pnetcdf_write_calls, List.find?]
  have e_block_off_tot_num_cell_faces : read_block_ofst (pnetcdf_write M procs) .block_off_tot_num_cell_faces procs.flatten.length i
      = running vcount procs.flatten i .NUM_CELL_FACES := by
    unfold read_block_ofst
    rw [(v_entry M procs hwf i blk hb .block_off_tot_num_cell_faces rfl rfl).1]
    simp [piece, call_on, pnetcdf_write_calls, List.find?]
  have e_block_off_num_orig_particles : read_block_ofst (pnetcdf_write M procs) .block_off_num_orig_particles procs.flatten.length i
      = running vcount procs.flatten i .NUM_ORIG_PARTS := by
    unfold read_block_ofst
    rw [(v_entry M procs hwf i blk hb .block_off_num_orig_particles rfl rfl).1]
    simp [piece, call_on, pnetcdf_write_calls, List.find?]
  have e_block_off_num_loc_tets : read_block_ofst (pnetcdf_write M procs) .block_off_num_loc_tets procs.flatten.length i
      = running vcount procs.flatten i .NUM_LOC_TETRAS := by
    unfold read_block_ofst
    rw [(v_entry M procs hwf i blk hb .block_off_num_loc_tets rfl rfl).1]
    simp [piece, call_on, pnetcdf_write_calls, List.find?]
  have e_block_off_num_rem_tets : read_block_ofst (pnetcdf_write M procs) .block_off_num_rem_tets procs.flatten.length i
      = running vcount procs.flatten i .NUM_REM_TETRAS := by
    unfold read_block_ofst
    rw [(v_entry M procs hwf i blk hb .block_off_num_rem_tets rfl rfl).1]
    simp [piece, call_on, pnetcdf_write_calls, List.find?]
  have e_block_off_num_faces : read_block_ofst (pnetcdf_write M procs) .block_off_num_faces procs.flatten.length i
      = running vcount procs.flatten i .NUM_UNIQUE_FACES := by
    unfold read_block_ofst
    rw [(v_entry M procs hwf i blk hb .block_off_num_faces rfl rfl).1]
    simp [piece, call_on, pnetcdf_write_calls, List.find?]
  have e_block_off_num_neighbors : read_block_ofst (pnetcdf_write M procs) .block_off_num_neighbors procs.flatten.length i
      = running vcount procs.flatten i .NUM_NEIGHBORS := by
    unfold read_block_ofst
    rw [(v_entry M procs hwf i blk hb .block_off_num_neighbors rfl rfl).1]
    simp [piece, call_on, pnetcdf_write_calls, List.find?]
  have e_gid := (v_entry M procs hwf i blk hb .g_block_ids rfl rfl).1
  simp only [piece, call_on, pnetcdf_write_calls, List.find?, decide_True, decide_False,
    Nat.mul_one, List.take_succ_cons, List.take_zero, List.headD_cons, reduceCtorEq] at e_gid
  have g_mins := v_get M procs hwf i blk hb .mins .NUM_BLOCKS rfl
  simp [piece, call_on, pnetcdf_write_calls, List.find?, vcount, vwidth, hrb,
    List.take_of_length_le, *] at g_mins
  have g_maxs := v_get M procs hwf i blk hb .maxs .NUM_BLOCKS rfl
  simp [piece, call_on, pnetcdf_write_calls, List.find?, vcount, vwidth, hrb,
    List.take_of_length_le, *] at g_maxs
  have g_save_verts := v_get M procs hwf i blk hb .save_verts .NUM_VERTICES rfl
  simp [piece, call_on, pnetcdf_write_calls, List.find?, vcount, vwidth, hrb,
    List.take_of_length_le, *] at g_save_verts
  have g_sites := v_get M procs hwf i blk hb .sites .NUM_ORIG_PARTS rfl
  simp [piece, call_on, pnetcdf_write_calls, List.find?, vcount, vwidth, hrb,
    List.take_of_length_le, *] at g_sites
  have g_complete_cells := v_get M procs hwf i blk hb .complete_cells .NUM_COMP_CELLS rfl
  simp [piece, call_on, pnetcdf_write_calls, List.find?, vcount, vwidth, hrb,
    List.take_of_length_le, *] at g_complete_cells
  have g_areas := v_get M procs hwf i blk hb .areas .NUM_COMP_CELLS rfl
  simp [piece, call_on, pnetcdf_write_calls, List.find?, vcount, vwidth, hrb,
    List.take_of_length_le, *] at g_areas
  have g_vols := v_get M procs hwf i blk hb .vols .NUM_COMP_CELLS rfl
  simp [piece, call_on, pnetcdf_write_calls, List.find?, vcount, vwidth, hrb,
    List.take_of_length_le, *] at g_vols
  have g_neighbors := v_get M procs hwf i blk hb .neighbors .NUM_NEIGHBORS rfl
  simp [piece, call_on, pnetcdf_write_calls, List.find?, vcount, vwidth, hrb,
    List.take_of_length_le, *] at g_neighbors
  have g_loc_tets := v_get M procs hwf i blk hb .loc_tets .NUM_LOC_TETRAS rfl
  simp [piece, call_on, pnetcdf_write_calls, List.find?, vcount, vwidth, hrb,
    List.take_of_length_le, *] at g_loc_tets
  have g_rem_tet_gids := v_get M procs hwf i blk hb .rem_tet_gids .NUM_REM_TETRAS rfl
  simp [piece, call_on, pnetcdf_write_calls, List.find?, vcount, vwidth, hrb,
    List.take_of_length_le, *] at g_rem_tet_gids
  have g_rem_tet_nids := v_get M procs hwf i blk hb .rem_tet_nids .NUM_REM_TETRAS rfl
  simp [piece, call_on, pnetcdf_write_calls, List.find?, vcount, vwidth, hrb,
    List.take_of_length_le, *] at g_rem_tet_nids
  have g_rem_tet_wrap_dirs := v_get M procs hwf i blk hb .rem_tet_wrap_dirs .NUM_REM_TETRAS rfl
  simp [piece, call_on, pnetcdf_write_calls, List.find?, vcount, vwidth, hrb,
    List.take_of_length_le, *] at g_rem_tet_wrap_dirs
  have g_faces := v_get M procs hwf i blk hb .faces .NUM_UNIQUE_FACES rfl
  simp [piece, call_on, pnetcdf_write_calls, List.find?, vcount, vwidth, hrb,
    List.take_of_length_le, *] at g_faces
  have g_cell_faces_start := v_get M procs hwf i blk hb .cell_faces_start .NUM_ORIG_PARTS rfl
  simp [piece, call_on, pnetcdf_write_calls, List.find?, vcount, vwidth, hrb,
    List.take_of_length_le, *] at g_cell_faces_start
  have g_cell_faces := v_get M procs hwf i blk hb .cell_faces .NUM_CELL_FACES rfl
  simp [piece, call_on, pnetcdf_write_calls, List.find?, vcount, vwidth, hrb,
    List.take_of_length_le, *] at g_cell_faces
  subst hs
  simp only [pnetcdf_read_gets, e_num_verts, e_num_complete_cells, e_tot_num_cell_faces,
    e_num_orig_particles, e_num_loc_tets, e_num_rem_tets, e_num_faces, e_num_neighbors,
    e_block_off_num_verts, e_block_off_num_complete_cells, e_block_off_tot_num_cell_faces,
    e_block_off_num_orig_particles, e_block_off_num_loc_tets, e_block_off_num_rem_tets,
    e_block_off_num_faces, e_block_off_num_neighbors, e_gid, Int.toNat_ofNat,
    g_mins, g_maxs, g_save_verts, g_sites, g_complete_cells, g_areas, g_vols, g_faces,
    g_cell_faces_start, g_cell_faces]
  have t_loc_tets : ncmpi_get_vara (pnetcdf_write M procs) .loc_tets
      (if blk.v.num_loc_tets ≠ 0 then running vcount procs.flatten (s + b) .NUM_LOC_TETRAS else 0)
      blk.v.num_loc_tets (if blk.v.num_loc_tets ≠ 0 then 4 else 0) = blk.v.loc_tets := by
    by_cases h : blk.v.num_loc_tets = 0
    · have h0 : blk.v.loc_tets = [] := List.length_eq_zero.mp (by rw [w8, h])
      simp [h, h0, ncmpi_get_vara]
    · simp only [h, if_false] at g_loc_tets
      simp only [ne_eq, h, not_false_eq_true, if_true]
      rw [g_loc_tets]
      exact List.take_of_length_le (by rw [w8])
  have t_rem_tet_gids : ncmpi_get_vara (pnetcdf_write M procs) .rem_tet_gids
      (if blk.v.num_rem_tets ≠ 0 then running vcount procs.flatten (s + b) .NUM_REM_TETRAS else 0)
      blk.v.num_rem_tets (if blk.v.num_rem_tets ≠ 0 then 4 else 0) = blk.v.rem_tet_gids := by
    by_cases h : blk.v.num_rem_tets = 0
    · have h0 : blk.v.rem_tet_gids = [] := List.length_eq_zero.mp (by rw [w9, h])
      simp [h, h0, ncmpi_get_vara]
    · simp only [h, if_false] at g_rem_tet_gids
      simp only [ne_eq, h, not_false_eq_true, if_true]
      rw [g_rem_tet_gids]
      exact List.take_of_length_le (by rw [w9])
  have t_rem_tet_nids : ncmpi_get_vara (pnetcdf_write M procs) .rem_tet_nids
      (if blk.v.num_rem_tets ≠ 0 then running vcount procs.flatten (s + b) .NUM_REM_TETRAS else 0)
      blk.v.num_rem_tets (if blk.v.num_rem_tets ≠ 0 then 4 else 0) = blk.v.rem_tet_nids := by
    by_cases h : blk.v.num_rem_tets = 0
    · have h0 : blk.v.rem_tet_nids = [] := List.length_eq_zero.mp (by rw [w10, h])
      simp [h, h0, ncmpi_get_vara]
    · simp only [h, if_false] at g_rem_tet_nids
      simp only [ne_eq, h, not_false_eq_true, if_true]
      rw [g_rem_tet_nids]
      exact List.take_of_length_le (by rw [w10])
  have t_rem_tet_wrap_dirs : ncmpi_get_vara (pnetcdf_write M procs) .rem_tet_wrap_dirs
      (if blk.v.num_rem_tets ≠ 0 then running vcount procs.flatten (s + b) .NUM_REM_TETRAS else 0)
      blk.v.num_rem_tets (if blk.v.num_rem_tets ≠ 0 then 4 else 0) = blk.v.rem_tet_wrap_dirs := by
    by_cases h : blk.v.num_rem_tets = 0
    · have h0 : blk.v.rem_tet_wrap_dirs = [] := List.length_eq_zero.mp (by rw [w11, h])
      simp [h, h0, ncmpi_get_vara]
    · simp only [h, if_false] at g_rem_tet_wrap_dirs
      simp only [ne_eq, h, not_false_eq_true, if_true]
      rw [g_rem_tet_wrap_dirs]
      exact List.take_of_length_le (by rw [w11])
  have t_neighbors : (if blk.neigh_gbs.length ≠ 0 then
      ncmpi_get_vara (pnetcdf_write M procs) .neighbors
        (running vcount procs.flatten (s + b) .NUM_NEIGHBORS) blk.neigh_gbs.length 1
      else []) = blk.neigh_gbs.map (fun g => g.gid) := by
    by_cases h : blk.neigh_gbs.length = 0
    · have h0 : blk.neigh_gbs = [] := List.length_eq_zero.mp h
      simp [h0]
    · simp only [ne_eq, h, not_false_eq_true, if_true]
      exact g_neighbors
  rw [t_loc_tets, t_rem_tet_gids, t_rem_tet_nids, t_rem_tet_wrap_dirs, t_neighbors]

/-! ## The block ranges of the readers -/

theorem read_bp_facts (tot g : Int) (ht : 0 ≤ tot) (hg : 1 ≤ g) :
    0 ≤ read_bp tot g ∧ g * read_bp tot g ≤ tot ∧ tot < g * read_bp tot g + g
      ∧ read_bp tot g = tot / g := by
  have hg0 : 0 < g := by omega
  have e : read_bp tot g = tot / g := by
    unfold read_bp
    exact Int.tdiv_eq_ediv ht (by omega)
  refine ⟨?_, ?_, ?_, e⟩
  · rw [e]; exact Int.ediv_nonneg ht (by omega)
  · rw [e]; exact Int.mul_ediv_self_le (by omega)
  · rw [e]; exact Int.lt_mul_ediv_self_add hg0

/-- the block ranges of the readers partition `[0, tot_blocks)` -/
theorem read_ranges (tot g : Int) (ht : 0 ≤ tot) (hg : 1 ≤ g) :
    (∀ rank, 0 ≤ rank → rank < g → 0 ≤ read_nblocks tot g rank) ∧
    (∀ rank i, 0 ≤ rank → rank < g → read_start_block_ofst tot g rank ≤ i →
      i < read_start_block_ofst tot g rank + read_nblocks tot g rank → 0 ≤ i ∧ i < tot) ∧
    (∀ i, 0 ≤ i → i < tot → ∃! rank, 0 ≤ rank ∧ rank < g ∧
      read_start_block_ofst tot g rank ≤ i ∧
      i < read_start_block_ofst tot g rank + read_nblocks tot g rank) := by
  obtain ⟨hbp0, hlo, hhi, hdiv⟩ := read_bp_facts tot g ht hg
  generalize hbp : read_bp tot g = bp at *
  have key : ∀ r : Int, r ≤ g - 1 → r * bp ≤ (g - 1) * bp := fun r hr =>
    Int.mul_le_mul_of_nonneg_right hr hbp0
  have key2 : ∀ r1 r2 : Int, r1 + 1 ≤ r2 → r1 * bp + bp ≤ r2 * bp := by
    intro r1 r2 h
    have := Int.mul_le_mul_of_nonneg_right h hbp0
    linarith
  have hlast : (g - 1) * bp ≤ tot := by nlinarith
  refine ⟨?_, ?_, ?_⟩
  · intro rank h0 h1
    unfold read_nblocks
    rw [hbp]
    split
    · exact hbp0
    · have := key rank (by omega)
      linarith
  · intro rank i h0 h1 hs he
    unfold read_start_block_ofst at hs he
    unfold read_nblocks at he
    rw [hbp] at hs he
    have hr0 : 0 ≤ rank * bp := Int.mul_nonneg h0 hbp0
    refine ⟨by linarith, ?_⟩
    split at he
    · have := key2 rank (g - 1) (by omega)
      linarith
    · linarith
  · intro i hi0 hi1
    have huniq : ∀ r1 r2 : Int, 0 ≤ r1 → r1 < r2 → r2 < g →
        (read_start_block_ofst tot g r1 ≤ i ∧
          i < read_start_block_ofst tot g r1 + read_nblocks tot g r1) →
        (read_start_block_ofst tot g r2 ≤ i ∧
          i < read_start_block_ofst tot g r2 + read_nblocks tot g r2) → False := by
      intro r1 r2 h0 h12 h2 ⟨_, b1⟩ ⟨a2, _⟩
      unfold read_start_block_ofst at b1 a2
      unfold read_nblocks at b1
      rw [hbp] at b1 a2
      rw [if_pos (by omega)] at b1
      have := key2 r1 r2 (by omega)
      linarith
    by_cases hc : (g - 1) * bp ≤ i
    · refine ⟨g - 1, ⟨by omega, by omega, ?_, ?_⟩, ?_⟩
      · unfold read_start_block_ofst; rw [hbp]; exact hc
      · unfold read_start_block_ofst read_nblocks; rw [hbp]
        rw [if_neg (by omega)]
        linarith
      · rintro r ⟨h0, h1, a, b⟩
        by_contra hne
        exact huniq r (g - 1) h0 (by omega) (by omega) ⟨a, b⟩
          ⟨by unfold read_start_block_ofst; rw [hbp]; exact hc,
           by unfold read_start_block_ofst read_nblocks; rw [hbp, if_neg (by omega)]; linarith⟩
    · have hbpos : 0 < bp := by
        by_contra h
        have : bp = 0 := by omega
        rw [this] at hc
        simp at hc
        omega
      have hq0 : 0 ≤ i / bp := Int.ediv_nonneg hi0 hbp0
      have hq1 : i / bp * bp ≤ i := Int.ediv_mul_le i (by omega)
      have hq2 : i < i / bp * bp + bp := by
        have := Int.lt_ediv_add_one_mul_self i hbpos
        linarith
      have hq3 : i / bp < g - 1 := by
        apply Int.ediv_lt_of_lt_mul hbpos
        omega
      have hm : read_start_block_ofst tot g (i / bp) ≤ i ∧
          i < read_start_block_ofst tot g (i / bp) + read_nblocks tot g (i / bp) := by
        unfold read_start_block_ofst read_nblocks
        rw [hbp, if_pos hq3]
        exact ⟨hq1, hq2⟩
      refine ⟨i / bp, ⟨hq0, by omega, hm.1, hm.2⟩, ?_⟩
      rintro r ⟨h0, h1, a, b⟩
      by_contra hne
      rcases lt_or_gt_of_ne hne with h | h
      · exact huniq r (i / bp) h0 h (by omega) ⟨a, b⟩ hm
      · exact huniq (i / bp) r hq0 h h1 hm ⟨a, b⟩


/-- The values the Voronoi reader takes from the file in iteration `b` are those of the
block at its file index. -/
theorem v_gets_at (M : Nat) (procs : List (List vlocal))
    (hwf : ∀ p ∈ procs, ∀ b ∈ p, vblock_wf M b.v)
    (groupsize rank : Int) (hg : 1 ≤ groupsize) (h0 : 0 ≤ rank) (h1 : rank < groupsize)
    (b : Nat) (hb : (b : Int) < read_nblocks procs.flatten.length groupsize rank) :
    ∃ blk, procs.flatten[(rank * ((procs.flatten.length : Int) / groupsize) + b).toNat]?
        = some blk ∧
      pnetcdf_read_gets M (pnetcdf_write M procs) procs.flatten.length
          (ncmpi_get_vara (pnetcdf_write M procs) .g_block_ids 0 procs.flatten.length 1)
          (read_start_block_ofst procs.flatten.length groupsize rank).toNat b =
        { v := blk.v, gid := blk.gid, num_neighbors := blk.neigh_gbs.length,
          neighbors := blk.neigh_gbs.map (fun g => g.gid) } := by
  have hwf2 : ∀ b ∈ procs.flatten, vblock_wf M b.v := by
    intro b hb
    obtain ⟨p, hp, hbp⟩ := List.mem_flatten.mp hb
    exact hwf p hp b hbp
  have ht : (0 : Int) ≤ (procs.flatten.length : Int) := Int.natCast_nonneg _
  obtain ⟨hbp0, _, _, hdiv⟩ := read_bp_facts procs.flatten.length groupsize ht hg
  obtain ⟨_, hin, _⟩ := read_ranges procs.flatten.length groupsize ht hg
  have hs0 : 0 ≤ read_start_block_ofst procs.flatten.length groupsize rank :=
    Int.mul_nonneg h0 hbp0
  obtain ⟨_, hlt⟩ := hin rank (read_start_block_ofst procs.flatten.length groupsize rank + b)
    h0 h1 (by omega) (by omega)
  have hidx : (rank * ((procs.flatten.length : Int) / groupsize) + b).toNat
      = (read_start_block_ofst procs.flatten.length groupsize rank).toNat + b := by
    unfold read_start_block_ofst at hs0 ⊢
    rw [hdiv] at hs0 ⊢
    omega
  have hi : (read_start_block_ofst procs.flatten.length groupsize rank).toNat + b
      < procs.flatten.length := by omega
  rw [hidx]
  refine ⟨procs.flatten[(read_start_block_ofst procs.flatten.length groupsize rank).toNat + b],
    List.getElem?_eq_getElem hi, ?_⟩
  exact v_read_block M procs hwf2 _ _ (List.getElem?_eq_getElem hi) _ b rfl


/-! ## Facts on `pnetcdf_d_write` -/

theorem dproc_quants_eq (bs : List dlocal) (q : Quant) :
    pnetcdf_d_write_proc_quants bs q = (bs.map (dcount q)).sum := by
  cases q <;>
    (induction bs with
     | nil => rfl
     | cons a l ih => simp_all [pnetcdf_d_write_proc_quants, dcount, Nat.add_comm])

theorem dadvance_eq (b : dlocal) (o : quants) (q : Quant) :
    pnetcdf_d_write_advance b o q = o q + dcount q b := by
  cases q <;> simp [pnetcdf_d_write_advance, dcount]

theorem dcalls_nodup (b : dlocal) (o : quants) :
    ((pnetcdf_d_write_calls b o).map (fun c => c.varid)).Nodup := by
  simp only [pnetcdf_d_write_calls, List.map_cons, List.map_nil]
  decide

theorem dcalls_col (b : dlocal) (hwf : dblock_wf b.d) (o : quants)
    (x : Var) (q : Quant) (hx : dlayout x = some q) :
    (piece x (pnetcdf_d_write_calls b o)).length = dcount q b * dwidth x ∧
    ∀ c, call_on x (pnetcdf_d_write_calls b o) = some c →
      c.start0 = o q ∨ c.buf.take (c.count0 * c.count1) = [] := by
  obtain ⟨h1, h2, h3, h4, h5, h6⟩ := hwf
  cases x <;> simp [dlayout, dscalar, dfield] at hx <;> subst hx <;>
    simp [piece, call_on, pnetcdf_d_write_calls, List.find?, dcount, dwidth, *]
  all_goals
    first
    | (by_cases h : b.d.num_tets = 0 <;> simp [h] <;> omega)
    | (by_cases h : b.d.num_rem_tet_verts = 0 <;> simp [h])

theorem shape_ddefine (tot : quants) (x : Var) :
    (pnetcdf_d_write_define tot).shape x = dshape x := by
  cases x <;> rfl

theorem dimlen_ddefine (tot : quants) (d : Dim) :
    (pnetcdf_d_write_define tot).dimlen d = ddimlen tot d := by
  cases d <;> rfl

theorem rowlen_ddefine (tot : quants) (x : Var) :
    rowlen (pnetcdf_d_write_define tot) x = dwidth x := by
  unfold rowlen
  rw [shape_ddefine, show (pnetcdf_d_write_define tot).dimlen = ddimlen tot from
    funext (dimlen_ddefine tot)]
  cases x <;> simp [dshape, ddimlen, dwidth]

theorem data_ddefine (tot : quants) (x : Var) (q : Quant) (hx : dlayout x = some q) :
    (pnetcdf_d_write_define tot).data x = List.replicate (tot q * dwidth x) 0 := by
  have h : (pnetcdf_d_write_define tot).data x =
      List.replicate ((((pnetcdf_d_write_define tot).shape x).map
        (pnetcdf_d_write_define tot).dimlen).prod) 0 := rfl
  rw [h, shape_ddefine, show (pnetcdf_d_write_define tot).dimlen = ddimlen tot from
    funext (dimlen_ddefine tot)]
  cases x <;> simp [dlayout, dscalar, dfield] at hx <;> subst hx <;>
    simp [dshape, ddimlen, dwidth]

theorem dtot_quants_eq (procs : List (List dlocal)) :
    pnetcdf_d_write_tot_quants procs = fun q => (procs.flatten.map (dcount q)).sum := by
  funext q
  exact allreduce_eq dcount pnetcdf_d_write_proc_quants dproc_quants_eq procs q

/-- A run of `pnetcdf_d_write` leaves the file that one process holding all the blocks,
in the same order, would leave. -/
theorem pnetcdf_d_write_single (procs : List (List dlocal)) :
    pnetcdf_d_write procs =
      (write_loop pnetcdf_d_write_calls pnetcdf_d_write_advance procs.flatten
          quants_init).flatten.foldl ncmpi_put_vara
        (pnetcdf_d_write_define (fun q => (procs.flatten.map (dcount q)).sum)) := by
  unfold pnetcdf_d_write pnetcdf_d_write_trace
  rw [dtot_quants_eq]
  congr 1
  exact ranks_eq_single pnetcdf_d_write_calls pnetcdf_d_write_advance dcount dadvance_eq
    pnetcdf_d_write_proc_quants dproc_quants_eq procs

theorem drank_calls (procs : List (List dlocal)) (p b : Nat) (blk : dlocal)
    (hb : (procs.getD p [])[b]? = some blk) :
    (pnetcdf_d_write_rank procs p)[b]? =
      some (pnetcdf_d_write_calls blk (fun q => excl_scan (dcount q) procs p b)) := by
  unfold pnetcdf_d_write_rank pnetcdf_d_write_loop
  rw [write_loop_getElem pnetcdf_d_write_calls pnetcdf_d_write_advance dcount dadvance_eq _ _ b
    blk hb]
  congr 2
  funext q
  simp only [pnetcdf_d_write_ofsts, excl_scan, running]
  rw [exscan_eq dcount pnetcdf_d_write_proc_quants dproc_quants_eq]

theorem dcalls_starts (blk : dlocal) (o : quants) :
    ∀ c ∈ pnetcdf_d_write_calls blk o, ∀ q,
      (dfield c.varid = some q →
        c.start0 = if guarded q = true ∧ dcount q blk = 0 then 0 else o q) ∧
      (doffvar c.varid = some q → c.buf = [(o q : Int)]) ∧
      (dscalar c.varid = true → c.start0 = o .NUM_BLOCKS ∧ c.count0 = 1) := by
  simp only [pnetcdf_d_write_calls, List.forall_mem_cons]
  simp [dfield, doffvar, dscalar, guarded, dcount]

/-! ## Reading back a Delaunay file -/

theorem dwrite_rowlen (procs : List (List dlocal)) (x : Var) :
    rowlen (pnetcdf_d_write procs) x = dwidth x := by
  unfold pnetcdf_d_write
  rw [foldl_put_rowlen, rowlen_ddefine]

theorem dwrite_tot_blocks (procs : List (List dlocal)) :
    read_tot_blocks (pnetcdf_d_write procs) = procs.flatten.length := by
  unfold read_tot_blocks pnetcdf_d_write
  rw [(foldl_put_frame _ _).1, (foldl_put_frame _ _).2, shape_ddefine, dimlen_ddefine,
    dtot_quants_eq]
  simp only [dshape, List.headD_cons, ddimlen]
  generalize procs.flatten = l
  induction l with
  | nil => rfl
  | cons a l ih => simp [dcount, ih, Nat.add_comm]

theorem dwrite_data (procs : List (List dlocal))
    (hwf : ∀ b ∈ procs.flatten, dblock_wf b.d) (x : Var) (q : Quant)
    (hx : dlayout x = some q) :
    (pnetcdf_d_write procs).data x =
      ((write_loop pnetcdf_d_write_calls pnetcdf_d_write_advance procs.flatten
        quants_init).map (piece x)).flatten := by
  rw [pnetcdf_d_write_single]
  exact run_data pnetcdf_d_write_calls pnetcdf_d_write_advance dcount
    pnetcdf_d_write_define dlayout dwidth rowlen_ddefine data_ddefine
    dcalls_nodup dadvance_eq procs.flatten
    (fun b hb o x q hx => dcalls_col b (hwf b hb) o x q hx) _ (fun _ => rfl) x q hx

theorem d_get (procs : List (List dlocal))
    (hwf : ∀ b ∈ procs.flatten, dblock_wf b.d) (i : Nat) (blk : dlocal)
    (hb : procs.flatten[i]? = some blk) (x : Var) (q : Quant) (hx : dlayout x = some q) :
    ncmpi_get_vara (pnetcdf_d_write procs) x (running dcount procs.flatten i q)
        (dcount q blk) (dwidth x)
      = piece x (pnetcdf_d_write_calls blk (running dcount procs.flatten i)) := by
  unfold ncmpi_get_vara
  rw [dwrite_rowlen, dwrite_data procs hwf x q hx]
  exact run_slice pnetcdf_d_write_calls pnetcdf_d_write_advance dcount x q (dwidth x)
    dadvance_eq procs.flatten (fun b hb o => (dcalls_col b (hwf b hb) o x q hx).1) i blk hb

theorem d_entry (procs : List (List dlocal))
    (hwf : ∀ b ∈ procs.flatten, dblock_wf b.d) (i : Nat) (blk : dlocal)
    (hb : procs.flatten[i]? = some blk) (x : Var) (hx : dlayout x = some .NUM_BLOCKS)
    (hw : dwidth x = 1) :
    (ncmpi_get_vara (pnetcdf_d_write procs) x 0 procs.flatten.length 1).getD i 0
      = (piece x (pnetcdf_d_write_calls blk (running dcount procs.flatten i))).headD 0 ∧
    read_int (pnetcdf_d_write procs) x i
      = (piece x (pnetcdf_d_write_calls blk (running dcount procs.flatten i))).headD 0 := by
  obtain ⟨hi, _⟩ := List.getElem?_eq_some.mp hb
  have h := d_get procs hwf i blk hb x .NUM_BLOCKS hx
  have hl := (dcalls_col blk (hwf blk (by
    obtain ⟨hi, e⟩ := List.getElem?_eq_some.mp hb
    exact e ▸ List.getElem_mem hi)) (running dcount procs.flatten i) x .NUM_BLOCKS hx).1
  rw [running_blocks dcount (fun _ => rfl) _ i (Nat.le_of_lt hi)] at h
  rw [hw] at h hl
  have hc : dcount .NUM_BLOCKS blk = 1 := rfl
  rw [hc] at h hl
  constructor
  · unfold ncmpi_get_vara at h ⊢
    rw [dwrite_rowlen, hw] at h ⊢
    exact getD_of_slice _ i _ hi _ h hl
  · unfold read_int
    rw [h]

theorem read_rem_tet_verts_eq (l : List remote_vert_t) :
    read_rem_tet_verts l.length (l.map (fun r => r.gid)) (l.map (fun r => r.nid))
      (l.map (fun r => r.dir)) = l := by
  apply List.ext_getElem
  · simp [read_rem_tet_verts]
  · intro n h1 h2
    simp [read_rem_tet_verts, List.getD, List.getElem?_eq_getElem h2]


theorem d_read_block (procs : List (List dlocal))
    (hwf : ∀ b ∈ procs.flatten, dblock_wf b.d) (i : Nat) (blk : dlocal)
    (hb : procs.flatten[i]? = some blk) (s b : Nat) (hs : s + b = i) :
    pnetcdf_d_read_gets (pnetcdf_d_write procs) procs.flatten.length
        (ncmpi_get_vara (pnetcdf_d_write procs) .g_block_ids 0 procs.flatten.length 1) s b
      = { d := blk.d, gid := blk.gid, num_neighbors := blk.neigh_gbs.length,
          neighbors := blk.neigh_gbs.map (fun g => g.gid) } := by
  have hmem : blk ∈ procs.flatten := by
    obtain ⟨hi, e⟩ := List.getElem?_eq_some.mp hb
    exact e ▸ List.getElem_mem hi
  obtain ⟨hi, _⟩ := List.getElem?_eq_some.mp hb
  have hrb := running_blocks dcount (fun _ => rfl) procs.flatten i (Nat.le_of_lt hi)
  obtain ⟨w1, w2, w3, w4, w5, w6⟩ := hwf blk hmem
  have e_num_orig_particles := (d_entry procs hwf i blk hb .num_orig_particles rfl rfl).2
  simp only [piece, call_on, pnetcdf_d_write_calls, List.find?, decide_True, decide_False,
    Nat.mul_one, List.take_succ_cons, List.take_zero, List.headD_cons, reduceCtorEq] at e_num_orig_particles
  have e_num_particles := (d_entry procs hwf i blk hb .num_particles rfl rfl).2
  simp only [piece, call_on, pnetcdf_d_write_calls, List.find?, decide_True, decide_False,
    Nat.mul_one, List.take_succ_cons, List.take_zero, List.headD_cons, reduceCtorEq] at e_num_particles
  have e_num_tets := (d_entry procs hwf i blk hb .num_tets rfl rfl).2
  simp only [piece, call_on, pnetcdf_d_write_calls, List.find?, decide_True, decide_False,
    Nat.mul_one, List.take_succ_cons, List.take_zero, List.headD_cons, reduceCtorEq] at e_num_tets
  have e_num_rem_tet_verts := (d_entry procs hwf i blk hb .num_rem_tet_verts rfl rfl).2
  simp only [piece, call_on, pnetcdf_d_write_calls, List.find?, decide_True, decide_False,
    Nat.mul_one, List.take_succ_cons, List.take_zero, List.headD_cons, reduceCtorEq] at e_num_rem_tet_verts
  have e_num_neighbors := (d_entry procs hwf i blk hb .num_neighbors rfl rfl).2
  simp only [piece, call_on, pnetcdf_d_write_calls, List.find?, decide_True, decide_False,
    Nat.mul_one, List.take_succ_cons, List.take_zero, List.headD_cons, reduceCtorEq] at e_num_neighbors
  have e_block_off_num_particles : read_block_ofst (pnetcdf_d_write procs) .block_off_num_particles procs.flatten.length i
      = running dcount procs.flatten i .NUM_PARTS := by
    unfold read_block_ofst
    rw [(d_entry procs hwf i blk hb .block_off_num_particles rfl rfl).1]
    simp [piece, call_on, pnetcdf_d_write_calls, List.find?]
  have e_block_off_num_tets : read_block_ofst (pnetcdf_d_write procs) .block_off_num_tets procs.flatten.length i
      = running dcount procs.flatten i .NUM_LOC_TETRAS := by
    unfold read_block_ofst
    rw [(d_entry procs hwf i blk hb .block_off_num_tets rfl rfl).1]
    simp [piece, call_on, pnetcdf_d_write_calls, List.find?]
  have e_block_off_num_rem_tet_verts : read_block_ofst (pnetcdf_d_write procs) .block_off_num_rem_tet_verts procs.flatten.length i
      = running dcount procs.flatten i .NUM_REM_TETRAS := by
    unfold read_block_ofst
    rw [(d_entry procs hwf i blk hb .block_off_num_rem_tet_verts rfl rfl).1]
    simp [piece, call_on, pnetcdf_d_write_calls, List.find?]
  have e_block_off_num_neighbors : read_block_ofst (pnetcdf_d_write procs) .block_off_num_neighbors procs.flatten.length i
      = running dcount procs.flatten i .NUM_NEIGHBORS := by
    unfold read_block_ofst
    rw [(d_entry procs hwf i blk hb .block_off_num_neighbors rfl rfl).1]
    simp [piece, call_on, pnetcdf_d_write_calls, List.find?]
  have e_gid := (d_entry procs hwf i blk hb .g_block_ids rfl rfl).1
  simp only [piece, call_on, pnetcdf_d_write_calls, List.find?, decide_True, decide_False,
    Nat.mul_one, List.take_succ_cons, List.take_zero, List.headD_cons, reduceCtorEq] at e_gid
  have g_mins := d_get procs hwf i blk hb .mins .NUM_BLOCKS rfl
  simp [piece, call_on, pnetcdf_d_write_calls, List.find?, dcount, dwidth, hrb,
    List.take_of_length_le, *] at g_mins
  have g_maxs := d_get procs hwf i blk hb .maxs .NUM_BLOCKS rfl
  simp [piece, call_on, pnetcdf_d_write_calls, List.find?, dcount, dwidth, hrb,
    List.take_of_length_le, *] at g_maxs
  have g_particles := d_get procs hwf i blk hb .particles .NUM_PARTS rfl
  simp [piece, call_on, pnetcdf_d_write_calls, List.find?, dcount, dwidth, hrb,
    List.take_of_length_le, *] at g_particles
  have g_neighbors := d_get procs hwf i blk hb .neighbors .NUM_NEIGHBORS rfl
  simp [piece, call_on, pnetcdf_d_write_calls, List.find?, dcount, dwidth, hrb,
    List.take_of_length_le, *] at g_neighbors
  have g_tets := d_get procs hwf i blk hb .tets .NUM_LOC_TETRAS rfl
  simp [piece, call_on, pnetcdf_d_write_calls, List.find?, dcount, dwidth, hrb,
    List.take_of_length_le, *] at g_tets
  have g_rem_tet_vert_gids := d_get procs hwf i blk hb .rem_tet_vert_gids .NUM_REM_TETRAS rfl
  simp [piece, call_on, pnetcdf_d_write_calls, List.find?, dcount, dwidth, hrb,
    List.take_of_length_le, *] at g_rem_tet_vert_gids
  have g_rem_tet_vert_nids := d_get procs hwf i blk hb .rem_tet_vert_nids .NUM_REM_TETRAS rfl
  simp [piece, call_on, pnetcdf_d_write_calls, List.find?, dcount, dwidth, hrb,
    List.take_of_length_le, *] at g_rem_tet_vert_nids
  have g_rem_tet_vert_dirs := d_get procs hwf i blk hb .rem_tet_vert_dirs .NUM_REM_TETRAS rfl
  simp [piece, call_on, pnetcdf_d_write_calls, List.find?, dcount, dwidth, hrb,
    List.take_of_length_le, *] at g_rem_tet_vert_dirs
  have g_vert_to_tet := d_get procs hwf i blk hb .vert_to_tet .NUM_PARTS rfl
  simp [piece, call_on, pnetcdf_d_write_calls, List.find?, dcount, dwidth, hrb,
    List.take_of_length_le, *] at g_vert_to_tet
  subst hs
  simp only [pnetcdf_d_read_gets, e_num_orig_particles, e_num_particles, e_num_tets,
    e_num_rem_tet_verts, e_num_neighbors, e_block_off_num_particles, e_block_off_num_tets,
    e_block_off_num_rem_tet_verts, e_block_off_num_neighbors, e_gid, Int.toNat_ofNat,
    g_mins, g_maxs, g_particles, g_vert_to_tet]
  have t_tets : ncmpi_get_vara (pnetcdf_d_write procs) .tets
      (if 2 * blk.d.num_tets ≠ 0 then running dcount procs.flatten (s + b) .NUM_LOC_TETRAS
        else 0)
      (2 * blk.d.num_tets) (if 2 * blk.d.num_tets ≠ 0 then 4 else 0) = blk.d.tets := by
    by_cases h : blk.d.num_tets = 0
    · have h0 : blk.d.tets = [] := List.length_eq_zero.mp (by rw [w4, h])
      simp [h, h0, ncmpi_get_vara]
    · have h2 : 2 * blk.d.num_tets ≠ 0 := by omega
      simp only [h, if_false] at g_tets
      simp only [ne_eq, h2, not_false_eq_true, if_true]
      rw [g_tets]
      exact List.take_of_length_le (by rw [w4])
  have t_rem_tet_vert_gids : ncmpi_get_vara (pnetcdf_d_write procs) .rem_tet_vert_gids
      (if blk.d.num_rem_tet_verts ≠ 0 then running dcount procs.flatten (s + b) .NUM_REM_TETRAS
        else 0)
      blk.d.num_rem_tet_verts 1 = blk.d.rem_tet_verts.map (fun r => r.gid) := by
    by_cases h : blk.d.num_rem_tet_verts = 0
    · have h0 : blk.d.rem_tet_verts = [] := List.length_eq_zero.mp (by rw [w5, h])
      simp [h, h0, ncmpi_get_vara]
    · simp only [ne_eq, h, not_false_eq_true, if_true]
      exact g_rem_tet_vert_gids
  have t_rem_tet_vert_nids : ncmpi_get_vara (pnetcdf_d_write procs) .rem_tet_vert_nids
      (if blk.d.num_rem_tet_verts ≠ 0 then running dcount procs.flatten (s + b) .NUM_REM_TETRAS
        else 0)
      blk.d.num_rem_tet_verts 1 = blk.d.rem_tet_verts.map (fun r => r.nid) := by
    by_cases h : blk.d.num_rem_tet_verts = 0
    · have h0 : blk.d.rem_tet_verts = [] := List.length_eq_zero.mp (by rw [w5, h])
      simp [h, h0, ncmpi_get_vara]
    · simp only [ne_eq, h, not_false_eq_true, if_true]
      exact g_rem_tet_vert_nids
  have t_rem_tet_vert_dirs : ncmpi_get_vara (pnetcdf_d_write procs) .rem_tet_vert_dirs
      (if blk.d.num_rem_tet_verts ≠ 0 then running dcount procs.flatten (s + b) .NUM_REM_TETRAS
        else 0)
      blk.d.num_rem_tet_verts 1 = blk.d.rem_tet_verts.map (fun r => r.dir) := by
    by_cases h : blk.d.num_rem_tet_verts = 0
    · have h0 : blk.d.rem_tet_verts = [] := List.length_eq_zero.mp (by rw [w5, h])
      simp [h, h0, ncmpi_get_vara]
    · simp only [ne_eq, h, not_false_eq_true, if_true]
      exact g_rem_tet_vert_dirs
  have t_neighbors : (if blk.neigh_gbs.length ≠ 0 then
      ncmpi_get_vara (pnetcdf_d_write procs) .neighbors
        (running dcount procs.flatten (s + b) .NUM_NEIGHBORS) blk.neigh_gbs.length 1
      else []) = blk.neigh_gbs.map (fun g => g.gid) := by
    by_cases h : blk.neigh_gbs.length = 0
    · have h0 : blk.neigh_gbs = [] := List.length_eq_zero.mp h
      simp [h0]
    · simp only [ne_eq, h, not_false_eq_true, if_true]
      exact g_neighbors
  have t_rem := read_rem_tet_verts_eq blk.d.rem_tet_verts
  rw [w5] at t_rem
  rw [t_tets, t_rem_tet_vert_gids, t_rem_tet_vert_nids, t_rem_tet_vert_dirs, t_neighbors, t_rem]

/-- The values the Delaunay reader takes from the file in iteration `b` are those of the
block at its file index. -/
theorem d_gets_at (procs : List (List dlocal))
    (hwf : ∀ p ∈ procs, ∀ b ∈ p, dblock_wf b.d)
    (groupsize rank : Int) (hg : 1 ≤ groupsize) (h0 : 0 ≤ rank) (h1 : rank < groupsize)
    (b : Nat) (hb : (b : Int) < read_nblocks procs.flatten.length groupsize rank) :
    ∃ blk, procs.flatten[(rank * ((procs.flatten.length : Int) / groupsize) + b).toNat]?
        = some blk ∧
      pnetcdf_d_read_gets (pnetcdf_d_write procs) procs.flatten.length
          (ncmpi_get_vara (pnetcdf_d_write procs) .g_block_ids 0 procs.flatten.length 1)
          (read_start_block_ofst procs.flatten.length groupsize rank).toNat b =
        { d := blk.d, gid := blk.gid, num_neighbors := blk.neigh_gbs.length,
          neighbors := blk.neigh_gbs.map (fun g => g.gid) } := by
  have hwf2 : ∀ b ∈ procs.flatten, dblock_wf b.d := by
    intro b hb
    obtain ⟨p, hp, hbp⟩ := List.mem_flatten.mp hb
    exact hwf p hp b hbp
  have ht : (0 : Int) ≤ (procs.flatten.length : Int) := Int.natCast_nonneg _
  obtain ⟨hbp0, _, _, hdiv⟩ := read_bp_facts procs.flatten.length groupsize ht hg
  obtain ⟨_, hin, _⟩ := read_ranges procs.flatten.length groupsize ht hg
  have hs0 : 0 ≤ read_start_block_ofst procs.flatten.length groupsize rank :=
    Int.mul_nonneg h0 hbp0
  obtain ⟨_, hlt⟩ := hin rank (read_start_block_ofst procs.flatten.length groupsize rank + b)
    h0 h1 (by omega) (by omega)
  have hidx : (rank * ((procs.flatten.length : Int) / groupsize) + b).toNat
      = (read_start_block_ofst procs.flatten.length groupsize rank).toNat + b := by
    unfold read_start_block_ofst at hs0 ⊢
    rw [hdiv] at hs0 ⊢
    omega
  have hi : (read_start_block_ofst procs.flatten.length groupsize rank).toNat + b
      < procs.flatten.length := by omega
  rw [hidx]
  refine ⟨procs.flatten[(read_start_block_ofst procs.flatten.length groupsize rank).toNat + b],
    List.getElem?_eq_getElem hi, ?_⟩
  exact d_read_block procs hwf2 _ _ (List.getElem?_eq_getElem hi) _ b rfl

/-! ## The order of the calls does not matter -/

theorem overwrite_length (arr : List Int) (p : Nat) (d : List Int)
    (h : p + d.length ≤ arr.length) : (overwrite arr p d).length = arr.length := by
  simp only [overwrite, List.length_append, List.length_take, List.length_drop]
  omega

theorem overwrite_getElem? (arr : List Int) (p : Nat) (d : List Int)
    (h : p + d.length ≤ arr.length) (j : Nat) :
    (overwrite arr p d)[j]? =
      if j < p then arr[j]? else if j < p + d.length then d[j - p]? else arr[j]? := by
  unfold overwrite
  by_cases h1 : j < p
  · rw [if_pos h1, List.append_assoc, List.getElem?_append_left (by simp; omega)]
    simp [List.getElem?_take, h1]
  · have hp : (arr.take p).length = p := by simp; omega
    rw [if_neg h1, List.append_assoc, List.getElem?_append_right (by omega), hp]
    by_cases h2 : j < p + d.length
    · rw [if_pos h2, List.getElem?_append_left (by omega)]
    · rw [if_neg h2, List.getElem?_append_right (by omega), List.getElem?_drop]
      congr 1
      omega

theorem overwrite_comm (arr : List Int) (p1 p2 : Nat) (d1 d2 : List Int)
    (h12 : p1 + d1.length ≤ p2) (h2 : p2 + d2.length ≤ arr.length) :
    overwrite (overwrite arr p1 d1) p2 d2 = overwrite (overwrite arr p2 d2) p1 d1 := by
  have h1 : p1 + d1.length ≤ arr.length := by omega
  have l1 := overwrite_length arr p1 d1 h1
  have l2 := overwrite_length arr p2 d2 h2
  apply List.ext_getElem?
  intro j
  rw [overwrite_getElem? (overwrite arr p1 d1) p2 d2 (by omega),
    overwrite_getElem? (overwrite arr p2 d2) p1 d1 (by omega),
    overwrite_getElem? arr p1 d1 h1, overwrite_getElem? arr p2 d2 h2]
  by_cases a : j < p1
  · have b : j < p2 := by omega
    simp [a, b]
  · by_cases c : j < p1 + d1.length
    · have b : j < p2 := by omega
      simp [a, b, c]
    · by_cases b : j < p2
      · simp [a, b, c]
      · simp [a, b, c]

/-- The values a call sends and the place it sends them to, for row length `w`. -/
theorem put_var_comm (w : Nat) (x : Var) (c1 c2 : put_call)
    (h : c1.varid ≠ x ∨ c2.varid ≠ x ∨ c1 = c2 ∨
      c1.buf.take (c1.count0 * c1.count1) = [] ∨ c2.buf.take (c2.count0 * c2.count1) = [] ∨
      c1.start0 * w + (c1.buf.take (c1.count0 * c1.count1)).length ≤ c2.start0 * w ∨
      c2.start0 * w + (c2.buf.take (c2.count0 * c2.count1)).length ≤ c1.start0 * w)
    (arr : List Int) :
    put_var w x (put_var w x arr c1) c2 = put_var w x (put_var w x arr c2) c1 := by
  have hlen : ∀ (a : List Int) (c : put_call), (put_var w x a c).length = a.length := by
    intro a c
    unfold put_var
    split
    · split
      · rename_i hb
        exact overwrite_length _ _ _ hb
      · rfl
    · rfl
  have hnil : ∀ (a : List Int) (c : put_call), c.buf.take (c.count0 * c.count1) = [] →
      put_var w x a c = a := by
    intro a c hc
    unfold put_var
    rw [hc]
    simp [overwrite_nil]
  rcases h with h | h | h | h | h | h | h
  · have e : ∀ a, put_var w x a c1 = a := fun a => by simp [put_var, h]
    rw [e, e]
  · have e : ∀ a, put_var w x a c2 = a := fun a => by simp [put_var, h]
    rw [e, e]
  · rw [h]
  · rw [hnil _ c1 h, hnil _ c1 h]
  · rw [hnil _ c2 h, hnil _ c2 h]
  · by_cases v1 : c1.varid = x
    · by_cases v2 : c2.varid = x
      · by_cases b2 : c2.start0 * w + (c2.buf.take (c2.count0 * c2.count1)).length ≤ arr.length
        · have b1 : c1.start0 * w + (c1.buf.take (c1.count0 * c1.count1)).length
              ≤ arr.length := by omega
          have l1 := overwrite_length arr _ _ b1
          have l2 := overwrite_length arr _ _ b2
          simp only [put_var, v1, v2, if_true, b1, b2, l1, l2]
          exact overwrite_comm arr _ _ _ _ h b2
        · have e : ∀ a : List Int, a.length = arr.length → put_var w x a c2 = a := by
            intro a ha
            have hb : ¬ (c2.start0 * w + (c2.buf.take (c2.count0 * c2.count1)).length
                ≤ a.length) := by rw [ha]; exact b2
            simp only [put_var, v2, if_true, hb, if_false]
          rw [e arr rfl, e _ (hlen arr c1)]
      · have e : ∀ a, put_var w x a c2 = a := fun a => by simp [put_var, v2]
        rw [e, e]
    · have e : ∀ a, put_var w x a c1 = a := fun a => by simp [put_var, v1]
      rw [e, e]
  · by_cases v1 : c1.varid = x
    · by_cases v2 : c2.varid = x
      · by_cases b1 : c1.start0 * w + (c1.buf.take (c1.count0 * c1.count1)).length ≤ arr.length
        · have b2 : c2.start0 * w + (c2.buf.take (c2.count0 * c2.count1)).length
              ≤ arr.length := by omega
          have l1 := overwrite_length arr _ _ b1
          have l2 := overwrite_length arr _ _ b2
          simp only [put_var, v1, v2, if_true, b1, b2, l1, l2]
          exact (overwrite_comm arr _ _ _ _ h b1).symm
        · have e : ∀ a : List Int, a.length = arr.length → put_var w x a c1 = a := by
            intro a ha
            have hb : ¬ (c1.start0 * w + (c1.buf.take (c1.count0 * c1.count1)).length
                ≤ a.length) := by rw [ha]; exact b1
            simp only [put_var, v1, if_true, hb, if_false]
          rw [e arr rfl, e _ (hlen arr c2)]
      · have e : ∀ a, put_var w x a c2 = a := fun a => by simp [put_var, v2]
        rw [e, e]
    · have e : ∀ a, put_var w x a c1 = a := fun a => by simp [put_var, v1]
      rw [e, e]

theorem call_on_of_mem (x : Var) (calls : List put_call)
    (hnd : (calls.map (fun c => c.varid)).Nodup) (c : put_call) (hc : c ∈ calls)
    (hx : c.varid = x) : call_on x calls = some c := by
  induction calls with
  | nil => simp at hc
  | cons a cs ih =>
    simp only [List.map_cons, List.nodup_cons] at hnd
    rcases List.mem_cons.mp hc with e | hm
    · subst e
      simp [call_on, List.find?, hx]
    · have hne : ¬ a.varid = x := by
        intro e
        exact hnd.1 (by rw [e, ← hx]; exact List.mem_map_of_mem _ hm)
      simp only [call_on, List.find?, hne, decide_False]
      exact ih hnd.2 hm

theorem running_step {β : Type} (cnt : Quant → β → Nat) (bs : List β) (i1 i2 : Nat) (b1 : β)
    (h1 : bs[i1]? = some b1) (h : i1 < i2) (q : Quant) :
    running cnt bs i1 q + cnt q b1 ≤ running cnt bs i2 q := by
  induction bs generalizing i1 i2 with
  | nil => simp at h1
  | cons a bs ih =>
    cases i2 with
    | zero => omega
    | succ i2 =>
      cases i1 with
      | zero =>
        simp at h1; subst h1
        simp [running]
      | succ i1 =>
        simp at h1
        have := ih i1 i2 h1 (by omega)
        simp only [running, List.take_succ_cons, List.map_cons, List.sum_cons] at this ⊢
        omega

section order
variable {β : Type} (calls : β → quants → List put_call) (advance : β → quants → quants)
  (cnt : Quant → β → Nat)

theorem mem_write_loop (hadv : ∀ b o q, advance b o q = o q + cnt q b)
    (bs : List β) (o : quants) (c : put_call)
    (hc : c ∈ (write_loop calls advance bs o).flatten) :
    ∃ i b, bs[i]? = some b ∧ c ∈ calls b (fun q => o q + running cnt bs i q) := by
  obtain ⟨l, hl, hcl⟩ := List.mem_flatten.mp hc
  obtain ⟨i, hi, e⟩ := List.getElem_of_mem hl
  have hi2 : i < bs.length := by rwa [write_loop_length] at hi
  have hg := write_loop_getElem calls advance cnt hadv bs o i bs[i]
    (List.getElem?_eq_getElem hi2)
  rw [List.getElem?_eq_getElem hi, e] at hg
  refine ⟨i, bs[i], List.getElem?_eq_getElem hi2, ?_⟩
  rw [← Option.some.inj hg]
  exact hcl

/-- Any two calls of a run act on a variable in either order with the same effect: they
are for different variables, or the same call, or an empty slice, or slices that do
not overlap. -/
theorem run_calls_comm (layout : Var → Option Quant) (width : Var → Nat)
    (hnd : ∀ b o, ((calls b o).map (fun c => c.varid)).Nodup)
    (hadv : ∀ b o q, advance b o q = o q + cnt q b)
    (hlay : ∀ b o x q, layout x = some q → ∀ c, call_on x (calls b o) = some c →
      (c.buf.take (c.count0 * c.count1)).length ≤ cnt q b * width x ∧
      (c.start0 = o q ∨ c.buf.take (c.count0 * c.count1) = []))
    (hnone : ∀ b o x, layout x = none → ∀ c ∈ calls b o, c.varid ≠ x)
    (bs : List β) (o : quants) (x : Var) (c1 c2 : put_call)
    (h1 : c1 ∈ (write_loop calls advance bs o).flatten)
    (h2 : c2 ∈ (write_loop calls advance bs o).flatten) (arr : List Int) :
    put_var (width x) x (put_var (width x) x arr c1) c2
      = put_var (width x) x (put_var (width x) x arr c2) c1 := by
  apply put_var_comm
  by_cases v1 : c1.varid = x
  swap
  · exact Or.inl v1
  by_cases v2 : c2.varid = x
  swap
  · exact Or.inr (Or.inl v2)
  obtain ⟨i1, b1, hb1, m1⟩ := mem_write_loop calls advance cnt hadv bs o c1 h1
  obtain ⟨i2, b2, hb2, m2⟩ := mem_write_loop calls advance cnt hadv bs o c2 h2
  cases hq : layout x with
  | none => exact absurd v1 (hnone b1 _ x hq c1 m1)
  | some q =>
    have k1 := call_on_of_mem x _ (hnd b1 _) c1 m1 v1
    have k2 := call_on_of_mem x _ (hnd b2 _) c2 m2 v2
    obtain ⟨len1, st1⟩ := hlay b1 _ x q hq c1 k1
    obtain ⟨len2, st2⟩ := hlay b2 _ x q hq c2 k2
    right; right
    rcases Nat.lt_trichotomy i1 i2 with hlt | heq | hgt
    · rcases st1 with s1 | s1
      · rcases st2 with s2 | s2
        · right; right; right; left
          have hm := running_step cnt bs i1 i2 b1 hb1 hlt q
          rw [s1, s2]
          calc (o q + running cnt bs i1 q) * width x
                + (c1.buf.take (c1.count0 * c1.count1)).length
              ≤ (o q + running cnt bs i1 q) * width x + cnt q b1 * width x := by omega
            _ = (o q + running cnt bs i1 q + cnt q b1) * width x := by
                rw [Nat.add_mul (o q + running cnt bs i1 q)]
            _ ≤ (o q + running cnt bs i2 q) * width x :=
                Nat.mul_le_mul_right _ (by omega)
        · exact Or.inr (Or.inr (Or.inl s2))
      · exact Or.inr (Or.inl s1)
    · subst heq
      rw [hb1] at hb2
      have e := Option.some.inj hb2
      subst e
      rw [k1] at k2
      exact Or.inl (Option.some.inj k2)
    · rcases st1 with s1 | s1
      · rcases st2 with s2 | s2
        · right; right; right; right
          have hm := running_step cnt bs i2 i1 b2 hb2 hgt q
          rw [s1, s2]
          calc (o q + running cnt bs i2 q) * width x
                + (c2.buf.take (c2.count0 * c2.count1)).length
              ≤ (o q + running cnt bs i2 q) * width x + cnt q b2 * width x := by omega
            _ = (o q + running cnt bs i2 q + cnt q b2) * width x := by
                rw [Nat.add_mul (o q + running cnt bs i2 q)]
            _ ≤ (o q + running cnt bs i1 q) * width x :=
                Nat.mul_le_mul_right _ (by omega)
        · exact Or.inr (Or.inr (Or.inl s2))
      · exact Or.inr (Or.inl s1)

/-- The file a run leaves behind does not depend on the order in which its calls are
applied. -/
theorem run_any_order (layout : Var → Option Quant) (width : Var → Nat)
    (hnd : ∀ b o, ((calls b o).map (fun c => c.varid)).Nodup)
    (hadv : ∀ b o q, advance b o q = o q + cnt q b)
    (hlay : ∀ b o x q, layout x = some q → ∀ c, call_on x (calls b o) = some c →
      (c.buf.take (c.count0 * c.count1)).length ≤ cnt q b * width x ∧
      (c.start0 = o q ∨ c.buf.take (c.count0 * c.count1) = []))
    (hnone : ∀ b o x, layout x = none → ∀ c ∈ calls b o, c.varid ≠ x)
    (bs : List β) (f : ncfile) (hrow : ∀ x, rowlen f x = width x)
    (tr : List put_call)
    (hperm : tr.Perm (write_loop calls advance bs quants_init).flatten) :
    tr.foldl ncmpi_put_vara f
      = (write_loop calls advance bs quants_init).flatten.foldl ncmpi_put_vara f := by
  have hd : ∀ x, (tr.foldl ncmpi_put_vara f).data x
      = ((write_loop calls advance bs quants_init).flatten.foldl ncmpi_put_vara f).data x := by
    intro x
    rw [foldl_put_data, foldl_put_data, hrow]
    exact (List.Perm.foldl_eq' hperm.symm
      (fun c1 h1 c2 h2 arr => run_calls_comm calls advance cnt layout width hnd hadv hlay
        hnone bs quants_init x c1 c2 h1 h2 arr) (f.data x)).symm
  have e1 := foldl_put_frame tr f
  have e2 := foldl_put_frame (write_loop calls advance bs quants_init).flatten f
  generalize tr.foldl ncmpi_put_vara f = A at *
  generalize (write_loop calls advance bs quants_init).flatten.foldl ncmpi_put_vara f = B at *
  cases A
  cases B
  simp only at e1 e2 hd
  simp only [ncfile.mk.injEq]
  exact ⟨e1.1.trans e2.1.symm, e1.2.trans e2.2.symm, funext hd⟩

end order

/-- The slices `pnetcdf_write` sends need no well-formed buffers to stay inside their
block's share. -/
theorem vcalls_lay (M : Nat) (b : vlocal) (o : quants) (x : Var) (q : Quant)
    (hx : vlayout x = some q) (c : put_call)
    (hc : call_on x (pnetcdf_write_calls M b o) = some c) :
    (c.buf.take (c.count0 * c.count1)).length ≤ vcount q b * vwidth M x ∧
    (c.start0 = o q ∨ c.buf.take (c.count0 * c.count1) = []) := by
  cases x <;> simp [vlayout, vscalar, vfield] at hx <;> subst hx <;>
    simp only [call_on, pnetcdf_write_calls, List.find?, decide_True, decide_False,
      reduceCtorEq, Option.some.injEq] at hc <;> subst hc <;>
    simp [vcount, vwidth, Nat.min_le_left]
  all_goals
    first
    | (by_cases h : b.v.num_loc_tets = 0 <;> simp [h, Nat.min_le_left])
    | (by_cases h : b.v.num_rem_tets = 0 <;> simp [h, Nat.min_le_left])

theorem vcalls_none (M : Nat) (b : vlocal) (o : quants) (x : Var) (hx : vlayout x = none) :
    ∀ c ∈ pnetcdf_write_calls M b o, c.varid ≠ x := by
  simp only [pnetcdf_write_calls, List.forall_mem_cons]
  cases x <;> simp [vlayout, vscalar, vfield] at hx <;> simp

theorem dcalls_lay (b : dlocal) (o : quants) (x : Var) (q : Quant)
    (hx : dlayout x = some q) (c : put_call)
    (hc : call_on x (pnetcdf_d_write_calls b o) = some c) :
    (c.buf.take (c.count0 * c.count1)).length ≤ dcount q b * dwidth x ∧
    (c.start0 = o q ∨ c.buf.take (c.count0 * c.count1) = []) := by
  cases x <;> simp [dlayout, dscalar, dfield] at hx <;> subst hx <;>
    simp only [call_on, pnetcdf_d_write_calls, List.find?, decide_True, decide_False,
      reduceCtorEq, Option.some.injEq] at hc <;> subst hc <;>
    simp [dcount, dwidth, Nat.min_le_left]
  all_goals
    first
    | (by_cases h : b.d.num_tets = 0 <;> simp [h, Nat.min_le_left] <;> omega)
    | (by_cases h : b.d.num_rem_tet_verts = 0 <;> simp [h, Nat.min_le_left])

theorem dcalls_none (b : dlocal) (o : quants) (x : Var) (hx : dlayout x = none) :
    ∀ c ∈ pnetcdf_d_write_calls b o, c.varid ≠ x := by
  simp only [pnetcdf_d_write_calls, List.forall_mem_cons]
  cases x <;> simp [dlayout, dscalar, dfield] at hx <;> simp

/-- The file `pnetcdf_write` leaves behind is the same in whatever order the calls of
its processes reach the file. -/
theorem pnetcdf_write_any_order (M : Nat) (procs : List (List vlocal)) (tr : List put_call)
    (hperm : tr.Perm (pnetcdf_write_trace M procs)) :
    tr.foldl ncmpi_put_vara (pnetcdf_write_define M (pnetcdf_write_tot_quants procs))
      = pnetcdf_write M procs := by
  have hs : pnetcdf_write_trace M procs
      = (write_loop (pnetcdf_write_calls M) pnetcdf_write_advance procs.flatten
          quants_init).flatten :=
    ranks_eq_single (pnetcdf_write_calls M) pnetcdf_write_advance vcount vadvance_eq
      pnetcdf_write_proc_quants vproc_quants_eq procs
  unfold pnetcdf_write
  rw [hs] at hperm ⊢
  exact run_any_order (pnetcdf_write_calls M) pnetcdf_write_advance vcount vlayout (vwidth M)
    (vcalls_nodup M) vadvance_eq (fun b o x q hx c hc => vcalls_lay M b o x q hx c hc)
    (vcalls_none M) procs.flatten _ (rowlen_vdefine M _) tr hperm

/-- The file `pnetcdf_d_write` leaves behind is the same in whatever order the calls of
its processes reach the file. -/
theorem pnetcdf_d_write_any_order (procs : List (List dlocal)) (tr : List put_call)
    (hperm : tr.Perm (pnetcdf_d_write_trace procs)) :
    tr.foldl ncmpi_put_vara (pnetcdf_d_write_define (pnetcdf_d_write_tot_quants procs))
      = pnetcdf_d_write procs := by
  have hs : pnetcdf_d_write_trace procs
      = (write_loop pnetcdf_d_write_calls pnetcdf_d_write_advance procs.flatten
          quants_init).flatten :=
    ranks_eq_single pnetcdf_d_write_calls pnetcdf_d_write_advance dcount dadvance_eq
      pnetcdf_d_write_proc_quants dproc_quants_eq procs
  unfold pnetcdf_d_write
  rw [hs] at hperm ⊢
  exact run_any_order pnetcdf_d_write_calls pnetcdf_d_write_advance dcount dlayout dwidth
    dcalls_nodup dadvance_eq (fun b o x q hx c hc => dcalls_lay b o x q hx c hc)
    dcalls_none procs.flatten _ (rowlen_ddefine _) tr hperm

/-! ## Global ordinals -/

theorem excl_scan_blocks {β : Type} (cnt : Quant → β → Nat) (h1 : ∀ b, cnt .NUM_BLOCKS b = 1)
    (procs : List (List β)) (p b : Nat) (hb : b ≤ (procs.getD p []).length) :
    excl_scan (cnt .NUM_BLOCKS) procs p b = ordinal procs p b := by
  have hl : ∀ l : List β, (l.map (cnt .NUM_BLOCKS)).sum = l.length := by
    intro l
    induction l with
    | nil => rfl
    | cons a l ih => simp [ih, h1, Nat.add_comm]
  simp only [excl_scan, ordinal, hl, List.length_take, List.length_flatten]
  rw [Nat.min_eq_left hb]

theorem ordinal_cons {β : Type} (l : List β) (procs : List (List β)) (p b : Nat) :
    ordinal (l :: procs) (p + 1) b = l.length + ordinal procs p b := by
  simp [ordinal, Nat.add_assoc]

/-- Every index below the total block count is the ordinal of exactly one local block. -/
theorem ordinal_unique {β : Type} (procs : List (List β)) (i : Nat)
    (hi : i < (procs.map List.length).sum) :
    ∃! pb : Nat × Nat, pb.1 < procs.length ∧ pb.2 < (procs.getD pb.1 []).length ∧
      ordinal procs pb.1 pb.2 = i := by
  induction procs generalizing i with
  | nil => simp at hi
  | cons l procs ih =>
    by_cases h : i < l.length
    · refine ⟨(0, i), ⟨by simp, by simpa using h, by simp [ordinal]⟩, ?_⟩
      rintro ⟨p, b⟩ ⟨h1, h2, h3⟩
      cases p with
      | zero =>
        simp [ordinal] at h3
        simp [h3]
      | succ p =>
        rw [ordinal_cons] at h3
        omega
    · have hi2 : i - l.length < (procs.map List.length).sum := by
        simp at hi; omega
      obtain ⟨⟨p, b⟩, ⟨h1, h2, h3⟩, huniq⟩ := ih (i - l.length) hi2
      dsimp only at h1 h2 h3
      refine ⟨(p + 1, b), ⟨by simpa using h1, by simpa using h2, ?_⟩, ?_⟩
      · dsimp only
        rw [ordinal_cons]
        omega
      · rintro ⟨p2, b2⟩ ⟨g1, g2, g3⟩
        dsimp only at g1 g2 g3
        cases p2 with
        | zero =>
          simp [ordinal] at g3 g2
          omega
        | succ p2 =>
          rw [ordinal_cons] at g3
          have := huniq (p2, b2) ⟨by simpa using g1, by simpa using g2, by dsimp only; omega⟩
          simp only [Prod.mk.injEq] at this ⊢
          omega

theorem call_on_mem (x : Var) (calls : List put_call) (h : (call_on x calls).isSome = true) :
    ∃ c ∈ calls, c.varid = x := by
  obtain ⟨c, hc⟩ := Option.isSome_iff_exists.mp h
  unfold call_on at hc
  exact ⟨c, List.mem_of_find?_eq_some hc, by simpa using List.find?_some hc⟩

theorem vcalls_cover (M : Nat) (blk : vlocal) (o : quants) (x : Var)
    (hx : (vfield x).isSome = true ∨ (voffvar x).isSome = true ∨ vscalar x = true) :
    ∃ c ∈ pnetcdf_write_calls M blk o, c.varid = x := by
  apply call_on_mem
  cases x <;> simp [vfield, voffvar, vscalar] at hx <;>
    simp [call_on, pnetcdf_write_calls, List.find?]

theorem dcalls_cover (blk : dlocal) (o : quants) (x : Var)
    (hx : (dfield x).isSome = true ∨ (doffvar x).isSome = true ∨ dscalar x = true) :
    ∃ c ∈ pnetcdf_d_write_calls blk o, c.varid = x := by
  apply call_on_mem
  cases x <;> simp [dfield, doffvar, dscalar] at hx <;>
    simp [call_on, pnetcdf_d_write_calls, List.find?]

theorem vwrite_dim_blocks (M : Nat) (procs : List (List vlocal)) :
    (pnetcdf_write M procs).dimlen .num_g_blocks = (procs.map List.length).sum := by
  have h := vwrite_tot_blocks M procs
  unfold read_tot_blocks at h
  unfold pnetcdf_write at h ⊢
  rw [(foldl_put_frame _ _).2, shape_vdefine] at h
  simpa [vshape, List.length_flatten] using h

theorem dwrite_dim_blocks (procs : List (List dlocal)) :
    (pnetcdf_d_write procs).dimlen .num_g_blocks = (procs.map List.length).sum := by
  have h := dwrite_tot_blocks procs
  unfold read_tot_blocks at h
  unfold pnetcdf_d_write at h ⊢
  rw [(foldl_put_frame _ _).2, shape_ddefine] at h
  simpa [dshape, List.length_flatten] using h


/-! ## Main results on the collective I/O layout -/

/-- C1, as amended: in `pnetcdf_write` and `pnetcdf_d_write`, for local block `b` of
process `p`, every `block_off_*` variable receives the exclusive running total of its
field's per-block counts (all blocks of lower ranks, then the local blocks before
`b`), and the slice of every variable-length field starts at that running total,
except that a block whose local or remote tet count is zero writes that (empty)
slice at start 0. Every such variable is written by a call of the iteration. -/
theorem pnetcdf_write_block_offsets (M : Nat) (vprocs : List (List vlocal))
    (dprocs : List (List dlocal)) (p b p2 b2 : Nat) (vblk : vlocal) (dblk : dlocal)
    (hv : (vprocs.getD p [])[b]? = some vblk) (hd : (dprocs.getD p2 [])[b2]? = some dblk) :
    (∃ calls, (pnetcdf_write_rank M vprocs p)[b]? = some calls ∧
      (∀ x, (vfield x).isSome = true ∨ (voffvar x).isSome = true →
        ∃ c ∈ calls, c.varid = x) ∧
      ∀ c ∈ calls, ∀ q,
        (vfield c.varid = some q →
          c.start0 = if guarded q = true ∧ vcount q vblk = 0 then 0
            else excl_scan (vcount q) vprocs p b) ∧
        (voffvar c.varid = some q → c.buf = [(excl_scan (vcount q) vprocs p b : Int)])) ∧
    (∃ calls, (pnetcdf_d_write_rank dprocs p2)[b2]? = some calls ∧
      (∀ x, (dfield x).isSome = true ∨ (doffvar x).isSome = true →
        ∃ c ∈ calls, c.varid = x) ∧
      ∀ c ∈ calls, ∀ q,
        (dfield c.varid = some q →
          c.start0 = if guarded q = true ∧ dcount q dblk = 0 then 0
            else excl_scan (dcount q) dprocs p2 b2) ∧
        (doffvar c.varid = some q →
          c.buf = [(excl_scan (dcount q) dprocs p2 b2 : Int)])) := by
  refine ⟨⟨_, vrank_calls M vprocs p b vblk hv, ?_, ?_⟩,
    ⟨_, drank_calls dprocs p2 b2 dblk hd, ?_, ?_⟩⟩
  · intro x hx
    exact vcalls_cover M vblk _ x (by rcases hx with h | h <;> simp [h])
  · intro c hc q
    obtain ⟨h1, h2, _⟩ := vcalls_starts M vblk _ c hc q
    exact ⟨h1, h2⟩
  · intro x hx
    exact dcalls_cover dblk _ x (by rcases hx with h | h <;> simp [h])
  · intro c hc q
    obtain ⟨h1, h2, _⟩ := dcalls_starts dblk _ c hc q
    exact ⟨h1, h2⟩

/-- C1 at a concrete run: for the Voronoi writer one process holding the two sample
blocks, iteration 1; for the Delaunay writer two processes with one sample block
each, iteration 0 of process 1. -/
theorem pnetcdf_write_block_offsets_witness :
    (∃ calls, (pnetcdf_write_rank 1 [[sample_vblock_a, sample_vblock_b]] 0)[1]? = some calls ∧
      (∀ x, (vfield x).isSome = true ∨ (voffvar x).isSome = true →
        ∃ c ∈ calls, c.varid = x) ∧
      ∀ c ∈ calls, ∀ q,
        (vfield c.varid = some q →
          c.start0 = if guarded q = true ∧ vcount q sample_vblock_b = 0 then 0
            else excl_scan (vcount q) [[sample_vblock_a, sample_vblock_b]] 0 1) ∧
        (voffvar c.varid = some q →
          c.buf = [(excl_scan (vcount q) [[sample_vblock_a, sample_vblock_b]] 0 1 : Int)])) ∧
    (∃ calls, (pnetcdf_d_write_rank [[sample_dblock_a], [sample_dblock_b]] 1)[0]?
        = some calls ∧
      (∀ x, (dfield x).isSome = true ∨ (doffvar x).isSome = true →
        ∃ c ∈ calls, c.varid = x) ∧
      ∀ c ∈ calls, ∀ q,
        (dfield c.varid = some q →
          c.start0 = if guarded q = true ∧ dcount q sample_dblock_b = 0 then 0
            else excl_scan (dcount q) [[sample_dblock_a], [sample_dblock_b]] 1 0) ∧
        (doffvar c.varid = some q →
          c.buf = [(excl_scan (dcount q) [[sample_dblock_a], [sample_dblock_b]] 1 0 : Int)])) :=
  pnetcdf_write_block_offsets 1 [[sample_vblock_a, sample_vblock_b]]
    [[sample_dblock_a], [sample_dblock_b]] 0 1 1 0 sample_vblock_b sample_dblock_b rfl rfl

/-- C1 as stated fails: with the two sample blocks on one process, block 1 has no local
tet; its `loc_tets` slice is written at start 0 although the exclusive running total
of the local tet counts is 1 (and likewise for `tets` in the Delaunay writer, whose
running total is 2 rows). -/
theorem pnetcdf_write_block_offsets_counterexample :
    ((call_on .loc_tets
        ((pnetcdf_write_rank 1 [[sample_vblock_a, sample_vblock_b]] 0).getD 1 [])).map
          (fun c => c.start0) = some 0 ∧
      excl_scan (vcount .NUM_LOC_TETRAS) [[sample_vblock_a, sample_vblock_b]] 0 1 = 1) ∧
    ((call_on .tets
        ((pnetcdf_d_write_rank [[sample_dblock_a, sample_dblock_b]] 0).getD 1 [])).map
          (fun c => c.start0) = some 0 ∧
      excl_scan (dcount .NUM_LOC_TETRAS) [[sample_dblock_a, sample_dblock_b]] 0 1 = 2) := by
  decide

/-- C5: in `pnetcdf_write` and `pnetcdf_d_write` the dimension `num_g_blocks` is the
total number of blocks of all processes; local block `b` of process `p` writes each
of its per-block scalar entries (one entry or row, `count[0] = 1`) at its global
ordinal; and every index below the total is the ordinal of exactly one block. -/
theorem pnetcdf_write_block_index (M : Nat) (vprocs : List (List vlocal))
    (dprocs : List (List dlocal)) (p b p2 b2 : Nat) (vblk : vlocal) (dblk : dlocal)
    (i j : Nat)
    (hv : (vprocs.getD p [])[b]? = some vblk) (hd : (dprocs.getD p2 [])[b2]? = some dblk)
    (hi : i < (vprocs.map List.length).sum) (hj : j < (dprocs.map List.length).sum) :
    ((pnetcdf_write M vprocs).dimlen .num_g_blocks = (vprocs.map List.length).sum ∧
      (∃ calls, (pnetcdf_write_rank M vprocs p)[b]? = some calls ∧
          (∀ x, vscalar x = true → ∃ c ∈ calls, c.varid = x) ∧
          ∀ c ∈ calls, vscalar c.varid = true →
            c.start0 = ordinal vprocs p b ∧ c.count0 = 1) ∧
      (∃! pb : Nat × Nat, pb.1 < vprocs.length ∧ pb.2 < (vprocs.getD pb.1 []).length ∧
          ordinal vprocs pb.1 pb.2 = i)) ∧
    ((pnetcdf_d_write dprocs).dimlen .num_g_blocks = (dprocs.map List.length).sum ∧
      (∃ calls, (pnetcdf_d_write_rank dprocs p2)[b2]? = some calls ∧
          (∀ x, dscalar x = true → ∃ c ∈ calls, c.varid = x) ∧
          ∀ c ∈ calls, dscalar c.varid = true →
            c.start0 = ordinal dprocs p2 b2 ∧ c.count0 = 1) ∧
      (∃! pb : Nat × Nat, pb.1 < dprocs.length ∧ pb.2 < (dprocs.getD pb.1 []).length ∧
          ordinal dprocs pb.1 pb.2 = j)) := by
  refine ⟨⟨vwrite_dim_blocks M vprocs, ?_, ordinal_unique vprocs i hi⟩,
    ⟨dwrite_dim_blocks dprocs, ?_, ordinal_unique dprocs j hj⟩⟩
  · refine ⟨_, vrank_calls M vprocs p b vblk hv, ?_, ?_⟩
    · intro x hx
      exact vcalls_cover M vblk _ x (by simp [hx])
    · intro c hc hs
      obtain ⟨_, _, h3⟩ := vcalls_starts M vblk _ c hc .NUM_BLOCKS
      have hlt : b < (vprocs.getD p []).length := (List.getElem?_eq_some.mp hv).1
      rw [excl_scan_blocks vcount (fun _ => rfl) vprocs p b (Nat.le_of_lt hlt)] at h3
      exact h3 hs
  · refine ⟨_, drank_calls dprocs p2 b2 dblk hd, ?_, ?_⟩
    · intro x hx
      exact dcalls_cover dblk _ x (by simp [hx])
    · intro c hc hs
      obtain ⟨_, _, h3⟩ := dcalls_starts dblk _ c hc .NUM_BLOCKS
      have hlt : b2 < (dprocs.getD p2 []).length := (List.getElem?_eq_some.mp hd).1
      rw [excl_scan_blocks dcount (fun _ => rfl) dprocs p2 b2 (Nat.le_of_lt hlt)] at h3
      exact h3 hs

/-- C5 at a concrete run: two Voronoi writers with one sample block each (the block of
process 1, file index 1) and one Delaunay writer with both sample blocks (its local
block 1, file index 0). -/
theorem pnetcdf_write_block_index_witness :
    ((pnetcdf_write 1 [[sample_vblock_a], [sample_vblock_b]]).dimlen .num_g_blocks
        = ([[sample_vblock_a], [sample_vblock_b]].map List.length).sum ∧
      (∃ calls, (pnetcdf_write_rank 1 [[sample_vblock_a], [sample_vblock_b]] 1)[0]?
            = some calls ∧
          (∀ x, vscalar x = true → ∃ c ∈ calls, c.varid = x) ∧
          ∀ c ∈ calls, vscalar c.varid = true →
            c.start0 = ordinal [[sample_vblock_a], [sample_vblock_b]] 1 0 ∧ c.count0 = 1) ∧
      (∃! pb : Nat × Nat, pb.1 < [[sample_vblock_a], [sample_vblock_b]].length ∧
          pb.2 < ([[sample_vblock_a], [sample_vblock_b]].getD pb.1 []).length ∧
          ordinal [[sample_vblock_a], [sample_vblock_b]] pb.1 pb.2 = 1)) ∧
    ((pnetcdf_d_write [[sample_dblock_a, sample_dblock_b]]).dimlen .num_g_blocks
        = ([[sample_dblock_a, sample_dblock_b]].map List.length).sum ∧
      (∃ calls, (pnetcdf_d_write_rank [[sample_dblock_a, sample_dblock_b]] 0)[1]?
            = some calls ∧
          (∀ x, dscalar x = true → ∃ c ∈ calls, c.varid = x) ∧
          ∀ c ∈ calls, dscalar c.varid = true →
            c.start0 = ordinal [[sample_dblock_a, sample_dblock_b]] 0 1 ∧ c.count0 = 1) ∧
      (∃! pb : Nat × Nat, pb.1 < [[sample_dblock_a, sample_dblock_b]].length ∧
          pb.2 < ([[sample_dblock_a, sample_dblock_b]].getD pb.1 []).length ∧
          ordinal [[sample_dblock_a, sample_dblock_b]] pb.1 pb.2 = 0)) :=
  pnetcdf_write_block_index 1 [[sample_vblock_a], [sample_vblock_b]]
    [[sample_dblock_a, sample_dblock_b]] 1 0 0 1 sample_vblock_b sample_dblock_b 1 0
    rfl rfl (by decide) (by decide)

/-- C6: for `tot_blocks >= 0` and `groupsize >= 1` the block ranges
`[rank * bp, rank * bp + nblocks)` of the readers have non-negative lengths, lie in
`[0, tot_blocks)`, are pairwise disjoint, and every block index of the file lies in the
range of exactly one rank. -/
theorem pnetcdf_read_ranges (tot_blocks groupsize : Int) (ht : 0 ≤ tot_blocks)
    (hg : 1 ≤ groupsize) :
    (∀ rank, 0 ≤ rank → rank < groupsize → 0 ≤ read_nblocks tot_blocks groupsize rank) ∧
    (∀ rank i, 0 ≤ rank → rank < groupsize →
      read_start_block_ofst tot_blocks groupsize rank ≤ i →
      i < read_start_block_ofst tot_blocks groupsize rank
            + read_nblocks tot_blocks groupsize rank →
      0 ≤ i ∧ i < tot_blocks) ∧
    (∀ r1 r2 i, 0 ≤ r1 → r1 < groupsize → 0 ≤ r2 → r2 < groupsize → r1 ≠ r2 →
      (read_start_block_ofst tot_blocks groupsize r1 ≤ i ∧
        i < read_start_block_ofst tot_blocks groupsize r1
              + read_nblocks tot_blocks groupsize r1) →
      ¬ (read_start_block_ofst tot_blocks groupsize r2 ≤ i ∧
        i < read_start_block_ofst tot_blocks groupsize r2
              + read_nblocks tot_blocks groupsize r2)) ∧
    (∀ i, 0 ≤ i → i < tot_blocks → ∃! rank, 0 ≤ rank ∧ rank < groupsize ∧
      read_start_block_ofst tot_blocks groupsize rank ≤ i ∧
      i < read_start_block_ofst tot_blocks groupsize rank
            + read_nblocks tot_blocks groupsize rank) := by
  obtain ⟨ha, hb, hc⟩ := read_ranges tot_blocks groupsize ht hg
  refine ⟨ha, hb, ?_, hc⟩
  intro r1 r2 i h1 h1g h2 h2g hne m1 m2
  obtain ⟨hi0, hi1⟩ := hb r1 i h1 h1g m1.1 m1.2
  obtain ⟨r, _, hu⟩ := hc i hi0 hi1
  have e1 := hu r1 ⟨h1, h1g, m1.1, m1.2⟩
  have e2 := hu r2 ⟨h2, h2g, m2.1, m2.2⟩
  exact hne (e1.trans e2.symm)

/-- C6 at a concrete file: 7 blocks read by 3 processes. -/
theorem pnetcdf_read_ranges_witness :
    (∀ rank, 0 ≤ rank → rank < 3 → 0 ≤ read_nblocks 7 3 rank) ∧
    (∀ rank i, 0 ≤ rank → rank < 3 →
      read_start_block_ofst 7 3 rank ≤ i →
      i < read_start_block_ofst 7 3 rank + read_nblocks 7 3 rank →
      0 ≤ i ∧ i < 7) ∧
    (∀ r1 r2 i, 0 ≤ r1 → r1 < 3 → 0 ≤ r2 → r2 < 3 → r1 ≠ r2 →
      (read_start_block_ofst 7 3 r1 ≤ i ∧
        i < read_start_block_ofst 7 3 r1 + read_nblocks 7 3 r1) →
      ¬ (read_start_block_ofst 7 3 r2 ≤ i ∧
        i < read_start_block_ofst 7 3 r2 + read_nblocks 7 3 r2)) ∧
    (∀ i, 0 ≤ i → i < 7 → ∃! rank, 0 ≤ rank ∧ rank < 3 ∧
      read_start_block_ofst 7 3 rank ≤ i ∧
      i < read_start_block_ofst 7 3 rank + read_nblocks 7 3 rank) :=
  pnetcdf_read_ranges 7 3 (by decide) (by decide)

/-! ## Facts on the adapters -/

theorem cgal_vert_loop_foldl (Dt : CGAL.Delaunay3D) (cells : List Nat) (st : CGAL.vert_loop)
    (hnd : cells.Nodup) :
    (cells.foldl (CGAL.vert_loop_step Dt) st).i = st.i + cells.length ∧
    (cells.foldl (CGAL.vert_loop_step Dt) st).verts =
      st.verts ++ cells.flatMap (fun c =>
        [(Dt.circumcenter c).1, (Dt.circumcenter c).2.1, (Dt.circumcenter c).2.2]) ∧
    (∀ k c, cells[k]? = some c →
      (cells.foldl (CGAL.vert_loop_step Dt) st).tet_indices c = st.i + k) ∧
    (∀ c, c ∉ cells →
      (cells.foldl (CGAL.vert_loop_step Dt) st).tet_indices c = st.tet_indices c) := by
  induction cells generalizing st with
  | nil => simp
  | cons a cells ih =>
    obtain ⟨hna, hnd2⟩ := List.nodup_cons.mp hnd
    obtain ⟨h1, h2, h3, h4⟩ := ih (CGAL.vert_loop_step Dt st a) hnd2
    simp only [List.foldl_cons]
    refine ⟨?_, ?_, ?_, ?_⟩
    · rw [h1]; simp [CGAL.vert_loop_step]; omega
    · rw [h2]; simp [CGAL.vert_loop_step]
    · intro k c hk
      cases k with
      | zero =>
        simp at hk; subst hk
        rw [h4 a hna]
        simp [CGAL.vert_loop_step]
      | succ k =>
        simp at hk
        rw [h3 k c hk]
        simp [CGAL.vert_loop_step]; omega
    · intro c hc
      simp at hc
      rw [h4 c hc.2]
      simp [CGAL.vert_loop_step, hc.1]

theorem flatMap_triple_slice {α β : Type} (f : α → β × β × β) (cells : List α) (k : Nat) (c : α)
    (h : cells[k]? = some c) :
    ((cells.flatMap (fun c => [(f c).1, (f c).2.1, (f c).2.2])).drop (3 * k)).take 3
      = [(f c).1, (f c).2.1, (f c).2.2] := by
  induction cells generalizing k with
  | nil => simp at h
  | cons a cells ih =>
    cases k with
    | zero =>
      simp at h; subst h
      simp [List.flatMap_cons]
    | succ k =>
      simp at h
      have e : 3 * (k + 1) = 3 * k + 1 + 1 + 1 := by omega
      rw [List.flatMap_cons, e]
      simp only [List.cons_append, List.nil_append, List.drop_succ_cons]
      exact ih k h

/-! ### qhull counting passes -/

theorem qhull_count_foldl (numfacets : Nat) (ns : List Qhull.facetT) (st : Nat × Nat) :
    (ns.foldl
      (fun (st : Nat × Nat) neighbor =>
        if neighbor.visitid = 0 then (st.1, 1)
        else if neighbor.visitid < numfacets then (st.1 + 1, st.2)
        else st) st) =
    (st.1 + (ns.filter (fun n => decide (0 < n.visitid ∧ n.visitid < numfacets))).length,
     if ns.any (fun n => decide (n.visitid = 0)) then 1 else st.2) := by
  induction ns generalizing st with
  | nil => simp
  | cons a ns ih =>
    rw [List.foldl_cons, ih]
    by_cases h0 : a.visitid = 0
    · simp [h0]
    · by_cases h1 : a.visitid < numfacets
      · have hp : 0 < a.visitid := Nat.pos_of_ne_zero h0
        simp [h0, h1, hp]; omega
      · simp [h0, h1]

theorem qhull_cell_size_eq (numfacets : Nat) (v : Qhull.vertexT) :
    (if (Qhull.count_neighbors numfacets v).2 ≠ 0 then (Qhull.count_neighbors numfacets v).1 + 1
      else (Qhull.count_neighbors numfacets v).1) = Qhull.cell_size numfacets v := by
  unfold Qhull.count_neighbors Qhull.cell_size
  rw [qhull_count_foldl]
  by_cases h : v.neighbors.any (fun n => decide (n.visitid = 0)) = true <;> simp [h]

theorem qhull_first_pass_foldl (numfacets : Nat) (vs : List (Option Qhull.vertexT))
    (st : Qhull.first_pass_state) :
    (vs.foldl (Qhull.first_pass_step numfacets) st).vertices =
      st.vertices ++ vs.map (fun e => if Qhull.skipped numfacets e = true then none else e) ∧
    (vs.foldl (Qhull.first_pass_step numfacets) st).numvertices =
      st.numvertices + ((vs.length : Int)
        - ((vs.filter (Qhull.skipped numfacets)).length : Int)) ∧
    (vs.foldl (Qhull.first_pass_step numfacets) st).skip_cells =
      st.skip_cells ++ ((List.range vs.length).filter
        (fun i => Qhull.skipped numfacets (vs.getD i none))).map (fun i => st.cell + i) ∧
    (vs.foldl (Qhull.first_pass_step numfacets) st).cell = st.cell + vs.length := by
  induction vs generalizing st with
  | nil => simp
  | cons e vs ih =>
    obtain ⟨h1, h2, h3, h4⟩ := ih (Qhull.first_pass_step numfacets st e)
    simp only [List.foldl_cons]
    rw [h1, h2, h3, h4]
    have hr : List.range (vs.length + 1) = 0 :: (List.range vs.length).map (fun i => i + 1) := by
      rw [List.range_succ_eq_map]
    cases e with
    | none =>
      simp [Qhull.first_pass_step, Qhull.skipped, hr, List.filter_map, Function.comp_def]
      exact ⟨fun a _ _ => by omega, by omega⟩
    | some v =>
      by_cases hs : (Qhull.count_neighbors numfacets v).2 ≠ 0 ∧
          (Qhull.count_neighbors numfacets v).1 = 0
      · have hs1 := hs.1
        have hs2 := hs.2
        simp [Qhull.first_pass_step, Qhull.skipped, hr, List.filter_map, Function.comp_def,
          hs1, hs2]
        exact ⟨fun a _ _ => by omega, by omega⟩
      · have hs3 : ¬ (¬ (Qhull.count_neighbors numfacets v).2 = 0 ∧
            (Qhull.count_neighbors numfacets v).1 = 0) := hs
        simp only [Qhull.first_pass_step, Qhull.skipped, hs, if_false, decide_False,
          List.length_cons, List.filter_cons, List.map_cons, hr, List.getD_cons_zero,
          Bool.false_eq_true, List.filter_map, Function.comp_def, List.getD_cons_succ,
          List.map_map, List.append_assoc, List.singleton_append]
        refine ⟨trivial, by push_cast; omega, ?_, by omega⟩
        congr 1
        apply List.map_congr_left
        intro a _
        omega

/-- The pass that fills `num_cell_verts`: entry `c + i` receives the cell size of entry
`i` when that entry is a vertex, and no other entry changes. -/
theorem qhull_num_cell_verts_foldl (numfacets : Nat) (vs : List (Option Qhull.vertexT))
    (arr : List Nat) (c : Nat) :
    ((vs.foldl (Qhull.num_cell_verts_step numfacets) (arr, c)).1).length = arr.length ∧
    (vs.foldl (Qhull.num_cell_verts_step numfacets) (arr, c)).2 = c + vs.length ∧
    (∀ j, j < c → (vs.foldl (Qhull.num_cell_verts_step numfacets) (arr, c)).1[j]? = arr[j]?) ∧
    (∀ i, i < vs.length → c + i < arr.length →
      (vs.foldl (Qhull.num_cell_verts_step numfacets) (arr, c)).1[c + i]? =
        match vs.getD i none with
        | some v => some (Qhull.cell_size numfacets v)
        | none => arr[c + i]?) := by
  induction vs generalizing arr c with
  | nil => simp
  | cons e vs ih =>
    simp only [List.foldl_cons]
    cases e with
    | none =>
      obtain ⟨h1, h2, h3, h4⟩ := ih arr (c + 1)
      simp only [Qhull.num_cell_verts_step]
      refine ⟨h1, by rw [h2]; simp; omega, fun j hj => h3 j (by omega), ?_⟩
      intro i hi hb
      cases i with
      | zero => simpa using h3 c (by omega)
      | succ i =>
        have := h4 i (by simpa using hi) (by omega)
        rw [show c + (i + 1) = c + 1 + i by omega]
        simpa using this
    | some v =>
      obtain ⟨h1, h2, h3, h4⟩ := ih (arr.set c (Qhull.cell_size numfacets v)) (c + 1)
      simp only [Qhull.num_cell_verts_step, qhull_cell_size_eq]
      refine ⟨by rw [h1]; simp, by rw [h2]; simp; omega, ?_, ?_⟩
      · intro j hj
        rw [h3 j (by omega), List.getElem?_set_ne (by omega)]
      · intro i hi hb
        cases i with
        | zero =>
          have := h3 c (by omega)
          simp only [Nat.add_zero, List.getD_cons_zero]
          rw [this, List.getElem?_set_self (by omega)]
        | succ i =>
          have := h4 i (by simpa using hi) (by simp; omega)
          rw [show c + (i + 1) = c + 1 + i by omega]
          rw [this]
          simp only [List.getD_cons_succ]
          cases vs.getD i none with
          | none =>
            simp only
            rw [List.getElem?_set_ne (by omega)]
          | some w => rfl


/-! ## Main results on the readers' `neigh_procs` and on the adapters -/

/-- C7 (code defect): on the three-block file `sample_file_3` read by 2 processes, rank 1
gets the blocks 1 and 2; neighbor 1 of its local block 0 is block 2, whose owner is
rank `min(2 / 1, 1) = 1`. The first assignment stores `2 / 1 = 2 >= groupsize`; the
clamping statement `*neigh_procs[b][n] = groupsize - 1` then does not address entry
`[0][1]` but entry 0 of row 1, which is not yet allocated: the computation leaves
defined behaviour, and the entry `[0][1]` is never brought below `groupsize`. -/
theorem read_neigh_procs_clamp_defect :
    read_nblocks 3 2 1 = 2 ∧ owner_rank 3 2 2 = 1 ∧
    gid2idx_at [some 0, some 1, some 2] 2 = some 2 ∧
    Int.tdiv 2 (read_bp 3 2) = 2 ∧
    store_entry [some [0, 0], none] 0 1 2 = some [some [0, 2], none] ∧
    store_deref [some [0, 2], none] 0 1 (2 - 1) = none ∧
    read_neigh_procs sample_file_3 2 1 = none := by
  decide

/-- C8 (code defect): for the five sample particles, of which particle 1 duplicates
particle 0, `construct_delaunay` leaves the labels 1, 2, 3, 4 on the four kernel
vertices. `gen_voronoi_output` stores the cell sizes `[2, 2, 2, 2, 0]`: the size of
the vertex labelled `k + 1` lands at site `k`, so site 0 (which no vertex is labelled
with) gets 2 and site 4 gets 0, whereas native indexing asks for `[0, 2, 2, 2, 2]`. -/
theorem cgal_site_index_defect :
    (CGAL.construct_delaunay CGAL.sample_particles).map (fun v => v.2) = [1, 2, 3, 4] ∧
    CGAL.sample_Dt.finite_vertices.map CGAL.sample_Dt.info = [1, 2, 3, 4] ∧
    (CGAL.gen_voronoi_output CGAL.sample_Dt 5).num_cell_verts = [2, 2, 2, 2, 0] ∧
    (List.range 5).map (CGAL.site_cell_verts CGAL.sample_Dt) = [0, 2, 2, 2, 2] := by
  decide

/-- C9: in the qhull `gen_voronoi_output`, when the vertex set has at most
`num_particles` entries, every skipped site (NULL entry, or an entry with the infinity
facet and no Voronoi vertex among its neighbor facets) ends with
`num_cell_verts[site] = 0`; every other site `i` has its own cell size at index `i`;
`skip_cells` lists the skipped sites; and the returned count is the number of entries
minus the number of skipped sites, at most `num_particles`. -/
theorem qhull_skipped_sites (numfacets : Nat) (vertices : List (Option Qhull.vertexT))
    (num_particles : Nat) (hlen : vertices.length ≤ num_particles) :
    (Qhull.gen_voronoi_output numfacets vertices num_particles).num_cell_verts.length
      = num_particles ∧
    (∀ (i : Nat) (e : Option Qhull.vertexT), vertices[i]? = some e → Qhull.skipped numfacets e = true →
      (Qhull.gen_voronoi_output numfacets vertices num_particles).num_cell_verts[i]?
        = some 0) ∧
    (∀ (i : Nat) (v : Qhull.vertexT), vertices[i]? = some (some v) → Qhull.skipped numfacets (some v) = false →
      (Qhull.gen_voronoi_output numfacets vertices num_particles).num_cell_verts[i]?
        = some (Qhull.cell_size numfacets v)) ∧
    (Qhull.gen_voronoi_output numfacets vertices num_particles).skip_cells
      = (List.range vertices.length).filter
          (fun i => Qhull.skipped numfacets (vertices.getD i none)) ∧
    (Qhull.gen_voronoi_output numfacets vertices num_particles).temp_num_cells
      = (vertices.length : Int) - ((vertices.filter (Qhull.skipped numfacets)).length : Int) ∧
    (Qhull.gen_voronoi_output numfacets vertices num_particles).temp_num_cells
      ≤ (num_particles : Int) := by
  obtain ⟨f1, f2, f3, _⟩ := qhull_first_pass_foldl numfacets vertices
    { vertices := [], numvertices := 0, skip_cells := [], cell := 0 }
  simp only [List.nil_append, Int.zero_add, Nat.zero_add, List.map_id'] at f1 f2 f3
  obtain ⟨g1, _, _, g4⟩ := qhull_num_cell_verts_foldl numfacets
    (vertices.map (fun e => if Qhull.skipped numfacets e = true then none else e))
    (List.replicate num_particles 0) 0
  simp only [List.length_replicate, List.length_map, Nat.zero_add] at g1 g4
  have hout : (Qhull.gen_voronoi_output numfacets vertices num_particles).num_cell_verts
      = (List.foldl (Qhull.num_cell_verts_step numfacets) (List.replicate num_particles 0, 0)
          (vertices.map (fun e => if Qhull.skipped numfacets e = true then none else e))).1 := by
    simp only [Qhull.gen_voronoi_output, Qhull.num_cell_verts, Qhull.first_pass, f1]
  refine ⟨by rw [hout, g1], ?_, ?_, ?_, ?_, ?_⟩
  · intro i e hi hs
    obtain ⟨hlt, _⟩ := List.getElem?_eq_some.mp hi
    rw [hout, g4 i hlt (by omega)]
    simp [List.getD, List.getElem?_map, hi, hs, List.getElem?_replicate]
    omega
  · intro i v hi hs
    obtain ⟨hlt, _⟩ := List.getElem?_eq_some.mp hi
    rw [hout, g4 i hlt (by omega)]
    simp [List.getD, List.getElem?_map, hi, hs]
  · simp only [Qhull.gen_voronoi_output, Qhull.first_pass, f3]
  · simp only [Qhull.gen_voronoi_output, Qhull.first_pass, f2]
  · simp only [Qhull.gen_voronoi_output, Qhull.first_pass, f2]
    omega

/-- C9 at the sample vertex set: four entries, two of them skipped. -/
theorem qhull_skipped_sites_witness :
    (Qhull.gen_voronoi_output 3 Qhull.sample_vertices 4).num_cell_verts.length = 4 ∧
    (∀ (i : Nat) (e : Option Qhull.vertexT), Qhull.sample_vertices[i]? = some e → Qhull.skipped 3 e = true →
      (Qhull.gen_voronoi_output 3 Qhull.sample_vertices 4).num_cell_verts[i]? = some 0) ∧
    (∀ (i : Nat) (v : Qhull.vertexT), Qhull.sample_vertices[i]? = some (some v) → Qhull.skipped 3 (some v) = false →
      (Qhull.gen_voronoi_output 3 Qhull.sample_vertices 4).num_cell_verts[i]?
        = some (Qhull.cell_size 3 v)) ∧
    (Qhull.gen_voronoi_output 3 Qhull.sample_vertices 4).skip_cells
      = (List.range Qhull.sample_vertices.length).filter
          (fun i => Qhull.skipped 3 (Qhull.sample_vertices.getD i none)) ∧
    (Qhull.gen_voronoi_output 3 Qhull.sample_vertices 4).temp_num_cells
      = (Qhull.sample_vertices.length : Int)
          - ((Qhull.sample_vertices.filter (Qhull.skipped 3)).length : Int) ∧
    (Qhull.gen_voronoi_output 3 Qhull.sample_vertices 4).temp_num_cells ≤ ((4 : Nat) : Int) :=
  qhull_skipped_sites 3 Qhull.sample_vertices 4 (by decide)

/-- C10: the CGAL `gen_voronoi_output` sets `num_verts` to one plus the number of finite
cells, stores the infinity point at vertex 0, gives the `k`-th finite cell of the
iteration the vertex index `k + 1` with its circumcenter at `verts[3 (k+1) ..]`, and
`tet_indices` maps the finite cells one-to-one onto `1 .. num_verts - 1`. -/
theorem cgal_vertex_indices (Dt : CGAL.Delaunay3D) (num_particles : Nat) :
    (CGAL.gen_voronoi_output Dt num_particles).num_verts = 1 + Dt.finite_cells.length ∧
    (CGAL.gen_voronoi_output Dt num_particles).verts.length
      = 3 * (CGAL.gen_voronoi_output Dt num_particles).num_verts ∧
    (CGAL.gen_voronoi_output Dt num_particles).verts.take 3
      = [coord.infinity, coord.infinity, coord.infinity] ∧
    (∀ k c, Dt.finite_cells[k]? = some c →
      (CGAL.gen_voronoi_output Dt num_particles).tet_indices c = k + 1 ∧
      ((CGAL.gen_voronoi_output Dt num_particles).verts.drop (3 * (k + 1))).take 3
        = [(Dt.circumcenter c).1, (Dt.circumcenter c).2.1, (Dt.circumcenter c).2.2]) ∧
    (∀ i, 1 ≤ i → i < (CGAL.gen_voronoi_output Dt num_particles).num_verts →
      ∃! c, c ∈ Dt.finite_cells ∧
        (CGAL.gen_voronoi_output Dt num_particles).tet_indices c = i) := by
  obtain ⟨_, h2, h3, _⟩ := cgal_vert_loop_foldl Dt Dt.finite_cells
    { i := 1, verts := [coord.infinity, coord.infinity, coord.infinity],
      tet_indices := fun _ => 0 } Dt.finite_cells_nodup
  have hv : (CGAL.gen_voronoi_output Dt num_particles).verts =
      [coord.infinity, coord.infinity, coord.infinity] ++ Dt.finite_cells.flatMap (fun c =>
        [(Dt.circumcenter c).1, (Dt.circumcenter c).2.1, (Dt.circumcenter c).2.2]) := h2
  have ht : ∀ k c, Dt.finite_cells[k]? = some c →
      (CGAL.gen_voronoi_output Dt num_particles).tet_indices c = k + 1 := by
    intro k c hk
    have := h3 k c hk
    simpa [CGAL.gen_voronoi_output, CGAL.vertices_loop, Nat.add_comm] using this
  have hlen : ∀ l : List Nat, (l.flatMap (fun c =>
      [(Dt.circumcenter c).1, (Dt.circumcenter c).2.1, (Dt.circumcenter c).2.2])).length
        = 3 * l.length := by
    intro l
    induction l with
    | nil => rfl
    | cons a l ih => simp [List.flatMap_cons, ih]; omega
  refine ⟨by simp [CGAL.gen_voronoi_output, Nat.add_comm], ?_, ?_, ?_, ?_⟩
  · rw [hv, List.length_append, hlen]
    simp [CGAL.gen_voronoi_output]; omega
  · rw [hv]; rfl
  · intro k c hk
    refine ⟨ht k c hk, ?_⟩
    rw [hv, show 3 * (k + 1) = 3 * k + 1 + 1 + 1 by omega]
    simp only [List.cons_append, List.nil_append, List.drop_succ_cons]
    exact flatMap_triple_slice Dt.circumcenter Dt.finite_cells k c hk
  · intro i h1 h2
    have hi : i - 1 < Dt.finite_cells.length := by
      simp only [CGAL.gen_voronoi_output] at h2; omega
    refine ⟨Dt.finite_cells[i - 1], ⟨List.getElem_mem hi, ?_⟩, ?_⟩
    · rw [ht (i - 1) _ (List.getElem?_eq_getElem hi)]; omega
    · rintro c ⟨hc, hci⟩
      obtain ⟨k, hk, e⟩ := List.getElem_of_mem hc
      have := ht k c (by rw [List.getElem?_eq_getElem hk, e])
      have hki : k = i - 1 := by omega
      subst hki
      exact e.symm

/-! ## Facts on the cell vertices, faces and tets of the adapters -/

/-- Writing a list entry after entry from index `i` on succeeds exactly when the list
fits, and then replaces the entries `i .. i + l.length - 1`. -/
theorem foldlM_push_at {α : Type} (l : List α) (arr : List α) (i : Nat) (hi : i ≤ arr.length) :
    l.foldlM push_at (arr, i) =
      if i + l.length ≤ arr.length then
        some (arr.take i ++ l ++ arr.drop (i + l.length), i + l.length)
      else none := by
  induction l generalizing arr i with
  | nil => simp [hi]
  | cons x l ih =>
    simp only [List.foldlM_cons, push_at]
    by_cases h : i < arr.length
    · simp only [h, if_true, Option.bind_eq_bind, Option.some_bind]
      rw [ih (arr.set i x) (i + 1) (by simp; omega)]
      simp only [List.length_set, List.length_cons]
      by_cases h2 : i + (l.length + 1) ≤ arr.length
      · have h3 : i + 1 + l.length ≤ arr.length := by omega
        simp only [h2, h3, if_true, Option.some.injEq, Prod.mk.injEq]
        refine ⟨?_, by omega⟩
        rw [List.set_eq_take_append_cons_drop]
        simp only [h, if_true]
        have e1 : List.take (i + 1) (List.take i arr ++ x :: List.drop (i + 1) arr)
            = List.take i arr ++ [x] := by
          rw [List.take_append_eq_append_take]
          simp [List.length_take, Nat.min_eq_left hi]
        have e2 : List.drop (i + 1 + l.length) (List.take i arr ++ x :: List.drop (i + 1) arr)
            = List.drop (i + (l.length + 1)) arr := by
          rw [List.drop_append_eq_append_drop]
          simp [List.length_take, Nat.min_eq_left hi]
          have : i + 1 + l.length - i = l.length + 1 := by omega
          rw [List.drop_eq_nil_of_le (by simp; omega), this]
          simp
          congr 1
          omega
        rw [e1, e2]
        simp
      · have h3 : ¬ i + 1 + l.length ≤ arr.length := by omega
        simp [h2, h3]
    · have h2 : ¬ i + (l.length + 1) ≤ arr.length := by omega
      simp [h, h2]

/-- Once an infinite cell has been seen, the loop writes the indices of the finite
cells only. -/
theorem cgal_dedup_seen {α : Type} (Dt : CGAL.Delaunay3D) (ti : Nat → Nat) (wrap : Nat → α)
    (cells : List Nat) (st : List α × Nat) :
    cells.foldlM (CGAL.dedup_step Dt ti wrap) (st, true) =
      ((((cells.filter (fun c => !Dt.is_infinite c)).map ti).map wrap).foldlM push_at st).map
        (fun s => (s, true)) := by
  induction cells generalizing st with
  | nil => simp
  | cons c cs ih =>
    by_cases hc : Dt.is_infinite c = true
    · simp only [List.foldlM_cons, CGAL.dedup_step, hc, if_true, Bool.not_true,
        Bool.false_eq_true, if_false, Option.bind_eq_bind, Option.some_bind]
      rw [ih]
      simp [hc]
    · have hc2 : Dt.is_infinite c = false := by simpa using hc
      simp only [List.foldlM_cons, CGAL.dedup_step, hc2, Bool.false_eq_true, if_false,
        Option.bind_eq_bind, Bool.not_false, List.filter_cons_of_pos, List.map_cons]
      cases push_at st (wrap (ti c)) with
      | none => simp
      | some s => simp [ih]

/-- The loop over the cells around a vertex or an edge writes the ring of the cells. -/
theorem cgal_dedup_unseen {α : Type} (Dt : CGAL.Delaunay3D) (ti : Nat → Nat) (wrap : Nat → α)
    (cells : List Nat) (st : List α × Nat) :
    cells.foldlM (CGAL.dedup_step Dt ti wrap) (st, false) =
      (((CGAL.ring Dt ti cells).map wrap).foldlM push_at st).map
        (fun s => (s, cells.any Dt.is_infinite)) := by
  induction cells generalizing st with
  | nil => simp [CGAL.ring]
  | cons c cs ih =>
    by_cases hc : Dt.is_infinite c = true
    · simp only [List.foldlM_cons, CGAL.dedup_step, hc, if_true, Bool.not_false,
        Option.bind_eq_bind, CGAL.ring, Bool.not_true, List.takeWhile_cons, Bool.false_eq_true,
        if_false, List.map_nil, List.any_cons, Bool.true_or, List.nil_append,
        List.dropWhile_cons, List.filter_cons, List.singleton_append, List.map_cons]
      cases push_at st (wrap 0) with
      | none => simp
      | some s => simp [cgal_dedup_seen]
    · have hc2 : Dt.is_infinite c = false := by simpa using hc
      simp only [List.foldlM_cons, CGAL.dedup_step, hc2, Bool.false_eq_true, if_false,
        Option.bind_eq_bind, CGAL.ring, Bool.not_false, List.takeWhile_cons, if_true,
        List.map_cons, List.any_cons, Bool.false_or, List.dropWhile_cons, List.cons_append]
      cases push_at st (wrap (ti c)) with
      | none => simp
      | some s =>
        simp only [Option.map_some', Option.some_bind, ih, CGAL.ring]

theorem cgal_ring_length (Dt : CGAL.Delaunay3D) (ti : Nat → Nat) (cells : List Nat) :
    (CGAL.ring Dt ti cells).length =
      (cells.filter (fun c => !Dt.is_infinite c)).length
        + (if cells.any Dt.is_infinite then 1 else 0) := by
  induction cells with
  | nil => simp [CGAL.ring]
  | cons c cs ih =>
    by_cases hc : Dt.is_infinite c = true
    · simp [CGAL.ring, hc]
    · have hc2 : Dt.is_infinite c = false := by simpa using hc
      simp only [CGAL.ring, hc2, Bool.not_false, List.takeWhile_cons, if_true, List.map_cons,
        List.any_cons, Bool.false_or, List.dropWhile_cons, List.cons_append, List.length_cons,
        List.filter_cons_of_pos] at ih ⊢
      omega

/-- A loop that writes one chunk per item writes the chunks one after the other. -/
theorem foldlM_chunks {α β : Type} (f : List α × Nat → β → Option (List α × Nat))
    (g : β → List α) (hf : ∀ st x, f st x = (g x).foldlM push_at st) (xs : List β)
    (st : List α × Nat) :
    xs.foldlM f st = (xs.flatMap g).foldlM push_at st := by
  induction xs generalizing st with
  | nil => simp
  | cons x xs ih =>
    simp only [List.foldlM_cons, List.flatMap_cons, List.foldlM_append, hf]
    cases (g x).foldlM push_at st with
    | none => simp
    | some s => simp [ih]

/-- A loop that stores `f k` at the running index, for `k` below `n`, fills the
entries from the start index on. -/
theorem foldl_set_range {α : Type} (f : Nat → α) (n : Nat) (arr : List α) (c : Nat)
    (h : c + n ≤ arr.length) :
    (List.range n).foldl (fun (st : List α × Nat) k => (st.1.set st.2 (f k), st.2 + 1)) (arr, c)
      = (arr.take c ++ (List.range n).map f ++ arr.drop (c + n), c + n) := by
  induction n with
  | zero => simp
  | succ n ih =>
    rw [List.range_succ, List.foldl_append, ih (by omega)]
    simp only [List.foldl_cons, List.foldl_nil, List.map_append, List.map_cons, List.map_nil,
      Prod.mk.injEq]
    refine ⟨?_, by omega⟩
    have hl : (List.take c arr ++ List.map f (List.range n)).length = c + n := by
      simp [List.length_take]; omega
    rw [List.append_assoc (List.take c arr), ← List.append_assoc (List.take c arr),
      List.set_append_right _ _ (by rw [hl])]
    rw [hl, Nat.sub_self]
    have hd : List.drop (c + n) arr = arr[c + n] :: List.drop (c + n + 1) arr := by
      rw [List.drop_eq_getElem_cons (by omega)]
    rw [hd]
    simp [List.append_assoc, Nat.add_assoc]

theorem map_getD_range {α β : Type} (f : α → β) (l : List α) (d : α) :
    (List.range l.length).map (fun k => f (l.getD k d)) = l.map f := by
  apply List.ext_getElem?
  intro i
  by_cases hi : i < l.length
  · simp [List.getElem?_map, List.getElem?_range hi, List.getD, List.getElem?_eq_getElem hi]
  · simp [List.getElem?_map, List.getElem?_eq_none (Nat.le_of_not_lt hi),
      List.getElem?_eq_none (show (List.range l.length).length ≤ i by simp; omega)]

theorem cgal_sorted_length (Dt : CGAL.Delaunay3D) :
    (CGAL.sorted_vertices Dt).length = Dt.finite_vertices.length := by
  simp [CGAL.sorted_vertices, List.length_insertionSort]

/-- The counting pass of the CGAL adapter counts the ring of the incident cells. -/
theorem cgal_count_eq_ring (Dt : CGAL.Delaunay3D) (ti : Nat → Nat) (v : Nat) :
    CGAL.count_cell_verts Dt v = (CGAL.ring Dt ti (Dt.incident_cells v)).length := by
  rw [cgal_ring_length]
  unfold CGAL.count_cell_verts
  generalize Dt.incident_cells v = cells
  have hlen : cells.length = (cells.filter (fun c => !Dt.is_infinite c)).length
      + (cells.filter Dt.is_infinite).length := by
    induction cells with
    | nil => rfl
    | cons c cs ih =>
      by_cases hc : Dt.is_infinite c = true
      · simp [hc] at ih ⊢; omega
      · have hc2 : Dt.is_infinite c = false := by simpa using hc
        simp [hc2] at ih ⊢; omega
  have hany : cells.any Dt.is_infinite = true ↔ 0 < (cells.filter Dt.is_infinite).length := by
    rw [List.length_pos]
    simp [List.any_eq_true, List.filter_eq_nil_iff]
  by_cases ha : cells.any Dt.is_infinite = true
  · have := hany.mp ha
    simp only [ha, if_true]
    split <;> omega
  · have : ¬ 0 < (cells.filter Dt.is_infinite).length := fun h => ha (hany.mpr h)
    have ha2 : cells.any Dt.is_infinite = false := by simpa using ha
    simp only [ha2, Bool.false_eq_true, if_false]
    split <;> omega

/-- The array `num_cell_verts` of the CGAL adapter when the kernel has at most
`num_particles` vertices: the ring sizes of the vertices in label order, then zeros. -/
theorem cgal_num_cell_verts_eq (Dt : CGAL.Delaunay3D) (num_particles : Nat)
    (h : Dt.finite_vertices.length ≤ num_particles) (ti : Nat → Nat) :
    CGAL.num_cell_verts Dt num_particles =
      (CGAL.sorted_vertices Dt).map
          (fun kv => (CGAL.ring Dt ti (Dt.incident_cells kv.2)).length)
        ++ List.replicate (num_particles - Dt.finite_vertices.length) 0 := by
  unfold CGAL.num_cell_verts
  simp only
  rw [foldl_set_range (fun k => CGAL.count_cell_verts Dt ((CGAL.sorted_vertices Dt).getD k (0, 0)).2)
    _ _ 0 (by simp [cgal_sorted_length]; exact h)]
  simp only [List.take_zero, List.nil_append, Nat.zero_add, List.drop_replicate]
  rw [map_getD_range (fun kv : Nat × Nat => CGAL.count_cell_verts Dt kv.2)
    (CGAL.sorted_vertices Dt) (0, 0), cgal_sorted_length]
  congr 1
  apply List.map_congr_left
  intro kv _
  exact cgal_count_eq_ring Dt ti kv.2

theorem count_zero_map_of_ne (ti : Nat → Nat) (l : List Nat) (h : ∀ c ∈ l, ti c ≠ 0) :
    (l.map ti).count 0 = 0 := by
  rw [List.count_eq_zero]
  intro hmem
  obtain ⟨c, hc, hc0⟩ := List.mem_map.mp hmem
  exact h c hc hc0

/-- The ring holds the index 0 once when a cell of the list is infinite and not at all
otherwise, provided the finite cells of the list have an index other than 0. -/
theorem cgal_ring_count_zero (Dt : CGAL.Delaunay3D) (ti : Nat → Nat) (cells : List Nat)
    (h : ∀ c ∈ cells, Dt.is_infinite c = false → ti c ≠ 0) :
    (CGAL.ring Dt ti cells).count 0 = if cells.any Dt.is_infinite then 1 else 0 := by
  unfold CGAL.ring
  rw [List.count_append, List.count_append,
    count_zero_map_of_ne ti _ (fun c hc => by
      have h1 := List.mem_takeWhile_imp hc
      exact h c (List.takeWhile_sublist _ |>.subset hc) (by simpa using h1)),
    count_zero_map_of_ne ti _ (fun c hc => by
      obtain ⟨h1, h2⟩ := List.mem_filter.mp hc
      exact h c (List.dropWhile_sublist _ |>.subset h1) (by simpa using h2))]
  split <;> simp

/-- The finite cells have a vertex index other than 0. -/
theorem cgal_tet_indices_pos (Dt : CGAL.Delaunay3D) (c : Nat) (hc : c ∈ Dt.finite_cells) :
    (CGAL.vertices_loop Dt).tet_indices c ≠ 0 := by
  obtain ⟨k, hk, e⟩ := List.getElem_of_mem hc
  have := (cgal_vert_loop_foldl Dt Dt.finite_cells
    { i := 1, verts := [coord.infinity, coord.infinity, coord.infinity],
      tet_indices := fun _ => 0 } Dt.finite_cells_nodup).2.2.1 k c
    (by rw [List.getElem?_eq_getElem hk, e])
  unfold CGAL.vertices_loop
  rw [this]
  simp

theorem qhull_ring_count_zero (numfacets : Nat) (v : Qhull.vertexT) :
    (Qhull.cell_ring numfacets v).count 0 =
      if v.neighbors.any (fun n => decide (n.visitid = 0 ∧ 0 < numfacets)) then 1 else 0 := by
  unfold Qhull.cell_ring
  simp only
  have hany : ((v.neighbors.map (fun n => n.visitid)).filter
      (fun x => decide (x < numfacets))).any (fun x => decide (x = 0))
      = v.neighbors.any (fun n => decide (n.visitid = 0 ∧ 0 < numfacets)) := by
    generalize v.neighbors = ns
    induction ns with
    | nil => rfl
    | cons a ns ih =>
      by_cases h1 : a.visitid < numfacets
      · by_cases h0 : a.visitid = 0
        · have hnf : 0 < numfacets := by omega
          simp [h0, hnf]
        · simp only [List.map_cons, List.filter_cons, h1, decide_True, if_true, List.any_cons, h0,
            decide_False, Bool.false_or, false_and, ih]
      · have h3 : ¬ (a.visitid = 0 ∧ 0 < numfacets) := fun h => h1 (by omega)
        simp only [List.map_cons, List.filter_cons, h1, decide_False, Bool.false_eq_true,
          if_false, List.any_cons, h3, Bool.false_or, ih]
  rw [hany, List.count_append, List.count_append]
  have e1 : (List.takeWhile (fun x => decide (x ≠ 0))
      ((v.neighbors.map (fun n => n.visitid)).filter
        (fun x => decide (x < numfacets)))).count 0 = 0 := by
    rw [List.count_eq_zero]
    intro hmem
    have := List.mem_takeWhile_imp hmem
    simp at this
  have e2 : (List.filter (fun x => decide (x ≠ 0)) (List.dropWhile (fun x => decide (x ≠ 0))
      ((v.neighbors.map (fun n => n.visitid)).filter
        (fun x => decide (x < numfacets))))).count 0 = 0 := by
    rw [List.count_eq_zero]
    intro hmem
    have := (List.mem_filter.mp hmem).2
    simp at this
  rw [e1, e2]
  split <;> simp

theorem cgal_cells_step_eq (Dt : CGAL.Delaunay3D) (ti : Nat → Nat)
    (st : List (Option Nat) × Nat) (kv : Nat × Nat) :
    CGAL.cells_step Dt ti st kv =
      ((CGAL.ring Dt ti (Dt.incident_cells kv.2)).map some).foldlM push_at st := by
  unfold CGAL.cells_step
  rw [cgal_dedup_unseen]
  cases ((CGAL.ring Dt ti (Dt.incident_cells kv.2)).map some).foldlM push_at st <;> simp

theorem length_flatMap_sum {α β : Type} (g : α → List β) (l : List α) :
    (l.flatMap g).length = (l.map (fun x => (g x).length)).sum := by
  induction l with
  | nil => rfl
  | cons a l ih => simp [List.flatMap_cons, ih]

theorem sum_replicate_zero (n : Nat) : (List.replicate n 0).sum = 0 := by
  induction n with
  | zero => rfl
  | succ n ih => simp [List.replicate_succ, ih]

/-- The filled array of the CGAL adapter, in full. -/
theorem cgal_cells_eq (Dt : CGAL.Delaunay3D) (num_particles : Nat)
    (h : Dt.finite_vertices.length ≤ num_particles) :
    (CGAL.gen_voronoi_output Dt num_particles).tot_num_cell_verts
      = ((CGAL.sorted_vertices Dt).flatMap (fun kv =>
          CGAL.ring Dt (CGAL.gen_voronoi_output Dt num_particles).tet_indices
            (Dt.incident_cells kv.2))).length ∧
    CGAL.gen_voronoi_cells Dt num_particles =
      some (((CGAL.sorted_vertices Dt).flatMap (fun kv =>
          CGAL.ring Dt (CGAL.gen_voronoi_output Dt num_particles).tet_indices
            (Dt.incident_cells kv.2))).map some,
        (CGAL.gen_voronoi_output Dt num_particles).tot_num_cell_verts) := by
  have hncv := cgal_num_cell_verts_eq Dt num_particles h
    (CGAL.gen_voronoi_output Dt num_particles).tet_indices
  have htot : (CGAL.gen_voronoi_output Dt num_particles).tot_num_cell_verts
      = ((CGAL.sorted_vertices Dt).flatMap (fun kv =>
          CGAL.ring Dt (CGAL.gen_voronoi_output Dt num_particles).tet_indices
            (Dt.incident_cells kv.2))).length := by
    rw [length_flatMap_sum]
    show ((CGAL.num_cell_verts Dt num_particles).take num_particles).sum = _
    rw [hncv, List.take_of_length_le (by simp [cgal_sorted_length]; omega), List.sum_append,
      sum_replicate_zero, Nat.add_zero]
  refine ⟨htot, ?_⟩
  unfold CGAL.gen_voronoi_cells
  simp only
  rw [foldlM_chunks _ (fun kv => (CGAL.ring Dt
      (CGAL.gen_voronoi_output Dt num_particles).tet_indices (Dt.incident_cells kv.2)).map some)
    (fun st kv => cgal_cells_step_eq Dt _ st kv)]
  rw [← List.map_flatMap, foldlM_push_at _ _ 0 (by simp), htot]
  generalize (CGAL.sorted_vertices Dt).flatMap (fun kv => CGAL.ring Dt
    (CGAL.gen_voronoi_output Dt num_particles).tet_indices (Dt.incident_cells kv.2)) = X
  simp

theorem take_sum_prefix (l r : List Nat) (k : Nat) (hk : k ≤ l.length) :
    ((l ++ r).take k).sum = (l.take k).sum := by
  rw [List.take_append_of_le_length hk]

/-- The layout of `cells` in the CGAL adapter. -/
theorem cgal_cells_layout (Dt : CGAL.Delaunay3D) (num_particles : Nat)
    (h : Dt.finite_vertices.length ≤ num_particles) :
    ∃ cells : List Nat,
      CGAL.gen_voronoi_cells Dt num_particles =
        some (cells.map some, (CGAL.gen_voronoi_output Dt num_particles).tot_num_cell_verts) ∧
      cells.length = (CGAL.gen_voronoi_output Dt num_particles).tot_num_cell_verts ∧
      ∀ (k : Nat) (kv : Nat × Nat), (CGAL.sorted_vertices Dt)[k]? = some kv →
        (CGAL.gen_voronoi_output Dt num_particles).num_cell_verts[k]? =
          some (CGAL.ring Dt (CGAL.gen_voronoi_output Dt num_particles).tet_indices
            (Dt.incident_cells kv.2)).length ∧
        (cells.drop
            (((CGAL.gen_voronoi_output Dt num_particles).num_cell_verts.take k).sum)).take
          ((CGAL.gen_voronoi_output Dt num_particles).num_cell_verts.getD k 0)
          = CGAL.ring Dt (CGAL.gen_voronoi_output Dt num_particles).tet_indices
              (Dt.incident_cells kv.2) ∧
        (CGAL.ring Dt (CGAL.gen_voronoi_output Dt num_particles).tet_indices
            (Dt.incident_cells kv.2)).length
          = ((Dt.incident_cells kv.2).filter (fun c => !Dt.is_infinite c)).length
            + (if (Dt.incident_cells kv.2).any Dt.is_infinite then 1 else 0) ∧
        ((∀ c ∈ Dt.incident_cells kv.2, Dt.is_infinite c = false → c ∈ Dt.finite_cells) →
          (CGAL.ring Dt (CGAL.gen_voronoi_output Dt num_particles).tet_indices
              (Dt.incident_cells kv.2)).count 0
            = if (Dt.incident_cells kv.2).any Dt.is_infinite then 1 else 0) := by
  obtain ⟨htot, hcells⟩ := cgal_cells_eq Dt num_particles h
  have hncv : (CGAL.gen_voronoi_output Dt num_particles).num_cell_verts = _ :=
    cgal_num_cell_verts_eq Dt num_particles h
      (CGAL.gen_voronoi_output Dt num_particles).tet_indices
  refine ⟨_, hcells, htot.symm, ?_⟩
  intro k kv hk
  have hklt : k < (CGAL.sorted_vertices Dt).length := (List.getElem?_eq_some.mp hk).1
  have hk1 : (CGAL.gen_voronoi_output Dt num_particles).num_cell_verts[k]? =
      some (CGAL.ring Dt (CGAL.gen_voronoi_output Dt num_particles).tet_indices
        (Dt.incident_cells kv.2)).length := by
    rw [hncv, List.getElem?_append_left (by simpa using hklt), List.getElem?_map, hk]
    rfl
  refine ⟨hk1, ?_, cgal_ring_length Dt _ _, fun hfin =>
    cgal_ring_count_zero Dt _ _ (fun c hc hinf => cgal_tet_indices_pos Dt c (hfin c hc hinf))⟩
  have hsl := slice_flatten ((CGAL.sorted_vertices Dt).map (fun kv =>
      CGAL.ring Dt (CGAL.gen_voronoi_output Dt num_particles).tet_indices
        (Dt.incident_cells kv.2))) k
    (CGAL.ring Dt (CGAL.gen_voronoi_output Dt num_particles).tet_indices
        (Dt.incident_cells kv.2)) (by rw [List.getElem?_map, hk]; rfl)
  rw [List.getD_eq_getElem?_getD, hk1, Option.getD_some]
  rw [hncv, take_sum_prefix _ _ k (by simpa using Nat.le_of_lt hklt)]
  rw [List.flatMap_def]
  rw [← List.map_take, List.map_map] at hsl
  rw [← List.map_take]
  exact hsl

/-- Once the infinity vertex has been written (`numinf` not 0), the filling pass of
the qhull adapter writes the non-zero `visitid` below `numfacets` only. -/
theorem qhull_fill_seen (numfacets : Nat) (ns : List Qhull.facetT)
    (st : List (Option Nat) × Nat) (q : Nat) (hq : q ≠ 0) :
    ns.foldlM (Qhull.cells_neighbor_step numfacets) (st, q) =
      (((((ns.map (fun (n : Qhull.facetT) => n.visitid)).filter
          (fun x => decide (x < numfacets))).filter
          (fun x => decide (x ≠ 0))).map some).foldlM push_at st).map (fun s => (s, q)) := by
  induction ns generalizing st with
  | nil => simp
  | cons a ns ih =>
    simp only [List.foldlM_cons, Qhull.cells_neighbor_step, Option.bind_eq_bind, List.map_cons]
    by_cases h1 : a.visitid < numfacets
    · by_cases h0 : a.visitid = 0
      · have hnf : 0 < numfacets := by omega
        simp [h0, hnf, hq, ih]
      · have hp : a.visitid > 0 := Nat.pos_of_ne_zero h0
        simp only [h1, hp, or_true, if_true, h0, if_false, decide_True, List.filter_cons_of_pos,
          ne_eq, not_false_eq_true, List.map_cons, List.foldlM_cons, Option.bind_eq_bind]
        cases push_at st (some a.visitid) with
        | none => simp
        | some s => simp [ih]
    · simp [h1, ih]

/-- The filling pass of the qhull adapter writes the cell ring of the vertex. -/
theorem qhull_fill_unseen (numfacets : Nat) (v : Qhull.vertexT)
    (st : List (Option Nat) × Nat) :
    (v.neighbors.foldlM (Qhull.cells_neighbor_step numfacets) (st, 0)).map (fun s => s.1) =
      ((Qhull.cell_ring numfacets v).map some).foldlM push_at st := by
  unfold Qhull.cell_ring
  simp only
  generalize v.neighbors = ns
  induction ns generalizing st with
  | nil => simp
  | cons a ns ih =>
    simp only [List.foldlM_cons, Qhull.cells_neighbor_step, Option.bind_eq_bind, List.map_cons]
    by_cases h1 : a.visitid < numfacets
    · by_cases h0 : a.visitid = 0
      · have hnf : 0 < numfacets := by omega
        simp only [h0, hnf, if_true, true_or, decide_True, List.filter_cons_of_pos, ne_eq,
          not_true_eq_false, decide_False, List.takeWhile_cons, Bool.false_eq_true, if_false,
          List.any_cons, Bool.true_or, List.dropWhile_cons, List.filter_cons, List.nil_append,
          List.singleton_append, List.map_cons, Nat.zero_add, List.foldlM_cons,
          Option.bind_eq_bind]
        cases push_at st (some 0) with
        | none => simp
        | some s =>
          simp only [Option.map_some', Option.some_bind]
          rw [qhull_fill_seen numfacets ns s 1 (by omega)]
          cases List.foldlM push_at s _ <;> simp
      · have hp : a.visitid > 0 := Nat.pos_of_ne_zero h0
        simp only [h1, hp, or_true, if_true, h0, if_false, decide_True, List.filter_cons_of_pos,
          ne_eq, not_false_eq_true, List.takeWhile_cons, List.any_cons, decide_False,
          Bool.false_or, List.dropWhile_cons, List.cons_append, List.map_cons,
          List.foldlM_cons, Option.bind_eq_bind]
        cases push_at st (some a.visitid) with
        | none => simp
        | some s =>
          simp only [Option.map_some', Option.some_bind]
          exact ih s
    · simp only [h1, if_false, and_false, decide_False, Bool.false_eq_true, not_false_eq_true,
        List.filter_cons_of_neg, Option.some_bind]
      exact ih st

theorem qhull_cells_step_eq (numfacets : Nat) (st : List (Option Nat) × Nat)
    (e : Option Qhull.vertexT) :
    Qhull.cells_step numfacets st e =
      ((match e with
        | some v => Qhull.cell_ring numfacets v
        | none => []).map some).foldlM push_at st := by
  cases e with
  | none => rfl
  | some v => exact qhull_fill_unseen numfacets v st

theorem qhull_ids_filter_length (numfacets : Nat) (ns : List Qhull.facetT) :
    (((ns.map (fun (n : Qhull.facetT) => n.visitid)).filter
        (fun x => decide (x < numfacets))).filter (fun x => decide (x ≠ 0))).length
      = (ns.filter (fun n => decide (0 < n.visitid ∧ n.visitid < numfacets))).length := by
  induction ns with
  | nil => rfl
  | cons a ns ih =>
    by_cases h1 : a.visitid < numfacets
    · by_cases h0 : a.visitid = 0
      · have hnf : 0 < numfacets := by omega
        simp only [List.map_cons, h0, List.filter_cons, hnf, decide_True, if_true, ne_eq,
          not_true_eq_false, decide_False, Bool.false_eq_true, if_false, Nat.lt_irrefl,
          false_and]
        exact ih
      · have hp : 0 < a.visitid := Nat.pos_of_ne_zero h0
        simp only [List.map_cons, List.filter_cons, h1, decide_True, if_true, ne_eq, h0,
          not_false_eq_true, hp, and_self, List.length_cons]
        rw [ih]
    · have h2 : ¬ (0 < a.visitid ∧ a.visitid < numfacets) := fun h => h1 h.2
      simp only [List.map_cons, List.filter_cons, h1, decide_False, Bool.false_eq_true,
        if_false, h2, and_false]
      exact ih

theorem qhull_ring_length (numfacets : Nat) (v : Qhull.vertexT) :
    (Qhull.cell_ring numfacets v).length =
      (v.neighbors.filter (fun n => decide (0 < n.visitid ∧ n.visitid < numfacets))).length
        + (if v.neighbors.any (fun n => decide (n.visitid = 0 ∧ 0 < numfacets)) then 1 else 0) := by
  unfold Qhull.cell_ring
  simp only
  generalize v.neighbors = ns
  induction ns with
  | nil => simp
  | cons a ns ih =>
    by_cases h1 : a.visitid < numfacets
    · by_cases h0 : a.visitid = 0
      · have hnf : 0 < numfacets := by omega
        have hl := qhull_ids_filter_length numfacets ns
        simp only [List.map_cons, h0, hnf, decide_True, List.filter_cons_of_pos, ne_eq,
          not_true_eq_false, decide_False, List.takeWhile_cons, Bool.false_eq_true, if_false,
          List.any_cons, Bool.true_or, if_true, List.dropWhile_cons, List.filter_cons,
          List.nil_append, List.singleton_append, List.length_cons, Nat.lt_irrefl, false_and,
          and_self] at hl ⊢
        rw [hl]
      · have hp : 0 < a.visitid := Nat.pos_of_ne_zero h0
        simp only [List.map_cons, h1, h0, hp, decide_True, List.filter_cons_of_pos, ne_eq,
          not_false_eq_true, List.takeWhile_cons, if_true, List.any_cons, decide_False,
          Bool.false_or, List.dropWhile_cons, List.cons_append, List.length_cons, and_self,
          false_and] at ih ⊢
        omega
    · have h2 : ¬ (0 < a.visitid ∧ a.visitid < numfacets) := fun h => h1 h.2
      have h3 : ¬ (a.visitid = 0 ∧ 0 < numfacets) := fun h => h1 (by omega)
      simp only [List.map_cons, List.filter_cons, h1, decide_False, Bool.false_eq_true,
        if_false, h2, List.any_cons, h3, Bool.false_or, and_false]
      exact ih

/-- The counting pass of the qhull adapter, on an array that is zero from the running
index on: the sizes of the cells, entry after entry (0 for a NULL entry). -/
theorem qhull_ncv_list (numfacets : Nat) (vs : List (Option Qhull.vertexT)) (A : List Nat)
    (n : Nat) (h : vs.length ≤ n) :
    vs.foldl (Qhull.num_cell_verts_step numfacets) (A ++ List.replicate n 0, A.length) =
      (A ++ vs.map (fun e => match e with
          | some v => Qhull.cell_size numfacets v
          | none => 0) ++ List.replicate (n - vs.length) 0, A.length + vs.length) := by
  induction vs generalizing A n with
  | nil => simp
  | cons e vs ih =>
    simp only [List.length_cons] at h
    obtain ⟨n1, rfl⟩ : ∃ n1, n = n1 + 1 := ⟨n - 1, by omega⟩
    simp only [List.foldl_cons]
    have hstep : Qhull.num_cell_verts_step numfacets (A ++ List.replicate (n1 + 1) 0, A.length) e
        = ((A ++ [match e with
            | some v => Qhull.cell_size numfacets v
            | none => 0]) ++ List.replicate n1 0,
          (A ++ [match e with
            | some v => Qhull.cell_size numfacets v
            | none => 0]).length) := by
      cases e with
      | none =>
        simp [Qhull.num_cell_verts_step, List.replicate_succ]
      | some v =>
        simp only [Qhull.num_cell_verts_step, qhull_cell_size_eq]
        simp [List.replicate_succ, List.set_append_right]
    rw [hstep, ih _ n1 (by omega)]
    simp
    omega

theorem qhull_survivor_ring (numfacets : Nat) (v : Qhull.vertexT)
    (h : Qhull.skipped numfacets (some v) = false) :
    (Qhull.cell_ring numfacets v).length = Qhull.cell_size numfacets v := by
  rw [qhull_ring_length]
  unfold Qhull.cell_size
  have hc := qhull_count_foldl numfacets v.neighbors (0, 0)
  simp only [Qhull.skipped, Qhull.count_neighbors, hc, Nat.zero_add, ne_eq,
    decide_eq_false_iff_not, not_and] at h
  by_cases hz : v.neighbors.any (fun n => decide (n.visitid = 0)) = true
  · simp only [hz, if_true, one_ne_zero, not_false_eq_true, forall_const] at h ⊢
    have hpos : 0 < (v.neighbors.filter
        (fun n => decide (0 < n.visitid ∧ n.visitid < numfacets))).length := by omega
    obtain ⟨b, hb⟩ := List.exists_mem_of_length_pos hpos
    have hb2 := (List.mem_filter.mp hb).2
    simp only [decide_eq_true_eq] at hb2
    have hnf : 0 < numfacets := by omega
    have : v.neighbors.any (fun n => decide (n.visitid = 0 ∧ 0 < numfacets)) = true := by
      rw [List.any_eq_true] at hz ⊢
      obtain ⟨x, hx, hx0⟩ := hz
      exact ⟨x, hx, by simpa [hnf] using hx0⟩
    rw [this]
    rfl
  · have hz2 : v.neighbors.any (fun n => decide (n.visitid = 0)) = false := by simpa using hz
    have : v.neighbors.any (fun n => decide (n.visitid = 0 ∧ 0 < numfacets)) = false := by
      rw [List.any_eq_false] at hz2 ⊢
      intro x hx
      have := hz2 x hx
      simp only [decide_eq_true_eq] at this ⊢
      exact fun hh => this hh.1
    rw [hz2, this]

theorem qhull_gen_ncv (numfacets : Nat) (vertices : List (Option Qhull.vertexT))
    (num_particles : Nat) (h : vertices.length ≤ num_particles) :
    (Qhull.first_pass numfacets vertices).vertices
      = vertices.map (fun e => if Qhull.skipped numfacets e = true then none else e) ∧
    (Qhull.gen_voronoi_output numfacets vertices num_particles).num_cell_verts =
      ((Qhull.first_pass numfacets vertices).vertices.map (fun e => match e with
          | some v => Qhull.cell_size numfacets v
          | none => 0)) ++ List.replicate (num_particles - vertices.length) 0 := by
  have hfp : (Qhull.first_pass numfacets vertices).vertices
      = vertices.map (fun e => if Qhull.skipped numfacets e = true then none else e) := by
    have := (qhull_first_pass_foldl numfacets vertices
      { vertices := [], numvertices := 0, skip_cells := [], cell := 0 }).1
    simpa [Qhull.first_pass] using this
  refine ⟨hfp, ?_⟩
  have hl : (Qhull.first_pass numfacets vertices).vertices.length = vertices.length := by
    rw [hfp, List.length_map]
  have := qhull_ncv_list numfacets (Qhull.first_pass numfacets vertices).vertices []
    num_particles (by omega)
  simp only [List.nil_append, List.length_nil, Nat.zero_add] at this
  simp only [Qhull.gen_voronoi_output, Qhull.num_cell_verts, this, hl]

/-- The filled array of the qhull adapter, in full. -/
theorem qhull_cells_eq (numfacets : Nat) (vertices : List (Option Qhull.vertexT))
    (num_particles : Nat) (h : vertices.length ≤ num_particles) :
    Qhull.tot_num_cell_verts numfacets vertices num_particles
      = ((Qhull.first_pass numfacets vertices).vertices.flatMap (fun e => match e with
          | some v => Qhull.cell_ring numfacets v
          | none => [])).length ∧
    Qhull.gen_voronoi_cells numfacets vertices num_particles =
      some (((Qhull.first_pass numfacets vertices).vertices.flatMap (fun e => match e with
          | some v => Qhull.cell_ring numfacets v
          | none => [])).map some,
        Qhull.tot_num_cell_verts numfacets vertices num_particles) := by
  obtain ⟨hfp, hncv⟩ := qhull_gen_ncv numfacets vertices num_particles h
  have hl : (Qhull.first_pass numfacets vertices).vertices.length = vertices.length := by
    rw [hfp, List.length_map]
  have hsz : ∀ e ∈ (Qhull.first_pass numfacets vertices).vertices,
      (match e with
        | some v => Qhull.cell_size numfacets v
        | none => 0) = (match e with
        | some v => Qhull.cell_ring numfacets v
        | none => []).length := by
    intro e he
    cases e with
    | none => rfl
    | some v =>
      rw [hfp] at he
      obtain ⟨e0, _, he0⟩ := List.mem_map.mp he
      by_cases hs : Qhull.skipped numfacets e0 = true
      · simp [hs] at he0
      · simp only [hs, if_false] at he0
        subst he0
        exact (qhull_survivor_ring numfacets v (by simpa using hs)).symm
  have htot : Qhull.tot_num_cell_verts numfacets vertices num_particles
      = ((Qhull.first_pass numfacets vertices).vertices.flatMap (fun e => match e with
          | some v => Qhull.cell_ring numfacets v
          | none => [])).length := by
    rw [length_flatMap_sum]
    unfold Qhull.tot_num_cell_verts
    rw [hncv, List.take_of_length_le (by simp [hl]; omega), List.sum_append,
      sum_replicate_zero, Nat.add_zero, List.map_congr_left hsz]
  refine ⟨htot, ?_⟩
  unfold Qhull.gen_voronoi_cells
  rw [foldlM_chunks _ (fun e => ((match e with
      | some v => Qhull.cell_ring numfacets v
      | none => []) : List Nat).map some)
    (fun st e => qhull_cells_step_eq numfacets st e)]
  rw [← List.map_flatMap, foldlM_push_at _ _ 0 (by simp), htot]
  generalize (Qhull.first_pass numfacets vertices).vertices.flatMap (fun e => match e with
    | some v => Qhull.cell_ring numfacets v
    | none => []) = X
  simp

/-- The layout of `cells` in the qhull adapter. -/
theorem qhull_cells_layout (numfacets : Nat) (vertices : List (Option Qhull.vertexT))
    (num_particles : Nat) (h : vertices.length ≤ num_particles) :
    ∃ cells : List Nat,
      Qhull.gen_voronoi_cells numfacets vertices num_particles =
        some (cells.map some, Qhull.tot_num_cell_verts numfacets vertices num_particles) ∧
      cells.length = Qhull.tot_num_cell_verts numfacets vertices num_particles ∧
      ∀ (k : Nat) (v : Qhull.vertexT),
        (Qhull.first_pass numfacets vertices).vertices[k]? = some (some v) →
        (Qhull.gen_voronoi_output numfacets vertices num_particles).num_cell_verts[k]?
          = some (Qhull.cell_ring numfacets v).length ∧
        (Qhull.cell_ring numfacets v).length
          = (v.neighbors.filter
              (fun n => decide (0 < n.visitid ∧ n.visitid < numfacets))).length
            + (if v.neighbors.any (fun n => decide (n.visitid = 0)) then 1 else 0) ∧
        (Qhull.cell_ring numfacets v).count 0
          = (if v.neighbors.any (fun n => decide (n.visitid = 0)) then 1 else 0) ∧
        (cells.drop (((Qhull.gen_voronoi_output numfacets vertices
              num_particles).num_cell_verts.take k).sum)).take
          ((Qhull.gen_voronoi_output numfacets vertices num_particles).num_cell_verts.getD k 0)
          = Qhull.cell_ring numfacets v := by
  obtain ⟨htot, hcells⟩ := qhull_cells_eq numfacets vertices num_particles h
  obtain ⟨hfp, hncv⟩ := qhull_gen_ncv numfacets vertices num_particles h
  refine ⟨_, hcells, htot.symm, ?_⟩
  intro k v hk
  have hklt : k < (Qhull.first_pass numfacets vertices).vertices.length :=
    (List.getElem?_eq_some.mp hk).1
  have hsurv : Qhull.skipped numfacets (some v) = false := by
    rw [hfp, List.getElem?_map] at hk
    cases he : vertices[k]? with
    | none => simp [he] at hk
    | some e0 =>
      simp only [he, Option.map_some', Option.some.injEq] at hk
      by_cases hs : Qhull.skipped numfacets e0 = true
      · simp [hs] at hk
      · simp only [hs, if_false] at hk
        subst hk
        simpa using hs
  have hring := qhull_survivor_ring numfacets v hsurv
  have hk1 : (Qhull.gen_voronoi_output numfacets vertices num_particles).num_cell_verts[k]?
      = some (Qhull.cell_ring numfacets v).length := by
    rw [hncv, List.getElem?_append_left (by simpa using hklt), List.getElem?_map, hk, hring]
    rfl
  have hcnt : (Qhull.cell_ring numfacets v).count 0
      = (if v.neighbors.any (fun n => decide (n.visitid = 0)) then 1 else 0) := by
    have h1 := qhull_ring_length numfacets v
    have h2 : Qhull.cell_size numfacets v
        = (v.neighbors.filter
            (fun n => decide (0 < n.visitid ∧ n.visitid < numfacets))).length
          + (if v.neighbors.any (fun n => decide (n.visitid = 0)) then 1 else 0) := rfl
    rw [qhull_ring_count_zero]
    rw [hring, h2] at h1
    omega
  refine ⟨hk1, by rw [hring]; rfl, hcnt, ?_⟩
  have hsz : ∀ e ∈ (Qhull.first_pass numfacets vertices).vertices,
      (match e with
        | some v => Qhull.cell_size numfacets v
        | none => 0) = (match e with
        | some v => Qhull.cell_ring numfacets v
        | none => []).length := by
    intro e he
    cases e with
    | none => rfl
    | some w =>
      rw [hfp] at he
      obtain ⟨e0, _, he0⟩ := List.mem_map.mp he
      by_cases hs : Qhull.skipped numfacets e0 = true
      · simp [hs] at he0
      · simp only [hs, if_false] at he0
        subst he0
        exact (qhull_survivor_ring numfacets w (by simpa using hs)).symm
  have hsl := slice_flatten ((Qhull.first_pass numfacets vertices).vertices.map
      (fun e => match e with
        | some v => Qhull.cell_ring numfacets v
        | none => [])) k (Qhull.cell_ring numfacets v)
    (by rw [List.getElem?_map, hk]; rfl)
  rw [List.getD_eq_getElem?_getD, hk1, Option.getD_some]
  rw [hncv, take_sum_prefix _ _ k (by simpa using Nat.le_of_lt hklt)]
  rw [List.flatMap_def]
  rw [← List.map_take, List.map_map] at hsl
  rw [← List.map_take, List.map_congr_left (fun e he => hsz e (List.mem_of_mem_take he))]
  exact hsl

/-! ## Facts on the tets and the faces -/

theorem rem_tet_slot_facts (num_orig_particles : Nat) (gid : Int) (gids nids dirs : List Int)
    (st : tet_state) (p : Nat) :
    (rem_tet_slot num_orig_particles gid gids nids dirs st p).loc_tets = st.loc_tets ∧
    (rem_tet_slot num_orig_particles gid gids nids dirs st p).n = st.n ∧
    (rem_tet_slot num_orig_particles gid gids nids dirs st p).m = st.m + 1 ∧
    (rem_tet_slot num_orig_particles gid gids nids dirs st p).rem_tet_gids.length
      = st.rem_tet_gids.length + 1 ∧
    (rem_tet_slot num_orig_particles gid gids nids dirs st p).rem_tet_nids.length
      = st.rem_tet_nids.length + 1 ∧
    (rem_tet_slot num_orig_particles gid gids nids dirs st p).rem_tet_wrap_dirs.length
      = st.rem_tet_wrap_dirs.length + 1 := by
  unfold rem_tet_slot
  split <;> simp

theorem gen_delaunay_tet_ok (tet_verts : tet_verts_t) (num_orig_particles : Nat) (gid : Int)
    (gids nids dirs : List Int) (st : tet_state) (k : Nat) (h : tet_state_ok st k) :
    tet_state_ok (gen_delaunay_tet tet_verts num_orig_particles gid gids nids dirs st) (k + 1) := by
  obtain ⟨h1, h2, h3, h4, h5, h6, h7⟩ := h
  unfold gen_delaunay_tet
  simp only
  split
  · refine ⟨?_, h2, h3, h4, ?_, h6, ?_⟩
    · simp [h1]
    · simp only; omega
    · simp only; omega
  · simp only [List.foldl_cons, List.foldl_nil]
    obtain ⟨a1, a2, a3, a4, a5, a6⟩ := rem_tet_slot_facts num_orig_particles gid gids nids dirs
      st tet_verts.1
    obtain ⟨b1, b2, b3, b4, b5, b6⟩ := rem_tet_slot_facts num_orig_particles gid gids nids dirs
      (rem_tet_slot num_orig_particles gid gids nids dirs st tet_verts.1) tet_verts.2.1
    obtain ⟨c1, c2, c3, c4, c5, c6⟩ := rem_tet_slot_facts num_orig_particles gid gids nids dirs
      (rem_tet_slot num_orig_particles gid gids nids dirs
        (rem_tet_slot num_orig_particles gid gids nids dirs st tet_verts.1) tet_verts.2.1)
      tet_verts.2.2.1
    obtain ⟨d1, d2, d3, d4, d5, d6⟩ := rem_tet_slot_facts num_orig_particles gid gids nids dirs
      (rem_tet_slot num_orig_particles gid gids nids dirs
        (rem_tet_slot num_orig_particles gid gids nids dirs
          (rem_tet_slot num_orig_particles gid gids nids dirs st tet_verts.1) tet_verts.2.1)
        tet_verts.2.2.1) tet_verts.2.2.2
    unfold tet_state_ok
    rw [d1, d2, d3, d4, d5, d6, c1, c2, c3, c4, c5, c6, b1, b2, b3, b4, b5, b6,
      a1, a2, a3, a4, a5, a6]
    refine ⟨h1, ?_, ?_, ?_, h5, ?_, ?_⟩ <;> omega

theorem cgal_tets_ok (Dt : CGAL.Delaunay3D) (num_orig_particles : Nat) (gid : Int)
    (gids nids dirs : List Int) (cells : List Nat) (st : tet_state) (k : Nat)
    (h : tet_state_ok st k) :
    tet_state_ok (cells.foldl
      (fun st cit =>
        gen_delaunay_tet (CGAL.tet_of_cell Dt cit) num_orig_particles gid gids nids dirs st) st)
      (k + cells.length) := by
  induction cells generalizing st k with
  | nil => simpa using h
  | cons c cs ih =>
    simp only [List.foldl_cons, List.length_cons]
    have := ih _ (k + 1) (gen_delaunay_tet_ok (CGAL.tet_of_cell Dt c) num_orig_particles gid
      gids nids dirs st k h)
    rw [show k + (cs.length + 1) = k + 1 + cs.length by omega]
    exact this

theorem qhull_tets_ok (NEWfacets ORIENTclock : Bool) (hull_dim : Nat) (num_orig_particles : Nat)
    (gid : Int) (gids nids dirs : List Int) (facetlist : List Qhull.facetT) (st : tet_state)
    (k : Nat) (h : tet_state_ok st k) :
    tet_state_ok (facetlist.foldl
      (Qhull.delaunay_step NEWfacets ORIENTclock hull_dim num_orig_particles gid gids nids dirs)
      st) (k + (Qhull.handed_facets NEWfacets facetlist).length) := by
  induction facetlist generalizing st k with
  | nil => simpa [Qhull.handed_facets] using h
  | cons f fs ih =>
    simp only [List.foldl_cons]
    by_cases hs : Qhull.skip_facet NEWfacets f = true
    · have := ih st k h
      simpa [Qhull.delaunay_step, Qhull.handed_facets, hs] using this
    · have hs2 : Qhull.skip_facet NEWfacets f = false := by simpa using hs
      by_cases h4 : f.vertices.length = 4
      · have := ih _ (k + 1) (gen_delaunay_tet_ok (Qhull.tet_of_facet ORIENTclock hull_dim f)
          num_orig_particles gid gids nids dirs st k h)
        simp only [Qhull.handed_facets, Qhull.delaunay_step, hs2, h4, Bool.false_eq_true,
          if_false, ne_eq, not_true_eq_false, Bool.not_false, decide_True, Bool.and_self,
          List.filter_cons_of_pos, List.length_cons] at this ⊢
        rw [show k + ((List.filter (fun facet => !Qhull.skip_facet NEWfacets facet
            && decide (facet.vertices.length = 4)) fs).length + 1)
          = k + 1 + (List.filter (fun facet => !Qhull.skip_facet NEWfacets facet
            && decide (facet.vertices.length = 4)) fs).length by omega]
        exact this
      · have := ih st k h
        simpa [Qhull.delaunay_step, Qhull.handed_facets, hs2, h4] using this

/-- The face of an edge: its ring is written when it fits into the ring array, and
otherwise a write leaves the array. -/
theorem cgal_face_of_edge_eq (M : Nat) (Dt : CGAL.Delaunay3D) (ti : Nat → Nat)
    (e : Nat × Nat × Nat) :
    CGAL.face_of_edge M Dt ti e =
      if (CGAL.ring Dt ti (CGAL.edge_cells Dt e)).length ≤ M then
        some { cells := (Dt.info (Dt.vertex e.1 e.2.1), Dt.info (Dt.vertex e.1 e.2.2)),
               num_verts := (CGAL.ring Dt ti (CGAL.edge_cells Dt e)).length,
               verts := CGAL.ring Dt ti (CGAL.edge_cells Dt e)
                 ++ List.replicate (M - (CGAL.ring Dt ti (CGAL.edge_cells Dt e)).length) 0 }
      else none := by
  unfold CGAL.face_of_edge
  simp only
  rw [cgal_dedup_unseen, List.map_id, foldlM_push_at _ _ 0 (by simp)]
  simp only [Nat.zero_add, List.length_replicate, List.take_zero, List.nil_append,
    List.drop_replicate, CGAL.edge_cells]
  split <;> simp

theorem faces_fold_some {α β : Type} (f : α → Option β) (g : α → β) (xs : List α)
    (h : ∀ x ∈ xs, f x = some (g x)) (acc : List β) (n : Nat) :
    xs.foldlM (fun (st : List β × Nat) x => (f x).map (fun y => (st.1 ++ [y], st.2 + 1)))
      (acc, n) = some (acc ++ xs.map g, n + xs.length) := by
  induction xs generalizing acc n with
  | nil => simp
  | cons x xs ih =>
    simp only [List.foldlM_cons, h x (by simp), Option.map_some', Option.bind_eq_bind,
      Option.some_bind]
    rw [ih (fun y hy => h y (by simp [hy]))]
    simp
    omega

theorem faces_fold_none {α β : Type} (f : α → Option β) (xs : List α)
    (h : ∃ x ∈ xs, f x = none) (acc : List β) (n : Nat) :
    xs.foldlM (fun (st : List β × Nat) x => (f x).map (fun y => (st.1 ++ [y], st.2 + 1)))
      (acc, n) = none := by
  induction xs generalizing acc n with
  | nil => simp at h
  | cons x xs ih =>
    simp only [List.foldlM_cons, Option.bind_eq_bind]
    cases hx : f x with
    | none => simp
    | some y =>
      obtain ⟨z, hz, hfz⟩ := h
      simp only [List.mem_cons] at hz
      rcases hz with rfl | hz
      · rw [hx] at hfz; cases hfz
      · simp only [Option.map_some', Option.some_bind]
        exact ih ⟨z, hz, hfz⟩ _ _

/-- The faces of the CGAL adapter when every ring fits into the ring array: one face
per finite edge, in the order of the edges. -/
theorem cgal_faces_eq (M : Nat) (Dt : CGAL.Delaunay3D)
    (h : ∀ e ∈ Dt.finite_edges,
      (CGAL.ring Dt (CGAL.vertices_loop Dt).tet_indices (CGAL.edge_cells Dt e)).length ≤ M) :
    CGAL.gen_voronoi_faces M Dt =
      some (Dt.finite_edges.map (fun e =>
          { cells := (Dt.info (Dt.vertex e.1 e.2.1), Dt.info (Dt.vertex e.1 e.2.2)),
            num_verts :=
              (CGAL.ring Dt (CGAL.vertices_loop Dt).tet_indices (CGAL.edge_cells Dt e)).length,
            verts := CGAL.ring Dt (CGAL.vertices_loop Dt).tet_indices (CGAL.edge_cells Dt e)
              ++ List.replicate (M - (CGAL.ring Dt (CGAL.vertices_loop Dt).tet_indices
                  (CGAL.edge_cells Dt e)).length) 0 }),
        Dt.finite_edges.length) := by
  unfold CGAL.gen_voronoi_faces
  simp only
  rw [faces_fold_some _ _ Dt.finite_edges (fun e he => by
    rw [cgal_face_of_edge_eq, if_pos (h e he)])]
  simp

/-- A ring that does not fit into the ring array makes a write leave the array. -/
theorem cgal_faces_none (M : Nat) (Dt : CGAL.Delaunay3D)
    (h : ∃ e ∈ Dt.finite_edges,
      M < (CGAL.ring Dt (CGAL.vertices_loop Dt).tet_indices (CGAL.edge_cells Dt e)).length) :
    CGAL.gen_voronoi_faces M Dt = none := by
  unfold CGAL.gen_voronoi_faces
  simp only
  rw [faces_fold_none _ Dt.finite_edges (by
    obtain ⟨e, he, hlt⟩ := h
    exact ⟨e, he, by rw [cgal_face_of_edge_eq, if_neg (by omega)]⟩)]
  rfl

theorem bipyramid_axis_ring (n : Nat) (ti : Nat → Nat) :
    (CGAL.ring (CGAL.bipyramid (n + 1)) ti
      (CGAL.edge_cells (CGAL.bipyramid (n + 1)) (0, 0, 1))).length = n + 1 := by
  rw [cgal_ring_length]
  have hc : CGAL.edge_cells (CGAL.bipyramid (n + 1)) (0, 0, 1) = List.range (n + 1) := by
    simp [CGAL.edge_cells, CGAL.bipyramid, List.range_succ_eq_map]
  rw [hc]
  have hf : ∀ c ∈ List.range (n + 1), (CGAL.bipyramid (n + 1)).is_infinite c = false := by
    intro c hc
    have : c < n + 1 := List.mem_range.mp hc
    simp [CGAL.bipyramid]
    omega
  have h1 : (List.range (n + 1)).filter (fun c => !(CGAL.bipyramid (n + 1)).is_infinite c)
      = List.range (n + 1) := by
    rw [List.filter_eq_self]
    intro c hc
    simp [hf c hc]
  have h2 : (List.range (n + 1)).any (CGAL.bipyramid (n + 1)).is_infinite = false := by
    rw [List.any_eq_false]
    intro c hc
    simp [hf c hc]
  rw [h1, h2]
  simp

theorem tetra_rings :
    CGAL.tetra_Dt.finite_edges.map (fun e =>
      CGAL.ring CGAL.tetra_Dt (CGAL.vertices_loop CGAL.tetra_Dt).tet_indices
        (CGAL.edge_cells CGAL.tetra_Dt e))
      = [[1, 0], [1, 0], [1, 0], [1, 0], [1, 0], [1, 0]] := by
  decide

theorem cgal_sorted_mem (Dt : CGAL.Delaunay3D) (kv : Nat × Nat)
    (h : kv ∈ CGAL.sorted_vertices Dt) : kv.2 ∈ Dt.finite_vertices := by
  unfold CGAL.sorted_vertices at h
  rw [(List.perm_insertionSort _ _).mem_iff] at h
  obtain ⟨v, hv, rfl⟩ := List.mem_map.mp h
  exact hv

theorem cgal_ring_zero_mem (Dt : CGAL.Delaunay3D) (ti : Nat → Nat) (cells : List Nat)
    (h : cells.any Dt.is_infinite = true) : 0 ∈ CGAL.ring Dt ti cells := by
  simp [CGAL.ring, h]

theorem count_tagged (f : Nat → List Qhull.stage) (n i : Nat) (s : Qhull.stage) :
    ((List.range n).flatMap (fun j => (f j).map (fun t => (j, t)))).count (i, s)
      = if i < n then (f i).count s else 0 := by
  induction n with
  | zero => simp
  | succ n ih =>
    rw [List.range_succ, List.flatMap_append, List.count_append, ih]
    simp only [List.flatMap_cons, List.flatMap_nil, List.append_nil]
    have hc : ∀ l : List Qhull.stage,
        (l.map (fun t => (n, t))).count (i, s) = if i = n then l.count s else 0 := by
      intro l
      induction l with
      | nil => simp
      | cons t l ihl =>
        simp only [List.map_cons, List.count_cons, ihl]
        by_cases hin : i = n
        · subst hin
          by_cases hts : t = s
          · subst hts; simp
          · have : ¬ ((i, t) == (i, s)) = true := by simpa using hts
            have h2 : ¬ (t == s) = true := by simpa using hts
            simp [this, h2]
        · have : ¬ ((n, t) == (i, s)) = true := by
            simp only [beq_iff_eq, Prod.mk.injEq, not_and]
            intro h; exact absurd h.symm hin
          simp [hin, this]
    rw [hc (f n)]
    by_cases h1 : i < n
    · have : i ≠ n := by omega
      simp [h1, this, Nat.lt_succ_of_lt h1]
    · by_cases h2 : i = n
      · subst h2; simp
      · have : ¬ i < n + 1 := by omega
        simp [h1, h2, this]

/-- C11, as amended: when the ring of every finite edge has at most `MAX_FACE_VERTS`
entries, the CGAL `gen_voronoi_output` emits exactly one face per finite edge; the
cells of the face are the labels of the two endpoints of the edge; `num_verts` is the
length of the ring; and the ring lists, in circulation order, the index of every
finite cell around the edge, with the index 0 once when a cell around the edge is
infinite and not at all otherwise. -/
theorem cgal_faces_rings (M : Nat) (Dt : CGAL.Delaunay3D)
    (h : ∀ e ∈ Dt.finite_edges,
      (CGAL.ring Dt (CGAL.vertices_loop Dt).tet_indices (CGAL.edge_cells Dt e)).length ≤ M) :
    ∃ faces : List vface_t,
      CGAL.gen_voronoi_faces M Dt = some (faces, Dt.finite_edges.length) ∧
      faces.length = Dt.finite_edges.length ∧
      ∀ (k : Nat) (e : Nat × Nat × Nat), Dt.finite_edges[k]? = some e →
        ∃ f, faces[k]? = some f ∧
          f.cells = (Dt.info (Dt.vertex e.1 e.2.1), Dt.info (Dt.vertex e.1 e.2.2)) ∧
          f.verts.length = M ∧
          f.verts.take f.num_verts
            = CGAL.ring Dt (CGAL.vertices_loop Dt).tet_indices (CGAL.edge_cells Dt e) ∧
          f.num_verts
            = (CGAL.ring Dt (CGAL.vertices_loop Dt).tet_indices (CGAL.edge_cells Dt e)).length ∧
          f.num_verts = ((CGAL.edge_cells Dt e).filter (fun c => !Dt.is_infinite c)).length
            + (if (CGAL.edge_cells Dt e).any Dt.is_infinite then 1 else 0) ∧
          ((∀ c ∈ CGAL.edge_cells Dt e, Dt.is_infinite c = false → c ∈ Dt.finite_cells) →
            (f.verts.take f.num_verts).count 0
              = if (CGAL.edge_cells Dt e).any Dt.is_infinite then 1 else 0) := by
  refine ⟨_, cgal_faces_eq M Dt h, by simp, ?_⟩
  intro k e hk
  refine ⟨_, by rw [List.getElem?_map, hk]; rfl, rfl, ?_, ?_, rfl, cgal_ring_length Dt _ _, ?_⟩
  · have hmem : e ∈ Dt.finite_edges := by
      obtain ⟨hlt, he⟩ := List.getElem?_eq_some.mp hk
      exact he ▸ List.getElem_mem hlt
    have := h e hmem
    simp only [List.length_append, List.length_replicate]
    omega
  · simp
  · intro hfin
    simp only [List.take_left']
    exact cgal_ring_count_zero Dt _ _
      (fun c hc hinf => cgal_tet_indices_pos Dt c (hfin c hc hinf))

/-- C11 at the triangulation of four points that are not coplanar, with a ring array
of 3 entries. -/
theorem cgal_faces_rings_witness :
    ∃ faces : List vface_t,
      CGAL.gen_voronoi_faces 3 CGAL.tetra_Dt = some (faces, CGAL.tetra_Dt.finite_edges.length) ∧
      faces.length = CGAL.tetra_Dt.finite_edges.length ∧
      ∀ (k : Nat) (e : Nat × Nat × Nat), CGAL.tetra_Dt.finite_edges[k]? = some e →
        ∃ f, faces[k]? = some f ∧
          f.cells = (CGAL.tetra_Dt.info (CGAL.tetra_Dt.vertex e.1 e.2.1), CGAL.tetra_Dt.info
              (CGAL.tetra_Dt.vertex e.1 e.2.2)) ∧
          f.verts.length = 3 ∧
          f.verts.take f.num_verts
            = CGAL.ring CGAL.tetra_Dt (CGAL.vertices_loop CGAL.tetra_Dt).tet_indices
                (CGAL.edge_cells CGAL.tetra_Dt e) ∧
          f.num_verts
            = (CGAL.ring CGAL.tetra_Dt (CGAL.vertices_loop CGAL.tetra_Dt).tet_indices
                (CGAL.edge_cells CGAL.tetra_Dt e)).length ∧
          f.num_verts = ((CGAL.edge_cells CGAL.tetra_Dt e).filter (fun c =>
              !CGAL.tetra_Dt.is_infinite c)).length
            + (if (CGAL.edge_cells CGAL.tetra_Dt e).any CGAL.tetra_Dt.is_infinite then 1 else 0) ∧
          ((∀ c ∈ CGAL.edge_cells CGAL.tetra_Dt e, CGAL.tetra_Dt.is_infinite c = false → c ∈
              CGAL.tetra_Dt.finite_cells) →
            (f.verts.take f.num_verts).count 0
              = if (CGAL.edge_cells CGAL.tetra_Dt e).any CGAL.tetra_Dt.is_infinite then 1 else 0) :=
  cgal_faces_rings 3 CGAL.tetra_Dt (by decide)

/-- C11 as stated fails: whatever the size `MAX_FACE_VERTS` of the ring array, the
bipyramid with `MAX_FACE_VERTS + 3` points around its axis has `MAX_FACE_VERTS + 3`
finite cells around the axis edge, and writing their ring leaves the ring array. -/
theorem cgal_faces_rings_counterexample :
    ¬ ∃ M : Nat,
      (CGAL.ring (CGAL.bipyramid (M + 3)) (CGAL.vertices_loop (CGAL.bipyramid (M + 3))).tet_indices
          (CGAL.edge_cells (CGAL.bipyramid (M + 3)) (0, 0, 1))).length ≠ M + 3 ∨
      (0, 0, 1) ∉ (CGAL.bipyramid (M + 3)).finite_edges ∨
      CGAL.gen_voronoi_faces M (CGAL.bipyramid (M + 3)) ≠ none := by
  rintro ⟨M, h⟩
  have hr := bipyramid_axis_ring (M + 2) (CGAL.vertices_loop (CGAL.bipyramid (M + 3))).tet_indices
  have hm : (0, 0, 1) ∈ (CGAL.bipyramid (M + 3)).finite_edges := by
    simp [CGAL.bipyramid]
  rcases h with h | h | h
  · exact h hr
  · exact h hm
  · exact h (cgal_faces_none M _ ⟨(0, 0, 1), hm, by rw [hr]; omega⟩)

/-- C12 (code defect): for four points that are not coplanar the CGAL adapter emits the
six faces of the six edges of the only tet; each ring holds the index of that tet and
the infinity vertex, so every face has `num_verts = 2 < 3`. -/
theorem cgal_face_ring_defect (M : Nat) (hM : 2 ≤ M) :
    ∃ faces : List vface_t,
      CGAL.gen_voronoi_faces M CGAL.tetra_Dt = some (faces, 6) ∧
      faces.map (fun f => f.cells) = [(0, 1), (0, 2), (0, 3), (1, 2), (1, 3), (2, 3)] ∧
      faces.map (fun f => f.num_verts) = [2, 2, 2, 2, 2, 2] ∧
      faces.map (fun f => f.verts.take f.num_verts)
        = [[1, 0], [1, 0], [1, 0], [1, 0], [1, 0], [1, 0]] := by
  have hr := tetra_rings
  have hfit : ∀ e ∈ CGAL.tetra_Dt.finite_edges,
      (CGAL.ring CGAL.tetra_Dt (CGAL.vertices_loop CGAL.tetra_Dt).tet_indices
        (CGAL.edge_cells CGAL.tetra_Dt e)).length ≤ M := by
    intro e he
    have : CGAL.ring CGAL.tetra_Dt (CGAL.vertices_loop CGAL.tetra_Dt).tet_indices
        (CGAL.edge_cells CGAL.tetra_Dt e) ∈ [[1, 0], [1, 0], [1, 0], [1, 0], [1, 0], [1, 0]] := by
      rw [← hr]
      exact List.mem_map_of_mem _ he
    simp at this
    rw [this]
    exact hM
  refine ⟨_, cgal_faces_eq M _ hfit, ?_, ?_, ?_⟩
  · rw [List.map_map]
    simp only [Function.comp_def]
    decide
  · rw [List.map_map]
    have := congrArg (List.map List.length) hr
    simpa [List.map_map, Function.comp_def] using this
  · rw [List.map_map]
    simpa [Function.comp_def] using hr

/-- C12 at a ring array of 3 entries. -/
theorem cgal_face_ring_defect_witness :
    ∃ faces : List vface_t,
      CGAL.gen_voronoi_faces 3 CGAL.tetra_Dt = some (faces, 6) ∧
      faces.map (fun f => f.cells) = [(0, 1), (0, 2), (0, 3), (1, 2), (1, 3), (2, 3)] ∧
      faces.map (fun f => f.num_verts) = [2, 2, 2, 2, 2, 2] ∧
      faces.map (fun f => f.verts.take f.num_verts)
        = [[1, 0], [1, 0], [1, 0], [1, 0], [1, 0], [1, 0]] :=
  cgal_face_ring_defect 3 (by decide)

/-- C13: after `gen_delaunay_output`, in the CGAL adapter and in the qhull adapter,
`4 * num_loc_tets` plus the number `m` of vertex slots emitted for remote tets equals
`4 * (num_loc_tets + num_rem_tets)`, with `n = 4 * num_loc_tets` entries in `loc_tets`
and `m = 4 * num_rem_tets` entries in each remote array; and the value returned,
`num_loc_tets + num_rem_tets`, is the number of tets handed to the classifier (the
finite cells; the facets not skipped that have 4 vertices). -/
theorem gen_delaunay_output_accounting (Dt : CGAL.Delaunay3D) (NEWfacets ORIENTclock : Bool)
    (hull_dim : Nat) (facetlist : List Qhull.facetT) (num_orig_particles : Nat) (gid : Int)
    (gids nids dirs : List Int) :
    (4 * (CGAL.gen_delaunay_output Dt num_orig_particles gid gids nids dirs).num_loc_tets
        + (CGAL.gen_delaunay_output Dt num_orig_particles gid gids nids dirs).tets.m
      = 4 * ((CGAL.gen_delaunay_output Dt num_orig_particles gid gids nids dirs).num_loc_tets
          + (CGAL.gen_delaunay_output Dt num_orig_particles gid gids nids dirs).num_rem_tets) ∧
      (CGAL.gen_delaunay_output Dt num_orig_particles gid gids nids dirs).tets.loc_tets.length
        = 4 * (CGAL.gen_delaunay_output Dt num_orig_particles gid gids nids dirs).num_loc_tets ∧
      (CGAL.gen_delaunay_output Dt num_orig_particles gid gids nids dirs).tets.rem_tet_gids.length
        = 4 * (CGAL.gen_delaunay_output Dt num_orig_particles gid gids nids dirs).num_rem_tets ∧
      (CGAL.gen_delaunay_output Dt num_orig_particles gid gids nids dirs).returned
        = (CGAL.gen_delaunay_output Dt num_orig_particles gid gids nids dirs).num_loc_tets
          + (CGAL.gen_delaunay_output Dt num_orig_particles gid gids nids dirs).num_rem_tets ∧
      (CGAL.gen_delaunay_output Dt num_orig_particles gid gids nids dirs).returned
        = Dt.finite_cells.length) ∧
    (4 * (Qhull.gen_delaunay_output NEWfacets ORIENTclock hull_dim facetlist num_orig_particles
          gid gids nids dirs).num_loc_tets
        + (Qhull.gen_delaunay_output NEWfacets ORIENTclock hull_dim facetlist num_orig_particles
          gid gids nids dirs).tets.m
      = 4 * ((Qhull.gen_delaunay_output NEWfacets ORIENTclock hull_dim facetlist
            num_orig_particles gid gids nids dirs).num_loc_tets
          + (Qhull.gen_delaunay_output NEWfacets ORIENTclock hull_dim facetlist
            num_orig_particles gid gids nids dirs).num_rem_tets) ∧
      (Qhull.gen_delaunay_output NEWfacets ORIENTclock hull_dim facetlist num_orig_particles
          gid gids nids dirs).tets.loc_tets.length
        = 4 * (Qhull.gen_delaunay_output NEWfacets ORIENTclock hull_dim facetlist
            num_orig_particles gid gids nids dirs).num_loc_tets ∧
      (Qhull.gen_delaunay_output NEWfacets ORIENTclock hull_dim facetlist num_orig_particles
          gid gids nids dirs).tets.rem_tet_gids.length
        = 4 * (Qhull.gen_delaunay_output NEWfacets ORIENTclock hull_dim facetlist
            num_orig_particles gid gids nids dirs).num_rem_tets ∧
      (Qhull.gen_delaunay_output NEWfacets ORIENTclock hull_dim facetlist num_orig_particles
          gid gids nids dirs).returned
        = (Qhull.gen_delaunay_output NEWfacets ORIENTclock hull_dim facetlist
            num_orig_particles gid gids nids dirs).num_loc_tets
          + (Qhull.gen_delaunay_output NEWfacets ORIENTclock hull_dim facetlist
            num_orig_particles gid gids nids dirs).num_rem_tets ∧
      (Qhull.gen_delaunay_output NEWfacets ORIENTclock hull_dim facetlist num_orig_particles
          gid gids nids dirs).returned
        = (Qhull.handed_facets NEWfacets facetlist).length) := by
  have hinit : tet_state_ok ⟨[], [], [], [], 0, 0⟩ 0 := by
    simp [tet_state_ok]
  obtain ⟨a1, a2, _, _, a5, a6, a7⟩ := cgal_tets_ok Dt num_orig_particles gid gids nids dirs
    Dt.finite_cells _ 0 hinit
  obtain ⟨b1, b2, _, _, b5, b6, b7⟩ := qhull_tets_ok NEWfacets ORIENTclock hull_dim
    num_orig_particles gid gids nids dirs facetlist _ 0 hinit
  refine ⟨⟨?_, ?_, ?_, rfl, ?_⟩, ⟨?_, ?_, ?_, rfl, ?_⟩⟩
  all_goals simp only [CGAL.gen_delaunay_output, Qhull.gen_delaunay_output]
  all_goals omega

/-- C14 (Scenario 1): for a triangulation with one finite cell and four vertices, each
of them on the hull (incident to an infinite cell), the CGAL adapter stores two
Voronoi vertices (`num_verts = 2`), hands exactly one tet to the tet classifier, and
the cell vertices of each of the four cells contain the infinity vertex 0, so that
none of the cells is complete. -/
theorem scenario_single_tet (Dt : CGAL.Delaunay3D) (num_orig_particles : Nat) (gid : Int)
    (gids nids dirs : List Int)
    (hc : Dt.finite_cells.length = 1) (hv : Dt.finite_vertices.length = 4)
    (hinf : ∀ v ∈ Dt.finite_vertices, (Dt.incident_cells v).any Dt.is_infinite = true) :
    (CGAL.gen_voronoi_output Dt 4).num_verts = 2 ∧
    (Dt.finite_cells.map (CGAL.tet_of_cell Dt)).length = 1 ∧
    (CGAL.gen_delaunay_output Dt num_orig_particles gid gids nids dirs).returned = 1 ∧
    ∃ cells : List Nat,
      CGAL.gen_voronoi_cells Dt 4 =
        some (cells.map some, (CGAL.gen_voronoi_output Dt 4).tot_num_cell_verts) ∧
      ∀ k, k < 4 →
        0 ∈ (cells.drop (((CGAL.gen_voronoi_output Dt 4).num_cell_verts.take k).sum)).take
              ((CGAL.gen_voronoi_output Dt 4).num_cell_verts.getD k 0) ∧
        ∀ (incident_sites : List Nat) (unconfirmed_ghost : Nat → Bool),
          cell_is_complete
            ((cells.drop (((CGAL.gen_voronoi_output Dt 4).num_cell_verts.take k).sum)).take
              ((CGAL.gen_voronoi_output Dt 4).num_cell_verts.getD k 0))
            incident_sites unconfirmed_ghost = false := by
  have hinit : tet_state_ok ⟨[], [], [], [], 0, 0⟩ 0 := by
    simp [tet_state_ok]
  obtain ⟨_, _, _, _, a5, a6, a7⟩ := cgal_tets_ok Dt num_orig_particles gid gids nids dirs
    Dt.finite_cells _ 0 hinit
  obtain ⟨cells, h1, _, h3⟩ := cgal_cells_layout Dt 4 (by omega)
  refine ⟨by simp [CGAL.gen_voronoi_output, hc], by simp [hc], ?_, cells, h1, ?_⟩
  · simp only [CGAL.gen_delaunay_output]
    omega
  · intro k hk
    have hklt : k < (CGAL.sorted_vertices Dt).length := by
      rw [cgal_sorted_length]; omega
    obtain ⟨_, hslice, _⟩ := h3 k _ (List.getElem?_eq_getElem hklt)
    have hz : 0 ∈ (cells.drop (((CGAL.gen_voronoi_output Dt 4).num_cell_verts.take k).sum)).take
              ((CGAL.gen_voronoi_output Dt 4).num_cell_verts.getD k 0) := by
      rw [hslice]
      exact cgal_ring_zero_mem Dt _ _
        (hinf _ (cgal_sorted_mem Dt _ (List.getElem_mem hklt)))
    refine ⟨hz, ?_⟩
    intro sites ghost
    unfold cell_is_complete
    rw [show List.contains _ 0 = true from List.elem_eq_true_of_mem hz]
    rfl

/-- C14 at the triangulation of four points that are not coplanar. -/
theorem scenario_single_tet_witness :
    (CGAL.gen_voronoi_output CGAL.tetra_Dt 4).num_verts = 2 ∧
    (CGAL.tetra_Dt.finite_cells.map (CGAL.tet_of_cell CGAL.tetra_Dt)).length = 1 ∧
    (CGAL.gen_delaunay_output CGAL.tetra_Dt 4 0 [] [] []).returned = 1 ∧
    ∃ cells : List Nat,
      CGAL.gen_voronoi_cells CGAL.tetra_Dt 4 =
        some (cells.map some, (CGAL.gen_voronoi_output CGAL.tetra_Dt 4).tot_num_cell_verts) ∧
      ∀ k, k < 4 →
        0 ∈ (cells.drop (((CGAL.gen_voronoi_output CGAL.tetra_Dt 4).num_cell_verts.take k).sum)).take
              ((CGAL.gen_voronoi_output CGAL.tetra_Dt 4).num_cell_verts.getD k 0) ∧
        ∀ (incident_sites : List Nat) (unconfirmed_ghost : Nat → Bool),
          cell_is_complete
            ((cells.drop
                (((CGAL.gen_voronoi_output CGAL.tetra_Dt 4).num_cell_verts.take k).sum)).take
              ((CGAL.gen_voronoi_output CGAL.tetra_Dt 4).num_cell_verts.getD k 0))
            incident_sites unconfirmed_ghost = false :=
  scenario_single_tet CGAL.tetra_Dt 4 0 [] [] [] (by decide) (by decide) (by decide)

/-- C15, as amended: for a block whose kernel call returns a non-zero exit code,
`local_cells` and `orig_cells` of the qhull adapter run neither `gen_voronoi_output`
nor `gen_delaunay_output` on that block, and they call the kernel exactly once for
it (no retry). -/
theorem qhull_failed_block (exitcodes : List Int) (i : Nat) (hi : i < exitcodes.length)
    (hfail : exitcodes.getD i 0 ≠ 0) :
    (Qhull.local_cells exitcodes).count (i, Qhull.stage.gen_voronoi_output) = 0 ∧
    (Qhull.orig_cells exitcodes).count (i, Qhull.stage.gen_voronoi_output) = 0 ∧
    (Qhull.orig_cells exitcodes).count (i, Qhull.stage.gen_delaunay_output) = 0 ∧
    (Qhull.local_cells exitcodes).count (i, Qhull.stage.qh_new_qhull) = 1 ∧
    (Qhull.orig_cells exitcodes).count (i, Qhull.stage.qh_new_qhull) = 1 := by
  unfold Qhull.local_cells Qhull.orig_cells
  rw [count_tagged (fun j => Qhull.local_cells_block (exitcodes.getD j 0)),
    count_tagged (fun j => Qhull.local_cells_block (exitcodes.getD j 0)),
    count_tagged (fun j => Qhull.orig_cells_block (exitcodes.getD j 0)),
    count_tagged (fun j => Qhull.orig_cells_block (exitcodes.getD j 0)),
    count_tagged (fun j => Qhull.orig_cells_block (exitcodes.getD j 0))]
  simp only [hi, if_true, Qhull.local_cells_block, Qhull.orig_cells_block, hfail, if_false]
  decide

/-- C15 at two blocks, the kernel failing on the second. -/
theorem qhull_failed_block_witness :
    (Qhull.local_cells [0, 2]).count (1, Qhull.stage.gen_voronoi_output) = 0 ∧
    (Qhull.orig_cells [0, 2]).count (1, Qhull.stage.gen_voronoi_output) = 0 ∧
    (Qhull.orig_cells [0, 2]).count (1, Qhull.stage.gen_delaunay_output) = 0 ∧
    (Qhull.local_cells [0, 2]).count (1, Qhull.stage.qh_new_qhull) = 1 ∧
    (Qhull.orig_cells [0, 2]).count (1, Qhull.stage.qh_new_qhull) = 1 :=
  qhull_failed_block [0, 2] 1 (by decide) (by decide)

/-- C15 as stated fails: on a block whose kernel call returns the exit code 1,
`local_cells` goes on to `incomplete_cells`, and `orig_cells` to `complete_cells` and
`cell_faces`, stages that read the cells, faces and tets of the block; and no call of
the iteration reports the exit code. -/
theorem qhull_failed_block_counterexample :
    Qhull.local_cells [1] =
      [(0, Qhull.stage.qh_new_qhull), (0, Qhull.stage.sites),
       (0, Qhull.stage.incomplete_cells), (0, Qhull.stage.qh_freeqhull)] ∧
    Qhull.orig_cells [1] =
      [(0, Qhull.stage.qh_new_qhull), (0, Qhull.stage.sites),
       (0, Qhull.stage.complete_cells), (0, Qhull.stage.neighbor_is_complete),
       (0, Qhull.stage.qh_freeqhull), (0, Qhull.stage.cell_faces)] ∧
    (Qhull.local_cells [1]).any (fun c => Qhull.consumes_block_data c.2) = true ∧
    (Qhull.orig_cells [1]).any (fun c => Qhull.consumes_block_data c.2) = true := by
  decide

/-- C16 (code defect): for a Delaunay block with one original particle and one received
particle, `pnetcdf_d_write` writes both particles (count 2, 6 floats) and both
entries of `vert_to_tet`, the particle dimension of the file is 2, and the record of
`create_d_datatype` holds the 6 floats of both particles as well. -/
theorem pnetcdf_d_write_ghost_particles :
    sample_dblock_ghost.d.num_orig_particles = 1 ∧
    dblock_wf sample_dblock_ghost.d ∧
    (call_on .particles (pnetcdf_d_write_calls sample_dblock_ghost quants_init)).map
      (fun c => (c.count0, c.count1, c.buf)) = some (2, 3, [1, 2, 3, 4, 5, 6]) ∧
    (call_on .vert_to_tet (pnetcdf_d_write_calls sample_dblock_ghost quants_init)).map
      (fun c => (c.count0, c.buf)) = some (2, [-1, -1]) ∧
    (pnetcdf_d_write [[sample_dblock_ghost]]).dimlen .num_g_particles = 2 ∧
    ncmpi_get_vara (pnetcdf_d_write [[sample_dblock_ghost]]) .particles 0 2 3
      = [1, 2, 3, 4, 5, 6] ∧
    (diy_record 0 (drecord_data sample_dblock_ghost.d)
        (create_d_datatype sample_dblock_ghost.d)).lookup drecord_field.particles
      = some [1, 2, 3, 4, 5, 6] ∧
    (diy_record 0 (drecord_data sample_dblock_ghost.d)
        (create_d_datatype sample_dblock_ghost.d)).lookup drecord_field.vert_to_tet
      = some [-1, -1] := by
  decide

/-- C20: in the qhull `gen_voronoi_output`, when the vertex set has at most
`num_particles` entries, the filling pass writes exactly `tot_num_cell_verts` entries
into `cells` (every write inside the array, every entry written); for every entry of
the vertex set that is not NULL when the pass runs, the entries written for it are
as many as `num_cell_verts` of its site, namely the neighbor facets with
`0 < visitid < numfacets` plus one if some neighbor facet has `visitid = 0`, and they
are the `visitid` of those facets in the order of the neighbor set, the infinity
vertex 0 at its first occurrence only. -/
theorem qhull_cells_fill (numfacets : Nat) (vertices : List (Option Qhull.vertexT))
    (num_particles : Nat) (h : vertices.length ≤ num_particles) :
    ∃ cells : List Nat,
      Qhull.gen_voronoi_cells numfacets vertices num_particles =
        some (cells.map some, Qhull.tot_num_cell_verts numfacets vertices num_particles) ∧
      cells.length = Qhull.tot_num_cell_verts numfacets vertices num_particles ∧
      ∀ (k : Nat) (v : Qhull.vertexT),
        (Qhull.first_pass numfacets vertices).vertices[k]? = some (some v) →
        (Qhull.gen_voronoi_output numfacets vertices num_particles).num_cell_verts[k]?
          = some (Qhull.cell_ring numfacets v).length ∧
        (Qhull.cell_ring numfacets v).length
          = (v.neighbors.filter
              (fun n => decide (0 < n.visitid ∧ n.visitid < numfacets))).length
            + (if v.neighbors.any (fun n => decide (n.visitid = 0)) then 1 else 0) ∧
        (Qhull.cell_ring numfacets v).count 0
          = (if v.neighbors.any (fun n => decide (n.visitid = 0)) then 1 else 0) ∧
        (cells.drop (((Qhull.gen_voronoi_output numfacets vertices
              num_particles).num_cell_verts.take k).sum)).take
          ((Qhull.gen_voronoi_output numfacets vertices num_particles).num_cell_verts.getD k 0)
          = Qhull.cell_ring numfacets v :=
  qhull_cells_layout numfacets vertices num_particles h

/-- C20 at the sample vertex set: four entries, two of them skipped. -/
theorem qhull_cells_fill_witness :
    ∃ cells : List Nat,
      Qhull.gen_voronoi_cells 3 Qhull.sample_vertices 4 =
        some (cells.map some, Qhull.tot_num_cell_verts 3 Qhull.sample_vertices 4) ∧
      cells.length = Qhull.tot_num_cell_verts 3 Qhull.sample_vertices 4 ∧
      ∀ (k : Nat) (v : Qhull.vertexT),
        (Qhull.first_pass 3 Qhull.sample_vertices).vertices[k]? = some (some v) →
        (Qhull.gen_voronoi_output 3 Qhull.sample_vertices 4).num_cell_verts[k]?
          = some (Qhull.cell_ring 3 v).length ∧
        (Qhull.cell_ring 3 v).length
          = (v.neighbors.filter
              (fun n => decide (0 < n.visitid ∧ n.visitid < 3))).length
            + (if v.neighbors.any (fun n => decide (n.visitid = 0)) then 1 else 0) ∧
        (Qhull.cell_ring 3 v).count 0
          = (if v.neighbors.any (fun n => decide (n.visitid = 0)) then 1 else 0) ∧
        (cells.drop (((Qhull.gen_voronoi_output 3 Qhull.sample_vertices
              4).num_cell_verts.take k).sum)).take
          ((Qhull.gen_voronoi_output 3 Qhull.sample_vertices 4).num_cell_verts.getD k 0)
          = Qhull.cell_ring 3 v :=
  qhull_cells_fill 3 Qhull.sample_vertices 4 (by decide)

/-! ## Facts on the variables written and on the two layouts -/

theorem mem_trace_calls (M : Nat) (procs : List (List vlocal)) (c : put_call)
    (hc : c ∈ pnetcdf_write_trace M procs) :
    ∃ blk o, c ∈ pnetcdf_write_calls M blk o := by
  unfold pnetcdf_write_trace at hc
  obtain ⟨r, _, hr⟩ := List.mem_flatMap.mp hc
  obtain ⟨i, b, _, h⟩ := mem_write_loop (pnetcdf_write_calls M) pnetcdf_write_advance vcount
    vadvance_eq _ _ c hr
  exact ⟨b, _, h⟩

theorem vcalls_not_num_cell_faces (M : Nat) (blk : vlocal) (o : quants) :
    ∀ c ∈ pnetcdf_write_calls M blk o, c.varid ≠ .num_cell_faces := by
  simp [pnetcdf_write_calls]

theorem foldl_put_var_other (w : Nat) (x : Var) (calls : List put_call) (arr : List Int)
    (h : ∀ c ∈ calls, c.varid ≠ x) : calls.foldl (put_var w x) arr = arr := by
  induction calls generalizing arr with
  | nil => rfl
  | cons c cs ih =>
    rw [List.foldl_cons]
    have hc : ¬ c.varid = x := h c (by simp)
    have : put_var w x arr c = arr := by simp [put_var, hc]
    rw [this]
    exact ih arr (fun d hd => h d (by simp [hd]))

theorem vshape_defined (x : Var) (h : vshape x ≠ []) (hx : x ≠ .num_cell_faces) :
    (vfield x).isSome = true ∨ (voffvar x).isSome = true ∨ vscalar x = true := by
  cases x <;> simp [vshape] at h <;> simp [vfield, voffvar, vscalar]
  exact hx rfl

theorem vcalls_record_fields (M : Nat) (b : vlocal) (o : quants) :
    ∀ e ∈ create_datatype b.v, ∃ c ∈ pnetcdf_write_calls M b o,
      c.varid = vrecord_var e.disp ∧
      c.count0 * c.count1 = e.count * diy_type_size M e.base_type ∧
      c.buf = vrecord_data b.v e.disp := by
  intro e he
  simp only [create_datatype, List.mem_cons, List.mem_singleton, List.not_mem_nil, or_false] at he
  rcases he with rfl | rfl | rfl | rfl | rfl | rfl | rfl | rfl | rfl | rfl | rfl | rfl | rfl | rfl
  all_goals
    simp only [vrecord_var, vrecord_data, diy_type_size, face_map, List.map_cons, List.map_nil,
      List.sum_cons, List.sum_nil]
  · exact ⟨⟨.mins, o .NUM_BLOCKS, 1, 3, b.v.mins⟩, by simp [pnetcdf_write_calls], rfl, by simp, rfl⟩
  · exact ⟨⟨.save_verts, o .NUM_VERTICES, b.v.num_verts, 3, b.v.save_verts⟩,
      by simp [pnetcdf_write_calls], rfl, by simp, rfl⟩
  · exact ⟨⟨.sites, o .NUM_ORIG_PARTS, b.v.num_orig_particles, 3, b.v.sites⟩,
      by simp [pnetcdf_write_calls], rfl, by simp, rfl⟩
  · exact ⟨⟨.complete_cells, o .NUM_COMP_CELLS, b.v.num_complete_cells, 1, b.v.complete_cells⟩,
      by simp [pnetcdf_write_calls], rfl, by simp, rfl⟩
  · exact ⟨⟨.areas, o .NUM_COMP_CELLS, b.v.num_complete_cells, 1, b.v.areas⟩,
      by simp [pnetcdf_write_calls], rfl, by simp, rfl⟩
  · exact ⟨⟨.vols, o .NUM_COMP_CELLS, b.v.num_complete_cells, 1, b.v.vols⟩,
      by simp [pnetcdf_write_calls], rfl, by simp, rfl⟩
  · exact ⟨⟨.loc_tets, if b.v.num_loc_tets ≠ 0 then o .NUM_LOC_TETRAS else 0,
        b.v.num_loc_tets, if b.v.num_loc_tets ≠ 0 then 4 else 0, b.v.loc_tets⟩,
      by simp [pnetcdf_write_calls], rfl, by by_cases h : b.v.num_loc_tets = 0 <;> simp [h], rfl⟩
  · exact ⟨⟨.rem_tet_gids, if b.v.num_rem_tets ≠ 0 then o .NUM_REM_TETRAS else 0,
        b.v.num_rem_tets, if b.v.num_rem_tets ≠ 0 then 4 else 0, b.v.rem_tet_gids⟩,
      by simp [pnetcdf_write_calls], rfl, by by_cases h : b.v.num_rem_tets = 0 <;> simp [h], rfl⟩
  · exact ⟨⟨.rem_tet_nids, if b.v.num_rem_tets ≠ 0 then o .NUM_REM_TETRAS else 0,
        b.v.num_rem_tets, if b.v.num_rem_tets ≠ 0 then 4 else 0, b.v.rem_tet_nids⟩,
      by simp [pnetcdf_write_calls], rfl, by by_cases h : b.v.num_rem_tets = 0 <;> simp [h], rfl⟩
  · exact ⟨⟨.rem_tet_wrap_dirs, if b.v.num_rem_tets ≠ 0 then o .NUM_REM_TETRAS else 0,
        b.v.num_rem_tets, if b.v.num_rem_tets ≠ 0 then 4 else 0, b.v.rem_tet_wrap_dirs⟩,
      by simp [pnetcdf_write_calls], rfl, by by_cases h : b.v.num_rem_tets = 0 <;> simp [h], rfl⟩
  · exact ⟨⟨.faces, o .NUM_UNIQUE_FACES, b.v.num_faces, 3 + M, b.v.faces⟩,
      by simp [pnetcdf_write_calls], rfl, by simp; left; omega, rfl⟩
  · exact ⟨⟨.cell_faces_start, o .NUM_ORIG_PARTS, b.v.num_orig_particles, 1,
        b.v.cell_faces_start⟩,
      by simp [pnetcdf_write_calls], rfl, by simp, rfl⟩
  · exact ⟨⟨.cell_faces, o .NUM_CELL_FACES, b.v.tot_num_cell_faces, 1, b.v.cell_faces⟩,
      by simp [pnetcdf_write_calls], rfl, by simp, rfl⟩
  · exact ⟨⟨.maxs, o .NUM_BLOCKS, 1, 3, b.v.maxs⟩, by simp [pnetcdf_write_calls], rfl, by simp, rfl⟩

theorem vcalls_arrays (M : Nat) (b : vlocal) (o : quants) :
    ∀ c ∈ pnetcdf_write_calls M b o, varray c.varid = true →
      c.varid = .neighbors ∨ c.varid = .neigh_procs ∨
      ∃ e ∈ create_datatype b.v, vrecord_var e.disp = c.varid := by
  simp only [pnetcdf_write_calls, List.forall_mem_cons]
  simp [varray, vfield, create_datatype, vrecord_var]

/-! ## Facts on the division and the clamp of the `neigh_procs` loop -/

theorem neigh_procs_loop_bp_zero (gid2idx : List (Option Int)) (groupsize : Int)
    (neighbors : List Int) (b : Nat) (rows : List (Option (List Int)))
    (h : neighbors ≠ []) :
    neigh_procs_loop gid2idx 0 groupsize neighbors b rows = none := by
  unfold neigh_procs_loop
  obtain ⟨n, hn⟩ : ∃ n, neighbors.length = n + 1 := by
    cases neighbors with
    | nil => exact absurd rfl h
    | cons a l => exact ⟨l.length, rfl⟩
  rw [hn, List.range_succ_eq_map, List.foldlM_cons]
  simp

theorem store_deref_target (rows : List (Option (List Int))) (b n : Nat) (v : Int)
    (rows2 : List (Option (List Int))) (h : store_deref rows b n v = some rows2) :
    b = 0 ∧ ∃ row, rows.getD n none = some row ∧ rows2 = rows.set n (some (row.set 0 v)) := by
  unfold store_deref at h
  split at h
  · rename_i hb
    refine ⟨hb, ?_⟩
    split at h
    · rename_i row hrow
      split at h
      · exact ⟨row, hrow, (Option.some.inj h).symm⟩
      · cases h
    · cases h
  · cases h

/-! ## Facts on the table `gid2idx` -/

theorem read_gid2idx_run (tot_blocks : Nat) (all_gids : List Int)
    (hlen : all_gids.length = tot_blocks) (hnd : all_gids.Nodup)
    (hb : ∀ g ∈ all_gids, 0 ≤ g ∧ g.toNat < tot_blocks) (k : Nat) (hk : k ≤ tot_blocks) :
    ∃ t : List (Option Int),
      (List.range k).foldlM
        (fun (t : List (Option Int)) i =>
          let g := all_gids.getD i 0
          if 0 ≤ g ∧ g.toNat < tot_blocks then some (t.set g.toNat (some (i : Int))) else none)
        (List.replicate tot_blocks none) = some t ∧
      t.length = tot_blocks ∧
      ∀ i, i < k → t.getD (all_gids.getD i 0).toNat none = some (i : Int) := by
  induction k with
  | zero => exact ⟨_, rfl, by simp, fun i hi => absurd hi (Nat.not_lt_zero i)⟩
  | succ k ih =>
    obtain ⟨t, ht, htl, hti⟩ := ih (by omega)
    have hkl : k < all_gids.length := by omega
    have hgk : all_gids.getD k 0 = all_gids[k] := by
      simp [List.getD, List.getElem?_eq_getElem hkl]
    have hmem : all_gids.getD k 0 ∈ all_gids := by rw [hgk]; exact List.getElem_mem hkl
    have hbk := hb _ hmem
    refine ⟨t.set (all_gids.getD k 0).toNat (some (k : Int)), ?_, by simpa using htl, ?_⟩
    · rw [List.range_succ, List.foldlM_append, ht]
      simp only [Option.bind_eq_bind, Option.some_bind, List.foldlM_cons, List.foldlM_nil]
      rw [if_pos hbk]
      rfl
    · intro i hi
      have hD : ∀ (l : List (Option Int)) (n : Nat), l.getD n none = l[n]?.getD none :=
        fun l n => List.getD_eq_getElem?_getD l n none
      by_cases hik : i = k
      · subst hik
        rw [hD, List.getElem?_set_self (by omega)]
        rfl
      · have hil : i < all_gids.length := by omega
        have hgi : all_gids.getD i 0 = all_gids[i] := by
          simp [List.getD, List.getElem?_eq_getElem hil]
        have hmi : all_gids.getD i 0 ∈ all_gids := by rw [hgi]; exact List.getElem_mem hil
        have hbi := hb _ hmi
        have hne : (all_gids.getD k 0).toNat ≠ (all_gids.getD i 0).toNat := by
          intro e
          have e2 : all_gids.getD k 0 = all_gids.getD i 0 := by
            have h1 := Int.toNat_of_nonneg hbk.1
            have h2 := Int.toNat_of_nonneg hbi.1
            omega
          rw [hgk, hgi] at e2
          have := (List.Nodup.getElem_inj_iff hnd).mp e2
          omega
        rw [hD, List.getElem?_set_ne hne, ← hD]
        exact hti i (by omega)

theorem read_gid2idx_perm (tot_blocks : Nat) (all_gids : List Int)
    (h : List.Perm all_gids ((List.range tot_blocks).map Int.ofNat)) :
    ∃ gid2idx, read_gid2idx tot_blocks all_gids = some gid2idx ∧
      gid2idx.length = tot_blocks ∧
      (∀ i, i < tot_blocks → gid2idx_at gid2idx (all_gids.getD i 0) = some (i : Int)) ∧
      (∀ g : Int, 0 ≤ g → g < tot_blocks →
        g.toNat < gid2idx.length ∧
        ∃ j : Nat, j < tot_blocks ∧ gid2idx_at gid2idx g = some (j : Int) ∧
          all_gids.getD j 0 = g) := by
  have hlen : all_gids.length = tot_blocks := by simpa using h.length_eq
  have hnd : all_gids.Nodup := by
    rw [h.nodup_iff]
    exact (List.nodup_range tot_blocks).map (fun a b e => Int.ofNat.inj e)
  have hb : ∀ g ∈ all_gids, 0 ≤ g ∧ g.toNat < tot_blocks := by
    intro g hg
    rw [h.mem_iff] at hg
    obtain ⟨i, hi, rfl⟩ := List.mem_map.mp hg
    have := List.mem_range.mp hi
    simp
    omega
  obtain ⟨t, ht, htl, hti⟩ := read_gid2idx_run tot_blocks all_gids hlen hnd hb tot_blocks
    (Nat.le_refl _)
  have hat : ∀ i, i < tot_blocks → gid2idx_at t (all_gids.getD i 0) = some (i : Int) := by
    intro i hi
    have hil : i < all_gids.length := by omega
    have hmi : all_gids.getD i 0 ∈ all_gids := by
      rw [List.getD_eq_getElem?_getD, List.getElem?_eq_getElem hil]
      exact List.getElem_mem hil
    unfold gid2idx_at
    rw [if_pos (hb _ hmi).1]
    exact hti i hi
  refine ⟨t, ht, htl, hat, ?_⟩
  intro g h0 hlt
  have hg : g ∈ all_gids := by
    rw [h.mem_iff]
    exact List.mem_map.mpr ⟨g.toNat, List.mem_range.mpr (by omega), by simp [h0]⟩
  obtain ⟨j, hj, e⟩ := List.getElem_of_mem hg
  have hgj : all_gids.getD j 0 = g := by
    simp [List.getD, List.getElem?_eq_getElem hj, e]
  refine ⟨by omega, j, by omega, ?_, hgj⟩
  rw [← hgj]
  exact hat j (by omega)

/-! ## Facts on the block distribution of `read_gio` -/

theorem read_gio_start_step (tot_blocks size r : Nat) :
    r * tot_blocks / size + tot_blocks / size ≤ (r + 1) * tot_blocks / size := by
  have h := Nat.add_div_le_add_div (r * tot_blocks) tot_blocks size
  have e : (r + 1) * tot_blocks = r * tot_blocks + tot_blocks := by ring
  rw [e]
  exact h

theorem read_gio_start_mono (tot_blocks size r1 r2 : Nat) (h : r1 ≤ r2) :
    r1 * tot_blocks / size ≤ r2 * tot_blocks / size :=
  Nat.div_le_div_right (Nat.mul_le_mul_right _ h)

theorem read_gio_last_start (tot_blocks size : Nat) (hs : 1 ≤ size) :
    (size - 1) * tot_blocks / size ≤ tot_blocks := by
  calc (size - 1) * tot_blocks / size ≤ size * tot_blocks / size :=
        Nat.div_le_div_right (Nat.mul_le_mul_right _ (by omega))
    _ = tot_blocks := Nat.mul_div_cancel_left _ (by omega)

theorem mem_read_gio_gids (tot_blocks size r g : Nat) :
    g ∈ Hacc.read_gio_gids tot_blocks size r ↔
      r * tot_blocks / size ≤ g ∧
      g < r * tot_blocks / size + Hacc.read_gio_nblocks tot_blocks size r := by
  unfold Hacc.read_gio_gids
  simp only [List.mem_map, List.mem_range]
  constructor
  · rintro ⟨b, hb, rfl⟩
    omega
  · rintro ⟨h1, h2⟩
    exact ⟨g - r * tot_blocks / size, by omega, by omega⟩

theorem read_gio_disjoint (tot_blocks size r1 r2 g : Nat) (h12 : r1 < r2) (h2 : r2 < size)
    (hg : g ∈ Hacc.read_gio_gids tot_blocks size r1) :
    g ∉ Hacc.read_gio_gids tot_blocks size r2 := by
  rw [mem_read_gio_gids] at hg ⊢
  have hn : Hacc.read_gio_nblocks tot_blocks size r1 = tot_blocks / size := by
    unfold Hacc.read_gio_nblocks
    rw [if_pos (by omega)]
  rw [hn] at hg
  have h3 := read_gio_start_step tot_blocks size r1
  have h4 := read_gio_start_mono tot_blocks size (r1 + 1) r2 (by omega)
  omega

theorem read_gio_bound (tot_blocks size r g : Nat) (hr : r < size)
    (hg : g ∈ Hacc.read_gio_gids tot_blocks size r) : g < tot_blocks := by
  rw [mem_read_gio_gids] at hg
  have hl := read_gio_last_start tot_blocks size (by omega)
  unfold Hacc.read_gio_nblocks at hg
  by_cases h : r < size - 1
  · rw [if_pos h] at hg
    have h3 := read_gio_start_step tot_blocks size r
    have h4 := read_gio_start_mono tot_blocks size (r + 1) (size - 1) (by omega)
    omega
  · rw [if_neg h] at hg
    have e : r = size - 1 := by omega
    subst e
    omega

theorem read_gio_last_div (tot_blocks size : Nat) (hs : 1 ≤ size)
    (hm : 1 ≤ tot_blocks % size) :
    (size - 1) * tot_blocks / size
      = (size - 1) * (tot_blocks / size) + (tot_blocks % size - 1) := by
  have hlt : tot_blocks % size < size := Nat.mod_lt _ (by omega)
  obtain ⟨s, rfl⟩ : ∃ s, size = s + 1 := ⟨size - 1, by omega⟩
  generalize hq : tot_blocks / (s + 1) = q at *
  generalize hmm : tot_blocks % (s + 1) = m at *
  have hT : tot_blocks = (s + 1) * q + m := by
    rw [← hq, ← hmm]; exact (Nat.div_add_mod _ _).symm
  obtain ⟨m1, rfl⟩ : ∃ m1, m = m1 + 1 := ⟨m - 1, by omega⟩
  simp only [Nat.add_sub_cancel]
  have e : s * tot_blocks = (s - m1) + (s + 1) * (s * q + m1) := by
    rw [hT]
    have : s - m1 + m1 = s := by omega
    nlinarith [this]
  rw [e, Nat.add_mul_div_left _ _ (by omega : 0 < s + 1), Nat.div_eq_of_lt (by omega)]
  omega

theorem read_gio_count (tot_blocks size : Nat) (hs : 1 ≤ size)
    (hm : 1 ≤ tot_blocks % size) :
    ((List.range size).map (fun r => (Hacc.read_gio_gids tot_blocks size r).length)).sum
      = tot_blocks - (tot_blocks % size - 1) := by
  have hl := read_gio_last_div tot_blocks size hs hm
  have hle := read_gio_last_start tot_blocks size hs
  obtain ⟨s, rfl⟩ : ∃ s, size = s + 1 := ⟨size - 1, by omega⟩
  simp only [Nat.add_sub_cancel] at hl hle
  rw [List.range_succ, List.map_append, List.sum_append]
  have h1 : (List.range s).map (fun r => (Hacc.read_gio_gids tot_blocks (s + 1) r).length)
      = List.replicate s (tot_blocks / (s + 1)) := by
    rw [List.eq_replicate_iff]
    refine ⟨by simp, ?_⟩
    intro n hn
    obtain ⟨r, hr, rfl⟩ := List.mem_map.mp hn
    have := List.mem_range.mp hr
    simp [Hacc.read_gio_gids, Hacc.read_gio_nblocks, this]
  rw [h1]
  simp [Hacc.read_gio_gids, Hacc.read_gio_nblocks]
  rw [hl]
  have hT := Nat.div_add_mod tot_blocks (s + 1)
  have e : (s + 1) * (tot_blocks / (s + 1)) = s * (tot_blocks / (s + 1)) + tot_blocks / (s + 1) := by
    ring
  omega

theorem read_gio_unread (tot_blocks size : Nat) (hs : 1 ≤ size)
    (hm : 2 ≤ tot_blocks % size) :
    ∃ g, g < tot_blocks ∧ ∀ r, r < size → g ∉ Hacc.read_gio_gids tot_blocks size r := by
  by_contra hne
  push_neg at hne
  have hsub : List.range tot_blocks ⊆
      (List.range size).flatMap (Hacc.read_gio_gids tot_blocks size) := by
    intro g hg
    obtain ⟨r, hr, hgr⟩ := hne g (List.mem_range.mp hg)
    exact List.mem_flatMap.mpr ⟨r, List.mem_range.mpr hr, hgr⟩
  have hlen := ((List.nodup_range tot_blocks).subperm hsub).length_le
  rw [List.length_range, length_flatMap_sum, read_gio_count tot_blocks size hs (by omega)] at hlen
  have hmod : tot_blocks % size ≤ tot_blocks := Nat.mod_le _ _
  omega

theorem read_gio_cover (tot_blocks size : Nat) (hs : 1 ≤ size) (hm : tot_blocks % size ≤ 1)
    (g : Nat) (hg : g < tot_blocks) :
    ∃ r, r < size ∧ g ∈ Hacc.read_gio_gids tot_blocks size r := by
  have hT := Nat.div_add_mod tot_blocks size
  generalize hq : tot_blocks / size = q at *
  generalize hmm : tot_blocks % size = m at *
  have hstart : ∀ r, r < size → r * tot_blocks / size = r * q := by
    intro r hr
    have e : r * tot_blocks = r * m + size * (r * q) := by
      rw [← hT]; ring
    have hrm : r * m < size := by
      rcases Nat.le_one_iff_eq_zero_or_eq_one.mp hm with h | h <;> subst h <;> omega
    rw [e, Nat.add_mul_div_left _ _ (by omega : 0 < size), Nat.div_eq_of_lt hrm]
    omega
  have hlast : (size - 1) * tot_blocks / size = (size - 1) * q := hstart _ (by omega)
  have hsq : size * q = (size - 1) * q + q := by
    obtain ⟨s, rfl⟩ : ∃ s, size = s + 1 := ⟨size - 1, by omega⟩
    simp only [Nat.add_sub_cancel]
    ring
  by_cases hlt : g / q < size - 1 ∧ 0 < q
  · refine ⟨g / q, by omega, ?_⟩
    rw [mem_read_gio_gids, hstart _ (by omega)]
    unfold Hacc.read_gio_nblocks
    rw [if_pos hlt.1, hq]
    have h1 := Nat.div_add_mod g q
    have h2 := Nat.mod_lt g hlt.2
    have h3 : g / q * q = q * (g / q) := Nat.mul_comm _ _
    omega
  · refine ⟨size - 1, by omega, ?_⟩
    rw [mem_read_gio_gids, hlast]
    unfold Hacc.read_gio_nblocks
    rw [if_neg (by omega), hlast]
    refine ⟨?_, by omega⟩
    rcases Nat.eq_zero_or_pos q with h0 | hpos
    · subst h0; simp
    · have hge : size - 1 ≤ g / q := by
        by_contra hc
        exact hlt ⟨by omega, hpos⟩
      calc (size - 1) * q ≤ g / q * q := Nat.mul_le_mul_right _ hge
        _ ≤ g := Nat.div_mul_le_self g q

/-! ## Facts on the packaging loop of `read_particles` -/

theorem set3_eq (P : List Int) (n : Nat) (a b c : Int) (h : n + 3 ≤ P.length) :
    ((P.set n a).set (n + 1) b).set (n + 2) c = P.take n ++ [a, b, c] ++ P.drop (n + 3) := by
  induction n generalizing P with
  | zero =>
    match P, h with
    | p0 :: p1 :: p2 :: rest, _ => simp
  | succ n ih =>
    match P, h with
    | p :: P2, h =>
      have := ih P2 (by simpa using h)
      simp only [List.set_cons_succ, List.take_succ_cons, List.drop_succ_cons, List.cons_append]
      rw [this]

theorem hacc_resize_length (v : List Int) (n : Nat) : (Hacc.resize v n).length = n := by
  simp [Hacc.resize]
  omega

theorem hacc_kept_succ (id : List Int) (s k : Nat) :
    Hacc.kept id s (k + 1) = Hacc.kept id s k ++
      (if (List.range k).all (fun j =>
          decide (id.getD (j * s) 0 ≠ id.getD (k * s) 0)) = true then [k] else []) := by
  unfold Hacc.kept
  rw [List.range_succ, List.filter_append]
  congr 1
  by_cases h : (List.range k).all (fun j =>
      decide (id.getD (j * s) 0 ≠ id.getD (k * s) 0)) = true
  · rw [if_pos h]; simp only [List.filter, h]
  · rw [if_neg h]; simp only [List.filter, h]

theorem hacc_kept_length_le (id : List Int) (s k : Nat) : (Hacc.kept id s k).length ≤ k := by
  unfold Hacc.kept
  exact (List.length_filter_le _ _).trans (by simp)

/-- the packaging loop after `k` iterations -/
theorem hacc_pack_run (x y z id particles : List Int) (s m k : Nat) (hk : k ≤ m) :
    ∃ ids : List Int,
      (List.range k).foldl (Hacc.read_particles_step s x y z id)
          { particles := Hacc.resize particles (m * 3), nu := 0, unique_ids := [] }
        = { particles :=
              (Hacc.kept id s k).flatMap (fun i =>
                [x.getD (i * s) 0, y.getD (i * s) 0, z.getD (i * s) 0])
              ++ (Hacc.resize particles (m * 3)).drop (3 * (Hacc.kept id s k).length),
            nu := (Hacc.kept id s k).length,
            unique_ids := ids } ∧
      ∀ g, g ∈ ids ↔ ∃ j, j < k ∧ id.getD (j * s) 0 = g := by
  induction k with
  | zero =>
    refine ⟨[], ?_, ?_⟩
    · simp [Hacc.kept]
    · simp
  | succ k ih =>
    obtain ⟨ids, hrun, hids⟩ := ih (by omega)
    rw [List.range_succ, List.foldl_append, hrun, List.foldl_cons, List.foldl_nil]
    have hcond : (id.getD (k * s) 0 ∈ ids) ↔
        ¬ ((List.range k).all (fun j =>
          decide (id.getD (j * s) 0 ≠ id.getD (k * s) 0)) = true) := by
      rw [hids, List.all_eq_true]
      constructor
      · rintro ⟨j, hj, e⟩ h
        have := h j (List.mem_range.mpr hj)
        rw [decide_eq_true_eq] at this
        exact this e
      · intro h
        push_neg at h
        obtain ⟨j, hj, hne⟩ := h
        exact ⟨j, List.mem_range.mp hj, by simpa using hne⟩
    have hle := hacc_kept_length_le id s k
    by_cases hin : id.getD (k * s) 0 ∈ ids
    · refine ⟨ids, ?_, ?_⟩
      · have hc := hcond.mp hin
        rw [hacc_kept_succ, if_neg hc]
        simp only [Hacc.read_particles_step]
        rw [if_pos hin]
        simp
      · intro g
        rw [hids]
        constructor
        · rintro ⟨j, hj, e⟩
          exact ⟨j, by omega, e⟩
        · rintro ⟨j, hj, e⟩
          by_cases hjk : j = k
          · subst hjk
            rw [← hids, ← e]
            exact hin
          · exact ⟨j, by omega, e⟩
    · refine ⟨id.getD (k * s) 0 :: ids, ?_, ?_⟩
      · have hc : (List.range k).all (fun j =>
            decide (id.getD (j * s) 0 ≠ id.getD (k * s) 0)) = true := by
          by_contra h
          exact hin (hcond.mpr h)
        rw [hacc_kept_succ, if_pos hc]
        simp only [Hacc.read_particles_step]
        rw [if_neg hin]
        have hfl : ((Hacc.kept id s k).flatMap (fun i =>
            [x.getD (i * s) 0, y.getD (i * s) 0, z.getD (i * s) 0])).length
              = 3 * (Hacc.kept id s k).length := by
          rw [length_flatMap_sum]
          simp [Nat.mul_comm]
        have hrl := hacc_resize_length particles (m * 3)
        rw [set3_eq _ _ _ _ _ (by
          simp only [List.length_append, List.length_drop, hfl, hrl]
          omega)]
        congr 1
        · rw [List.take_append_of_le_length (by omega), List.take_of_length_le (by omega),
            List.drop_append_eq_append_drop, List.drop_of_length_le (by omega)]
          simp only [List.flatMap_append, List.flatMap_cons, List.flatMap_nil, List.append_nil,
            List.nil_append, List.drop_drop, List.length_append, List.length_singleton,
            List.append_assoc]
          congr 2
          rw [hfl]
          congr 1
          omega
        · simp
      · intro g
        rw [List.mem_cons, hids]
        constructor
        · rintro (e | ⟨j, hj, e⟩)
          · exact ⟨k, by omega, e.symm⟩
          · exact ⟨j, by omega, e⟩
        · rintro ⟨j, hj, e⟩
          by_cases hjk : j = k
          · subst hjk
            exact Or.inl e.symm
          · exact Or.inr ⟨j, by omega, e⟩

theorem hacc_read_particles_eq (x y z id particles : List Int) (s : Nat) (hs : 1 ≤ s) :
    Hacc.read_particles x y z id particles s =
      some (Hacc.sampled_unique x y z id s
          ++ (Hacc.resize particles (x.length / s * 3)).drop
              (3 * (Hacc.kept id s (x.length / s)).length),
        (Hacc.kept id s (x.length / s)).length, x.length / s) := by
  obtain ⟨ids, hrun, _⟩ := hacc_pack_run x y z id particles s (x.length / s) (x.length / s)
    (Nat.le_refl _)
  unfold Hacc.read_particles
  rw [if_neg (by omega)]
  simp only [hrun]
  rfl

theorem hacc_first_occurrence (id : List Int) (s : Nat) (i : Nat) :
    ∃ i2, i2 ≤ i ∧ id.getD (i2 * s) 0 = id.getD (i * s) 0 ∧
      (List.range i2).all (fun j =>
        decide (id.getD (j * s) 0 ≠ id.getD (i2 * s) 0)) = true := by
  induction i using Nat.strong_induction_on with
  | _ i ih =>
    by_cases h : (List.range i).all (fun j =>
        decide (id.getD (j * s) 0 ≠ id.getD (i * s) 0)) = true
    · exact ⟨i, Nat.le_refl _, rfl, h⟩
    · rw [List.all_eq_true] at h
      push_neg at h
      obtain ⟨j, hj, hne⟩ := h
      have hji : j < i := List.mem_range.mp hj
      have e : id.getD (j * s) 0 = id.getD (i * s) 0 := by
        by_contra hc
        exact hne (decide_eq_true hc)
      obtain ⟨i2, h1, h2, h3⟩ := ih j hji
      exact ⟨i2, by omega, h2.trans e, h3⟩

theorem hacc_kept_distinct (id : List Int) (s m : Nat) :
    (Hacc.kept id s m).length
      = ((List.range m).map (fun i => id.getD (i * s) 0)).dedup.length := by
  have hmem : ∀ i, i ∈ Hacc.kept id s m ↔ i < m ∧
      (List.range i).all (fun j =>
        decide (id.getD (j * s) 0 ≠ id.getD (i * s) 0)) = true := by
    intro i
    unfold Hacc.kept
    rw [List.mem_filter, List.mem_range]
  have hnd : ((Hacc.kept id s m).map (fun i => id.getD (i * s) 0)).Nodup := by
    apply List.Nodup.map_on
    · intro a ha b hb e
      have h1 := ((hmem a).mp ha).2
      have h2 := ((hmem b).mp hb).2
      rw [List.all_eq_true] at h1 h2
      by_contra hab
      rcases Nat.lt_or_gt_of_ne hab with h | h
      · have := h2 a (List.mem_range.mpr h)
        rw [decide_eq_true_eq] at this
        exact this e
      · have := h1 b (List.mem_range.mpr h)
        rw [decide_eq_true_eq] at this
        exact this e.symm
    · unfold Hacc.kept
      exact (List.nodup_range m).filter _
  have hset : ((Hacc.kept id s m).map (fun i => id.getD (i * s) 0)).toFinset
      = ((List.range m).map (fun i => id.getD (i * s) 0)).toFinset := by
    ext g
    simp only [List.mem_toFinset, List.mem_map]
    constructor
    · rintro ⟨i, hi, rfl⟩
      exact ⟨i, List.mem_range.mpr ((hmem i).mp hi).1, rfl⟩
    · rintro ⟨i, hi, rfl⟩
      obtain ⟨i2, h1, h2, h3⟩ := hacc_first_occurrence id s i
      have := List.mem_range.mp hi
      exact ⟨i2, (hmem i2).mpr ⟨by omega, h3⟩, h2⟩
  rw [← List.card_toFinset, ← hset, List.toFinset_card_of_nodup hnd, List.length_map]

theorem hacc_sampled_length (x y z id : List Int) (s : Nat) :
    (Hacc.sampled_unique x y z id s).length = 3 * (Hacc.kept id s (x.length / s)).length := by
  unfold Hacc.sampled_unique
  rw [length_flatMap_sum]
  simp [Nat.mul_comm]

/-! ## Facts on the index ranges of the writers -/

theorem ranges_of_append (x : Var) (l1 l2 : List put_call) :
    ranges_of x (l1 ++ l2) = ranges_of x l1 ++ ranges_of x l2 := by
  simp [ranges_of]

/-- the ranges of a write loop on one field lie side by side from the starting offset -/
theorem ranges_run {β : Type} (calls : β → quants → List put_call)
    (advance : β → quants → quants) (cnt : Quant → β → Nat) (x : Var) (q : Quant)
    (hadv : ∀ b o q, advance b o q = o q + cnt q b)
    (hr : ∀ b o, ranges_of x (calls b o)
      = [(if guarded q = true ∧ cnt q b = 0 then 0 else o q, cnt q b)])
    (bs : List β) (o : quants) :
    (ranges_of x (write_loop calls advance bs o).flatten).length = bs.length ∧
    (ranges_of x (write_loop calls advance bs o).flatten).Pairwise
      (fun r s => ∀ i, ¬ (in_range r i ∧ in_range s i)) ∧
    ∀ i, (∃ r ∈ ranges_of x (write_loop calls advance bs o).flatten, in_range r i) ↔
      o q ≤ i ∧ i < o q + (bs.map (cnt q)).sum := by
  induction bs generalizing o with
  | nil =>
    refine ⟨by simp [write_loop, ranges_of], by simp [write_loop, ranges_of], ?_⟩
    intro i
    simp [write_loop, ranges_of]
  | cons b bs ih =>
    obtain ⟨ihl, ihp, ihc⟩ := ih (advance b o)
    have e : ranges_of x (write_loop calls advance (b :: bs) o).flatten
        = (if guarded q = true ∧ cnt q b = 0 then 0 else o q, cnt q b)
          :: ranges_of x (write_loop calls advance bs (advance b o)).flatten := by
      simp only [write_loop, List.flatten_cons, ranges_of_append, hr]
      rfl
    rw [e]
    have hfirst : ∀ i, in_range (if guarded q = true ∧ cnt q b = 0 then 0 else o q, cnt q b) i ↔
        o q ≤ i ∧ i < o q + cnt q b := by
      intro i
      unfold in_range
      by_cases hc : cnt q b = 0
      · simp only [hc]
        omega
      · rw [if_neg (fun h => hc h.2)]
    refine ⟨by simp [ihl], ?_, ?_⟩
    · rw [List.pairwise_cons]
      refine ⟨?_, ihp⟩
      intro r hr2 i hi
      have h1 := (hfirst i).mp hi.1
      have h2 := (ihc i).mp ⟨r, hr2, hi.2⟩
      rw [hadv] at h2
      omega
    · intro i
      simp only [List.exists_mem_cons_iff] 
      rw [hfirst, ihc, hadv]
      simp only [List.map_cons, List.sum_cons]
      omega

theorem vcalls_ranges (M : Nat) (b : vlocal) (o : quants) (x : Var) (q : Quant)
    (hx : vfield x = some q) :
    ranges_of x (pnetcdf_write_calls M b o)
      = [(if guarded q = true ∧ vcount q b = 0 then 0 else o q, vcount q b)] := by
  cases x <;> simp [vfield] at hx <;> subst hx <;>
    simp [ranges_of, pnetcdf_write_calls, guarded, vcount, List.filter]

theorem dcalls_ranges (b : dlocal) (o : quants) (x : Var) (q : Quant)
    (hx : dfield x = some q) :
    ranges_of x (pnetcdf_d_write_calls b o)
      = [(if guarded q = true ∧ dcount q b = 0 then 0 else o q, dcount q b)] := by
  cases x <;> simp [dfield] at hx <;> subst hx <;>
    simp [ranges_of, pnetcdf_d_write_calls, guarded, dcount, List.filter]
  omega

theorem vglobal_len (M : Nat) (procs : List (List vlocal)) (x : Var) (q : Quant)
    (hx : vfield x = some q) :
    global_len (pnetcdf_write M procs) x = pnetcdf_write_tot_quants procs q := by
  have h1 : (pnetcdf_write M procs).shape = vshape := by
    unfold pnetcdf_write
    rw [(foldl_put_frame _ _).2]
    exact funext (shape_vdefine M _)
  have h2 : (pnetcdf_write M procs).dimlen = vdimlen M (pnetcdf_write_tot_quants procs) := by
    unfold pnetcdf_write
    rw [(foldl_put_frame _ _).1]
    exact funext (dimlen_vdefine M _)
  unfold global_len
  rw [h1, h2]
  cases x <;> simp [vfield] at hx <;> subst hx <;> rfl

theorem dglobal_len (procs : List (List dlocal)) (x : Var) (q : Quant)
    (hx : dfield x = some q) :
    global_len (pnetcdf_d_write procs) x = pnetcdf_d_write_tot_quants procs q := by
  have h1 : (pnetcdf_d_write procs).shape = dshape := by
    unfold pnetcdf_d_write
    rw [(foldl_put_frame _ _).2]
    exact funext (shape_ddefine _)
  have h2 : (pnetcdf_d_write procs).dimlen = ddimlen (pnetcdf_d_write_tot_quants procs) := by
    unfold pnetcdf_d_write
    rw [(foldl_put_frame _ _).1]
    exact funext (dimlen_ddefine _)
  unfold global_len
  rw [h1, h2]
  cases x <;> simp [dfield] at hx <;> subst hx <;> rfl

theorem vranges_partition (M : Nat) (procs : List (List vlocal)) (x : Var) (q : Quant)
    (hx : vfield x = some q) :
    global_len (pnetcdf_write M procs) x = pnetcdf_write_tot_quants procs q ∧
    pnetcdf_write_tot_quants procs q
      = (procs.map (fun bs => (bs.map (vcount q)).sum)).sum ∧
    (ranges_of x (pnetcdf_write_trace M procs)).length = (procs.map List.length).sum ∧
    (ranges_of x (pnetcdf_write_trace M procs)).Pairwise
      (fun r s => ∀ i, ¬ (in_range r i ∧ in_range s i)) ∧
    ∀ i, i < global_len (pnetcdf_write M procs) x ↔
      ∃ r ∈ ranges_of x (pnetcdf_write_trace M procs), in_range r i := by
  have htr : pnetcdf_write_trace M procs
      = (write_loop (pnetcdf_write_calls M) pnetcdf_write_advance procs.flatten
          quants_init).flatten :=
    ranks_eq_single (pnetcdf_write_calls M) pnetcdf_write_advance vcount vadvance_eq
      pnetcdf_write_proc_quants vproc_quants_eq procs
  obtain ⟨hl, hp, hc⟩ := ranges_run (pnetcdf_write_calls M) pnetcdf_write_advance vcount x q
    vadvance_eq (fun b o => vcalls_ranges M b o x q hx) procs.flatten quants_init
  have hg := vglobal_len M procs x q hx
  refine ⟨hg, ?_, ?_, ?_, ?_⟩
  · rw [vtot_quants_eq]
    exact sum_map_flatten _ _
  · rw [htr, hl, List.length_flatten]
  · rw [htr]; exact hp
  · intro i
    rw [htr, hc, hg, vtot_quants_eq]
    simp [quants_init]

theorem dranges_partition (procs : List (List dlocal)) (x : Var) (q : Quant)
    (hx : dfield x = some q) :
    global_len (pnetcdf_d_write procs) x = pnetcdf_d_write_tot_quants procs q ∧
    pnetcdf_d_write_tot_quants procs q
      = (procs.map (fun bs => (bs.map (dcount q)).sum)).sum ∧
    (ranges_of x (pnetcdf_d_write_trace procs)).length = (procs.map List.length).sum ∧
    (ranges_of x (pnetcdf_d_write_trace procs)).Pairwise
      (fun r s => ∀ i, ¬ (in_range r i ∧ in_range s i)) ∧
    ∀ i, i < global_len (pnetcdf_d_write procs) x ↔
      ∃ r ∈ ranges_of x (pnetcdf_d_write_trace procs), in_range r i := by
  have htr : pnetcdf_d_write_trace procs
      = (write_loop pnetcdf_d_write_calls pnetcdf_d_write_advance procs.flatten
          quants_init).flatten :=
    ranks_eq_single pnetcdf_d_write_calls pnetcdf_d_write_advance dcount dadvance_eq
      pnetcdf_d_write_proc_quants dproc_quants_eq procs
  obtain ⟨hl, hp, hc⟩ := ranges_run pnetcdf_d_write_calls pnetcdf_d_write_advance dcount x q
    dadvance_eq (fun b o => dcalls_ranges b o x q hx) procs.flatten quants_init
  have hg := dglobal_len procs x q hx
  refine ⟨hg, ?_, ?_, ?_, ?_⟩
  · rw [dtot_quants_eq]
    exact sum_map_flatten _ _
  · rw [htr, hl, List.length_flatten]
  · rw [htr]; exact hp
  · intro i
    rw [htr, hc, hg, dtot_quants_eq]
    simp [quants_init]

/-! ## Main results on the two layouts, the HACC reader and the safety of the loops -/

/-- C21, as amended: for every block, every field of the `create_datatype` record has the
same element count, and the same source array, as the slice `pnetcdf_write` writes for
the same field (`mins` and `maxs` 3, `save_verts` `3 * num_verts`, `sites`
`3 * num_orig_particles`, `complete_cells`, `areas` and `vols` `num_complete_cells`,
`loc_tets` `4 * num_loc_tets`, the three remote tet arrays `4 * num_rem_tets`, `faces`
`num_faces * (3 + MAX_FACE_VERTS)`, `cell_faces_start` `num_orig_particles`,
`cell_faces` `tot_num_cell_faces`); every per-block array that `pnetcdf_write` writes,
other than `neighbors` and `neigh_procs`, is a field of the record; `neighbors` and
`neigh_procs` (`num_neighbors` entries each, taken from DIY and not from the block) are
written by `pnetcdf_write` and are no field of the record. -/
theorem record_matches_pnetcdf_slices (M : Nat) (b : vlocal) (o : quants) :
    (∀ e ∈ create_datatype b.v, ∃ c ∈ pnetcdf_write_calls M b o,
      c.varid = vrecord_var e.disp ∧
      c.count0 * c.count1 = e.count * diy_type_size M e.base_type ∧
      c.buf = vrecord_data b.v e.disp) ∧
    (create_datatype b.v).map
        (fun e => (vrecord_var e.disp, e.count * diy_type_size M e.base_type))
      = [(.mins, 3), (.save_verts, b.v.num_verts * 3), (.sites, b.v.num_orig_particles * 3),
         (.complete_cells, b.v.num_complete_cells), (.areas, b.v.num_complete_cells),
         (.vols, b.v.num_complete_cells), (.loc_tets, b.v.num_loc_tets * 4),
         (.rem_tet_gids, b.v.num_rem_tets * 4), (.rem_tet_nids, b.v.num_rem_tets * 4),
         (.rem_tet_wrap_dirs, b.v.num_rem_tets * 4), (.faces, b.v.num_faces * (3 + M)),
         (.cell_faces_start, b.v.num_orig_particles), (.cell_faces, b.v.tot_num_cell_faces),
         (.maxs, 3)] ∧
    (∀ c ∈ pnetcdf_write_calls M b o, varray c.varid = true →
      c.varid = .neighbors ∨ c.varid = .neigh_procs ∨
      ∃ e ∈ create_datatype b.v, vrecord_var e.disp = c.varid) ∧
    (∃ c ∈ pnetcdf_write_calls M b o, c.varid = .neighbors ∧
      c.count0 * c.count1 = b.neigh_gbs.length ∧ c.buf = b.neigh_gbs.map (fun g => g.gid)) ∧
    (∃ c ∈ pnetcdf_write_calls M b o, c.varid = .neigh_procs ∧
      c.count0 * c.count1 = b.neigh_gbs.length ∧ c.buf = b.neigh_gbs.map (fun g => g.proc)) ∧
    ∀ e ∈ create_datatype b.v,
      vrecord_var e.disp ≠ .neighbors ∧ vrecord_var e.disp ≠ .neigh_procs := by
  refine ⟨vcalls_record_fields M b o, ?_, vcalls_arrays M b o, ?_, ?_, ?_⟩
  · simp [create_datatype, vrecord_var, diy_type_size, face_map]
    omega
  · exact ⟨⟨.neighbors, o .NUM_NEIGHBORS, b.neigh_gbs.length, 1, b.neigh_gbs.map (fun g => g.gid)⟩,
      by simp [pnetcdf_write_calls], rfl, by simp, rfl⟩
  · exact ⟨⟨.neigh_procs, o .NUM_NEIGHBORS, b.neigh_gbs.length, 1,
        b.neigh_gbs.map (fun g => g.proc)⟩,
      by simp [pnetcdf_write_calls], rfl, by simp, rfl⟩
  · simp [create_datatype, vrecord_var]

/-- C21 as stated fails: for the sample block with one neighbor, `pnetcdf_write` writes a
per-block array with a slice that is not empty (`neighbors`, one entry) which no field
of the `create_datatype` record holds. -/
theorem record_matches_pnetcdf_slices_counterexample :
    ¬ ∀ c ∈ pnetcdf_write_calls 1 sample_vblock_a quants_init, varray c.varid = true →
        0 < c.count0 * c.count1 →
        ∃ e ∈ create_datatype sample_vblock_a.v, vrecord_var e.disp = c.varid := by
  intro h
  have := h ⟨.neighbors, 0, 1, 1, [1]⟩ (by decide) (by decide) (by decide)
  revert this
  decide

/-- C22 (code defect): in every run of `pnetcdf_write` the variable `num_cell_faces` is
defined over the dimension `num_g_complete_cells`, whose length is the total number of
complete cells, and no put call of any process names it: its contents stay as
`ncmpi_enddef` left them. Every other variable the file defines is written in every
iteration of the write loop. For one process holding the sample block with one complete
cell the variable has one entry, and none of the calls writes it. -/
theorem pnetcdf_write_num_cell_faces_unwritten (M : Nat) (procs : List (List vlocal)) :
    (pnetcdf_write M procs).shape .num_cell_faces = [.num_g_complete_cells] ∧
    global_len (pnetcdf_write M procs) .num_cell_faces
      = (procs.flatten.map (fun b => b.v.num_complete_cells)).sum ∧
    (∀ c ∈ pnetcdf_write_trace M procs, c.varid ≠ .num_cell_faces) ∧
    (pnetcdf_write M procs).data .num_cell_faces
      = (pnetcdf_write_define M (pnetcdf_write_tot_quants procs)).data .num_cell_faces ∧
    (∀ x, (pnetcdf_write M procs).shape x ≠ [] → x ≠ .num_cell_faces →
      ∀ blk o, ∃ c ∈ pnetcdf_write_calls M blk o, c.varid = x) ∧
    global_len (pnetcdf_write 1 [[sample_vblock_a]]) .num_cell_faces = 1 ∧
    ∀ c ∈ pnetcdf_write_trace 1 [[sample_vblock_a]], c.varid ≠ .num_cell_faces := by
  have hsh : (pnetcdf_write M procs).shape = vshape := by
    unfold pnetcdf_write
    rw [(foldl_put_frame _ _).2]
    exact funext (shape_vdefine M _)
  have hno : ∀ (P : List (List vlocal)) (K : Nat), ∀ c ∈ pnetcdf_write_trace K P,
      c.varid ≠ .num_cell_faces := by
    intro P K c hc
    obtain ⟨blk, o, h⟩ := mem_trace_calls K P c hc
    exact vcalls_not_num_cell_faces K blk o c h
  have hgl : ∀ (P : List (List vlocal)) (K : Nat),
      global_len (pnetcdf_write K P) .num_cell_faces
        = (P.flatten.map (fun b => b.v.num_complete_cells)).sum := by
    intro P K
    have h1 : (pnetcdf_write K P).shape = vshape := by
      unfold pnetcdf_write
      rw [(foldl_put_frame _ _).2]
      exact funext (shape_vdefine K _)
    have h2 : (pnetcdf_write K P).dimlen = vdimlen K (pnetcdf_write_tot_quants P) := by
      unfold pnetcdf_write
      rw [(foldl_put_frame _ _).1]
      exact funext (dimlen_vdefine K _)
    unfold global_len
    rw [h1, h2, vtot_quants_eq]
    rfl
  refine ⟨by rw [hsh]; rfl, hgl procs M, hno procs M, ?_, ?_, ?_, hno _ 1⟩
  · unfold pnetcdf_write
    rw [foldl_put_data]
    exact foldl_put_var_other _ _ _ _ (hno procs M)
  · intro x hx hne blk o
    rw [hsh] at hx
    exact vcalls_cover M blk o x (vshape_defined x hx hne)
  · rw [hgl]
    rfl

/-- C23 (code defect): for `sample_rate >= 1`, `read_particles` leaves in `particles` the
`(x, y, z)` of the sampled particles whose id did not occur at an earlier sampled index,
in sampling order, in the first `3 * nu` entries, `nu` being the number of distinct
sampled ids; but the vector keeps the length `3 * (n / sample_rate)` it was resized to
before the loop: behind the `3 * nu` entries stand the entries the resize left there.
Whenever a sampled id repeats, the length is not `3 * nu` and the vector is not the
list of the particles kept. -/
theorem read_particles_duplicate_slots (x y z id particles : List Int) (sample_rate : Nat)
    (hs : 1 ≤ sample_rate) :
    ∃ out nu,
      Hacc.read_particles x y z id particles sample_rate
        = some (out, nu, x.length / sample_rate) ∧
      nu = (Hacc.kept id sample_rate (x.length / sample_rate)).length ∧
      nu = ((List.range (x.length / sample_rate)).map
              (fun i => id.getD (i * sample_rate) 0)).dedup.length ∧
      out.take (3 * nu) = Hacc.sampled_unique x y z id sample_rate ∧
      out.drop (3 * nu) = (Hacc.resize particles (x.length / sample_rate * 3)).drop (3 * nu) ∧
      out.length = 3 * (x.length / sample_rate) ∧
      (nu < x.length / sample_rate →
        out.length ≠ 3 * nu ∧ out ≠ Hacc.sampled_unique x y z id sample_rate) := by
  have hsl := hacc_sampled_length x y z id sample_rate
  have hkl := hacc_kept_length_le id sample_rate (x.length / sample_rate)
  have hrl := hacc_resize_length particles (x.length / sample_rate * 3)
  have hlen : (Hacc.sampled_unique x y z id sample_rate
      ++ (Hacc.resize particles (x.length / sample_rate * 3)).drop
          (3 * (Hacc.kept id sample_rate (x.length / sample_rate)).length)).length
        = 3 * (x.length / sample_rate) := by
    rw [List.length_append, List.length_drop, hsl, hrl]
    omega
  refine ⟨_, _, hacc_read_particles_eq x y z id particles sample_rate hs, rfl,
    hacc_kept_distinct id sample_rate _, ?_, ?_, hlen, ?_⟩
  · rw [← hsl, List.take_left']
    rfl
  · rw [← hsl, List.drop_left']
    rfl
  · intro hlt
    refine ⟨by rw [hlen]; omega, ?_⟩
    intro e
    have := congrArg List.length e
    rw [hlen, hsl] at this
    omega

/-- C23 at two particles with the same id 7, `sample_rate = 1` and an empty vector passed
in: the vector returned is `[1, 2, 3, 0, 0, 0]`, of length 6, where the particles kept
are `[1, 2, 3]`. -/
theorem read_particles_duplicate_slots_witness :
    Hacc.read_particles [1, 4] [2, 5] [3, 6] [7, 7] [] 1 = some ([1, 2, 3, 0, 0, 0], 1, 2) ∧
    Hacc.sampled_unique [1, 4] [2, 5] [3, 6] [7, 7] 1 = [1, 2, 3] ∧
    ∃ out nu,
      Hacc.read_particles [1, 4] [2, 5] [3, 6] [7, 7] [] 1
        = some (out, nu, ([1, 4] : List Int).length / 1) ∧
      nu = (Hacc.kept [7, 7] 1 (([1, 4] : List Int).length / 1)).length ∧
      nu = ((List.range (([1, 4] : List Int).length / 1)).map
              (fun i => ([7, 7] : List Int).getD (i * 1) 0)).dedup.length ∧
      out.take (3 * nu) = Hacc.sampled_unique [1, 4] [2, 5] [3, 6] [7, 7] 1 ∧
      out.drop (3 * nu)
        = (Hacc.resize [] (([1, 4] : List Int).length / 1 * 3)).drop (3 * nu) ∧
      out.length = 3 * (([1, 4] : List Int).length / 1) ∧
      (nu < ([1, 4] : List Int).length / 1 →
        out.length ≠ 3 * nu ∧ out ≠ Hacc.sampled_unique [1, 4] [2, 5] [3, 6] [7, 7] 1) :=
  ⟨by decide, by decide,
    read_particles_duplicate_slots [1, 4] [2, 5] [3, 6] [7, 7] [] 1 (by decide)⟩

/-- C24 (code defect): for `size >= 1` the gid sets `read_gio` assigns to the ranks are
pairwise disjoint and hold gids below `tot_blocks` only, but their union is
`0 .. tot_blocks - 1` exactly when `tot_blocks % size <= 1`: the ranks start at
`rank * tot_blocks / size` and all but the last read `tot_blocks / size` blocks, so with
a remainder `m >= 1` only `tot_blocks - (m - 1)` blocks are read, and with `m >= 2` some
block of the file is read by no rank. -/
theorem read_gio_gid_gaps (tot_blocks size : Nat) (hs : 1 ≤ size) :
    (∀ r1 r2 g, r1 < r2 → r2 < size → g ∈ Hacc.read_gio_gids tot_blocks size r1 →
      g ∉ Hacc.read_gio_gids tot_blocks size r2) ∧
    (∀ r g, r < size → g ∈ Hacc.read_gio_gids tot_blocks size r → g < tot_blocks) ∧
    ((∀ g, g < tot_blocks → ∃ r, r < size ∧ g ∈ Hacc.read_gio_gids tot_blocks size r) ↔
      tot_blocks % size ≤ 1) ∧
    (1 ≤ tot_blocks % size →
      ((List.range size).map (fun r => (Hacc.read_gio_gids tot_blocks size r).length)).sum
        = tot_blocks - (tot_blocks % size - 1)) := by
  refine ⟨fun r1 r2 g h12 h2 hg => read_gio_disjoint tot_blocks size r1 r2 g h12 h2 hg,
    fun r g hr hg => read_gio_bound tot_blocks size r g hr hg, ⟨?_, ?_⟩,
    read_gio_count tot_blocks size hs⟩
  · intro hall
    by_contra hm
    obtain ⟨g, hg, hno⟩ := read_gio_unread tot_blocks size hs (by omega)
    obtain ⟨r, hr, hgr⟩ := hall g hg
    exact hno r hr hgr
  · intro hm g hg
    exact read_gio_cover tot_blocks size hs hm g hg

/-- C24 at 5 blocks and 3 processes: the ranks read the gids 0, then 1, then 3 and 4;
block 2 is read by no rank. -/
theorem read_gio_gid_gaps_witness :
    (List.range 3).map (Hacc.read_gio_gids 5 3) = [[0], [1], [3, 4]] ∧
    ¬ (5 % 3 ≤ 1) ∧
    (∀ r1 r2 g, r1 < r2 → r2 < 3 → g ∈ Hacc.read_gio_gids 5 3 r1 →
      g ∉ Hacc.read_gio_gids 5 3 r2) ∧
    (∀ r g, r < 3 → g ∈ Hacc.read_gio_gids 5 3 r → g < 5) ∧
    ((∀ g, g < 5 → ∃ r, r < 3 ∧ g ∈ Hacc.read_gio_gids 5 3 r) ↔ 5 % 3 ≤ 1) ∧
    (1 ≤ 5 % 3 →
      ((List.range 3).map (fun r => (Hacc.read_gio_gids 5 3 r).length)).sum
        = 5 - (5 % 3 - 1)) :=
  ⟨by decide, by decide, read_gio_gid_gaps 5 3 (by decide)⟩

/-- The variable `num_cell_faces` of a Voronoi file: as long as the total number of
complete cells, and named by no put call of the run. -/
theorem num_cell_faces_ranges (M : Nat) (procs : List (List vlocal)) :
    ranges_of .num_cell_faces (pnetcdf_write_trace M procs) = [] ∧
    global_len (pnetcdf_write M procs) .num_cell_faces
      = pnetcdf_write_tot_quants procs .NUM_COMP_CELLS := by
  constructor
  · unfold ranges_of
    rw [List.map_eq_nil_iff, List.filter_eq_nil_iff]
    intro c hc
    obtain ⟨blk, o, h⟩ := mem_trace_calls M procs c hc
    simpa using vcalls_not_num_cell_faces M blk o c h
  · have h1 : (pnetcdf_write M procs).shape = vshape := by
      unfold pnetcdf_write
      rw [(foldl_put_frame _ _).2]
      exact funext (shape_vdefine M _)
    have h2 : (pnetcdf_write M procs).dimlen = vdimlen M (pnetcdf_write_tot_quants procs) := by
      unfold pnetcdf_write
      rw [(foldl_put_frame _ _).1]
      exact funext (dimlen_vdefine M _)
    unfold global_len
    rw [h1, h2]
    rfl

/-- C25 (code defect): in every run of `pnetcdf_write` and of `pnetcdf_d_write`, for every
variable-length field that the run writes, the length `D` of the field's global
dimension is the sum over the processes of the per-process counts; every block of
every process issues one put call on the field; the index ranges `[start, start + count)`
of these calls are pairwise disjoint; and an index lies in one of the ranges exactly
when it is below `D`. These fields are all the variables of the Delaunay file whose
first dimension is not `num_g_blocks`, and all those of the Voronoi file but one:
`num_cell_faces`, whose dimension has the total number of complete cells as its
length, is named by no put call, so that every position of it is left unwritten. -/
theorem pnetcdf_write_ranges_partition (M : Nat) (vprocs : List (List vlocal))
    (dprocs : List (List dlocal)) (x y : Var) (q q2 : Quant)
    (hx : vfield x = some q) (hy : dfield y = some q2) :
    (global_len (pnetcdf_write M vprocs) x = pnetcdf_write_tot_quants vprocs q ∧
      pnetcdf_write_tot_quants vprocs q
        = (vprocs.map (fun bs => (bs.map (vcount q)).sum)).sum ∧
      (ranges_of x (pnetcdf_write_trace M vprocs)).length = (vprocs.map List.length).sum ∧
      (ranges_of x (pnetcdf_write_trace M vprocs)).Pairwise
        (fun r s => ∀ i, ¬ (in_range r i ∧ in_range s i)) ∧
      ∀ i, i < global_len (pnetcdf_write M vprocs) x ↔
        ∃ r ∈ ranges_of x (pnetcdf_write_trace M vprocs), in_range r i) ∧
    (global_len (pnetcdf_d_write dprocs) y = pnetcdf_d_write_tot_quants dprocs q2 ∧
      pnetcdf_d_write_tot_quants dprocs q2
        = (dprocs.map (fun bs => (bs.map (dcount q2)).sum)).sum ∧
      (ranges_of y (pnetcdf_d_write_trace dprocs)).length = (dprocs.map List.length).sum ∧
      (ranges_of y (pnetcdf_d_write_trace dprocs)).Pairwise
        (fun r s => ∀ i, ¬ (in_range r i ∧ in_range s i)) ∧
      ∀ i, i < global_len (pnetcdf_d_write dprocs) y ↔
        ∃ r ∈ ranges_of y (pnetcdf_d_write_trace dprocs), in_range r i) ∧
    (∀ z, (vshape z).head? ≠ none → (vshape z).head? ≠ some .num_g_blocks →
      (vfield z).isSome = true ∨ z = .num_cell_faces) ∧
    (∀ z, (dshape z).head? ≠ none → (dshape z).head? ≠ some .num_g_blocks →
      (dfield z).isSome = true) ∧
    (vshape .num_cell_faces).head? = some .num_g_complete_cells ∧
    ranges_of .num_cell_faces (pnetcdf_write_trace M vprocs) = [] ∧
    global_len (pnetcdf_write M vprocs) .num_cell_faces
      = pnetcdf_write_tot_quants vprocs .NUM_COMP_CELLS ∧
    (∀ i, i < global_len (pnetcdf_write M vprocs) .num_cell_faces →
      ¬ ∃ r ∈ ranges_of .num_cell_faces (pnetcdf_write_trace M vprocs), in_range r i) := by
  obtain ⟨hr, hl⟩ := num_cell_faces_ranges M vprocs
  refine ⟨vranges_partition M vprocs x q hx, dranges_partition dprocs y q2 hy, ?_, ?_, rfl,
    hr, hl, ?_⟩
  · intro z
    cases z <;> simp [vshape, vfield]
  · intro z
    cases z <;> simp [dshape, dfield]
  · intro i _
    rw [hr]
    simp

/-- C25 at two processes with one sample block each: the local tets of the Voronoi
writer (the second block has none and writes the empty range at 0) and the particles
of the Delaunay writer; `num_cell_faces` has one position, which no call writes. -/
theorem pnetcdf_write_ranges_partition_witness :
    ranges_of .loc_tets (pnetcdf_write_trace 1 [[sample_vblock_a], [sample_vblock_b]])
      = [(0, 1), (0, 0)] ∧
    ranges_of .particles (pnetcdf_d_write_trace [[sample_dblock_a], [sample_dblock_b]])
      = [(0, 1), (1, 1)] ∧
    global_len (pnetcdf_write 1 [[sample_vblock_a], [sample_vblock_b]]) .num_cell_faces = 1 ∧
    (global_len (pnetcdf_write 1 [[sample_vblock_a], [sample_vblock_b]]) .loc_tets
        = pnetcdf_write_tot_quants [[sample_vblock_a], [sample_vblock_b]] .NUM_LOC_TETRAS ∧
      pnetcdf_write_tot_quants [[sample_vblock_a], [sample_vblock_b]] .NUM_LOC_TETRAS
        = ([[sample_vblock_a], [sample_vblock_b]].map
            (fun bs => (bs.map (vcount .NUM_LOC_TETRAS)).sum)).sum ∧
      (ranges_of .loc_tets
          (pnetcdf_write_trace 1 [[sample_vblock_a], [sample_vblock_b]])).length
        = ([[sample_vblock_a], [sample_vblock_b]].map List.length).sum ∧
      (ranges_of .loc_tets
          (pnetcdf_write_trace 1 [[sample_vblock_a], [sample_vblock_b]])).Pairwise
        (fun r s => ∀ i, ¬ (in_range r i ∧ in_range s i)) ∧
      ∀ i, i < global_len (pnetcdf_write 1 [[sample_vblock_a], [sample_vblock_b]]) .loc_tets ↔
        ∃ r ∈ ranges_of .loc_tets
          (pnetcdf_write_trace 1 [[sample_vblock_a], [sample_vblock_b]]), in_range r i) ∧
    (global_len (pnetcdf_d_write [[sample_dblock_a], [sample_dblock_b]]) .particles
        = pnetcdf_d_write_tot_quants [[sample_dblock_a], [sample_dblock_b]] .NUM_PARTS ∧
      pnetcdf_d_write_tot_quants [[sample_dblock_a], [sample_dblock_b]] .NUM_PARTS
        = ([[sample_dblock_a], [sample_dblock_b]].map
            (fun bs => (bs.map (dcount .NUM_PARTS)).sum)).sum ∧
      (ranges_of .particles
          (pnetcdf_d_write_trace [[sample_dblock_a], [sample_dblock_b]])).length
        = ([[sample_dblock_a], [sample_dblock_b]].map List.length).sum ∧
      (ranges_of .particles
          (pnetcdf_d_write_trace [[sample_dblock_a], [sample_dblock_b]])).Pairwise
        (fun r s => ∀ i, ¬ (in_range r i ∧ in_range s i)) ∧
      ∀ i, i < global_len (pnetcdf_d_write [[sample_dblock_a], [sample_dblock_b]]) .particles ↔
        ∃ r ∈ ranges_of .particles
          (pnetcdf_d_write_trace [[sample_dblock_a], [sample_dblock_b]]), in_range r i) ∧
    (∀ z, (vshape z).head? ≠ none → (vshape z).head? ≠ some .num_g_blocks →
      (vfield z).isSome = true ∨ z = .num_cell_faces) ∧
    (∀ z, (dshape z).head? ≠ none → (dshape z).head? ≠ some .num_g_blocks →
      (dfield z).isSome = true) ∧
    (vshape .num_cell_faces).head? = some .num_g_complete_cells ∧
    ranges_of .num_cell_faces (pnetcdf_write_trace 1 [[sample_vblock_a], [sample_vblock_b]])
      = [] ∧
    global_len (pnetcdf_write 1 [[sample_vblock_a], [sample_vblock_b]]) .num_cell_faces
      = pnetcdf_write_tot_quants [[sample_vblock_a], [sample_vblock_b]] .NUM_COMP_CELLS ∧
    (∀ i, i < global_len (pnetcdf_write 1 [[sample_vblock_a], [sample_vblock_b]])
        .num_cell_faces →
      ¬ ∃ r ∈ ranges_of .num_cell_faces
        (pnetcdf_write_trace 1 [[sample_vblock_a], [sample_vblock_b]]), in_range r i) :=
  ⟨by decide, by decide, by decide,
    pnetcdf_write_ranges_partition 1 [[sample_vblock_a], [sample_vblock_b]]
      [[sample_dblock_a], [sample_dblock_b]] .loc_tets .particles .NUM_LOC_TETRAS .NUM_PARTS
      rfl rfl⟩

/-- C26 (code defect): with more processes than blocks, `bp = tot_blocks / groupsize` is
0, and the loop over the neighbors of a block that has a neighbor divides by it. On the
file of two blocks that are neighbors of each other, read by 3 processes, rank 2 reads
both blocks (`start_block_ofst = 0`, `nblocks = 2`); the table `gid2idx` is filled
without fault, block 0 has the neighbor 1, and the computation of `neigh_procs` divides
by zero. The clamping statement `*neigh_procs[b][n] = groupsize - 1`, where it
is defined at all, needs `b = 0` and writes entry 0 of row `n`, not entry `n` of row
`b`: with the rows `[5, 5]` and `[7]`, `b = 0` and `n = 1`, it changes row 1 to `[1]`
and leaves entry `[0][1]` as it was. -/
theorem read_neigh_procs_not_total :
    (∀ tot_blocks groupsize : Int, 0 ≤ tot_blocks → tot_blocks < groupsize →
      read_bp tot_blocks groupsize = 0) ∧
    (∀ (gid2idx : List (Option Int)) (groupsize : Int) (neighbors : List Int) (b : Nat)
        (rows : List (Option (List Int))), neighbors ≠ [] →
      neigh_procs_loop gid2idx 0 groupsize neighbors b rows = none) ∧
    read_tot_blocks sample_file_2 = 2 ∧ read_bp 2 3 = 0 ∧
    read_start_block_ofst 2 3 2 = 0 ∧ read_nblocks 2 3 2 = 2 ∧
    read_gid2idx 2 (ncmpi_get_vara sample_file_2 .g_block_ids 0 2 1)
      = some [some 0, some 1] ∧
    read_int sample_file_2 .num_neighbors 0 = 1 ∧
    ncmpi_get_vara sample_file_2 .neighbors 0 1 1 = [1] ∧
    read_neigh_procs sample_file_2 3 2 = none ∧
    (∀ (rows : List (Option (List Int))) (b n : Nat) (v : Int)
        (rows2 : List (Option (List Int))), store_deref rows b n v = some rows2 →
      b = 0 ∧ ∃ row, rows.getD n none = some row ∧ rows2 = rows.set n (some (row.set 0 v))) ∧
    store_deref [some [5, 5], some [7]] 0 1 1 = some [some [5, 5], some [1]] := by
  refine ⟨?_, neigh_procs_loop_bp_zero, by decide, by decide, by decide, by decide, by decide,
    by decide, by decide, by decide, store_deref_target, by decide⟩
  intro tot g h0 hlt
  unfold read_bp
  exact Int.tdiv_eq_zero_of_lt h0 hlt

/-- C27 (code defect): in the CGAL `gen_voronoi_output` the ring of an edge is written
without any check of `num_verts`: the writes of an edge stay inside the ring array
exactly when the ring (the finite cells around the edge, and the index 0 once if a
cell around it is infinite) has at most `MAX_FACE_VERTS` entries. Whatever
`MAX_FACE_VERTS` is, the axis of the bipyramid with `MAX_FACE_VERTS + 3` points around
it is a finite edge with `MAX_FACE_VERTS + 3` finite cells around it, and the write
at index `MAX_FACE_VERTS` leaves the array. -/
theorem cgal_ring_write_unchecked (M : Nat) :
    (∀ (Dt : CGAL.Delaunay3D) (ti : Nat → Nat) (e : Nat × Nat × Nat),
      CGAL.face_of_edge M Dt ti e = none ↔
        M < (CGAL.ring Dt ti (CGAL.edge_cells Dt e)).length) ∧
    (∀ x : Nat, push_at (List.replicate M 0, M) x = none) ∧
    (0, 0, 1) ∈ (CGAL.bipyramid (M + 3)).finite_edges ∧
    (∀ c ∈ CGAL.edge_cells (CGAL.bipyramid (M + 3)) (0, 0, 1),
      (CGAL.bipyramid (M + 3)).is_infinite c = false) ∧
    (CGAL.edge_cells (CGAL.bipyramid (M + 3)) (0, 0, 1)).length = M + 3 ∧
    CGAL.face_of_edge M (CGAL.bipyramid (M + 3))
      (CGAL.vertices_loop (CGAL.bipyramid (M + 3))).tet_indices (0, 0, 1) = none := by
  have hc : CGAL.edge_cells (CGAL.bipyramid (M + 3)) (0, 0, 1) = List.range (M + 3) := by
    simp [CGAL.edge_cells, CGAL.bipyramid, List.range_succ_eq_map]
  refine ⟨?_, ?_, ?_, ?_, ?_, ?_⟩
  · intro Dt ti e
    rw [cgal_face_of_edge_eq]
    split
    · simp; omega
    · simp; omega
  · intro x
    simp [push_at]
  · simp [CGAL.bipyramid]
  · intro c hcm
    rw [hc] at hcm
    have : c < M + 3 := List.mem_range.mp hcm
    simp [CGAL.bipyramid]
    omega
  · rw [hc]; simp
  · rw [cgal_face_of_edge_eq, bipyramid_axis_ring (M + 2)]
    simp
    omega

/-- C28: when `all_gids` is a permutation of `0 .. tot_blocks - 1`, the loop that fills
`gid2idx` makes no store outside the array; the table has `tot_blocks` entries;
`gid2idx[all_gids[i]] = i` for every `i < tot_blocks`; and for every gid `g` in
`[0, tot_blocks)` the lookup `gid2idx[g]` is inside the array, holds an assigned index
`j < tot_blocks`, and `all_gids[j] = g`. -/
theorem read_gid2idx_inverse (tot_blocks : Nat) (all_gids : List Int)
    (h : List.Perm all_gids ((List.range tot_blocks).map Int.ofNat)) :
    ∃ gid2idx, read_gid2idx tot_blocks all_gids = some gid2idx ∧
      gid2idx.length = tot_blocks ∧
      (∀ i, i < tot_blocks → gid2idx_at gid2idx (all_gids.getD i 0) = some (i : Int)) ∧
      (∀ g : Int, 0 ≤ g → g < tot_blocks →
        g.toNat < gid2idx.length ∧
        ∃ j : Nat, j < tot_blocks ∧ gid2idx_at gid2idx g = some (j : Int) ∧
          all_gids.getD j 0 = g) :=
  read_gid2idx_perm tot_blocks all_gids h

/-- C28 at three blocks stored with the gids 2, 0, 1. -/
theorem read_gid2idx_inverse_witness :
    read_gid2idx 3 [2, 0, 1] = some [some 1, some 2, some 0] ∧
    ∃ gid2idx, read_gid2idx 3 [2, 0, 1] = some gid2idx ∧
      gid2idx.length = 3 ∧
      (∀ i, i < 3 → gid2idx_at gid2idx (([2, 0, 1] : List Int).getD i 0) = some (i : Int)) ∧
      (∀ g : Int, 0 ≤ g → g < (3 : Nat) →
        g.toNat < gid2idx.length ∧
        ∃ j : Nat, j < 3 ∧ gid2idx_at gid2idx g = some (j : Int) ∧
          ([2, 0, 1] : List Int).getD j 0 = g) :=
  ⟨by decide, read_gid2idx_inverse 3 [2, 0, 1] (by decide)⟩

/-! ## Facts on the read loops with the `neigh_procs` loop -/

/-- a loop over `0 .. n - 1` whose every step succeeds and carries an invariant on -/
theorem foldlM_range_inv {σ : Type} (step : σ → Nat → Option σ) (P : Nat → σ → Prop) (n : Nat)
    (h : ∀ s k, k < n → P k s → ∃ s2, step s k = some s2 ∧ P (k + 1) s2)
    (s0 : σ) (h0 : P 0 s0) :
    ∃ s, (List.range n).foldlM step s0 = some s ∧ P n s := by
  have key : ∀ k, k ≤ n → ∃ s, (List.range k).foldlM step s0 = some s ∧ P k s := by
    intro k
    induction k with
    | zero => intro _; exact ⟨s0, rfl, h0⟩
    | succ k ih =>
      intro hk
      obtain ⟨s, hs, hP⟩ := ih (by omega)
      obtain ⟨s2, hs2, hP2⟩ := h s k (by omega) hP
      refine ⟨s2, ?_, hP2⟩
      rw [List.range_succ, List.foldlM_append, hs]
      simp only [Option.bind_eq_bind, Option.some_bind, List.foldlM_cons, List.foldlM_nil]
      rw [hs2]
      rfl
  exact key n (Nat.le_refl _)

theorem getD_some_lt {α : Type} (l : List (Option α)) (b : Nat) (x : α)
    (h : l.getD b none = some x) : b < l.length := by
  by_contra hc
  rw [List.getD_eq_getElem?_getD, List.getElem?_eq_none (by omega)] at h
  cases h

theorem read_gid2idx_congr (tot_blocks : Nat) (a b : List Int)
    (h : ∀ i, i < tot_blocks → a.getD i 0 = b.getD i 0) :
    read_gid2idx tot_blocks a = read_gid2idx tot_blocks b := by
  unfold read_gid2idx
  have key : ∀ (l : List Nat) (t : List (Option Int)), (∀ i ∈ l, i < tot_blocks) →
      l.foldlM
        (fun (t : List (Option Int)) i =>
          let g := a.getD i 0
          if 0 ≤ g ∧ g.toNat < tot_blocks then some (t.set g.toNat (some (i : Int))) else none) t
      = l.foldlM
        (fun (t : List (Option Int)) i =>
          let g := b.getD i 0
          if 0 ≤ g ∧ g.toNat < tot_blocks then some (t.set g.toNat (some (i : Int))) else none)
        t := by
    intro l
    induction l with
    | nil => intro t _; rfl
    | cons i l ih =>
      intro t hl
      simp only [List.foldlM_cons, h i (hl i (by simp))]
      cases hc : (if 0 ≤ b.getD i 0 ∧ (b.getD i 0).toNat < tot_blocks then
          some (t.set (b.getD i 0).toNat (some (i : Int))) else none) with
      | none => rfl
      | some t2 => exact ih t2 (fun j hj => hl j (by simp [hj]))
  exact key _ _ (fun i hi => List.mem_range.mp hi)

/-- the `neigh_procs` loop of one block runs through when `bp` is not 0, row `b` is
allocated with room for the neighbors, every neighbor gid has an assigned entry in
`gid2idx`, and no quotient reaches `groupsize` -/
theorem neigh_procs_loop_ok (gid2idx : List (Option Int)) (bp groupsize : Int)
    (neighbors : List Int) (b : Nat) (rows : List (Option (List Int)))
    (hbp : bp ≠ 0)
    (hrow : neighbors ≠ [] →
      ∃ row, rows.getD b none = some row ∧ neighbors.length ≤ row.length)
    (hlook : ∀ g ∈ neighbors,
      ∃ idx, gid2idx_at gid2idx g = some idx ∧ Int.tdiv idx bp < groupsize) :
    ∃ rows2, neigh_procs_loop gid2idx bp groupsize neighbors b rows = some rows2 ∧
      rows2.length = rows.length := by
  unfold neigh_procs_loop
  by_cases hn : neighbors = []
  · subst hn
    exact ⟨rows, rfl, rfl⟩
  · obtain ⟨s, hs, hP⟩ := foldlM_range_inv
      (fun rows n =>
        if bp = 0 then none
        else
          match gid2idx_at gid2idx (neighbors.getD n 0) with
          | none => none
          | some idx =>
            match store_entry rows b n (Int.tdiv idx bp) with
            | none => none
            | some rows1 =>
              if Int.tdiv idx bp ≥ groupsize then store_deref rows1 b n (groupsize - 1)
              else some rows1)
      (fun _ r => r.length = rows.length ∧
        ∃ row, r.getD b none = some row ∧ neighbors.length ≤ row.length)
      neighbors.length
      (by
        intro r k hk hP
        obtain ⟨hl, row, hrow2, hlen⟩ := hP
        have hkl : neighbors.getD k 0 ∈ neighbors := by
          rw [List.getD_eq_getElem?_getD, List.getElem?_eq_getElem hk]
          exact List.getElem_mem hk
        obtain ⟨idx, hidx, hq⟩ := hlook _ hkl
        have hb : b < r.length := getD_some_lt r b row hrow2
        have hst : store_entry r b k (Int.tdiv idx bp)
            = some (r.set b (some (row.set k (Int.tdiv idx bp)))) := by
          unfold store_entry
          rw [hrow2]
          simp only
          rw [if_pos (by omega)]
        refine ⟨r.set b (some (row.set k (Int.tdiv idx bp))), ?_, ?_, ?_⟩
        · simp only [hbp, if_false, hidx, hst]
          rw [if_neg (by omega)]
        · simpa using hl
        · refine ⟨row.set k (Int.tdiv idx bp), ?_, by simpa using hlen⟩
          rw [List.getD_eq_getElem?_getD, List.getElem?_set_self hb]
          rfl)
      rows ⟨rfl, hrow hn⟩
    exact ⟨s, hs, hP.1⟩

/-- one iteration of a read loop runs through under the conditions of
`neigh_procs_loop_ok` on the neighbors read -/
theorem read_iteration_ok {α : Type} (r : α) (gid2idx : List (Option Int))
    (bp groupsize : Int) (neighbors : List Int) (nn : Nat) (hnn : nn = neighbors.length)
    (b : Nat) (rows : List (Option (List Int)))
    (hb : b < rows.length) (hbp : bp ≠ 0)
    (hlook : ∀ g ∈ neighbors,
      ∃ idx, gid2idx_at gid2idx g = some idx ∧ Int.tdiv idx bp < groupsize) :
    ∃ rows2,
      (neigh_procs_loop gid2idx bp groupsize neighbors b
          (if nn ≠ 0 then rows.set b (some (List.replicate nn 0))
          else rows)).map (fun rows2 => (r, rows2)) = some (r, rows2) ∧
      rows2.length = rows.length := by
  subst hnn
  obtain ⟨rows2, h1, h2⟩ := neigh_procs_loop_ok gid2idx bp groupsize neighbors b
    (if neighbors.length ≠ 0 then rows.set b (some (List.replicate neighbors.length 0))
      else rows) hbp
    (by
      intro hn
      have hl : neighbors.length ≠ 0 := fun h => hn (List.length_eq_zero.mp h)
      rw [if_pos hl]
      refine ⟨List.replicate neighbors.length 0, ?_, by simp⟩
      rw [List.getD_eq_getElem?_getD, List.getElem?_set_self hb]
      rfl)
    hlook
  refine ⟨rows2, by rw [h1]; rfl, ?_⟩
  rw [h2]
  split <;> simp

/-- the read loop over the local blocks runs through when every iteration does -/
theorem read_loop_ok {α : Type}
    (F : Nat → List (Option (List Int)) → Option (α × List (Option (List Int))))
    (G : Nat → α) (n : Nat)
    (h : ∀ b rows, b < n → rows.length = n →
      ∃ rows2, F b rows = some (G b, rows2) ∧ rows2.length = n) :
    ∃ rows,
      (List.range n).foldlM
        (fun (st : List α × List (Option (List Int))) b =>
          (F b st.2).map (fun r => (st.1 ++ [r.1], r.2)))
        ([], List.replicate n none) = some ((List.range n).map G, rows) ∧
      rows.length = n := by
  obtain ⟨s, hs, hP⟩ := foldlM_range_inv
    (fun (st : List α × List (Option (List Int))) b =>
      (F b st.2).map (fun r => (st.1 ++ [r.1], r.2)))
    (fun k st => st.1 = (List.range k).map G ∧ st.2.length = n) n
    (by
      intro st k hk hP
      obtain ⟨rows2, hF, hl⟩ := h k st.2 hk hP.2
      refine ⟨(st.1 ++ [G k], rows2), ?_, ?_, hl⟩
      · simp only [hF, Option.map_some']
      · simp only [hP.1, List.range_succ, List.map_append, List.map_cons, List.map_nil])
    ([], List.replicate n none) ⟨rfl, by simp⟩
  refine ⟨s.2, ?_, hP.2⟩
  rw [hs, ← hP.1]

/-- with `groupsize` dividing `tot_blocks >= 1`, `bp` is at least 1 and the quotient of a
file index by `bp` is a rank -/
theorem read_bp_divides (tot : Nat) (groupsize : Int) (hg : 1 ≤ groupsize)
    (hdiv : (tot : Int) % groupsize = 0) (ht : 1 ≤ tot) :
    read_bp tot groupsize ≠ 0 ∧
    ∀ j : Nat, j < tot → Int.tdiv (j : Int) (read_bp tot groupsize) < groupsize := by
  obtain ⟨hbp0, hlo, hhi, he⟩ := read_bp_facts tot groupsize (Int.natCast_nonneg _) hg
  have hmul : groupsize * read_bp tot groupsize = tot := by
    rw [he]
    have := Int.ediv_add_emod (tot : Int) groupsize
    omega
  have hpos : 0 < read_bp tot groupsize := by
    by_contra hc
    have h : read_bp tot groupsize = 0 := by omega
    rw [h] at hmul
    simp at hmul
    omega
  refine ⟨by omega, ?_⟩
  intro j hj
  rw [Int.tdiv_eq_ediv (Int.natCast_nonneg _) (by omega)]
  apply Int.ediv_lt_of_lt_mul hpos
  rw [hmul]
  exact_mod_cast hj

theorem v_all_gids (M : Nat) (procs : List (List vlocal))
    (hwf : ∀ b ∈ procs.flatten, vblock_wf M b.v) (i : Nat) (hi : i < procs.flatten.length) :
    (ncmpi_get_vara (pnetcdf_write M procs) .g_block_ids 0 procs.flatten.length 1).getD i 0
      = (procs.flatten.map (fun b => b.gid)).getD i 0 := by
  have e_gid := (v_entry M procs hwf i procs.flatten[i] (List.getElem?_eq_getElem hi)
    .g_block_ids rfl rfl).1
  simp only [piece, call_on, pnetcdf_write_calls, List.find?, decide_True, decide_False,
    Nat.mul_one, List.take_succ_cons, List.take_zero, List.headD_cons, reduceCtorEq] at e_gid
  rw [e_gid, List.getD_eq_getElem?_getD, List.getElem?_map, List.getElem?_eq_getElem hi]
  rfl

theorem d_all_gids (procs : List (List dlocal))
    (hwf : ∀ b ∈ procs.flatten, dblock_wf b.d) (i : Nat) (hi : i < procs.flatten.length) :
    (ncmpi_get_vara (pnetcdf_d_write procs) .g_block_ids 0 procs.flatten.length 1).getD i 0
      = (procs.flatten.map (fun b => b.gid)).getD i 0 := by
  have e_gid := (d_entry procs hwf i procs.flatten[i] (List.getElem?_eq_getElem hi)
    .g_block_ids rfl rfl).1
  simp only [piece, call_on, pnetcdf_d_write_calls, List.find?, decide_True, decide_False,
    Nat.mul_one, List.take_succ_cons, List.take_zero, List.headD_cons, reduceCtorEq] at e_gid
  rw [e_gid, List.getD_eq_getElem?_getD, List.getElem?_map, List.getElem?_eq_getElem hi]
  rfl

/-- the lookups of the neighbor gids of a block succeed and give a rank -/
theorem neighbor_lookups (tot : Nat) (gids : List Int) (groupsize : Int) (hg : 1 ≤ groupsize)
    (hdiv : (tot : Int) % groupsize = 0) (ht : 1 ≤ tot)
    (hgid : gids.Perm ((List.range tot).map Int.ofNat))
    (gid2idx : List (Option Int)) (hread : read_gid2idx tot gids = some gid2idx)
    (neighbors : List Int) (hnb : ∀ g ∈ neighbors, 0 ≤ g ∧ g < tot) :
    ∀ g ∈ neighbors, ∃ idx, gid2idx_at gid2idx g = some idx ∧
      Int.tdiv idx (read_bp tot groupsize) < groupsize := by
  intro g hgm
  obtain ⟨t, ht2, _, _, hlook⟩ := read_gid2idx_perm tot gids hgid
  have e : t = gid2idx := Option.some.inj (ht2.symm.trans hread)
  subst e
  obtain ⟨_, j, hj, hat, _⟩ := hlook g (hnb g hgm).1 (hnb g hgm).2
  exact ⟨j, hat, (read_bp_divides tot groupsize hg hdiv ht).2 j hj⟩

/-- The Voronoi reader runs through when the number of readers divides the number of
blocks, the gids are `0 .. tot_blocks - 1` in some order and the neighbor gids are
among them; it returns the values read for the blocks of its range. -/
theorem v_read_ok (M : Nat) (procs : List (List vlocal))
    (hwf : ∀ p ∈ procs, ∀ b ∈ p, vblock_wf M b.v)
    (groupsize rank : Int) (hg : 1 ≤ groupsize) (h0 : 0 ≤ rank) (h1 : rank < groupsize)
    (hdiv : (procs.flatten.length : Int) % groupsize = 0)
    (hgid : (procs.flatten.map (fun b => b.gid)).Perm
      ((List.range procs.flatten.length).map Int.ofNat))
    (hnb : ∀ blk ∈ procs.flatten, ∀ g ∈ blk.neigh_gbs,
      0 ≤ g.gid ∧ g.gid < procs.flatten.length) :
    ∃ rows,
      pnetcdf_read M (pnetcdf_write M procs) groupsize rank =
        some ((List.range (read_nblocks procs.flatten.length groupsize rank).toNat).map
            (pnetcdf_read_gets M (pnetcdf_write M procs) procs.flatten.length
              (ncmpi_get_vara (pnetcdf_write M procs) .g_block_ids 0 procs.flatten.length 1)
              (read_start_block_ofst procs.flatten.length groupsize rank).toNat), rows) ∧
      rows.length = (read_nblocks procs.flatten.length groupsize rank).toNat := by
  have hwf2 : ∀ b ∈ procs.flatten, vblock_wf M b.v := by
    intro b hb
    obtain ⟨p, hp, hbp⟩ := List.mem_flatten.mp hb
    exact hwf p hp b hbp
  obtain ⟨gid2idx, hread, _⟩ := read_gid2idx_perm procs.flatten.length _ hgid
  have hread2 : read_gid2idx procs.flatten.length
      (ncmpi_get_vara (pnetcdf_write M procs) .g_block_ids 0 procs.flatten.length 1)
        = some gid2idx := by
    rw [read_gid2idx_congr _ _ _ (fun i hi => v_all_gids M procs hwf2 i hi)]
    exact hread
  unfold pnetcdf_read
  simp only [vwrite_tot_blocks, hread2]
  apply read_loop_ok
  intro b rows hb hrows
  obtain ⟨blk, hblk, hgets⟩ := v_gets_at M procs hwf groupsize rank hg h0 h1 b (by omega)
  have hmem : blk ∈ procs.flatten := by
    obtain ⟨hi, e⟩ := List.getElem?_eq_some.mp hblk
    exact e ▸ List.getElem_mem hi
  have ht : 1 ≤ procs.flatten.length := by
    cases hl : procs.flatten with
    | nil => rw [hl] at hmem; cases hmem
    | cons a l => simp
  unfold pnetcdf_read_block
  simp only [hgets]
  obtain ⟨rows2, h2, hl2⟩ := read_iteration_ok
    ({ v := blk.v, gid := blk.gid, num_neighbors := blk.neigh_gbs.length,
       neighbors := blk.neigh_gbs.map (fun g => g.gid) } : vread)
    gid2idx (read_bp procs.flatten.length groupsize) groupsize
    (blk.neigh_gbs.map (fun g => g.gid)) blk.neigh_gbs.length (by simp) b rows (by omega)
    (read_bp_divides _ groupsize hg hdiv ht).1
    (neighbor_lookups _ _ groupsize hg hdiv ht hgid gid2idx hread _ (by
      intro g hgm
      obtain ⟨nb, hnbm, rfl⟩ := List.mem_map.mp hgm
      exact hnb blk hmem nb hnbm))
  exact ⟨rows2, h2, by omega⟩

/-- The Delaunay reader runs through under the same conditions. -/
theorem d_read_ok (procs : List (List dlocal))
    (hwf : ∀ p ∈ procs, ∀ b ∈ p, dblock_wf b.d)
    (groupsize rank : Int) (hg : 1 ≤ groupsize) (h0 : 0 ≤ rank) (h1 : rank < groupsize)
    (hdiv : (procs.flatten.length : Int) % groupsize = 0)
    (hgid : (procs.flatten.map (fun b => b.gid)).Perm
      ((List.range procs.flatten.length).map Int.ofNat))
    (hnb : ∀ blk ∈ procs.flatten, ∀ g ∈ blk.neigh_gbs,
      0 ≤ g.gid ∧ g.gid < procs.flatten.length) :
    ∃ rows,
      pnetcdf_d_read (pnetcdf_d_write procs) groupsize rank =
        some ((List.range (read_nblocks procs.flatten.length groupsize rank).toNat).map
            (pnetcdf_d_read_gets (pnetcdf_d_write procs) procs.flatten.length
              (ncmpi_get_vara (pnetcdf_d_write procs) .g_block_ids 0 procs.flatten.length 1)
              (read_start_block_ofst procs.flatten.length groupsize rank).toNat), rows) ∧
      rows.length = (read_nblocks procs.flatten.length groupsize rank).toNat := by
  have hwf2 : ∀ b ∈ procs.flatten, dblock_wf b.d := by
    intro b hb
    obtain ⟨p, hp, hbp⟩ := List.mem_flatten.mp hb
    exact hwf p hp b hbp
  obtain ⟨gid2idx, hread, _⟩ := read_gid2idx_perm procs.flatten.length _ hgid
  have hread2 : read_gid2idx procs.flatten.length
      (ncmpi_get_vara (pnetcdf_d_write procs) .g_block_ids 0 procs.flatten.length 1)
        = some gid2idx := by
    rw [read_gid2idx_congr _ _ _ (fun i hi => d_all_gids procs hwf2 i hi)]
    exact hread
  unfold pnetcdf_d_read
  simp only [dwrite_tot_blocks, hread2]
  apply read_loop_ok
  intro b rows hb hrows
  obtain ⟨blk, hblk, hgets⟩ := d_gets_at procs hwf groupsize rank hg h0 h1 b (by omega)
  have hmem : blk ∈ procs.flatten := by
    obtain ⟨hi, e⟩ := List.getElem?_eq_some.mp hblk
    exact e ▸ List.getElem_mem hi
  have ht : 1 ≤ procs.flatten.length := by
    cases hl : procs.flatten with
    | nil => rw [hl] at hmem; cases hmem
    | cons a l => simp
  unfold pnetcdf_d_read_block
  simp only [hgets]
  obtain ⟨rows2, h2, hl2⟩ := read_iteration_ok
    ({ d := blk.d, gid := blk.gid, num_neighbors := blk.neigh_gbs.length,
       neighbors := blk.neigh_gbs.map (fun g => g.gid) } : dread)
    gid2idx (read_bp procs.flatten.length groupsize) groupsize
    (blk.neigh_gbs.map (fun g => g.gid)) blk.neigh_gbs.length (by simp) b rows (by omega)
    (read_bp_divides _ groupsize hg hdiv ht).1
    (neighbor_lookups _ _ groupsize hg hdiv ht hgid gid2idx hread _ (by
      intro g hgm
      obtain ⟨nb, hnbm, rfl⟩ := List.mem_map.mp hgm
      exact hnb blk hmem nb hnbm))
  exact ⟨rows2, h2, by omega⟩

/-- when the read loop runs through, the blocks it returns are the values it read -/
theorem read_loop_blocks {α : Type}
    (F : Nat → List (Option (List Int)) → Option (α × List (Option (List Int))))
    (G : Nat → α) (hF : ∀ b rows r, F b rows = some r → r.1 = G b)
    (n : Nat) (rows0 : List (Option (List Int))) (out : List α × List (Option (List Int)))
    (h : (List.range n).foldlM
        (fun (st : List α × List (Option (List Int))) b =>
          (F b st.2).map (fun r => (st.1 ++ [r.1], r.2)))
        ([], rows0) = some out) :
    out.1 = (List.range n).map G := by
  induction n generalizing out with
  | zero =>
    simp only [List.range_zero, List.foldlM_nil] at h
    cases h
    rfl
  | succ n ih =>
    rw [List.range_succ, List.foldlM_append] at h
    cases hs : (List.range n).foldlM
        (fun (st : List α × List (Option (List Int))) b =>
          (F b st.2).map (fun r => (st.1 ++ [r.1], r.2)))
        ([], rows0) with
    | none => rw [hs] at h; cases h
    | some s =>
      rw [hs] at h
      simp only [Option.bind_eq_bind, Option.some_bind, List.foldlM_cons, List.foldlM_nil] at h
      cases hr : F n s.2 with
      | none => rw [hr] at h; cases h
      | some r =>
        rw [hr] at h
        simp only [Option.map_some', Option.some_bind] at h
        have e : out = (s.1 ++ [r.1], r.2) := (Option.some.inj h).symm
        rw [e, ih s hs, hF n s.2 r hr]
        simp [List.range_succ]

theorem v_read_blocks (M : Nat) (f : ncfile) (groupsize rank : Int)
    (out : List vread × List (Option (List Int)))
    (h : pnetcdf_read M f groupsize rank = some out) :
    out.1 = (List.range (read_nblocks (read_tot_blocks f) groupsize rank).toNat).map
      (pnetcdf_read_gets M f (read_tot_blocks f)
        (ncmpi_get_vara f .g_block_ids 0 (read_tot_blocks f) 1)
        (read_start_block_ofst (read_tot_blocks f) groupsize rank).toNat) := by
  unfold pnetcdf_read at h
  simp only at h
  split at h
  · cases h
  · exact read_loop_blocks _ _ (by
      intro b rows r hr
      unfold pnetcdf_read_block at hr
      simp only [Option.map_eq_some'] at hr
      obtain ⟨rows2, _, e⟩ := hr
      rw [← e]) _ _ out h

theorem d_read_blocks (f : ncfile) (groupsize rank : Int)
    (out : List dread × List (Option (List Int)))
    (h : pnetcdf_d_read f groupsize rank = some out) :
    out.1 = (List.range (read_nblocks (read_tot_blocks f) groupsize rank).toNat).map
      (pnetcdf_d_read_gets f (read_tot_blocks f)
        (ncmpi_get_vara f .g_block_ids 0 (read_tot_blocks f) 1)
        (read_start_block_ofst (read_tot_blocks f) groupsize rank).toNat) := by
  unfold pnetcdf_d_read at h
  simp only at h
  split at h
  · cases h
  · exact read_loop_blocks _ _ (by
      intro b rows r hr
      unfold pnetcdf_d_read_block at hr
      simp only [Option.map_eq_some'] at hr
      obtain ⟨rows2, _, e⟩ := hr
      rw [← e]) _ _ out h

/-! ## Facts on the files of two distributions of the same blocks -/

theorem foldl_put_var_filter (w : Nat) (x : Var) (calls : List put_call) (arr : List Int) :
    calls.foldl (put_var w x) arr
      = (calls.filter (fun c => decide (c.varid = x))).foldl (put_var w x) arr := by
  induction calls generalizing arr with
  | nil => rfl
  | cons c cs ih =>
    by_cases hc : c.varid = x
    · rw [List.filter_cons_of_pos (by simpa using hc), List.foldl_cons, List.foldl_cons, ih]
    · rw [List.filter_cons_of_neg (by simpa using hc), List.foldl_cons]
      have : put_var w x arr c = arr := by simp [put_var, hc]
      rw [this, ih]

theorem without_owners_count (q : Quant) (b : vlocal) :
    vcount q (without_owners b) = vcount q b := by
  cases q <;> simp [vcount, without_owners]

theorem without_owners_calls (M : Nat) (b : vlocal) (o : quants) :
    pnetcdf_write_calls M (without_owners b) o
      = (pnetcdf_write_calls M b o).map
          (fun c => if c.varid = .neigh_procs then { c with buf := c.buf.map (fun _ => 0) }
            else c) := by
  simp [pnetcdf_write_calls, without_owners, List.map_map, Function.comp_def]

theorem without_owners_content (l l2 : List vlocal)
    (h : l.map block_content = l2.map block_content) :
    l.map without_owners = l2.map without_owners := by
  have e2 : without_owners = (fun c : vblock_t × Int × List Int =>
      ({ v := c.1, gid := c.2.1,
         neigh_gbs := c.2.2.map (fun g => { gid := g, proc := 0 }) } : vlocal))
        ∘ block_content := by
    funext b
    simp only [without_owners, block_content, Function.comp_def, List.map_map]
  rw [e2, ← List.map_map, ← List.map_map, h]


theorem without_owners_filter (M : Nat) (b : vlocal) (o : quants) (x : Var)
    (hx : x ≠ .neigh_procs) :
    (pnetcdf_write_calls M (without_owners b) o).filter (fun c => decide (c.varid = x))
      = (pnetcdf_write_calls M b o).filter (fun c => decide (c.varid = x)) := by
  rw [without_owners_calls]
  generalize pnetcdf_write_calls M b o = l
  induction l with
  | nil => rfl
  | cons c cs ih =>
    by_cases hn : c.varid = .neigh_procs
    · have hc : ¬ c.varid = x := fun e => hx (e.symm.trans hn)
      rw [List.map_cons, if_pos hn, List.filter_cons_of_neg (by simpa using hc),
        List.filter_cons_of_neg (by simpa using hc), ih]
    · rw [List.map_cons, if_neg hn]
      by_cases hc : c.varid = x
      · rw [List.filter_cons_of_pos (by simpa using hc),
          List.filter_cons_of_pos (by simpa using hc), ih]
      · rw [List.filter_cons_of_neg (by simpa using hc),
          List.filter_cons_of_neg (by simpa using hc), ih]

theorem without_owners_loop (M : Nat) (bs : List vlocal) (o : quants) (x : Var)
    (hx : x ≠ .neigh_procs) :
    ((write_loop (pnetcdf_write_calls M) pnetcdf_write_advance (bs.map without_owners)
        o).flatten).filter (fun c => decide (c.varid = x))
      = ((write_loop (pnetcdf_write_calls M) pnetcdf_write_advance bs o).flatten).filter
          (fun c => decide (c.varid = x)) := by
  induction bs generalizing o with
  | nil => rfl
  | cons b bs ih =>
    have hadv : pnetcdf_write_advance (without_owners b) o = pnetcdf_write_advance b o := by
      funext q
      rw [vadvance_eq, vadvance_eq, without_owners_count]
    simp only [List.map_cons, write_loop, List.flatten_cons, List.filter_append,
      without_owners_filter M b o x hx, hadv, ih]

theorem flatten_map_map {α β : Type} (f : α → β) (P : List (List α)) :
    (P.map (List.map f)).flatten = P.flatten.map f := by
  induction P with
  | nil => rfl
  | cons p ps ih => rw [List.map_cons, List.flatten_cons, List.flatten_cons, List.map_append, ih]

/-- The file of a run agrees, except for the contents of `neigh_procs`, with the file of
the same run with the owner ranks of the neighbors blanked out. -/
theorem without_owners_file (M : Nat) (procs : List (List vlocal)) :
    (pnetcdf_write M procs).dimlen
        = (pnetcdf_write M (procs.map (List.map without_owners))).dimlen ∧
    (pnetcdf_write M procs).shape
        = (pnetcdf_write M (procs.map (List.map without_owners))).shape ∧
    ∀ x, x ≠ .neigh_procs →
      (pnetcdf_write M procs).data x
        = (pnetcdf_write M (procs.map (List.map without_owners))).data x := by
  have htot : (fun q => ((procs.flatten.map without_owners).map (vcount q)).sum)
      = fun q => (procs.flatten.map (vcount q)).sum := by
    funext q
    rw [List.map_map]
    congr 2
    funext b
    exact without_owners_count q b
  rw [pnetcdf_write_single M procs, pnetcdf_write_single M (procs.map (List.map without_owners)),
    flatten_map_map, htot]
  refine ⟨?_, ?_, ?_⟩
  · rw [(foldl_put_frame _ _).1, (foldl_put_frame _ _).1]
  · rw [(foldl_put_frame _ _).2, (foldl_put_frame _ _).2]
  · intro x hx
    rw [foldl_put_data, foldl_put_data, foldl_put_var_filter, foldl_put_var_filter _ _
      (write_loop _ _ (procs.flatten.map without_owners) _).flatten,
      without_owners_loop M procs.flatten quants_init x hx]

/-- Two splits of the same ordered list of blocks, with the same gids and neighbor gids,
give files that agree except for the contents of `neigh_procs`. -/
theorem vwrite_split_content (M : Nat) (procs procs2 : List (List vlocal))
    (h : procs.flatten.map block_content = procs2.flatten.map block_content) :
    (pnetcdf_write M procs).dimlen = (pnetcdf_write M procs2).dimlen ∧
    (pnetcdf_write M procs).shape = (pnetcdf_write M procs2).shape ∧
    ∀ x, x ≠ .neigh_procs →
      (pnetcdf_write M procs).data x = (pnetcdf_write M procs2).data x := by
  have e : pnetcdf_write M (procs.map (List.map without_owners))
      = pnetcdf_write M (procs2.map (List.map without_owners)) := by
    rw [pnetcdf_write_single, pnetcdf_write_single, flatten_map_map, flatten_map_map,
      without_owners_content _ _ h]
  obtain ⟨a1, a2, a3⟩ := without_owners_file M procs
  obtain ⟨b1, b2, b3⟩ := without_owners_file M procs2
  refine ⟨by rw [a1, b1, e], by rw [a2, b2, e], ?_⟩
  intro x hx
  rw [a3 x hx, b3 x hx, e]

/-- the contents of `neigh_procs`: the owner ranks DIY reports, block after block -/
theorem vwrite_neigh_procs (M : Nat) (procs : List (List vlocal))
    (hwf : ∀ b ∈ procs.flatten, vblock_wf M b.v) :
    (pnetcdf_write M procs).data .neigh_procs
      = procs.flatten.flatMap (fun b => b.neigh_gbs.map (fun g => g.proc)) := by
  rw [vwrite_data M procs hwf .neigh_procs .NUM_NEIGHBORS rfl]
  generalize quants_init = o
  generalize procs.flatten = l
  induction l generalizing o with
  | nil => rfl
  | cons b bs ih =>
    simp only [write_loop, List.map_cons, List.flatten_cons, List.flatMap_cons, ih]
    congr 1
    simp [piece, call_on, pnetcdf_write_calls, List.find?]

/-! ## Main results on the round trips and on the independence of the distribution -/

/-- C2 (code defect): for well-formed blocks, any distribution over the writers and any
reader count `groupsize >= 1`, whenever `pnetcdf_read` returns on reader `rank`, its
local block `b` is the block written at file index `rank * (tot_blocks / groupsize) + b`:
same counts, bounds, arrays, gid and neighbor gids. It does return when `groupsize`
divides the number of blocks, the gids are `0 .. tot_blocks - 1` in some order and the
neighbor gids are among them. It does not return for every `groupsize >= 1`: the loop
over the neighbors inside the read iteration divides by `bp = 0` on the file of two
neighboring blocks read by 3 processes (rank 2 reads both blocks), and on the file of
three blocks read by 2 processes the clamp of rank 1 stores through
`*neigh_procs[b][n]`, a row that is not allocated. -/
theorem pnetcdf_voronoi_roundtrip (M : Nat) (procs : List (List vlocal))
    (hwf : ∀ p ∈ procs, ∀ b ∈ p, vblock_wf M b.v)
    (groupsize rank : Int) (hg : 1 ≤ groupsize) (h0 : 0 ≤ rank) (h1 : rank < groupsize) :
    (∀ out, pnetcdf_read M (pnetcdf_write M procs) groupsize rank = some out →
      out.1.length = (read_nblocks procs.flatten.length groupsize rank).toNat ∧
      ∀ b : Nat, (b : Int) < read_nblocks procs.flatten.length groupsize rank →
        ∃ blk, procs.flatten[(rank * ((procs.flatten.length : Int) / groupsize) + b).toNat]?
            = some blk ∧
          out.1[b]? =
            some { v := blk.v, gid := blk.gid, num_neighbors := blk.neigh_gbs.length,
                   neighbors := blk.neigh_gbs.map (fun g => g.gid) }) ∧
    ((procs.flatten.length : Int) % groupsize = 0 →
      (procs.flatten.map (fun b => b.gid)).Perm
        ((List.range procs.flatten.length).map Int.ofNat) →
      (∀ blk ∈ procs.flatten, ∀ g ∈ blk.neigh_gbs,
        0 ≤ g.gid ∧ g.gid < procs.flatten.length) →
      ∃ out, pnetcdf_read M (pnetcdf_write M procs) groupsize rank = some out) ∧
    read_nblocks 2 3 2 = 2 ∧ pnetcdf_read 1 sample_vfile_2 3 2 = none ∧
    read_nblocks 3 2 1 = 2 ∧ pnetcdf_read 1 sample_vfile_3 2 1 = none := by
  refine ⟨?_, ?_, by decide, by decide, by decide, by decide⟩
  · intro out hout
    have hb := v_read_blocks M _ groupsize rank out hout
    simp only [vwrite_tot_blocks] at hb
    refine ⟨by rw [hb]; simp, ?_⟩
    intro b hbn
    obtain ⟨blk, hblk, hgets⟩ := v_gets_at M procs hwf groupsize rank hg h0 h1 b hbn
    refine ⟨blk, hblk, ?_⟩
    rw [hb, List.getElem?_map, List.getElem?_range (by omega)]
    simp only [Option.map_some', hgets]
  · intro hdiv hgid hnb
    obtain ⟨rows, h, _⟩ := v_read_ok M procs hwf groupsize rank hg h0 h1 hdiv hgid hnb
    exact ⟨_, h⟩

/-- C2 at a concrete run: the two sample blocks written by one process and read by two;
reader 1 returns block 1. -/
theorem pnetcdf_voronoi_roundtrip_witness :
    (([[sample_vblock_a, sample_vblock_b]].flatten.length : Int) % 2 = 0) ∧
    ([[sample_vblock_a, sample_vblock_b]].flatten.map (fun b => b.gid)).Perm
      ((List.range [[sample_vblock_a, sample_vblock_b]].flatten.length).map Int.ofNat) ∧
    (pnetcdf_read 1 (pnetcdf_write 1 [[sample_vblock_a, sample_vblock_b]]) 2 1).map
        (fun out => (out.1.map (fun r => (r.gid, r.neighbors)), out.2))
      = some ([(1, [0])], [some [0]]) ∧
    (∀ out, pnetcdf_read 1 (pnetcdf_write 1 [[sample_vblock_a, sample_vblock_b]]) 2 1 = some out →
      out.1.length = (read_nblocks [[sample_vblock_a, sample_vblock_b]].flatten.length 2 1).toNat ∧
      ∀ b : Nat, (b : Int) < read_nblocks [[sample_vblock_a, sample_vblock_b]].flatten.length 2 1 →
        ∃ blk, [[sample_vblock_a, sample_vblock_b]].flatten[(1 * (([[sample_vblock_a,
            sample_vblock_b]].flatten.length : Int) / 2) + b).toNat]?
            = some blk ∧
          out.1[b]? =
            some { v := blk.v, gid := blk.gid, num_neighbors := blk.neigh_gbs.length,
                   neighbors := blk.neigh_gbs.map (fun g => g.gid) }) ∧
    (([[sample_vblock_a, sample_vblock_b]].flatten.length : Int) % 2 = 0 →
      ([[sample_vblock_a, sample_vblock_b]].flatten.map (fun b => b.gid)).Perm
        ((List.range [[sample_vblock_a, sample_vblock_b]].flatten.length).map Int.ofNat) →
      (∀ blk ∈ [[sample_vblock_a, sample_vblock_b]].flatten, ∀ g ∈ blk.neigh_gbs,
        0 ≤ g.gid ∧ g.gid < [[sample_vblock_a, sample_vblock_b]].flatten.length) →
      ∃ out, pnetcdf_read 1 (pnetcdf_write 1 [[sample_vblock_a, sample_vblock_b]]) 2 1 = some out) ∧
    read_nblocks 2 3 2 = 2 ∧ pnetcdf_read 1 sample_vfile_2 3 2 = none ∧
    read_nblocks 3 2 1 = 2 ∧ pnetcdf_read 1 sample_vfile_3 2 1 = none :=
  ⟨by decide, by decide, by decide,
    pnetcdf_voronoi_roundtrip 1 [[sample_vblock_a, sample_vblock_b]] (by decide) 2 1
      (by decide) (by decide) (by decide)⟩

/-- C3 (code defect): for well-formed blocks, any distribution over the writers and any
reader count `groupsize >= 1`, whenever `pnetcdf_d_read` returns on reader `rank`, its
local block `b` is the block written at file index `rank * (tot_blocks / groupsize) + b`,
blocks without tets or without remote tet vertices included. It does return when
`groupsize` divides the number of blocks, the gids are `0 .. tot_blocks - 1` in some
order and the neighbor gids are among them. It does not return for every
`groupsize >= 1`: the loop over the neighbors inside the read iteration divides by
`bp = 0` on the file of two neighboring blocks read by 3 processes, and on the file of
three blocks read by 2 processes the clamp of rank 1 stores through
`*neigh_procs[b][n]`, a row that is not allocated. -/
theorem pnetcdf_delaunay_roundtrip (procs : List (List dlocal))
    (hwf : ∀ p ∈ procs, ∀ b ∈ p, dblock_wf b.d)
    (groupsize rank : Int) (hg : 1 ≤ groupsize) (h0 : 0 ≤ rank) (h1 : rank < groupsize) :
    (∀ out, pnetcdf_d_read (pnetcdf_d_write procs) groupsize rank = some out →
      out.1.length = (read_nblocks procs.flatten.length groupsize rank).toNat ∧
      ∀ b : Nat, (b : Int) < read_nblocks procs.flatten.length groupsize rank →
        ∃ blk, procs.flatten[(rank * ((procs.flatten.length : Int) / groupsize) + b).toNat]?
            = some blk ∧
          out.1[b]? =
            some { d := blk.d, gid := blk.gid, num_neighbors := blk.neigh_gbs.length,
                   neighbors := blk.neigh_gbs.map (fun g => g.gid) }) ∧
    ((procs.flatten.length : Int) % groupsize = 0 →
      (procs.flatten.map (fun b => b.gid)).Perm
        ((List.range procs.flatten.length).map Int.ofNat) →
      (∀ blk ∈ procs.flatten, ∀ g ∈ blk.neigh_gbs,
        0 ≤ g.gid ∧ g.gid < procs.flatten.length) →
      ∃ out, pnetcdf_d_read (pnetcdf_d_write procs) groupsize rank = some out) ∧
    read_nblocks 2 3 2 = 2 ∧ pnetcdf_d_read sample_file_2 3 2 = none ∧
    read_nblocks 3 2 1 = 2 ∧ pnetcdf_d_read sample_file_3 2 1 = none := by
  refine ⟨?_, ?_, by decide, by decide, by decide, by decide⟩
  · intro out hout
    have hb := d_read_blocks _ groupsize rank out hout
    simp only [dwrite_tot_blocks] at hb
    refine ⟨by rw [hb]; simp, ?_⟩
    intro b hbn
    obtain ⟨blk, hblk, hgets⟩ := d_gets_at procs hwf groupsize rank hg h0 h1 b hbn
    refine ⟨blk, hblk, ?_⟩
    rw [hb, List.getElem?_map, List.getElem?_range (by omega)]
    simp only [Option.map_some', hgets]
  · intro hdiv hgid hnb
    obtain ⟨rows, h, _⟩ := d_read_ok procs hwf groupsize rank hg h0 h1 hdiv hgid hnb
    exact ⟨_, h⟩

/-- C3 at a concrete run: the two sample blocks written by one process and read by two;
reader 1 returns block 1, the block without tets. -/
theorem pnetcdf_delaunay_roundtrip_witness :
    (([[sample_dblock_a, sample_dblock_b]].flatten.length : Int) % 2 = 0) ∧
    ([[sample_dblock_a, sample_dblock_b]].flatten.map (fun b => b.gid)).Perm
      ((List.range [[sample_dblock_a, sample_dblock_b]].flatten.length).map Int.ofNat) ∧
    (pnetcdf_d_read (pnetcdf_d_write [[sample_dblock_a, sample_dblock_b]]) 2 1).map
        (fun out => (out.1.map (fun r => (r.gid, r.d.num_tets, r.neighbors)), out.2))
      = some ([(1, 0, [0])], [some [0]]) ∧
    (∀ out, pnetcdf_d_read (pnetcdf_d_write [[sample_dblock_a, sample_dblock_b]]) 2 1 = some out →
      out.1.length = (read_nblocks [[sample_dblock_a, sample_dblock_b]].flatten.length 2 1).toNat ∧
      ∀ b : Nat, (b : Int) < read_nblocks [[sample_dblock_a, sample_dblock_b]].flatten.length 2 1 →
        ∃ blk, [[sample_dblock_a, sample_dblock_b]].flatten[(1 * (([[sample_dblock_a,
            sample_dblock_b]].flatten.length : Int) / 2) + b).toNat]?
            = some blk ∧
          out.1[b]? =
            some { d := blk.d, gid := blk.gid, num_neighbors := blk.neigh_gbs.length,
                   neighbors := blk.neigh_gbs.map (fun g => g.gid) }) ∧
    (([[sample_dblock_a, sample_dblock_b]].flatten.length : Int) % 2 = 0 →
      ([[sample_dblock_a, sample_dblock_b]].flatten.map (fun b => b.gid)).Perm
        ((List.range [[sample_dblock_a, sample_dblock_b]].flatten.length).map Int.ofNat) →
      (∀ blk ∈ [[sample_dblock_a, sample_dblock_b]].flatten, ∀ g ∈ blk.neigh_gbs,
        0 ≤ g.gid ∧ g.gid < [[sample_dblock_a, sample_dblock_b]].flatten.length) →
      ∃ out, pnetcdf_d_read (pnetcdf_d_write [[sample_dblock_a, sample_dblock_b]]) 2 1 = some out) ∧
    read_nblocks 2 3 2 = 2 ∧ pnetcdf_d_read sample_file_2 3 2 = none ∧
    read_nblocks 3 2 1 = 2 ∧ pnetcdf_d_read sample_file_3 2 1 = none :=
  ⟨by decide, by decide, by decide,
    pnetcdf_delaunay_roundtrip [[sample_dblock_a, sample_dblock_b]] (by decide) 2 1
      (by decide) (by decide) (by decide)⟩

/-- C4, as amended: two ways of splitting the same ordered list of blocks, with the same
gid and the same neighbor gids for every block, into per-process groups make
`pnetcdf_write` produce the same dimension lengths, the same variables and the same
contents of every variable other than `neigh_procs`, in whatever order the calls of
the processes reach the file; `neigh_procs` holds, block after block, the ranks that
own the neighbors under the distribution that wrote the file. -/
theorem pnetcdf_write_split_independent (M : Nat) (procs procs2 : List (List vlocal))
    (tr tr2 : List put_call)
    (h : procs.flatten.map block_content = procs2.flatten.map block_content)
    (hperm : tr.Perm (pnetcdf_write_trace M procs))
    (hperm2 : tr2.Perm (pnetcdf_write_trace M procs2)) :
    (pnetcdf_write M procs).dimlen = (pnetcdf_write M procs2).dimlen ∧
    (pnetcdf_write M procs).shape = (pnetcdf_write M procs2).shape ∧
    (∀ x, x ≠ .neigh_procs →
      (pnetcdf_write M procs).data x = (pnetcdf_write M procs2).data x) ∧
    tr.foldl ncmpi_put_vara (pnetcdf_write_define M (pnetcdf_write_tot_quants procs))
      = pnetcdf_write M procs ∧
    tr2.foldl ncmpi_put_vara (pnetcdf_write_define M (pnetcdf_write_tot_quants procs2))
      = pnetcdf_write M procs2 ∧
    ((∀ b ∈ procs.flatten, vblock_wf M b.v) →
      (pnetcdf_write M procs).data .neigh_procs
        = procs.flatten.flatMap (fun b => b.neigh_gbs.map (fun g => g.proc))) ∧
    ((∀ b ∈ procs2.flatten, vblock_wf M b.v) →
      (pnetcdf_write M procs2).data .neigh_procs
        = procs2.flatten.flatMap (fun b => b.neigh_gbs.map (fun g => g.proc))) := by
  obtain ⟨e1, e2, e3⟩ := vwrite_split_content M procs procs2 h
  exact ⟨e1, e2, e3, pnetcdf_write_any_order M procs tr hperm,
    pnetcdf_write_any_order M procs2 tr2 hperm2, vwrite_neigh_procs M procs,
    vwrite_neigh_procs M procs2⟩

/-- C4 at a concrete run: the two sample blocks on one process or on two, with the owner
of block 1 as DIY reports it in each run, the calls of the second run applied in
reverse order. -/
theorem pnetcdf_write_split_independent_witness :
    diy_owners [[sample_vblock_a, sample_vblock_b]] ∧
    diy_owners [[sample_vblock_a1], [sample_vblock_b]] ∧
    (pnetcdf_write 1 [[sample_vblock_a, sample_vblock_b]]).data .neigh_procs = [0, 0] ∧
    (pnetcdf_write 1 [[sample_vblock_a1], [sample_vblock_b]]).data .neigh_procs = [1, 0] ∧
    (pnetcdf_write 1 [[sample_vblock_a, sample_vblock_b]]).dimlen = (pnetcdf_write 1
        [[sample_vblock_a1], [sample_vblock_b]]).dimlen ∧
    (pnetcdf_write 1 [[sample_vblock_a, sample_vblock_b]]).shape = (pnetcdf_write 1
        [[sample_vblock_a1], [sample_vblock_b]]).shape ∧
    (∀ x, x ≠ .neigh_procs →
      (pnetcdf_write 1 [[sample_vblock_a, sample_vblock_b]]).data x = (pnetcdf_write 1
          [[sample_vblock_a1], [sample_vblock_b]]).data x) ∧
    (pnetcdf_write_trace 1 [[sample_vblock_a, sample_vblock_b]]).foldl ncmpi_put_vara
        (pnetcdf_write_define 1 (pnetcdf_write_tot_quants [[sample_vblock_a, sample_vblock_b]]))
      = pnetcdf_write 1 [[sample_vblock_a, sample_vblock_b]] ∧
    (pnetcdf_write_trace 1 [[sample_vblock_a1], [sample_vblock_b]]).reverse.foldl ncmpi_put_vara
        (pnetcdf_write_define 1 (pnetcdf_write_tot_quants [[sample_vblock_a1], [sample_vblock_b]]))
      = pnetcdf_write 1 [[sample_vblock_a1], [sample_vblock_b]] ∧
    ((∀ b ∈ [[sample_vblock_a, sample_vblock_b]].flatten, vblock_wf 1 b.v) →
      (pnetcdf_write 1 [[sample_vblock_a, sample_vblock_b]]).data .neigh_procs
        = [[sample_vblock_a, sample_vblock_b]].flatten.flatMap (fun b => b.neigh_gbs.map (fun g =>
            g.proc))) ∧
    ((∀ b ∈ [[sample_vblock_a1], [sample_vblock_b]].flatten, vblock_wf 1 b.v) →
      (pnetcdf_write 1 [[sample_vblock_a1], [sample_vblock_b]]).data .neigh_procs
        = [[sample_vblock_a1], [sample_vblock_b]].flatten.flatMap (fun b => b.neigh_gbs.map (fun g
            => g.proc))) :=
  ⟨by decide, by decide, by decide, by decide,
    pnetcdf_write_split_independent 1 [[sample_vblock_a, sample_vblock_b]]
      [[sample_vblock_a1], [sample_vblock_b]] _ _ (by decide) (List.Perm.refl _)
      (List.reverse_perm _)⟩

/-- C4 as stated fails: the two sample blocks written by one process, and by two
processes with one block each, are the same ordered list of blocks with the same gids
and neighbor gids, each run with the owner ranks DIY reports for it; the contents of
`neigh_procs` differ (block 1 is owned by rank 0 in the first run and by rank 1 in the
second). -/
theorem pnetcdf_write_split_independent_counterexample :
    ¬ ∀ (procs procs2 : List (List vlocal)), diy_owners procs → diy_owners procs2 →
        procs.flatten.map block_content = procs2.flatten.map block_content →
        ∀ x, (pnetcdf_write 1 procs).data x = (pnetcdf_write 1 procs2).data x := by
  intro h
  have := h [[sample_vblock_a, sample_vblock_b]] [[sample_vblock_a1], [sample_vblock_b]]
    (by decide) (by decide) (by decide) .neigh_procs
  revert this
  decide

end Tess
